import Mathlib

/-!
# SmartPointers: `SharedPtr` / `WeakPtr` of `src/shared-from-this`

A shallow embedding of `shared.h` and `weak.h`; the `SharedPtr` of the variants
`src/weak/shared.h` and `src/shared/shared.h` follows in sections of its own.
The C++ heap is an explicit state (`Heap`): control blocks live at natural-number addresses (`0` is
`nullptr`), managed objects live at `Ptr` addresses, and a ghost event log
records every destructor call and every control-block deallocation.  Every
operation is a function on that state; undefined behaviour (a null or dangling
dereference) and the thrown `BadWeakPtr` are explicit error results.

The template parameter `T` enters in two places only:
* `esft : Bool` is `std::is_base_of_v<ESFTBase, T>`, the condition of every
  `if constexpr` in the source;
* `d : Dtor` is what `T::~T()` does.
-/

namespace SmartPointers

/-! ## `size_t` -/

/-- Number of values of `size_t` (64-bit target). -/
def SIZE_MOD : Nat := 18446744073709551616

/-- The C++ `++n` on a `size_t`. -/
def sizeInc (n : Nat) : Nat := (n + 1) % SIZE_MOD

/-- The C++ `--n` on a `size_t` (wraps to `SIZE_MOD - 1` at `0`). -/
def sizeDec (n : Nat) : Nat := (n + SIZE_MOD - 1) % SIZE_MOD

/-! ## Data model -/

/-- Address of a managed object: `T*`. `raw a` is an object allocated on its own
(`new T`), `storage b` is `BlockEmplace::storage` of the control block at `b`. -/
inductive Ptr where
  | null
  | raw (a : Nat)
  | storage (b : Nat)
  deriving DecidableEq, Repr

/-- Abnormal outcomes: the exception `BadWeakPtr` of `sw_fwd.h`, undefined
behaviour, and exhaustion of the destructor-nesting budget of `objDtor`. -/
inductive Err where
  | BadWeakPtr
  | UB
  | outOfFuel
  deriving DecidableEq, Repr

/-- Ghost events: `dtor p` is one run of `T::~T()` on the object at `p`,
`dealloc b` is the release of the control block at `b`. -/
inductive Event where
  | dtor (p : Ptr)
  | dealloc (b : Nat)
  deriving DecidableEq, Repr

/-- The class `WeakPtr<T>`: fields `block_` and `ptr_`, both null by default. -/
structure WeakPtr where
  block_ : Nat := 0
  ptr_ : Ptr := Ptr.null
  deriving DecidableEq, Repr

/-- The class `SharedPtr<T>`: fields `ptr_` and `block_`, both null by default. -/
structure SharedPtr where
  ptr_ : Ptr := Ptr.null
  block_ : Nat := 0
  deriving DecidableEq, Repr

/-- The struct `BlockBase` with its two subclasses: `emplace = false` is `Block<T>`
(field `ptr`), `emplace = true` is `BlockEmplace<T>` (field `ptr` unused, the
object is in the block's own `storage`). -/
structure BlockBase where
  cnt : Nat := 1
  cnt_weak : Nat := 0
  deleted : Bool := false
  emplace : Bool
  ptr : Ptr
  deriving DecidableEq, Repr

/-- A managed object: its value, whether its lifetime has not ended, and, for a
type deriving from `EnableSharedFromThis` (`esft`), the member `weak_this`. -/
structure Obj where
  val : Int
  alive : Bool := true
  esft : Bool := false
  weak_this : WeakPtr := {}
  deriving DecidableEq, Repr

/-- The program state. `next` counts the control blocks allocated so far. -/
structure Heap where
  blocks : Nat → Option BlockBase
  objs : Ptr → Option Obj
  next : Nat
  log : List Event

/-- The state with nothing allocated. -/
def Heap.empty : Heap :=
  { blocks := fun _ => none, objs := fun _ => none, next := 0, log := [] }

/-- What `T::~T()` does to the state. -/
abbrev Dtor := Ptr → Heap → Except Err Heap

/-! ## Heap primitives -/

def Heap.setBlock (s : Heap) (b : Nat) (v : Option BlockBase) : Heap :=
  { s with blocks := fun a => if a = b then v else s.blocks a }

def Heap.setObj (s : Heap) (p : Ptr) (v : Option Obj) : Heap :=
  { s with objs := fun q => if q = p then v else s.objs q }

def Heap.emit (s : Heap) (e : Event) : Heap :=
  { s with log := s.log ++ [e] }

/-- Reading through a `BlockBase*`: undefined for null and for a freed block. -/
def Heap.load (s : Heap) (b : Nat) : Except Err BlockBase :=
  if b = 0 then Except.error Err.UB
  else match s.blocks b with
    | some blk => Except.ok blk
    | none => Except.error Err.UB

/-- Reading through a `T*`: undefined for null and when no object is stored there. -/
def Heap.loadObj (s : Heap) (p : Ptr) : Except Err Obj :=
  if p = Ptr.null then Except.error Err.UB
  else match s.objs p with
    | some o => Except.ok o
    | none => Except.error Err.UB

/-- The statement `++block_->cnt`. -/
def incCnt (s : Heap) (b : Nat) : Except Err Heap := do
  let blk ← s.load b
  pure (s.setBlock b (some { blk with cnt := sizeInc blk.cnt }))

/-- The statement `--block_->cnt`. -/
def decCnt (s : Heap) (b : Nat) : Except Err Heap := do
  let blk ← s.load b
  pure (s.setBlock b (some { blk with cnt := sizeDec blk.cnt }))

/-- The statement `++block_->cnt_weak`. -/
def incWeak (s : Heap) (b : Nat) : Except Err Heap := do
  let blk ← s.load b
  pure (s.setBlock b (some { blk with cnt_weak := sizeInc blk.cnt_weak }))

/-- The statement `--block_->cnt_weak`. -/
def decWeak (s : Heap) (b : Nat) : Except Err Heap := do
  let blk ← s.load b
  pure (s.setBlock b (some { blk with cnt_weak := sizeDec blk.cnt_weak }))

/-- The condition `block_->cnt == 0 && block_->cnt_weak == 0`. -/
def bothZero (s : Heap) (b : Nat) : Except Err Bool := do
  let blk ← s.load b
  pure (blk.cnt == 0 && blk.cnt_weak == 0)

/-- The expression `new Block<T>(ptr)` / `new BlockEmplace<T>(..)`: a block with the
default member initialisers of `BlockBase` at a fresh non-null address. -/
def Heap.newBlock (s : Heap) (emplace : Bool) (ptr : Ptr) : Heap × Nat :=
  ({ s with
      blocks := fun a => if a = s.next + 1 then
        some { cnt := 1, cnt_weak := 0, deleted := false, emplace := emplace, ptr := ptr }
        else s.blocks a,
      next := s.next + 1 },
   s.next + 1)

/-! ## Destruction of the managed object and of the block -/

/-- One run of the destructor, `p->~T()`: logged, then `d` acts, then the
object's lifetime is over (its memory is still there). -/
def callDtor (d : Dtor) (p : Ptr) (s : Heap) : Except Err Heap := do
  let _ ← s.loadObj p
  let s1 ← d p (s.emit (Event.dtor p))
  let o ← s1.loadObj p
  pure (s1.setObj p (some { o with alive := false }))

/-- The statement `delete ptr;`: nothing for `nullptr`, otherwise the destructor
runs and the object's memory is released. -/
def deleteObj (d : Dtor) (p : Ptr) (s : Heap) : Except Err Heap :=
  if p = Ptr.null then pure s
  else do
    let s1 ← callDtor d p s
    pure (s1.setObj p none)

/-- The virtual `BlockBase::DeletePtr(fck)`, dispatched on the dynamic type:
`Block<T>::DeletePtr` and `BlockEmplace<T>::DeletePtr`. -/
def DeletePtr (d : Dtor) (s : Heap) (b : Nat) (fck : Bool) : Except Err Heap := do
  let blk ← s.load b
  if !blk.deleted then
    let s1 := s.setBlock b (some { blk with deleted := true })
    if blk.emplace then
      if !fck then callDtor d (Ptr.storage b) s1 else pure s1
    else
      let s2 ← deleteObj d blk.ptr s1
      if !fck then
        let blk2 ← s2.load b
        pure (s2.setBlock b (some { blk2 with ptr := Ptr.null }))
      else pure s2
  else pure s

/-- Releasing the memory of the block at `b`; the `storage` of a `BlockEmplace` goes
with it. -/
def Heap.freeBlock (s : Heap) (b : Nat) (emplace : Bool) : Heap :=
  if emplace then (s.setBlock b none).setObj (Ptr.storage b) none else s.setBlock b none

/-- The statement `delete block_;`: the virtual destructor (`Block<T>::~Block` or
`BlockEmplace<T>::~BlockEmplace`) runs, then the block's memory is released. -/
def deleteBlock (d : Dtor) (s : Heap) (b : Nat) : Except Err Heap := do
  let blk ← s.load b
  let s1 ←
    if !blk.deleted then
      let s1 := s.setBlock b (some { blk with deleted := true })
      if blk.emplace then callDtor d (Ptr.storage b) s1
      else do
        let s2 ← deleteObj d blk.ptr s1
        let blk2 ← s2.load b
        pure (s2.setBlock b (some { blk2 with ptr := Ptr.null }))
    else pure s
  let _ ← s1.load b
  pure ((s1.freeBlock b blk.emplace).emit (Event.dealloc b))

/-! ## `WeakPtr` (weak.h) -/

/-- The method `WeakPtr::Reset()`. -/
def WeakPtr.Reset (d : Dtor) (s : Heap) (w : WeakPtr) : Except Err (Heap × WeakPtr) := do
  let s1 ←
    if w.block_ ≠ 0 then do
      let s1 ← decWeak s w.block_
      let blk ← s1.load w.block_
      if blk.cnt_weak == 0 && blk.cnt == 0 then deleteBlock d s1 w.block_ else pure s1
    else pure s
  pure (s1, { block_ := 0, ptr_ := Ptr.null })

/-- The constructor `WeakPtr(const SharedPtr<T>& other)`. -/
def WeakPtr.ofShared (s : Heap) (other : SharedPtr) : Except Err (Heap × WeakPtr) := do
  let this : WeakPtr := { block_ := other.block_, ptr_ := other.ptr_ }
  let s1 ← if this.block_ ≠ 0 then incWeak s this.block_ else pure s
  pure (s1, this)

/-- The constructors `WeakPtr(const WeakPtr& other)` and `WeakPtr(const WeakPtr<Y>& other)`
(`this != &other` holds for an object under construction). -/
def WeakPtr.copy (s : Heap) (other : WeakPtr) : Except Err (Heap × WeakPtr) := do
  let this : WeakPtr := { block_ := other.block_, ptr_ := other.ptr_ }
  let s1 ← if this.block_ ≠ 0 then incWeak s this.block_ else pure s
  pure (s1, this)

/-- The constructor `WeakPtr(WeakPtr&& other)`: the new handle and what is left of `other`. -/
def WeakPtr.move (other : WeakPtr) : WeakPtr × WeakPtr :=
  ({ block_ := other.block_, ptr_ := other.ptr_ }, { block_ := 0, ptr_ := Ptr.null })

/-- The operator `WeakPtr::operator=(const SharedPtr<T>& other)` (and its `SharedPtr<Y>` twin). -/
def WeakPtr.assignShared (d : Dtor) (s : Heap) (this : WeakPtr) (other : SharedPtr) :
    Except Err (Heap × WeakPtr) := do
  let (s1, _) ← WeakPtr.Reset d s this
  let this1 : WeakPtr := { block_ := other.block_, ptr_ := other.ptr_ }
  let s2 ← if this1.block_ ≠ 0 then incWeak s1 this1.block_ else pure s1
  pure (s2, this1)

/-- The method `WeakPtr::UseCount()`. -/
def WeakPtr.UseCount (s : Heap) (w : WeakPtr) : Except Err Nat :=
  if w.block_ = 0 then pure 0
  else do
    let blk ← s.load w.block_
    pure blk.cnt

/-- The method `WeakPtr::Expired()`. -/
def WeakPtr.Expired (s : Heap) (w : WeakPtr) : Except Err Bool :=
  if w.ptr_ = Ptr.null then pure true
  else if w.block_ = 0 then pure true
  else do
    let blk ← s.load w.block_
    if blk.cnt = 0 then pure true else pure false

/-! ## `SharedPtr` (shared.h) -/

/-- The statement `ptr->weak_this = *this;` of the `if constexpr` branches: the member
`weak_this` of the object at `ptr` is assigned with
`WeakPtr::operator=(const SharedPtr<T>&)`. Undefined when `ptr` does not point to a
living object of a type that has the member. -/
def setWeakThis (d : Dtor) (s : Heap) (ptr : Ptr) (this : SharedPtr) : Except Err Heap := do
  let o ← s.loadObj ptr
  if !o.esft || !o.alive then throw Err.UB
  let (s1, w) ← WeakPtr.assignShared d s o.weak_this this
  let o1 ← s1.loadObj ptr
  pure (s1.setObj ptr (some { o1 with weak_this := w }))

/-- The method `SharedPtr::Reset()`. -/
def SharedPtr.Reset (d : Dtor) (esft : Bool) (s : Heap) (h : SharedPtr) :
    Except Err (Heap × SharedPtr) := do
  let s1 ←
    if h.block_ ≠ 0 then do
      let s1 ← decCnt s h.block_
      if ← bothZero s1 h.block_ then deleteBlock d s1 h.block_
      else
        let blk ← s1.load h.block_
        if blk.cnt == 0 then
          let s2 ← if esft then incCnt s1 h.block_ else pure s1
          let s3 ← DeletePtr d s2 h.block_ false
          let s4 ← if esft then decCnt s3 h.block_ else pure s3
          if ← bothZero s4 h.block_ then deleteBlock d s4 h.block_ else pure s4
        else pure s1
    else pure s
  pure (s1, { ptr_ := Ptr.null, block_ := 0 })

/-- The destructor `SharedPtr::~SharedPtr()`: `Reset()`, the handle is gone. -/
def SharedPtr.destroy (d : Dtor) (esft : Bool) (s : Heap) (h : SharedPtr) : Except Err Heap := do
  let (s1, _) ← SharedPtr.Reset d esft s h
  pure s1

/-- The destructor `WeakPtr::~WeakPtr()`: `Reset()`, the handle is gone. -/
def WeakPtr.destroy (d : Dtor) (s : Heap) (w : WeakPtr) : Except Err Heap := do
  let (s1, _) ← WeakPtr.Reset d s w
  pure s1

/-- The constructors `SharedPtr()` and `SharedPtr(std::nullptr_t)`. -/
def SharedPtr.null : SharedPtr := { ptr_ := Ptr.null, block_ := 0 }

/-- The constructors `SharedPtr(T* ptr)` and `SharedPtr(Y* ptr)`. -/
def SharedPtr.ofRaw (d : Dtor) (esft : Bool) (s : Heap) (ptr : Ptr) :
    Except Err (Heap × SharedPtr) := do
  let (s1, b) := s.newBlock false ptr
  let this : SharedPtr := { ptr_ := ptr, block_ := b }
  let s2 ← if esft then setWeakThis d s1 ptr this else pure s1
  pure (s2, this)

/-- The constructor `SharedPtr(BlockBase* bb, T* ptr, bool new_one = false)`. -/
def SharedPtr.ofBlock (d : Dtor) (esft : Bool) (s : Heap) (bb : Nat) (ptr : Ptr)
    (new_one : Bool) : Except Err (Heap × SharedPtr) := do
  let this : SharedPtr := { ptr_ := ptr, block_ := bb }
  let s1 ← if esft then (if ptr ≠ Ptr.null then setWeakThis d s ptr this else pure s) else pure s
  if new_one then
    if bb ≠ 0 then
      let blk ← s1.load bb
      let this1 : SharedPtr := if blk.deleted then { this with ptr_ := Ptr.null } else this
      let s2 := s1.setBlock bb (some { blk with deleted := false })
      let s3 ← incCnt s2 bb
      pure (s3, this1)
    else pure (s1, this)
  else pure (s1, this)

/-- The constructors `SharedPtr(const SharedPtr& other)` and `SharedPtr(const SharedPtr<Y>& other)`. -/
def SharedPtr.copy (d : Dtor) (esft : Bool) (s : Heap) (other : SharedPtr) :
    Except Err (Heap × SharedPtr) := do
  let this : SharedPtr := { ptr_ := other.ptr_, block_ := other.block_ }
  let s1 ← if esft then setWeakThis d s this.ptr_ this else pure s
  let s2 ← if this.block_ ≠ 0 then incCnt s1 this.block_ else pure s1
  pure (s2, this)

/-- The constructor `SharedPtr(SharedPtr<Y>&& other)` for a `T` that does not derive from
`ESFTBase`: the new handle and what is left of `other`. (For a `T` that does, the
statement `ptr_->weak_this = ptr_;` assigns a `T*` to a `WeakPtr<T>`, for which no
conversion exists: that instantiation does not compile.) -/
def SharedPtr.move (other : SharedPtr) : SharedPtr × SharedPtr :=
  ({ ptr_ := other.ptr_, block_ := other.block_ }, { ptr_ := Ptr.null, block_ := 0 })

/-- The aliasing constructor `SharedPtr(const SharedPtr<Y>& other, T* ptr)`. -/
def SharedPtr.alias (d : Dtor) (esft : Bool) (s : Heap) (other : SharedPtr) (ptr : Ptr) :
    Except Err (Heap × SharedPtr) := do
  let this : SharedPtr := { ptr_ := ptr, block_ := other.block_ }
  let s1 ← if esft then setWeakThis d s this.ptr_ this else pure s
  let s2 ← if this.block_ ≠ 0 then incCnt s1 this.block_ else pure s1
  pure (s2, this)

/-- The promoting constructor `SharedPtr(const WeakPtr<T>& other)`. -/
def SharedPtr.ofWeak (d : Dtor) (esft : Bool) (s : Heap) (other : WeakPtr) :
    Except Err (Heap × SharedPtr) := do
  let blk ← s.load other.block_
  if blk.deleted then throw Err.BadWeakPtr
  let this : SharedPtr := { ptr_ := other.ptr_, block_ := other.block_ }
  let s1 ← if esft then setWeakThis d s this.ptr_ this else pure s
  let s2 ← if this.block_ ≠ 0 then incCnt s1 this.block_ else pure s1
  pure (s2, this)

/-- The operators `operator=(const SharedPtr& other)` and `operator=(const SharedPtr<Y>& other)`,
for `other` a different object from `*this`. -/
def SharedPtr.assign (d : Dtor) (esft : Bool) (s : Heap) (this other : SharedPtr) :
    Except Err (Heap × SharedPtr) := do
  let (s1, _) ← SharedPtr.Reset d esft s this
  let this1 : SharedPtr := { ptr_ := other.ptr_, block_ := other.block_ }
  let s2 ← if this1.block_ ≠ 0 then incCnt s1 this1.block_ else pure s1
  pure (s2, this1)

/-- The operators `operator=(SharedPtr&& other)` and `operator=(SharedPtr<Y>&& other)`, for
`other` a different object from `*this`: the state, `*this` and what is left of `other`. -/
def SharedPtr.moveAssign (d : Dtor) (esft : Bool) (s : Heap) (this other : SharedPtr) :
    Except Err (Heap × SharedPtr × SharedPtr) := do
  let (s1, _) ← SharedPtr.Reset d esft s this
  let this1 : SharedPtr := { ptr_ := other.ptr_, block_ := other.block_ }
  pure (s1, this1, { ptr_ := Ptr.null, block_ := 0 })

/-- The method `SharedPtr::Get()`. -/
def SharedPtr.Get (s : Heap) (h : SharedPtr) : Except Err Ptr :=
  if h.block_ ≠ 0 then do
    let blk ← s.load h.block_
    if blk.deleted then pure Ptr.null else pure h.ptr_
  else pure h.ptr_

/-- The method `SharedPtr::UseCount()`. -/
def SharedPtr.UseCount (s : Heap) (h : SharedPtr) : Except Err Nat :=
  if h.block_ = 0 then pure 0
  else do
    let blk ← s.load h.block_
    pure blk.cnt

/-- The conversion `SharedPtr::operator bool()`. -/
def SharedPtr.toBool (h : SharedPtr) : Bool := h.block_ != 0

/-- The dereference `SharedPtr::operator*()`, read as a value: undefined unless `ptr_`
points to a living object. -/
def SharedPtr.deref (s : Heap) (h : SharedPtr) : Except Err Int := do
  let o ← s.loadObj h.ptr_
  if o.alive then pure o.val else throw Err.UB

/-- The free `operator==(const SharedPtr<T>& left, const SharedPtr<U>& right)`. -/
def SharedPtr.eq (left right : SharedPtr) : Bool := left.block_ == right.block_

/-- The method `WeakPtr::Lock()`. -/
def WeakPtr.Lock (d : Dtor) (esft : Bool) (s : Heap) (w : WeakPtr) :
    Except Err (Heap × SharedPtr) :=
  if w.block_ ≠ 0 then SharedPtr.ofBlock d esft s w.block_ w.ptr_ true
  else pure (s, SharedPtr.null)

/-- The function `MakeShared<T>(args...)`: `new BlockEmplace<T>(args...)` constructs the
object, of value `v`, in the storage of a new block, and the handle is
`SharedPtr<T>(block, block->Get())`. -/
def MakeShared (d : Dtor) (esft : Bool) (s : Heap) (v : Int) : Except Err (Heap × SharedPtr) := do
  let (s1, b) := s.newBlock true Ptr.null
  let s2 := s1.setObj (Ptr.storage b)
    (some { val := v, alive := true, esft := esft, weak_this := {} })
  SharedPtr.ofBlock d esft s2 b (Ptr.storage b) false

/-- The expression `new T(v)` of client code: an object of value `v` on its own at the
address `raw a`. -/
def newObj (esft : Bool) (s : Heap) (a : Nat) (v : Int) : Heap × Ptr :=
  (s.setObj (Ptr.raw a) (some { val := v, alive := true, esft := esft, weak_this := {} }),
   Ptr.raw a)

/-! ## The destructor of the managed type -/

/-- The destructor `T::~T()` of a type with no destructor body of its own: nothing
for a plain type, and the member destructor `weak_this.~WeakPtr()` for a type deriving
from `EnableSharedFromThis`. The fuel bounds the nesting of destructor calls. -/
def objDtor : Nat → Dtor
  | 0, _, _ => Except.error Err.outOfFuel
  | n + 1, p, s => do
    let o ← s.loadObj p
    if o.esft then
      let (s1, w) ← WeakPtr.Reset (objDtor n) s o.weak_this
      let o1 ← s1.loadObj p
      pure (s1.setObj p (some { o1 with weak_this := w }))
    else pure s

/-- The methods `Block<T>::Get()` and `BlockEmplace<T>::Get()`: the address of the managed
object as the block at `b` knows it. -/
def BlockBase.Get (b : Nat) (blk : BlockBase) : Ptr :=
  if blk.emplace then Ptr.storage b else blk.ptr

/-- Whether a living object is stored at `p`. -/
def Heap.isAlive (s : Heap) (p : Ptr) : Bool :=
  match s.objs p with
  | some o => o.alive
  | none => false


/-- Client code that resets (or destroys) the weak handles of a list one after the other. -/
def WeakPtr.resetAll (d : Dtor) : Heap → List WeakPtr → Except Err Heap
  | s, [] => pure s
  | s, w :: ws => do
    let (s1, _) ← WeakPtr.Reset d s w
    WeakPtr.resetAll d s1 ws


/-- The object at `p` is a living object of a type deriving from `EnableSharedFromThis`
whose member `weak_this` is attached to the block at `b`: what every constructor that
runs `ptr->weak_this = *this` leaves behind. -/
def SelfRefAt (s : Heap) (p : Ptr) (b : Nat) : Prop :=
  p ≠ Ptr.null ∧ ∃ o, s.objs p = some o ∧ o.esft = true ∧ o.alive = true ∧ o.weak_this.block_ = b


/-- The block `blk` at `b` can be released by a handle of a type without the
self-reference capability: its object is already destroyed, or it manages no object
(`nullptr`), or it manages an object of such a type. -/
def PlainObj (s : Heap) (b : Nat) (blk : BlockBase) : Prop :=
  blk.deleted = true ∨ blk.Get b = Ptr.null ∨ ∃ o, s.objs (blk.Get b) = some o ∧ o.esft = false

/-- A handle whose type has (`esft`) or lacks the self-reference capability can give up
its share of the block `blk` at `b`: other shares remain, or the handle is the last one
and the block is in the state the constructors of such a handle leave it in. -/
def Releasable (esft : Bool) (s : Heap) (b : Nat) (blk : BlockBase) : Prop :=
  sizeDec blk.cnt ≠ 0 ∨ (esft = false ∧ PlainObj s b blk) ∨
    (esft = true ∧ blk.deleted = false ∧ SelfRefAt s (blk.Get b) b)


/-! ## Concrete states and client scenarios -/

/-- One `BlockEmplace<int>` at address 1 holding the value 42, with strong count `c` and
weak count `k`. -/
def plainHeap (c k : Nat) : Heap :=
  { blocks := fun a => if a = 1 then
      some { cnt := c, cnt_weak := k, deleted := false, emplace := true, ptr := Ptr.null }
      else none,
    objs := fun p => if p = Ptr.storage 1 then some { val := 42 } else none,
    next := 1,
    log := [] }

/-- One `BlockEmplace<T>` at address 1 for a `T` deriving from `EnableSharedFromThis<T>`,
owned by one `SharedPtr`; the object's `weak_this` is attached to the block. -/
def selfRefHeap : Heap :=
  { blocks := fun a => if a = 1 then
      some { cnt := 1, cnt_weak := 1, deleted := false, emplace := true, ptr := Ptr.null }
      else none,
    objs := fun p => if p = Ptr.storage 1 then
      some { val := 42, alive := true, esft := true, weak_this := ⟨1, Ptr.storage 1⟩ }
      else none,
    next := 1,
    log := [] }

/-- Two `BlockEmplace<int>` blocks, at addresses 1 and 2, each owned by one `SharedPtr`. -/
def twoBlockHeap : Heap :=
  { blocks := fun a => if a = 1 ∨ a = 2 then
      some { cnt := 1, cnt_weak := 0, deleted := false, emplace := true, ptr := Ptr.null }
      else none,
    objs := fun p => if p = Ptr.storage 1 ∨ p = Ptr.storage 2 then some { val := 42 } else none,
    next := 2,
    log := [] }

/-- Client code `auto sp = MakeShared<int>(42); WeakPtr<int> w(sp); sp.Reset();`: the
state and the weak handle, which is now expired. -/
def expiredWeak : Except Err (Heap × WeakPtr) := do
  let (s, sp) ← MakeShared (objDtor 1) false Heap.empty 42
  let (s, w) ← WeakPtr.ofShared s sp
  let (s, _) ← SharedPtr.Reset (objDtor 1) false s sp
  pure (s, w)

/-- Client code `a = MakeShared<int>(42); b = a; b = std::move(a);`: `b.UseCount()` before
the move assignment and after it, and the two handles after it. -/
def moveAssignSameBlock : Except Err (Nat × Nat × SharedPtr × SharedPtr) := do
  let (s, a) ← MakeShared (objDtor 1) false Heap.empty 42
  let (s, b) ← SharedPtr.copy (objDtor 1) false s a
  let before ← SharedPtr.UseCount s b
  let (s, b1, a1) ← SharedPtr.moveAssign (objDtor 1) false s b a
  let after ← SharedPtr.UseCount s b1
  pure (before, after, b1, a1)

/-- Client code: `w.Expired()` of the expired handle, then `l = w.Lock()` with
`bool(l)`, `l.UseCount()`, `l.Get()` and the fields of `l`. -/
def lockExpired : Except Err (Bool × Bool × Nat × Ptr × SharedPtr) := do
  let (s, w) ← expiredWeak
  let e ← WeakPtr.Expired s w
  let (s, l) ← WeakPtr.Lock (objDtor 1) false s w
  let u ← SharedPtr.UseCount s l
  let g ← SharedPtr.Get s l
  pure (e, l.toBool, u, g, l)

/-- Client code: with the expired handle, `l = w.Lock()` is kept and then `p = SharedPtr(w)`
is built: the log and the liveness of the object before the promotion, then `p`,
`p.UseCount()` and `p.Get()`. -/
def promoteAfterLock : Except Err (List Event × Bool × SharedPtr × Nat × Ptr) := do
  let (s, w) ← expiredWeak
  let (s, _) ← WeakPtr.Lock (objDtor 1) false s w
  let (s2, p) ← SharedPtr.ofWeak (objDtor 1) false s w
  let u ← SharedPtr.UseCount s2 p
  let g ← SharedPtr.Get s2 p
  pure (s.log, s.isAlive w.ptr_, p, u, g)

/-- Client code: with the expired handle, `SharedPtr(w)` is built at once. -/
def promoteExpired : Except Err SharedPtr := do
  let (s, w) ← expiredWeak
  let (_, p) ← SharedPtr.ofWeak (objDtor 1) false s w
  pure p

/-- Client code: with the expired handle, `{ auto l = w.Lock(); }` and then `w.Reset()`:
the log of destructor calls and deallocations. -/
def lockThenDrop : Except Err (List Event) := do
  let (s, w) ← expiredWeak
  let (s, l) ← WeakPtr.Lock (objDtor 1) false s w
  let s ← SharedPtr.destroy (objDtor 1) false s l
  let s ← WeakPtr.destroy (objDtor 1) s w
  pure s.log

/-- The same client code for an object allocated on its own, `SharedPtr<int> sp(new int(42))`
with the object at address `raw 7`. -/
def lockThenDropRaw : Except Err (List Event) := do
  let (s, p) := newObj false Heap.empty 7 42
  let (s, sp) ← SharedPtr.ofRaw (objDtor 1) false s p
  let (s, w) ← WeakPtr.ofShared s sp
  let (s, _) ← SharedPtr.Reset (objDtor 1) false s sp
  let (s, l) ← WeakPtr.Lock (objDtor 1) false s w
  let s ← SharedPtr.destroy (objDtor 1) false s l
  let s ← WeakPtr.destroy (objDtor 1) s w
  pure s.log

/-! ## The self-reference capability (`EnableSharedFromThis`) and the remaining operations -/

/-- The method `EnableSharedFromThis<T>::SharedFromThis()` called on the object at `this`:
`SharedPtr(weak_this.block_, weak_this.ptr_, true)`. -/
def SharedFromThis (d : Dtor) (s : Heap) (this : Ptr) : Except Err (Heap × SharedPtr) := do
  let o ← s.loadObj this
  if !o.esft || !o.alive then throw Err.UB
  SharedPtr.ofBlock d true s o.weak_this.block_ o.weak_this.ptr_ true

/-- The method `EnableSharedFromThis<T>::WeakFromThis()` called on the object at `this`: a
copy of `weak_this`. -/
def WeakFromThis (s : Heap) (this : Ptr) : Except Err (Heap × WeakPtr) := do
  let o ← s.loadObj this
  if !o.esft || !o.alive then throw Err.UB
  WeakPtr.copy s o.weak_this

/-- The operator `WeakPtr::operator=(const WeakPtr& other)`; `self` says whether `other` is
`*this` (the test `this != &other`). -/
def WeakPtr.assign (d : Dtor) (s : Heap) (this other : WeakPtr) (self : Bool) :
    Except Err (Heap × WeakPtr) :=
  if !self then do
    let (s1, _) ← WeakPtr.Reset d s this
    let this1 : WeakPtr := { block_ := other.block_, ptr_ := other.ptr_ }
    let s2 ← if this1.block_ ≠ 0 then incWeak s1 this1.block_ else pure s1
    pure (s2, this1)
  else pure (s, this)

/-- The operator `WeakPtr::operator=(WeakPtr&& other)` for `other` a different object from
`*this`: the state, `*this` and what is left of `other`. (For `other` being `*this` the
operator does nothing.) -/
def WeakPtr.moveAssign (d : Dtor) (s : Heap) (this other : WeakPtr) :
    Except Err (Heap × WeakPtr × WeakPtr) := do
  let (s1, _) ← WeakPtr.Reset d s this
  let this1 : WeakPtr := { block_ := other.block_, ptr_ := other.ptr_ }
  pure (s1, this1, { block_ := 0, ptr_ := Ptr.null })

/-- The method `WeakPtr::Swap(WeakPtr& other)`: `*this` and `other` afterwards. -/
def WeakPtr.Swap (this other : WeakPtr) : WeakPtr × WeakPtr :=
  ({ block_ := other.block_, ptr_ := other.ptr_ }, { block_ := this.block_, ptr_ := this.ptr_ })

/-- The method `SharedPtr::Swap(SharedPtr& other)`: `*this` and `other` afterwards. -/
def SharedPtr.Swap (this other : SharedPtr) : SharedPtr × SharedPtr :=
  ({ ptr_ := other.ptr_, block_ := other.block_ }, { ptr_ := this.ptr_, block_ := this.block_ })

/-- The methods `SharedPtr::Reset(T* ptr)` and `SharedPtr::Reset(Y* ptr)`. -/
def SharedPtr.ResetPtr (d : Dtor) (esft : Bool) (s : Heap) (h : SharedPtr) (ptr : Ptr) :
    Except Err (Heap × SharedPtr) := do
  let (s1, _) ← SharedPtr.Reset d esft s h
  let (s2, b) := s1.newBlock false ptr
  pure (s2, { ptr_ := ptr, block_ := b })

/-- Client code `SharedPtr<int> sp(new int(42)); WeakPtr<int> w(sp); sp.Reset();
auto l = w.Lock(); SharedPtr<int> q(w);` with the object at `raw 7`: the log and the
liveness of the object at the end, `l.Get()`, `bool(q)` and `q.Get()`. -/
def staleGet : Except Err (List Event × Bool × Ptr × Bool × Ptr) := do
  let (s, p) := newObj false Heap.empty 7 42
  let (s, sp) ← SharedPtr.ofRaw (objDtor 1) false s p
  let (s, w) ← WeakPtr.ofShared s sp
  let (s, _) ← SharedPtr.Reset (objDtor 1) false s sp
  let (s, l) ← WeakPtr.Lock (objDtor 1) false s w
  let (s, q) ← SharedPtr.ofWeak (objDtor 1) false s w
  let gl ← SharedPtr.Get s l
  let gq ← SharedPtr.Get s q
  pure (s.log, s.isAlive p, gl, q.toBool, gq)

/-- Client code on a `BlockEmplace<int>` with strong count 1: `block->DeletePtr(true)` and
then `delete block`: the log after the first call, the liveness of the object and the
flag after it, and the log at the end. -/
def deferredDeleteEmplace : Except Err (List Event × Bool × Option Bool × List Event) := do
  let s1 ← DeletePtr (objDtor 1) (plainHeap 1 0) 1 true
  let s2 ← deleteBlock (objDtor 1) s1 1
  pure (s1.log, s1.isAlive (Ptr.storage 1), (s1.blocks 1).map (fun blk => blk.deleted), s2.log)

/-- Client code that obtains a `WeakPtr` from the object at `this`: either
`WeakPtr<T> w = obj->WeakFromThis();` or `WeakPtr<T> w(obj->SharedFromThis());`, where the
temporary `SharedPtr` is destroyed at the end of the statement. -/
def weakFromObject (d : Dtor) (s : Heap) (this : Ptr) (viaShared : Bool) :
    Except Err (Heap × WeakPtr) :=
  if viaShared then do
    let (s1, tmp) ← SharedFromThis d s this
    let (s2, w) ← WeakPtr.ofShared s1 tmp
    let s3 ← SharedPtr.destroy d true s2 tmp
    pure (s3, w)
  else WeakFromThis s this

/-- No strong count differs between the states `s` and `s1`: a block allocated in `s1` is
allocated in `s` with the same strong count, and a block of `s` that is gone in `s1` had
strong count 0. -/
def StrongKept (s s1 : Heap) : Prop :=
  ∀ x, (∀ blk1, s1.blocks x = some blk1 → ∃ blk, s.blocks x = some blk ∧ blk.cnt = blk1.cnt) ∧
    (∀ blk, s.blocks x = some blk → s1.blocks x = none → blk.cnt = 0)

/-- A handle whose `block_` is `b` is empty, or attached to an allocated block whose object
is destroyed if its strong count is 0. -/
def HandleOk (s : Heap) (b : Nat) : Prop :=
  b = 0 ∨ ∃ blk, s.blocks b = some blk ∧ (blk.cnt = 0 → blk.deleted = true)

/-! ## The client program as a state machine (for the counting invariant) -/

/-- The block the member `weak_this` of the object at `p` is attached to: 0 when there is
no object at `p` or its `weak_this` is empty. -/
def Heap.selfBlock (s : Heap) (p : Ptr) : Nat :=
  match s.objs p with
  | some o => o.weak_this.block_
  | none => 0

/-- The operators `operator=(const SharedPtr& other)` and `operator=(SharedPtr&& other)` for
`other` being `*this` (there is no guard): after `Reset()` the members read through `other`
are those of `*this`, already null. -/
def SharedPtr.selfAssign (d : Dtor) (esft : Bool) (s : Heap) (this : SharedPtr) :
    Except Err (Heap × SharedPtr) := do
  let (s1, other) ← SharedPtr.Reset d esft s this
  let this1 : SharedPtr := { ptr_ := other.ptr_, block_ := other.block_ }
  let s2 ← if this1.block_ ≠ 0 then incCnt s1 this1.block_ else pure s1
  pure (s2, this1)

/-- A client program at rest: the heap, the values of its `SharedPtr` and `WeakPtr`
variables, and (ghost) the addresses at which it has constructed objects. -/
structure Config where
  heap : Heap
  shared : List SharedPtr
  weak : List WeakPtr
  addrs : List Ptr

/-- The empty state: nothing allocated, no variables. -/
def Config.init : Config := { heap := Heap.empty, shared := [], weak := [], addrs := [] }

/-- The public operations, each applied to variables of the program given by their
values (two variables of equal value are interchangeable). `esft` is the
`std::is_base_of_v<ESFTBase, T>` of the handle type the operation is instantiated at.
The operands of `assign`, `moveAssign`, `swap` and their weak twins are two variables;
`selfAssign` and `weakAssign` with `self` are the assignments of a variable to itself
(the move assignment of a `WeakPtr` to itself does nothing at all). A `SharedPtr` is moved
for a type without the self-reference capability only. -/
inductive Op where
  | newObj (esft : Bool) (a : Nat) (v : Int)
  | sharedNull
  | ofRaw (esft : Bool) (p : Ptr)
  | makeShared (esft : Bool) (v : Int)
  | copy (esft : Bool) (o : SharedPtr)
  | move (o : SharedPtr)
  | alias (esft : Bool) (o : SharedPtr) (p : Ptr)
  | promote (esft : Bool) (w : WeakPtr)
  | lock (esft : Bool) (w : WeakPtr)
  | assign (esft : Bool) (this other : SharedPtr)
  | moveAssign (esft : Bool) (this other : SharedPtr)
  | selfAssign (esft : Bool) (this : SharedPtr)
  | reset (esft : Bool) (h : SharedPtr)
  | resetPtr (esft : Bool) (h : SharedPtr) (p : Ptr)
  | swap (this other : SharedPtr)
  | destroy (esft : Bool) (h : SharedPtr)
  | weakNull
  | weakCopy (w : WeakPtr)
  | weakMove (w : WeakPtr)
  | weakOfShared (h : SharedPtr)
  | weakAssignShared (w : WeakPtr) (h : SharedPtr)
  | weakAssign (w o : WeakPtr) (self : Bool)
  | weakMoveAssign (w o : WeakPtr)
  | weakReset (w : WeakPtr)
  | weakSwap (w o : WeakPtr)
  | weakDestroy (w : WeakPtr)

/-- One operation of the client program, with `objDtor n` as the destructor of the
managed type. An operation on a variable the program does not have, and `new` at an
address in use, is no step (an error); a promotion that throws `BadWeakPtr` constructs
nothing and leaves the state as it is. -/
def Config.step (n : Nat) (c : Config) : Op → Except Err Config
  | Op.newObj esft a v =>
    if (c.heap.objs (Ptr.raw a)).isSome then Except.error Err.UB
    else pure { c with heap := (newObj esft c.heap a v).1,
                       addrs := List.insert (Ptr.raw a) c.addrs }
  | Op.sharedNull => pure { c with shared := SharedPtr.null :: c.shared }
  | Op.ofRaw esft p => do
    let (s, h) ← SharedPtr.ofRaw (objDtor n) esft c.heap p
    pure { c with heap := s, shared := h :: c.shared }
  | Op.makeShared esft v => do
    let (s, h) ← MakeShared (objDtor n) esft c.heap v
    pure { c with heap := s, shared := h :: c.shared,
                  addrs := List.insert (Ptr.storage (c.heap.next + 1)) c.addrs }
  | Op.copy esft o =>
    if o ∈ c.shared then do
      let (s, h) ← SharedPtr.copy (objDtor n) esft c.heap o
      pure { c with heap := s, shared := h :: c.shared }
    else Except.error Err.UB
  | Op.move o =>
    if o ∈ c.shared then
      pure { c with shared := (SharedPtr.move o).1 :: (SharedPtr.move o).2 :: c.shared.erase o }
    else Except.error Err.UB
  | Op.alias esft o p =>
    if o ∈ c.shared then do
      let (s, h) ← SharedPtr.alias (objDtor n) esft c.heap o p
      pure { c with heap := s, shared := h :: c.shared }
    else Except.error Err.UB
  | Op.promote esft w =>
    if w ∈ c.weak then
      match SharedPtr.ofWeak (objDtor n) esft c.heap w with
      | Except.ok (s, h) => pure { c with heap := s, shared := h :: c.shared }
      | Except.error Err.BadWeakPtr => pure c
      | Except.error e => Except.error e
    else Except.error Err.UB
  | Op.lock esft w =>
    if w ∈ c.weak then do
      let (s, h) ← WeakPtr.Lock (objDtor n) esft c.heap w
      pure { c with heap := s, shared := h :: c.shared }
    else Except.error Err.UB
  | Op.assign esft this other =>
    if this ∈ c.shared ∧ other ∈ c.shared.erase this then do
      let (s, h) ← SharedPtr.assign (objDtor n) esft c.heap this other
      pure { c with heap := s, shared := h :: c.shared.erase this }
    else Except.error Err.UB
  | Op.moveAssign esft this other =>
    if this ∈ c.shared ∧ other ∈ c.shared.erase this then do
      let (s, h, o) ← SharedPtr.moveAssign (objDtor n) esft c.heap this other
      pure { c with heap := s, shared := h :: o :: (c.shared.erase this).erase other }
    else Except.error Err.UB
  | Op.selfAssign esft this =>
    if this ∈ c.shared then do
      let (s, h) ← SharedPtr.selfAssign (objDtor n) esft c.heap this
      pure { c with heap := s, shared := h :: c.shared.erase this }
    else Except.error Err.UB
  | Op.reset esft h =>
    if h ∈ c.shared then do
      let (s, h1) ← SharedPtr.Reset (objDtor n) esft c.heap h
      pure { c with heap := s, shared := h1 :: c.shared.erase h }
    else Except.error Err.UB
  | Op.resetPtr esft h p =>
    if h ∈ c.shared then do
      let (s, h1) ← SharedPtr.ResetPtr (objDtor n) esft c.heap h p
      pure { c with heap := s, shared := h1 :: c.shared.erase h }
    else Except.error Err.UB
  | Op.swap this other =>
    if this ∈ c.shared ∧ other ∈ c.shared.erase this then
      pure { c with shared := (SharedPtr.Swap this other).1 :: (SharedPtr.Swap this other).2 ::
                      (c.shared.erase this).erase other }
    else Except.error Err.UB
  | Op.destroy esft h =>
    if h ∈ c.shared then do
      let s ← SharedPtr.destroy (objDtor n) esft c.heap h
      pure { c with heap := s, shared := c.shared.erase h }
    else Except.error Err.UB
  | Op.weakNull => pure { c with weak := { block_ := 0, ptr_ := Ptr.null } :: c.weak }
  | Op.weakCopy w =>
    if w ∈ c.weak then do
      let (s, w1) ← WeakPtr.copy c.heap w
      pure { c with heap := s, weak := w1 :: c.weak }
    else Except.error Err.UB
  | Op.weakMove w =>
    if w ∈ c.weak then
      pure { c with weak := (WeakPtr.move w).1 :: (WeakPtr.move w).2 :: c.weak.erase w }
    else Except.error Err.UB
  | Op.weakOfShared h =>
    if h ∈ c.shared then do
      let (s, w1) ← WeakPtr.ofShared c.heap h
      pure { c with heap := s, weak := w1 :: c.weak }
    else Except.error Err.UB
  | Op.weakAssignShared w h =>
    if w ∈ c.weak ∧ h ∈ c.shared then do
      let (s, w1) ← WeakPtr.assignShared (objDtor n) c.heap w h
      pure { c with heap := s, weak := w1 :: c.weak.erase w }
    else Except.error Err.UB
  | Op.weakAssign w o self =>
    if w ∈ c.weak ∧ (if self then o = w else o ∈ c.weak.erase w) then do
      let (s, w1) ← WeakPtr.assign (objDtor n) c.heap w o self
      pure { c with heap := s, weak := w1 :: c.weak.erase w }
    else Except.error Err.UB
  | Op.weakMoveAssign w o =>
    if w ∈ c.weak ∧ o ∈ c.weak.erase w then do
      let (s, w1, o1) ← WeakPtr.moveAssign (objDtor n) c.heap w o
      pure { c with heap := s, weak := w1 :: o1 :: (c.weak.erase w).erase o }
    else Except.error Err.UB
  | Op.weakReset w =>
    if w ∈ c.weak then do
      let (s, w1) ← WeakPtr.Reset (objDtor n) c.heap w
      pure { c with heap := s, weak := w1 :: c.weak.erase w }
    else Except.error Err.UB
  | Op.weakSwap w o =>
    if w ∈ c.weak ∧ o ∈ c.weak.erase w then
      pure { c with weak := (WeakPtr.Swap w o).1 :: (WeakPtr.Swap w o).2 ::
                      (c.weak.erase w).erase o }
    else Except.error Err.UB
  | Op.weakDestroy w =>
    if w ∈ c.weak then do
      let s ← WeakPtr.destroy (objDtor n) c.heap w
      pure { c with heap := s, weak := c.weak.erase w }
    else Except.error Err.UB

/-- A client program: the operations run one after the other from the state `c`. -/
def Config.run (n : Nat) : List Op → Config → Except Err Config
  | [], c => pure c
  | op :: ops, c => do
    let c1 ← c.step n op
    Config.run n ops c1

/-- Number of `SharedPtr` variables attached to the block at `b`. -/
def Config.nShared (c : Config) (b : Nat) : Nat := (c.shared.map SharedPtr.block_).count b

/-- Number of `WeakPtr` variables attached to the block at `b`. -/
def Config.nWeak (c : Config) (b : Nat) : Nat := (c.weak.map WeakPtr.block_).count b

/-- Number of objects whose member `weak_this` is attached to the block at `b`. -/
def Config.nEmbedded (c : Config) (b : Nat) : Nat := (c.addrs.map c.heap.selfBlock).count b

/-- The counting invariant at the block address `b`: an allocated block has the number
of attached `SharedPtr` handles as strong count, the number of attached `WeakPtr` handles,
embedded `weak_this` members included, as weak count, and one of the two is positive;
nothing is attached to an address with no block. -/
def Config.CountedAt (c : Config) (b : Nat) : Prop :=
  match c.heap.blocks b with
  | some blk => blk.cnt = c.nShared b ∧ blk.cnt_weak = c.nWeak b + c.nEmbedded b ∧
      (0 < blk.cnt ∨ 0 < blk.cnt_weak)
  | none => c.nShared b = 0 ∧ c.nWeak b = 0 ∧ c.nEmbedded b = 0

/-! ## The ledger behind the counting invariant -/

/-- Adding `k` to the count kept for the block at `b`. -/
def upd (f : Nat → Int) (b : Nat) (k : Int) : Nat → Int :=
  fun x => if x = b then f x + k else f x

/-- Number of objects at the addresses `A` whose `weak_this` is attached to the block at `b`. -/
def emb (s : Heap) (A : List Ptr) (b : Nat) : Nat := (A.map s.selfBlock).count b

/-- The ledger: the heap `s` is balanced against `nS b` strong and `nW b` weak handles
held outside the heap for every block address `b`, the members `weak_this` of the objects
at the addresses `A` being counted from the heap itself. -/
structure Bal (s : Heap) (nS nW : Nat → Int) (A : List Ptr) : Prop where
  alloc : ∀ b blk, b ≠ 0 → s.blocks b = some blk →
    (blk.cnt : Int) = nS b ∧ (blk.cnt_weak : Int) = nW b + emb s A b
  free : ∀ b, b ≠ 0 → s.blocks b = none → nS b = 0 ∧ nW b + emb s A b = 0
  nodup : A.Nodup
  cover : ∀ p, s.objs p ≠ none → p ∈ A
  attached : ∀ p o, s.objs p = some o → o.weak_this.block_ ≠ 0 →
    o.esft = true ∧ o.alive = true
  fresh : ∀ k, s.next < k → s.blocks k = none ∧ Ptr.storage k ∉ A
  zero : s.blocks 0 = none

/-- What holds of the block `blk` at `b` between two operations: an expired block has its
object destroyed, the object in the storage of a block whose flag is set is not alive, and
one of the counts is positive. -/
def BlockOk (s : Heap) (b : Nat) (blk : BlockBase) : Prop :=
  (blk.cnt = 0 → blk.deleted = true) ∧
  (blk.emplace = true → blk.deleted = true → s.isAlive (Ptr.storage b) = false) ∧
  (0 < blk.cnt ∨ 0 < blk.cnt_weak)

/-- Every allocated block is as `BlockOk` says. -/
def Aux (s : Heap) : Prop := ∀ b blk, b ≠ 0 → s.blocks b = some blk → BlockOk s b blk

/-- No count exceeds `K`. -/
def Bounded (K : Nat) (s : Heap) : Prop :=
  ∀ b blk, s.blocks b = some blk → blk.cnt ≤ K ∧ blk.cnt_weak ≤ K

/-- What a step that releases weak shares and destroys objects may do: a block that is
still allocated keeps its strong count and its kind, gains at most `j` on its weak count
and, unless it is the block `e`, keeps its flag and its pointer and a positive count; an
object that is alive was alive; no block is allocated. -/
structure Rel (j : Nat) (e : Option Nat) (s t : Heap) : Prop where
  blocks : ∀ x blk1, t.blocks x = some blk1 → ∃ blk, s.blocks x = some blk ∧
    blk1.cnt = blk.cnt ∧ blk1.emplace = blk.emplace ∧ blk1.cnt_weak ≤ blk.cnt_weak + j ∧
    (e ≠ some x → blk1.deleted = blk.deleted ∧ blk1.ptr = blk.ptr ∧
      (0 < blk.cnt ∨ 0 < blk.cnt_weak → 0 < blk1.cnt ∨ 0 < blk1.cnt_weak))
  objs : ∀ q o1, t.objs q = some o1 → ∃ o, s.objs q = some o ∧ (o1.alive = true → o.alive = true)
  next : t.next = s.next

/-- The relation `Rel` on the blocks other than the one at `b`. -/
structure RelOff (j b : Nat) (s t : Heap) : Prop where
  blocks : ∀ x blk1, x ≠ b → t.blocks x = some blk1 → ∃ blk, s.blocks x = some blk ∧
    blk1.cnt = blk.cnt ∧ blk1.emplace = blk.emplace ∧ blk1.cnt_weak ≤ blk.cnt_weak + j ∧
    blk1.deleted = blk.deleted ∧ blk1.ptr = blk.ptr ∧
    (0 < blk.cnt ∨ 0 < blk.cnt_weak → 0 < blk1.cnt ∨ 0 < blk1.cnt_weak)
  objs : ∀ q o1, t.objs q = some o1 → ∃ o, s.objs q = some o ∧ (o1.alive = true → o.alive = true)
  next : t.next = s.next

/-- The state `s` as it is between two operations, against the counts `nS` and `nW` of the
handles held outside the heap. -/
structure Good (K : Nat) (s : Heap) (nS nW : Nat → Int) (A : List Ptr) : Prop where
  bal : Bal s nS nW A
  aux : Aux s
  bounded : Bounded K s
  nn : ∀ x, 0 ≤ nW x

/-- The number of handles of the list `l` attached to each block, `f` giving the block of
a handle. -/
def cnt {α : Type} (f : α → Nat) (l : List α) : Nat → Int :=
  fun b => ((l.map f).count b : Int)

/-- The invariant of the client program: the ledger balanced against its variables, and
fewer than `K` of them. -/
structure Inv (K : Nat) (c : Config) : Prop where
  bal : Bal c.heap (cnt SharedPtr.block_ c.shared) (cnt WeakPtr.block_ c.weak) c.addrs
  aux : Aux c.heap
  szS : c.shared.length ≤ K
  szW : c.weak.length + c.addrs.length ≤ K

/-- Every handle attached to a block has a share in a count of that block: the block of a
`SharedPtr` variable is allocated with a positive strong count, the block of a `WeakPtr`
variable and of a member `weak_this` is allocated with a positive weak count. The
decrement that opens `SharedPtr::Reset()` and `WeakPtr::Reset()` is of such a count. -/
def Config.HandlesCounted (c : Config) : Prop :=
  (∀ h ∈ c.shared, h.block_ ≠ 0 → ∃ blk, c.heap.blocks h.block_ = some blk ∧ 0 < blk.cnt) ∧
  (∀ w ∈ c.weak, w.block_ ≠ 0 → ∃ blk, c.heap.blocks w.block_ = some blk ∧ 0 < blk.cnt_weak) ∧
  (∀ p ∈ c.addrs, c.heap.selfBlock p ≠ 0 →
    ∃ blk, c.heap.blocks (c.heap.selfBlock p) = some blk ∧ 0 < blk.cnt_weak)

/-- A client program: an object with the self-reference capability handed to a `SharedPtr`,
copied and observed, and an object made by `MakeShared` that expires and is locked
afterwards. -/
def sampleOps : List Op :=
  [Op.newObj true 7 42, Op.ofRaw true (Ptr.raw 7), Op.copy true ⟨Ptr.raw 7, 1⟩,
   Op.weakOfShared ⟨Ptr.raw 7, 1⟩, Op.makeShared false 5, Op.weakOfShared ⟨Ptr.storage 2, 2⟩,
   Op.reset false ⟨Ptr.storage 2, 2⟩, Op.lock false ⟨2, Ptr.storage 2⟩,
   Op.destroy true ⟨Ptr.raw 7, 1⟩, Op.weakCopy ⟨2, Ptr.storage 2⟩, Op.weakNull,
   Op.weakAssign ⟨0, Ptr.null⟩ ⟨1, Ptr.raw 7⟩ false]

/-- Modelled from the spec: the destructor of the test type of §9, "an object whose
destructor calls `shared_from_this()`": the body `~T() { auto sp = SharedFromThis(); }`
(the handle is dropped at the end of the body), followed by the destruction of the member
`weak_this`. The fuel bounds the nesting of destructor calls. -/
def reentrantDtor : Nat → Dtor
  | 0, _, _ => Except.error Err.outOfFuel
  | n + 1, p, s => do
    let (s1, sp) ← SharedFromThis (reentrantDtor n) s p
    let s2 ← SharedPtr.destroy (reentrantDtor n) true s1 sp
    let o ← s2.loadObj p
    let (s3, w) ← WeakPtr.Reset (reentrantDtor n) s2 o.weak_this
    let o1 ← s3.loadObj p
    pure (s3.setObj p (some { o1 with weak_this := w }))

/-- Client code `auto sp = MakeShared<T>(v); sp.Reset();` for the test type `T` whose
destructor calls `SharedFromThis()`: the log at the end. -/
def reentrantEmplace : Except Err (List Event) := do
  let (s, sp) ← MakeShared (reentrantDtor 3) true Heap.empty 42
  let (s, _) ← SharedPtr.Reset (reentrantDtor 3) true s sp
  pure s.log

/-- Client code `SharedPtr<T> sp(new T(v)); sp.Reset();` for the same type, the object at
`raw 7`: the log, and what is left of the block and of the object. -/
def reentrantRaw : Except Err (List Event × Option BlockBase × Option Obj) := do
  let (s, p) := newObj true Heap.empty 7 42
  let (s, sp) ← SharedPtr.ofRaw (reentrantDtor 3) true s p
  let (s, _) ← SharedPtr.Reset (reentrantDtor 3) true s sp
  pure (s.log, s.blocks 1, s.objs p)

/-- The first half of `reentrantEmplace`, up to the return of `block_->DeletePtr()` inside
`Reset()`: the log, the block and the liveness of the object at that point. -/
def reentrantEmplaceMid : Except Err (List Event × Option BlockBase × Bool) := do
  let (s, sp) ← MakeShared (reentrantDtor 3) true Heap.empty 42
  let s1 ← decCnt s sp.block_
  let s2 ← incCnt s1 sp.block_
  let s3 ← DeletePtr (reentrantDtor 3) s2 sp.block_ false
  pure (s3.log, s3.blocks sp.block_, s3.isAlive sp.ptr_)

/-- Client code `auto sp = MakeShared<T>(42); sp.Reset();` for a `T` deriving from
`EnableSharedFromThis<T>` with no destructor body: the log, and what is left of the block
and of the object. -/
def selfRefMakeReset : Except Err (List Event × Option BlockBase × Option Obj) := do
  let (s, sp) ← MakeShared (objDtor 2) true Heap.empty 42
  let (s, _) ← SharedPtr.Reset (objDtor 2) true s sp
  pure (s.log, s.blocks 1, s.objs (Ptr.storage 1))

/-- Client code `SharedPtr<T> sp(new T(42)); sp.Reset();` for the same type, the object at
`raw 7`. -/
def selfRefRawReset : Except Err (List Event × Option BlockBase × Option Obj) := do
  let (s, p) := newObj true Heap.empty 7 42
  let (s, sp) ← SharedPtr.ofRaw (objDtor 2) true s p
  let (s, _) ← SharedPtr.Reset (objDtor 2) true s sp
  pure (s.log, s.blocks 1, s.objs p)

/-- Client code `auto a = MakeShared<int>(42); a = a;`: the handle `a`, `a.UseCount()`,
the liveness of the object and the log afterwards. -/
def selfAssignSole : Except Err (SharedPtr × Nat × Bool × List Event) := do
  let (s, a) ← MakeShared (objDtor 1) false Heap.empty 42
  let (s, a1) ← SharedPtr.selfAssign (objDtor 1) false s a
  let u ← SharedPtr.UseCount s a1
  pure (a1, u, s.isAlive a.ptr_, s.log)

/-- Client code `auto a = MakeShared<int>(42); auto b = a; a = a;`: the handle `a`,
`a.UseCount()` and `b.UseCount()` afterwards. -/
def selfAssignShared : Except Err (SharedPtr × Nat × Nat) := do
  let (s, a) ← MakeShared (objDtor 1) false Heap.empty 42
  let (s, b) ← SharedPtr.copy (objDtor 1) false s a
  let (s, a1) ← SharedPtr.selfAssign (objDtor 1) false s a
  let u ← SharedPtr.UseCount s a1
  let ub ← SharedPtr.UseCount s b
  pure (a1, u, ub)

/-- Client code: with the expired handle `w`, `w.Expired()`, then `auto l = w.Lock();` and,
while `l` is held, `w.Expired()` and `w.UseCount()` again, and the liveness of the object. -/
def expiryUndone : Except Err (Bool × Bool × Nat × Bool) := do
  let (s, w) ← expiredWeak
  let e1 ← WeakPtr.Expired s w
  let (s, _) ← WeakPtr.Lock (objDtor 1) false s w
  let e2 ← WeakPtr.Expired s w
  let u ← WeakPtr.UseCount s w
  pure (e1, e2, u, s.isAlive w.ptr_)

/-- Client code: with the expired handle `w`, `WeakPtr<int> w2(w); auto l = w2.Lock();` and,
while `l` is held, `w.Expired()`. -/
def expiryUndoneByOther : Except Err (Bool × Bool) := do
  let (s, w) ← expiredWeak
  let e1 ← WeakPtr.Expired s w
  let (s, w2) ← WeakPtr.copy s w
  let (s, _) ← WeakPtr.Lock (objDtor 1) false s w2
  let e2 ← WeakPtr.Expired s w
  pure (e1, e2)

/-! ## The variant `src/weak/shared.h`

The `SharedPtr` of the weak variant, on the same `Heap`: its `BlockBase` has the same three
fields. -/

/-- The destructor `d` neither reads nor writes a control block (it commutes with every
update of one) and allocates none: the destructor of a type that owns no smart pointer. -/
structure BlockFree (d : Dtor) : Prop where
  comm : ∀ p s b v, d p (s.setBlock b v) = (d p s).map (fun t => t.setBlock b v)
  next : ∀ p s t, d p s = Except.ok t → t.next = s.next

/-- The destructor of a type with no destructor body and no members to destroy, such as
`int`. -/
def trivialDtor : Dtor := fun _ s => pure s

/-- The virtual `BlockBase::DeletePtr()` of `src/weak/shared.h`, dispatched on the dynamic
type: `Block<T>::DeletePtr` and `BlockEmplace<T>::DeletePtr`. -/
def WeakVariant.DeletePtr (d : Dtor) (s : Heap) (b : Nat) : Except Err Heap := do
  let blk ← s.load b
  let s1 ←
    if !blk.deleted then
      if blk.emplace then callDtor d (Ptr.storage b) s
      else do
        let s2 ← deleteObj d blk.ptr s
        let blk2 ← s2.load b
        pure (s2.setBlock b (some { blk2 with ptr := Ptr.null }))
    else pure s
  let blk3 ← s1.load b
  pure (s1.setBlock b (some { blk3 with deleted := true }))

/-- The statement `delete block_;` of `src/weak/shared.h`: the virtual destructor
(`Block<T>::~Block` or `BlockEmplace<T>::~BlockEmplace`) runs, then the block's memory is
released. -/
def WeakVariant.deleteBlock (d : Dtor) (s : Heap) (b : Nat) : Except Err Heap := do
  let blk ← s.load b
  let s1 ←
    if !blk.deleted then
      if blk.emplace then callDtor d (Ptr.storage b) s else deleteObj d blk.ptr s
    else pure s
  let blk2 ← s1.load b
  let s2 := s1.setBlock b (some { blk2 with deleted := true })
  pure ((s2.freeBlock b blk.emplace).emit (Event.dealloc b))

/-- The statements shared by `~SharedPtr()`, `Reset()` and `Reset(ptr)` of
`src/weak/shared.h`: `if (prev) { --prev->cnt; ... }`. -/
def WeakVariant.release (d : Dtor) (s : Heap) (prev : Nat) : Except Err Heap :=
  if prev ≠ 0 then do
    let s1 ← decCnt s prev
    if ← bothZero s1 prev then WeakVariant.deleteBlock d s1 prev
    else
      let blk ← s1.load prev
      if blk.cnt == 0 then WeakVariant.DeletePtr d s1 prev else pure s1
  else pure s

/-- The destructor `SharedPtr::~SharedPtr()` of `src/weak/shared.h`. -/
def WeakVariant.destroy (d : Dtor) (s : Heap) (h : SharedPtr) : Except Err Heap :=
  WeakVariant.release d s h.block_

/-- The method `SharedPtr::Reset()` of `src/weak/shared.h`. -/
def WeakVariant.Reset (d : Dtor) (s : Heap) (h : SharedPtr) : Except Err (Heap × SharedPtr) := do
  let prev := h.block_
  let s1 ← WeakVariant.release d s prev
  pure (s1, { ptr_ := Ptr.null, block_ := 0 })

/-- The methods `SharedPtr::Reset(T* ptr)` and `SharedPtr::Reset(Y* ptr)` of
`src/weak/shared.h`. -/
def WeakVariant.ResetPtr (d : Dtor) (s : Heap) (h : SharedPtr) (ptr : Ptr) :
    Except Err (Heap × SharedPtr) := do
  let prev := h.block_
  let s1 ← WeakVariant.release d s prev
  let (s2, b) := s1.newBlock false ptr
  pure (s2, { ptr_ := ptr, block_ := b })

/-- The constructors `SharedPtr(T* ptr)` and `SharedPtr(Y* ptr)` of `src/weak/shared.h`. -/
def WeakVariant.ofRaw (s : Heap) (ptr : Ptr) : Except Err (Heap × SharedPtr) := do
  let (s1, b) := s.newBlock false ptr
  pure (s1, { ptr_ := ptr, block_ := b })

/-- The constructor `SharedPtr(BlockBase* bb, T* ptr, bool new_one = false)` of
`src/weak/shared.h`. -/
def WeakVariant.ofBlock (s : Heap) (bb : Nat) (ptr : Ptr) (new_one : Bool) :
    Except Err (Heap × SharedPtr) := do
  let this : SharedPtr := { ptr_ := ptr, block_ := bb }
  if new_one then
    if bb ≠ 0 then
      let blk ← s.load bb
      let this1 : SharedPtr := if blk.deleted then { this with ptr_ := Ptr.null } else this
      let s2 := s.setBlock bb (some { blk with deleted := false })
      let s3 ← incCnt s2 bb
      pure (s3, this1)
    else pure (s, this)
  else pure (s, this)

/-- The function `MakeShared<T>(args...)` of `src/weak/shared.h`. -/
def WeakVariant.MakeShared (s : Heap) (v : Int) : Except Err (Heap × SharedPtr) := do
  let (s1, b) := s.newBlock true Ptr.null
  let s2 := s1.setObj (Ptr.storage b)
    (some { val := v, alive := true, esft := false, weak_this := {} })
  WeakVariant.ofBlock s2 b (Ptr.storage b) false

/-- The constructors `SharedPtr(const SharedPtr& other)` and
`SharedPtr(const SharedPtr<Y>& other)` of `src/weak/shared.h`. -/
def WeakVariant.copy (s : Heap) (other : SharedPtr) : Except Err (Heap × SharedPtr) := do
  let this : SharedPtr := { ptr_ := other.ptr_, block_ := other.block_ }
  let s1 ← if this.block_ ≠ 0 then incCnt s this.block_ else pure s
  pure (s1, this)

/-- The constructor `SharedPtr(SharedPtr<Y>&& other)` of `src/weak/shared.h`: the new handle
and what is left of `other`. -/
def WeakVariant.move (other : SharedPtr) : SharedPtr × SharedPtr :=
  ({ ptr_ := other.ptr_, block_ := other.block_ }, { ptr_ := Ptr.null, block_ := 0 })

/-- The aliasing constructor `SharedPtr(const SharedPtr<Y>& other, T* ptr)` of
`src/weak/shared.h`. -/
def WeakVariant.alias (s : Heap) (other : SharedPtr) (ptr : Ptr) :
    Except Err (Heap × SharedPtr) := do
  let this : SharedPtr := { ptr_ := ptr, block_ := other.block_ }
  let s1 ← if this.block_ ≠ 0 then incCnt s this.block_ else pure s
  pure (s1, this)

/-- The promoting constructor `SharedPtr(const WeakPtr<T>& other)` of `src/weak/shared.h`.
The class `WeakPtr<T>` of this variant is only declared (`sw_fwd.h`): the two members the
constructor reads, `other.block_` and `other.ptr_`, are parameters. -/
def WeakVariant.ofWeak (s : Heap) (other_block : Nat) (other_ptr : Ptr) :
    Except Err (Heap × SharedPtr) := do
  let blk ← s.load other_block
  if blk.deleted then throw Err.BadWeakPtr
  let this : SharedPtr := { ptr_ := other_ptr, block_ := other_block }
  let s1 ← if this.block_ ≠ 0 then incCnt s this.block_ else pure s
  pure (s1, this)

/-- The operators `operator=(const SharedPtr& other)` and
`operator=(const SharedPtr<Y>& other)` of `src/weak/shared.h`, for `other` a different
object from `*this`. -/
def WeakVariant.assign (d : Dtor) (s : Heap) (this other : SharedPtr) :
    Except Err (Heap × SharedPtr) := do
  let (s1, _) ← WeakVariant.Reset d s this
  let this1 : SharedPtr := { ptr_ := other.ptr_, block_ := other.block_ }
  let s2 ← if this1.block_ ≠ 0 then incCnt s1 this1.block_ else pure s1
  pure (s2, this1)

/-- The operators `operator=(SharedPtr&& other)` and `operator=(SharedPtr<Y>&& other)` of
`src/weak/shared.h`, for `other` a different object from `*this`: the state, `*this` and
what is left of `other`. -/
def WeakVariant.moveAssign (d : Dtor) (s : Heap) (this other : SharedPtr) :
    Except Err (Heap × SharedPtr × SharedPtr) := do
  let (s1, _) ← WeakVariant.Reset d s this
  let this1 : SharedPtr := { ptr_ := other.ptr_, block_ := other.block_ }
  pure (s1, this1, { ptr_ := Ptr.null, block_ := 0 })

/-- The method `SharedPtr::Swap(SharedPtr& other)` of `src/weak/shared.h`. -/
def WeakVariant.Swap (this other : SharedPtr) : SharedPtr × SharedPtr :=
  ({ ptr_ := other.ptr_, block_ := other.block_ }, { ptr_ := this.ptr_, block_ := this.block_ })

/-- The method `SharedPtr::Get()` of `src/weak/shared.h`. -/
def WeakVariant.Get (s : Heap) (h : SharedPtr) : Except Err Ptr :=
  if h.block_ ≠ 0 then do
    let blk ← s.load h.block_
    if blk.deleted then pure Ptr.null else pure h.ptr_
  else pure h.ptr_

/-- The method `SharedPtr::UseCount()` of `src/weak/shared.h`. -/
def WeakVariant.UseCount (s : Heap) (h : SharedPtr) : Except Err Nat :=
  if h.block_ = 0 then pure 0
  else do
    let blk ← s.load h.block_
    pure blk.cnt

/-- The conversion `SharedPtr::operator bool()` of `src/weak/shared.h`. -/
def WeakVariant.toBool (h : SharedPtr) : Bool := h.block_ != 0

/-! ## The variant `src/shared/shared.h`

The `SharedPtr` of the plain shared variant. Its `BlockBase` has the field `cnt` only; the
blocks are kept in the same `Heap`, where the fields `cnt_weak` and `deleted` of a block
stay as `Heap.newBlock` sets them, since no function of this variant reads or writes
them. -/

/-- The statement `delete block_;` of `src/shared/shared.h`: the virtual destructor
(`Block<T>::~Block`, which is `delete ptr;`, or `BlockEmplace<T>::~BlockEmplace`, which is
`~T()` on the storage) runs, then the block's memory is released. The struct `BlockBase`
of this variant has the field `cnt` only: its blocks are kept in the same `Heap`, and no
function of the variant reads or writes the fields `cnt_weak` and `deleted`, which stay as
`Heap.newBlock` sets them. -/
def SharedVariant.deleteBlock (d : Dtor) (s : Heap) (b : Nat) : Except Err Heap := do
  let blk ← s.load b
  let s1 ← if blk.emplace then callDtor d (Ptr.storage b) s else deleteObj d blk.ptr s
  pure ((s1.freeBlock b blk.emplace).emit (Event.dealloc b))

/-- The statements shared by `~SharedPtr()`, `Reset()` and `Reset(ptr)` of
`src/shared/shared.h`: `if (prev) { --prev->cnt; if (prev->cnt == 0) delete prev; }`. -/
def SharedVariant.release (d : Dtor) (s : Heap) (prev : Nat) : Except Err Heap :=
  if prev ≠ 0 then do
    let s1 ← decCnt s prev
    let blk ← s1.load prev
    if blk.cnt == 0 then SharedVariant.deleteBlock d s1 prev else pure s1
  else pure s

/-- The destructor `SharedPtr::~SharedPtr()` of `src/shared/shared.h`. -/
def SharedVariant.destroy (d : Dtor) (s : Heap) (h : SharedPtr) : Except Err Heap :=
  SharedVariant.release d s h.block_

/-- The method `SharedPtr::Reset()` of `src/shared/shared.h`. -/
def SharedVariant.Reset (d : Dtor) (s : Heap) (h : SharedPtr) :
    Except Err (Heap × SharedPtr) := do
  let prev := h.block_
  let s1 ← SharedVariant.release d s prev
  pure (s1, { ptr_ := Ptr.null, block_ := 0 })

/-- The methods `SharedPtr::Reset(T* ptr)` and `SharedPtr::Reset(Y* ptr)` of
`src/shared/shared.h`. -/
def SharedVariant.ResetPtr (d : Dtor) (s : Heap) (h : SharedPtr) (ptr : Ptr) :
    Except Err (Heap × SharedPtr) := do
  let prev := h.block_
  let s1 ← SharedVariant.release d s prev
  let (s2, b) := s1.newBlock false ptr
  pure (s2, { ptr_ := ptr, block_ := b })

/-- The constructors `SharedPtr(T* ptr)` and `SharedPtr(Y* ptr)` of `src/shared/shared.h`. -/
def SharedVariant.ofRaw (s : Heap) (ptr : Ptr) : Except Err (Heap × SharedPtr) := do
  let (s1, b) := s.newBlock false ptr
  pure (s1, { ptr_ := ptr, block_ := b })

/-- The constructor `SharedPtr(BlockBase* bb, T* ptr)` of `src/shared/shared.h`. -/
def SharedVariant.ofBlock (s : Heap) (bb : Nat) (ptr : Ptr) : Except Err (Heap × SharedPtr) :=
  pure (s, { ptr_ := ptr, block_ := bb })

/-- The function `MakeShared<T>(args...)` of `src/shared/shared.h`. -/
def SharedVariant.MakeShared (s : Heap) (v : Int) : Except Err (Heap × SharedPtr) := do
  let (s1, b) := s.newBlock true Ptr.null
  let s2 := s1.setObj (Ptr.storage b)
    (some { val := v, alive := true, esft := false, weak_this := {} })
  SharedVariant.ofBlock s2 b (Ptr.storage b)

/-- The constructors `SharedPtr(const SharedPtr& other)` and
`SharedPtr(const SharedPtr<Y>& other)` of `src/shared/shared.h`. -/
def SharedVariant.copy (s : Heap) (other : SharedPtr) : Except Err (Heap × SharedPtr) := do
  let this : SharedPtr := { ptr_ := other.ptr_, block_ := other.block_ }
  let s1 ← if this.block_ ≠ 0 then incCnt s this.block_ else pure s
  pure (s1, this)

/-- The constructor `SharedPtr(SharedPtr<Y>&& other)` of `src/shared/shared.h`: the new
handle and what is left of `other`. -/
def SharedVariant.move (other : SharedPtr) : SharedPtr × SharedPtr :=
  ({ ptr_ := other.ptr_, block_ := other.block_ }, { ptr_ := Ptr.null, block_ := 0 })

/-- The aliasing constructor `SharedPtr(const SharedPtr<Y>& other, T* ptr)` of
`src/shared/shared.h`. -/
def SharedVariant.alias (s : Heap) (other : SharedPtr) (ptr : Ptr) :
    Except Err (Heap × SharedPtr) := do
  let this : SharedPtr := { ptr_ := ptr, block_ := other.block_ }
  let s1 ← if this.block_ ≠ 0 then incCnt s this.block_ else pure s
  pure (s1, this)

/-- The operators `operator=(const SharedPtr& other)` and
`operator=(const SharedPtr<Y>& other)` of `src/shared/shared.h`, for `other` a different
object from `*this`. -/
def SharedVariant.assign (d : Dtor) (s : Heap) (this other : SharedPtr) :
    Except Err (Heap × SharedPtr) := do
  let (s1, _) ← SharedVariant.Reset d s this
  let this1 : SharedPtr := { ptr_ := other.ptr_, block_ := other.block_ }
  let s2 ← if this1.block_ ≠ 0 then incCnt s1 this1.block_ else pure s1
  pure (s2, this1)

/-- The operators `operator=(SharedPtr&& other)` and `operator=(SharedPtr<Y>&& other)` of
`src/shared/shared.h`, for `other` a different object from `*this`: the state, `*this`
and what is left of `other`. -/
def SharedVariant.moveAssign (d : Dtor) (s : Heap) (this other : SharedPtr) :
    Except Err (Heap × SharedPtr × SharedPtr) := do
  let (s1, _) ← SharedVariant.Reset d s this
  let this1 : SharedPtr := { ptr_ := other.ptr_, block_ := other.block_ }
  pure (s1, this1, { ptr_ := Ptr.null, block_ := 0 })

/-- The method `SharedPtr::Swap(SharedPtr& other)` of `src/shared/shared.h`. -/
def SharedVariant.Swap (this other : SharedPtr) : SharedPtr × SharedPtr :=
  ({ ptr_ := other.ptr_, block_ := other.block_ }, { ptr_ := this.ptr_, block_ := this.block_ })

/-- The method `SharedPtr::Get()` of `src/shared/shared.h`. -/
def SharedVariant.Get (h : SharedPtr) : Ptr := h.ptr_

/-- The method `SharedPtr::UseCount()` of `src/shared/shared.h`. -/
def SharedVariant.UseCount (s : Heap) (h : SharedPtr) : Except Err Nat :=
  if h.block_ = 0 then pure 0
  else do
    let blk ← s.load h.block_
    pure blk.cnt

/-- The conversion `SharedPtr::operator bool()` of `src/shared/shared.h`. -/
def SharedVariant.toBool (h : SharedPtr) : Bool := h.block_ != 0

/-- No weak handle exists or has existed: every allocated block has weak count 0 and its
flag clear. -/
def NoWeak (s : Heap) : Prop :=
  ∀ b blk, s.blocks b = some blk → blk.cnt_weak = 0 ∧ blk.deleted = false

/-- The operations of a `SharedPtr` class as one variant implements them, for a managed
type with destructor `d`. -/
structure SharedOps where
  ofRaw : Heap → Ptr → Except Err (Heap × SharedPtr)
  MakeShared : Heap → Int → Except Err (Heap × SharedPtr)
  copy : Heap → SharedPtr → Except Err (Heap × SharedPtr)
  move : SharedPtr → SharedPtr × SharedPtr
  aliasing : Heap → SharedPtr → Ptr → Except Err (Heap × SharedPtr)
  assign : Heap → SharedPtr → SharedPtr → Except Err (Heap × SharedPtr)
  moveAssign : Heap → SharedPtr → SharedPtr → Except Err (Heap × SharedPtr × SharedPtr)
  Reset : Heap → SharedPtr → Except Err (Heap × SharedPtr)
  ResetPtr : Heap → SharedPtr → Ptr → Except Err (Heap × SharedPtr)
  Swap : SharedPtr → SharedPtr → SharedPtr × SharedPtr
  destroy : Heap → SharedPtr → Except Err Heap

/-- The `SharedPtr` of `src/weak/shared.h`. -/
def WeakVariant.ops (d : Dtor) : SharedOps :=
  { ofRaw := WeakVariant.ofRaw, MakeShared := WeakVariant.MakeShared,
    copy := WeakVariant.copy, move := WeakVariant.move, aliasing := WeakVariant.alias,
    assign := WeakVariant.assign d, moveAssign := WeakVariant.moveAssign d,
    Reset := WeakVariant.Reset d, ResetPtr := WeakVariant.ResetPtr d,
    Swap := WeakVariant.Swap, destroy := WeakVariant.destroy d }

/-- The `SharedPtr` of `src/shared/shared.h`. -/
def SharedVariant.ops (d : Dtor) : SharedOps :=
  { ofRaw := SharedVariant.ofRaw, MakeShared := SharedVariant.MakeShared,
    copy := SharedVariant.copy, move := SharedVariant.move, aliasing := SharedVariant.alias,
    assign := SharedVariant.assign d, moveAssign := SharedVariant.moveAssign d,
    Reset := SharedVariant.Reset d, ResetPtr := SharedVariant.ResetPtr d,
    Swap := SharedVariant.Swap, destroy := SharedVariant.destroy d }

/-- A client program that holds `SharedPtr` variables only: the heap and the values of the
variables. -/
structure StrongConfig where
  heap : Heap
  shared : List SharedPtr

/-- The empty state: nothing allocated, no variables. -/
def StrongConfig.init : StrongConfig := { heap := Heap.empty, shared := [] }

/-- The operations of a client program that never creates a weak handle, each applied to
variables given by their values; `assign`, `moveAssign` and `swap` are applied to two
variables. -/
inductive StrongOp where
  | newObj (a : Nat) (v : Int)
  | sharedNull
  | ofRaw (p : Ptr)
  | makeShared (v : Int)
  | copy (o : SharedPtr)
  | move (o : SharedPtr)
  | aliasing (o : SharedPtr) (p : Ptr)
  | assign (this other : SharedPtr)
  | moveAssign (this other : SharedPtr)
  | reset (h : SharedPtr)
  | resetPtr (h : SharedPtr) (p : Ptr)
  | swap (this other : SharedPtr)
  | destroy (h : SharedPtr)

/-- One operation of the client program with the `SharedPtr` class `I`. An operation on a
variable the program does not have, and `new` at an address in use, is no step. -/
def SharedOps.step (V : SharedOps) (c : StrongConfig) : StrongOp → Except Err StrongConfig
  | StrongOp.newObj a v =>
    if (c.heap.objs (Ptr.raw a)).isSome then Except.error Err.UB
    else pure { c with heap := (newObj false c.heap a v).1 }
  | StrongOp.sharedNull => pure { c with shared := SharedPtr.null :: c.shared }
  | StrongOp.ofRaw p => do
    let (s, h) ← V.ofRaw c.heap p
    pure { heap := s, shared := h :: c.shared }
  | StrongOp.makeShared v => do
    let (s, h) ← V.MakeShared c.heap v
    pure { heap := s, shared := h :: c.shared }
  | StrongOp.copy o =>
    if o ∈ c.shared then do
      let (s, h) ← V.copy c.heap o
      pure { heap := s, shared := h :: c.shared }
    else Except.error Err.UB
  | StrongOp.move o =>
    if o ∈ c.shared then
      pure { c with shared := (V.move o).1 :: (V.move o).2 :: c.shared.erase o }
    else Except.error Err.UB
  | StrongOp.aliasing o p =>
    if o ∈ c.shared then do
      let (s, h) ← V.aliasing c.heap o p
      pure { heap := s, shared := h :: c.shared }
    else Except.error Err.UB
  | StrongOp.assign this other =>
    if this ∈ c.shared ∧ other ∈ c.shared.erase this then do
      let (s, h) ← V.assign c.heap this other
      pure { heap := s, shared := h :: c.shared.erase this }
    else Except.error Err.UB
  | StrongOp.moveAssign this other =>
    if this ∈ c.shared ∧ other ∈ c.shared.erase this then do
      let (s, h, o) ← V.moveAssign c.heap this other
      pure { heap := s, shared := h :: o :: (c.shared.erase this).erase other }
    else Except.error Err.UB
  | StrongOp.reset h =>
    if h ∈ c.shared then do
      let (s, h1) ← V.Reset c.heap h
      pure { heap := s, shared := h1 :: c.shared.erase h }
    else Except.error Err.UB
  | StrongOp.resetPtr h p =>
    if h ∈ c.shared then do
      let (s, h1) ← V.ResetPtr c.heap h p
      pure { heap := s, shared := h1 :: c.shared.erase h }
    else Except.error Err.UB
  | StrongOp.swap this other =>
    if this ∈ c.shared ∧ other ∈ c.shared.erase this then
      pure { c with shared := (V.Swap this other).1 :: (V.Swap this other).2 ::
                      (c.shared.erase this).erase other }
    else Except.error Err.UB
  | StrongOp.destroy h =>
    if h ∈ c.shared then do
      let s ← V.destroy c.heap h
      pure { heap := s, shared := c.shared.erase h }
    else Except.error Err.UB

/-- A client program: the operations run one after the other from the state `c`. -/
def SharedOps.run (V : SharedOps) : List StrongOp → StrongConfig → Except Err StrongConfig
  | [], c => pure c
  | op :: ops, c => do
    let c1 ← V.step c op
    V.run ops c1

/-- The ledger of a state without weak handles: the heap is balanced against `nS b` strong
handles for every block address `b`. -/
structure StrongBal (s : Heap) (nS : Nat → Int) : Prop where
  noWeak : NoWeak s
  zero : s.blocks 0 = none
  alloc : ∀ b blk, s.blocks b = some blk → (blk.cnt : Int) = nS b ∧ 1 ≤ blk.cnt
  free : ∀ b, b ≠ 0 → s.blocks b = none → nS b = 0
  fresh : ∀ k, s.next < k → s.blocks k = none

/-- The invariant of a client program without weak handles: the ledger balanced against
its variables, and at most `K` of them. -/
structure StrongInv (K : Nat) (c : StrongConfig) : Prop where
  bal : StrongBal c.heap (cnt SharedPtr.block_ c.shared)
  size : c.shared.length ≤ K

/-- A client program without weak handles: two objects, one made by `MakeShared` and one
handed over as a raw pointer, shared, reassigned and released. -/
def sampleStrongOps : List StrongOp :=
  [StrongOp.makeShared 42, StrongOp.copy ⟨Ptr.storage 1, 1⟩, StrongOp.newObj 7 5,
   StrongOp.ofRaw (Ptr.raw 7), StrongOp.assign ⟨Ptr.storage 1, 1⟩ ⟨Ptr.raw 7, 2⟩,
   StrongOp.destroy ⟨Ptr.storage 1, 1⟩, StrongOp.reset ⟨Ptr.raw 7, 2⟩,
   StrongOp.destroy ⟨Ptr.raw 7, 2⟩]

/-! ## Client scenarios for the embedded weak handle and the handle type -/

/-- Client code `SharedPtr<T> a; a.Reset(new T(42)); SharedPtr<T> b(a);` for a `T` deriving
from `EnableSharedFromThis<T>`, the object at `raw 7`: the block of `a` before the copy and
after it. -/
def copyAfterResetPtr : Except Err (Option BlockBase × Option BlockBase) := do
  let (s, p) := newObj true Heap.empty 7 42
  let (s, a) ← SharedPtr.ResetPtr (objDtor 1) true s SharedPtr.null p
  let before := s.blocks a.block_
  let (s, _) ← SharedPtr.copy (objDtor 1) true s a
  pure (before, s.blocks a.block_)

/-- Client code `SharedPtr<T> a(new T(42)); SharedPtr<T> base(new T(43));
SharedPtr<T> m(base, a.Get()); SharedPtr<T> b(a);` for the same type, the objects at `raw 7`
and `raw 8`: the block of `a` before the copy and after it. -/
def copyAfterRewrap : Except Err (Option BlockBase × Option BlockBase) := do
  let (s, p) := newObj true Heap.empty 7 42
  let (s, q) := newObj true s 8 43
  let (s, a) ← SharedPtr.ofRaw (objDtor 1) true s p
  let (s, base) ← SharedPtr.ofRaw (objDtor 1) true s q
  let g ← SharedPtr.Get s a
  let (s, _) ← SharedPtr.alias (objDtor 1) true s base g
  let before := s.blocks a.block_
  let (s, _) ← SharedPtr.copy (objDtor 1) true s a
  pure (before, s.blocks a.block_)

/-- Client code `SharedPtr<T> a(new T(42)); SharedPtr<T> b(new T(43));
SharedPtr<T> z(a, b.Get()); b = std::move(a);` for the same type, the objects at `raw 7`
and `raw 8`: the block of `a` before the move assignment, the same block after it, the
handles `b` and `a` after it, and the log. -/
def moveAssignRewrapped :
    Except Err (Option BlockBase × Option BlockBase × SharedPtr × SharedPtr × List Event) := do
  let (s, p) := newObj true Heap.empty 7 42
  let (s, q) := newObj true s 8 43
  let (s, a) ← SharedPtr.ofRaw (objDtor 2) true s p
  let (s, b) ← SharedPtr.ofRaw (objDtor 2) true s q
  let g ← SharedPtr.Get s b
  let (s, _) ← SharedPtr.alias (objDtor 2) true s a g
  let before := s.blocks a.block_
  let (s, b1, a1) ← SharedPtr.moveAssign (objDtor 2) true s b a
  pure (before, s.blocks a.block_, b1, a1, s.log)

/-- Client code `SharedPtr<Base> sp(new Derived(42));` for a `Derived` deriving from `Base`
and from `EnableSharedFromThis<Derived>`, `Base` without the capability, the object at
`raw 7`: the handle, its block and the object afterwards. -/
def rawOfDerived : Except Err (SharedPtr × Option BlockBase × Option Obj) := do
  let (s, p) := newObj true Heap.empty 7 42
  let (s, sp) ← SharedPtr.ofRaw (objDtor 1) false s p
  pure (sp, s.blocks sp.block_, s.objs p)

/-- Client code on a `Block<int>` with strong count 1, the object at `raw 7`:
`block->DeletePtr(true)` and then `delete block`: the log after the first call, the liveness
of the object and the flag after it, and the log at the end. -/
def deferredDeleteRaw : Except Err (List Event × Bool × Option Bool × List Event) := do
  let (s, p) := newObj false Heap.empty 7 42
  let (s, sp) ← SharedPtr.ofRaw (objDtor 1) false s p
  let s1 ← DeletePtr (objDtor 1) s sp.block_ true
  let s2 ← deleteBlock (objDtor 1) s1 sp.block_
  pure (s1.log, s1.isAlive p, (s1.blocks sp.block_).map (fun blk => blk.deleted), s2.log)

/-- Client code `auto d = MakeShared<Derived>(42); SharedPtr<Base> b(d); d.Reset();
b.Reset();` for a `Derived` deriving from `Base` and from `EnableSharedFromThis<Derived>`,
`Base` without the capability: the log at the end. After `d.Reset()` the object is held by
the one handle `b`, and the weak count of its block is 1, from `weak_this`. -/
def convertedResetEmplace : Except Err (List Event) := do
  let (s, d) ← MakeShared (objDtor 2) true Heap.empty 42
  let (s, b) ← SharedPtr.copy (objDtor 2) false s d
  let (s, _) ← SharedPtr.Reset (objDtor 2) true s d
  let (s, _) ← SharedPtr.Reset (objDtor 2) false s b
  pure s.log

/-- The same client code with `SharedPtr<Derived> d(new Derived(42));`, the object at
`raw 7`. -/
def convertedResetRaw : Except Err (List Event) := do
  let (s, p) := newObj true Heap.empty 7 42
  let (s, d) ← SharedPtr.ofRaw (objDtor 2) true s p
  let (s, b) ← SharedPtr.copy (objDtor 2) false s d
  let (s, _) ← SharedPtr.Reset (objDtor 2) true s d
  let (s, _) ← SharedPtr.Reset (objDtor 2) false s b
  pure s.log

/-- The client code of `convertedResetRaw` up to the return of `delete ptr;` inside
`Block::DeletePtr()`, which `b.Reset()` calls after `--block_->cnt`: the block of `b` before
`b.Reset()`, and the log and the block at that point. -/
def convertedResetRawMid : Except Err (Option BlockBase × List Event × Option BlockBase) := do
  let (s, p) := newObj true Heap.empty 7 42
  let (s, d) ← SharedPtr.ofRaw (objDtor 2) true s p
  let (s, b) ← SharedPtr.copy (objDtor 2) false s d
  let (s, _) ← SharedPtr.Reset (objDtor 2) true s d
  let before := s.blocks b.block_
  let s ← decCnt s b.block_
  let blk ← s.load b.block_
  let s := s.setBlock b.block_ (some { blk with deleted := true })
  let s ← deleteObj (objDtor 2) blk.ptr s
  pure (before, s.log, s.blocks b.block_)

/-- Client code `SharedPtr<T> a; a.Reset(new T(42)); WeakPtr<T> w(a); auto l = w.Lock();`
for a `T` deriving from `EnableSharedFromThis<T>`, the object at `raw 7`: the block of `w`
before `Lock()` and after it. -/
def lockAfterResetPtr : Except Err (Option BlockBase × Option BlockBase) := do
  let (s, p) := newObj true Heap.empty 7 42
  let (s, a) ← SharedPtr.ResetPtr (objDtor 1) true s SharedPtr.null p
  let (s, w) ← WeakPtr.ofShared s a
  let before := s.blocks w.block_
  let (s, _) ← WeakPtr.Lock (objDtor 1) true s w
  pure (before, s.blocks w.block_)

/-- The destructor of a type `T` without the self-reference capability whose objects know
the handle that owns them (`SharedPtr<T>* owner`) and a second object (`int* extra`):
`~T() { if (owner->Get()) delete extra; }`. The method `Get()` has the same body in
`src/weak/shared.h` and in `src/shared-from-this/shared.h`. -/
def observingDtor (owner : SharedPtr) (extra : Ptr) : Dtor := fun _ s => do
  let g ← SharedPtr.Get s owner
  if g ≠ Ptr.null then deleteObj trivialDtor extra s else pure s

/-- Client code `auto sp = MakeShared<T>(42);` followed by the destruction of `sp`, with the
`SharedPtr` of `src/shared-from-this/shared.h`, for the type of `observingDtor` with `owner`
pointing to `sp` and `extra` to an `int` at `raw 9`: the log at the end. -/
def observedDestroy : Except Err (List Event) := do
  let d := observingDtor ⟨Ptr.storage 1, 1⟩ (Ptr.raw 9)
  let (s, _) := newObj false Heap.empty 9 7
  let (s, sp) ← MakeShared d false s 42
  let s ← SharedPtr.destroy d false s sp
  pure s.log

/-- The same client code with the `SharedPtr` of `src/weak/shared.h`. -/
def WeakVariant.observedDestroy : Except Err (List Event) := do
  let d := observingDtor ⟨Ptr.storage 1, 1⟩ (Ptr.raw 9)
  let (s, _) := newObj false Heap.empty 9 7
  let (s, sp) ← WeakVariant.MakeShared s 42
  let s ← WeakVariant.destroy d s sp
  pure s.log

/-! ## Basic facts about the heap primitives -/

@[simp] theorem setBlock_blocks (s : Heap) (b x : Nat) (v : Option BlockBase) :
    (s.setBlock b v).blocks x = if x = b then v else s.blocks x := rfl

@[simp] theorem setBlock_objs (s : Heap) (b : Nat) (v : Option BlockBase) :
    (s.setBlock b v).objs = s.objs := rfl

@[simp] theorem setBlock_log (s : Heap) (b : Nat) (v : Option BlockBase) :
    (s.setBlock b v).log = s.log := rfl

@[simp] theorem setBlock_next (s : Heap) (b : Nat) (v : Option BlockBase) :
    (s.setBlock b v).next = s.next := rfl

@[simp] theorem setObj_blocks (s : Heap) (p : Ptr) (v : Option Obj) :
    (s.setObj p v).blocks = s.blocks := rfl

@[simp] theorem setObj_objs (s : Heap) (p q : Ptr) (v : Option Obj) :
    (s.setObj p v).objs q = if q = p then v else s.objs q := rfl

@[simp] theorem setObj_log (s : Heap) (p : Ptr) (v : Option Obj) :
    (s.setObj p v).log = s.log := rfl

@[simp] theorem setObj_next (s : Heap) (p : Ptr) (v : Option Obj) :
    (s.setObj p v).next = s.next := rfl

@[simp] theorem emit_blocks (s : Heap) (e : Event) : (s.emit e).blocks = s.blocks := rfl

@[simp] theorem emit_objs (s : Heap) (e : Event) : (s.emit e).objs = s.objs := rfl

@[simp] theorem emit_log (s : Heap) (e : Event) : (s.emit e).log = s.log ++ [e] := rfl

@[simp] theorem emit_next (s : Heap) (e : Event) : (s.emit e).next = s.next := rfl

@[simp] theorem freeBlock_blocks (s : Heap) (b x : Nat) (e : Bool) :
    (s.freeBlock b e).blocks x = if x = b then none else s.blocks x := by
  cases e <;> rfl

@[simp] theorem freeBlock_log (s : Heap) (b : Nat) (e : Bool) :
    (s.freeBlock b e).log = s.log := by
  cases e <;> rfl

@[simp] theorem freeBlock_next (s : Heap) (b : Nat) (e : Bool) :
    (s.freeBlock b e).next = s.next := by
  cases e <;> rfl

@[simp] theorem freeBlock_objs (s : Heap) (b : Nat) (e : Bool) (q : Ptr) :
    (s.freeBlock b e).objs q = if e = true ∧ q = Ptr.storage b then none else s.objs q := by
  cases e <;> simp [Heap.freeBlock]

/-- Writing a block twice keeps the second write. -/
@[simp] theorem setBlock_setBlock (s : Heap) (b : Nat) (v w : Option BlockBase) :
    (s.setBlock b v).setBlock b w = s.setBlock b w := by
  simp only [Heap.setBlock, Heap.mk.injEq, and_true, true_and]
  funext a
  by_cases h : a = b <;> simp [h]

/-- Two states with the same blocks, objects, allocation counter and log are equal. -/
theorem Heap.ext_fields (s t : Heap) (h1 : ∀ x, s.blocks x = t.blocks x)
    (h2 : ∀ q, s.objs q = t.objs q) (h3 : s.next = t.next) (h4 : s.log = t.log) : s = t := by
  cases s; cases t
  simp only [Heap.mk.injEq]
  exact ⟨funext h1, funext h2, h3, h4⟩

theorem load_of (s : Heap) (b : Nat) (blk : BlockBase) (hb : b ≠ 0)
    (h : s.blocks b = some blk) : s.load b = Except.ok blk := by
  simp [Heap.load, hb, h]

theorem loadObj_of (s : Heap) (p : Ptr) (o : Obj) (hp : p ≠ Ptr.null)
    (h : s.objs p = some o) : s.loadObj p = Except.ok o := by
  simp [Heap.loadObj, hp, h]

theorem sizeInc_of_lt (n : Nat) (h : n + 1 < SIZE_MOD) : sizeInc n = n + 1 := by
  unfold sizeInc; exact Nat.mod_eq_of_lt h

theorem sizeDec_of_pos (n : Nat) (h0 : 1 ≤ n) (h : n < SIZE_MOD) : sizeDec n = n - 1 := by
  unfold sizeDec
  have : n + SIZE_MOD - 1 = (n - 1) + SIZE_MOD := by omega
  rw [this, Nat.add_mod_right]
  exact Nat.mod_eq_of_lt (by omega)

theorem sizeInc_sizeDec (n : Nat) (h : n < SIZE_MOD) : sizeInc (sizeDec n) = n := by
  unfold sizeInc sizeDec SIZE_MOD at *
  omega

theorem incCnt_of (s : Heap) (b : Nat) (blk : BlockBase) (hb : b ≠ 0)
    (h : s.blocks b = some blk) :
    incCnt s b = Except.ok (s.setBlock b (some { blk with cnt := sizeInc blk.cnt })) := by
  simp [incCnt, load_of s b blk hb h, bind, Except.bind, pure, Except.pure]

theorem decCnt_of (s : Heap) (b : Nat) (blk : BlockBase) (hb : b ≠ 0)
    (h : s.blocks b = some blk) :
    decCnt s b = Except.ok (s.setBlock b (some { blk with cnt := sizeDec blk.cnt })) := by
  simp [decCnt, load_of s b blk hb h, bind, Except.bind, pure, Except.pure]

theorem incWeak_of (s : Heap) (b : Nat) (blk : BlockBase) (hb : b ≠ 0)
    (h : s.blocks b = some blk) :
    incWeak s b = Except.ok (s.setBlock b (some { blk with cnt_weak := sizeInc blk.cnt_weak })) := by
  simp [incWeak, load_of s b blk hb h, bind, Except.bind, pure, Except.pure]

theorem decWeak_of (s : Heap) (b : Nat) (blk : BlockBase) (hb : b ≠ 0)
    (h : s.blocks b = some blk) :
    decWeak s b = Except.ok (s.setBlock b (some { blk with cnt_weak := sizeDec blk.cnt_weak })) := by
  simp [decWeak, load_of s b blk hb h, bind, Except.bind, pure, Except.pure]

theorem bothZero_of (s : Heap) (b : Nat) (blk : BlockBase) (hb : b ≠ 0)
    (h : s.blocks b = some blk) :
    bothZero s b = Except.ok (blk.cnt == 0 && blk.cnt_weak == 0) := by
  simp [bothZero, load_of s b blk hb h, bind, Except.bind, pure, Except.pure]

theorem useCount_of (s : Heap) (h : SharedPtr) (blk : BlockBase) (hb : h.block_ ≠ 0)
    (hs : s.blocks h.block_ = some blk) : SharedPtr.UseCount s h = Except.ok blk.cnt := by
  simp [SharedPtr.UseCount, hb, load_of s _ blk hb hs, bind, Except.bind, pure, Except.pure]

theorem get_of (s : Heap) (h : SharedPtr) (blk : BlockBase) (hb : h.block_ ≠ 0)
    (hs : s.blocks h.block_ = some blk) :
    SharedPtr.Get s h = Except.ok (if blk.deleted then Ptr.null else h.ptr_) := by
  simp only [SharedPtr.Get, hb, load_of s _ blk hb hs, bind, Except.bind, pure, Except.pure]
  by_cases hd : blk.deleted <;> simp [hd, hb]

theorem expired_of (s : Heap) (w : WeakPtr) (blk : BlockBase) (hb : w.block_ ≠ 0)
    (hs : s.blocks w.block_ = some blk) (hc : blk.cnt = 0) :
    WeakPtr.Expired s w = Except.ok true := by
  simp only [WeakPtr.Expired, hb, Heap.load, hs, bind, Except.bind, pure, Except.pure]
  split <;> simp [hc]

theorem weakUseCount_of (s : Heap) (w : WeakPtr) (blk : BlockBase) (hb : w.block_ ≠ 0)
    (hs : s.blocks w.block_ = some blk) : WeakPtr.UseCount s w = Except.ok blk.cnt := by
  simp [WeakPtr.UseCount, hb, Heap.load, hs, bind, Except.bind, pure, Except.pure]

/-! ## Destruction of a plain (not self-referencing) object -/

theorem callDtor_plain (n : Nat) (s : Heap) (p : Ptr) (o : Obj) (hp : p ≠ Ptr.null)
    (ho : s.objs p = some o) (he : o.esft = false) :
    callDtor (objDtor (n + 1)) p s =
      Except.ok ((s.emit (Event.dtor p)).setObj p (some { o with alive := false })) := by
  simp [callDtor, objDtor, Heap.loadObj, hp, ho, he, bind, Except.bind, pure, Except.pure]

theorem deleteObj_null (d : Dtor) (s : Heap) : deleteObj d Ptr.null s = Except.ok s := by
  simp [deleteObj, pure, Except.pure]

theorem deleteObj_plain (n : Nat) (s : Heap) (p : Ptr) (o : Obj) (hp : p ≠ Ptr.null)
    (ho : s.objs p = some o) (he : o.esft = false) :
    deleteObj (objDtor (n + 1)) p s = Except.ok ((s.emit (Event.dtor p)).setObj p none) := by
  simp [deleteObj, hp, callDtor_plain n s p o hp ho he, bind, Except.bind, pure, Except.pure]
  apply Heap.ext_fields <;> intros <;> simp
  split_ifs <;> simp_all

theorem DeletePtr_deleted (d : Dtor) (s : Heap) (b : Nat) (blk : BlockBase) (fck : Bool)
    (hb : b ≠ 0) (hs : s.blocks b = some blk) (hd : blk.deleted = true) :
    DeletePtr d s b fck = Except.ok s := by
  simp [DeletePtr, Heap.load, hb, hs, hd, bind, Except.bind, pure, Except.pure]

theorem DeletePtr_emplace (n : Nat) (s : Heap) (b : Nat) (blk : BlockBase) (o : Obj)
    (hb : b ≠ 0) (hs : s.blocks b = some blk) (hd : blk.deleted = false)
    (hem : blk.emplace = true) (ho : s.objs (Ptr.storage b) = some o) (he : o.esft = false) :
    DeletePtr (objDtor (n + 1)) s b false = Except.ok
      (((s.setBlock b (some { blk with deleted := true })).emit (Event.dtor (Ptr.storage b))).setObj
        (Ptr.storage b) (some { o with alive := false })) := by
  simp [DeletePtr, Heap.load, hb, hs, hd, hem, bind, Except.bind, pure, Except.pure,
    callDtor, objDtor, Heap.loadObj, ho, he]

theorem DeletePtr_null (d : Dtor) (s : Heap) (b : Nat) (blk : BlockBase)
    (hb : b ≠ 0) (hs : s.blocks b = some blk) (hd : blk.deleted = false)
    (hem : blk.emplace = false) (hp : blk.ptr = Ptr.null) :
    DeletePtr d s b false = Except.ok (s.setBlock b (some { blk with deleted := true })) := by
  simp [DeletePtr, Heap.load, hb, hs, hd, hem, hp, deleteObj_null, bind,
    Except.bind, pure, Except.pure]

theorem DeletePtr_raw (n : Nat) (s : Heap) (b : Nat) (blk : BlockBase) (o : Obj)
    (hb : b ≠ 0) (hs : s.blocks b = some blk) (hd : blk.deleted = false)
    (hem : blk.emplace = false) (hp : blk.ptr ≠ Ptr.null) (ho : s.objs blk.ptr = some o)
    (he : o.esft = false) :
    DeletePtr (objDtor (n + 1)) s b false = Except.ok
      (((s.setBlock b (some { blk with deleted := true, ptr := Ptr.null })).emit
        (Event.dtor blk.ptr)).setObj blk.ptr none) := by
  simp [DeletePtr, Heap.load, hb, hs, hd, hem, bind, Except.bind, pure, Except.pure,
    deleteObj, callDtor, objDtor, Heap.loadObj, hp, ho, he]
  apply Heap.ext_fields <;> intros <;> simp <;> (try split_ifs) <;> (try simp_all)

theorem deleteBlock_deleted (d : Dtor) (s : Heap) (b : Nat) (blk : BlockBase)
    (hb : b ≠ 0) (hs : s.blocks b = some blk) (hd : blk.deleted = true) :
    deleteBlock d s b = Except.ok ((s.freeBlock b blk.emplace).emit (Event.dealloc b)) := by
  simp [deleteBlock, Heap.load, hb, hs, hd, bind, Except.bind, pure, Except.pure]

theorem deleteBlock_emplace (n : Nat) (s : Heap) (b : Nat) (blk : BlockBase) (o : Obj)
    (hb : b ≠ 0) (hs : s.blocks b = some blk) (hd : blk.deleted = false)
    (hem : blk.emplace = true) (ho : s.objs (Ptr.storage b) = some o) (he : o.esft = false) :
    deleteBlock (objDtor (n + 1)) s b = Except.ok
      ((((s.setBlock b none).emit (Event.dtor (Ptr.storage b))).setObj (Ptr.storage b) none).emit
        (Event.dealloc b)) := by
  simp [deleteBlock, Heap.load, hb, hs, hd, hem, bind, Except.bind, pure, Except.pure,
    callDtor, objDtor, Heap.loadObj, ho, he]
  apply Heap.ext_fields <;> intros <;> simp <;> (try split_ifs) <;> (try simp_all)

theorem deleteBlock_null (d : Dtor) (s : Heap) (b : Nat) (blk : BlockBase)
    (hb : b ≠ 0) (hs : s.blocks b = some blk) (hd : blk.deleted = false)
    (hem : blk.emplace = false) (hp : blk.ptr = Ptr.null) :
    deleteBlock d s b = Except.ok ((s.setBlock b none).emit (Event.dealloc b)) := by
  simp [deleteBlock, Heap.load, hb, hs, hd, hem, hp, deleteObj_null, bind,
    Except.bind, pure, Except.pure]
  apply Heap.ext_fields <;> intros <;> simp
  split_ifs <;> rfl

theorem deleteBlock_raw (n : Nat) (s : Heap) (b : Nat) (blk : BlockBase) (o : Obj)
    (hb : b ≠ 0) (hs : s.blocks b = some blk) (hd : blk.deleted = false)
    (hem : blk.emplace = false) (hp : blk.ptr ≠ Ptr.null) (ho : s.objs blk.ptr = some o)
    (he : o.esft = false) :
    deleteBlock (objDtor (n + 1)) s b = Except.ok
      ((((s.setBlock b none).emit (Event.dtor blk.ptr)).setObj blk.ptr none).emit
        (Event.dealloc b)) := by
  simp [deleteBlock, Heap.load, hb, hs, hd, hem, bind, Except.bind, pure, Except.pure,
    deleteObj, callDtor, objDtor, Heap.loadObj, hp, ho, he]
  apply Heap.ext_fields <;> intros <;> simp <;> (try split_ifs) <;> (try simp_all)

/-! ## The two `Reset` methods, case by case -/

theorem Reset_null (d : Dtor) (esft : Bool) (s : Heap) (h : SharedPtr) (hb : h.block_ = 0) :
    SharedPtr.Reset d esft s h = Except.ok (s, ⟨Ptr.null, 0⟩) := by
  simp [SharedPtr.Reset, hb, bind, Except.bind, pure, Except.pure]

theorem Reset_keep (d : Dtor) (esft : Bool) (s : Heap) (h : SharedPtr) (blk : BlockBase)
    (hb : h.block_ ≠ 0) (hs : s.blocks h.block_ = some blk) (hc : sizeDec blk.cnt ≠ 0) :
    SharedPtr.Reset d esft s h = Except.ok
      (s.setBlock h.block_ (some { blk with cnt := sizeDec blk.cnt }), ⟨Ptr.null, 0⟩) := by
  simp [SharedPtr.Reset, decCnt, bothZero, Heap.load, hb, hs, hc, bind, Except.bind, pure,
    Except.pure]

theorem Reset_last_weak_emplace (n : Nat) (s : Heap) (h : SharedPtr) (blk : BlockBase) (o : Obj)
    (hb : h.block_ ≠ 0) (hs : s.blocks h.block_ = some blk) (hc : sizeDec blk.cnt = 0)
    (hw : blk.cnt_weak ≠ 0) (hd : blk.deleted = false) (hem : blk.emplace = true)
    (ho : s.objs (Ptr.storage h.block_) = some o) (he : o.esft = false) :
    SharedPtr.Reset (objDtor (n + 1)) false s h = Except.ok
      (((s.setBlock h.block_ (some { blk with cnt := 0, deleted := true })).emit
          (Event.dtor (Ptr.storage h.block_))).setObj (Ptr.storage h.block_)
            (some { o with alive := false }), ⟨Ptr.null, 0⟩) := by
  simp [SharedPtr.Reset, decCnt, bothZero, DeletePtr, callDtor, objDtor, Heap.load, Heap.loadObj,
    hb, hs, hc, hw, hd, hem, ho, he, bind, Except.bind, pure, Except.pure]

theorem Reset_last_weak_raw (n : Nat) (s : Heap) (h : SharedPtr) (blk : BlockBase) (o : Obj)
    (hb : h.block_ ≠ 0) (hs : s.blocks h.block_ = some blk) (hc : sizeDec blk.cnt = 0)
    (hw : blk.cnt_weak ≠ 0) (hd : blk.deleted = false) (hem : blk.emplace = false)
    (hp : blk.ptr ≠ Ptr.null) (ho : s.objs blk.ptr = some o) (he : o.esft = false) :
    SharedPtr.Reset (objDtor (n + 1)) false s h = Except.ok
      (((s.setBlock h.block_ (some { blk with cnt := 0, deleted := true, ptr := Ptr.null })).emit
          (Event.dtor blk.ptr)).setObj blk.ptr none, ⟨Ptr.null, 0⟩) := by
  simp [SharedPtr.Reset, decCnt, bothZero, DeletePtr, deleteObj, callDtor, objDtor, Heap.load,
    Heap.loadObj, hb, hs, hc, hw, hd, hem, hp, ho, he, bind, Except.bind, pure, Except.pure]
  apply Heap.ext_fields <;> intros <;> simp <;> (try split_ifs) <;> (try simp_all)

/-- Releasing a share of a block with a plain object succeeds and touches no other block. -/
theorem Reset_plain_frame (n : Nat) (s : Heap) (h : SharedPtr) (blk : BlockBase)
    (hb : h.block_ ≠ 0) (hs : s.blocks h.block_ = some blk) (hp : PlainObj s h.block_ blk) :
    ∃ s1, SharedPtr.Reset (objDtor (n + 1)) false s h = Except.ok (s1, ⟨Ptr.null, 0⟩) ∧
      ∀ x, x ≠ h.block_ → s1.blocks x = s.blocks x := by
  by_cases hc : sizeDec blk.cnt = 0
  · -- the last share
    have hcase : blk.deleted = true ∨
        (blk.deleted = false ∧ blk.emplace = false ∧ blk.ptr = Ptr.null) ∨
        (blk.deleted = false ∧ blk.emplace = true ∧
          ∃ o, s.objs (Ptr.storage h.block_) = some o ∧ o.esft = false) ∨
        (blk.deleted = false ∧ blk.emplace = false ∧ blk.ptr ≠ Ptr.null ∧
          ∃ o, s.objs blk.ptr = some o ∧ o.esft = false) := by
      cases hd : blk.deleted with
      | true => exact Or.inl rfl
      | false =>
        right
        cases hem : blk.emplace with
        | true =>
          rcases hp with h1 | h1 | ⟨o, ho, he⟩
          · simp [hd] at h1
          · simp [BlockBase.Get, hem] at h1
          · exact Or.inr (Or.inl ⟨rfl, rfl, o, by simpa [BlockBase.Get, hem] using ho, he⟩)
        | false =>
          by_cases hnull : blk.ptr = Ptr.null
          · exact Or.inl ⟨rfl, rfl, hnull⟩
          · rcases hp with h1 | h1 | ⟨o, ho, he⟩
            · simp [hd] at h1
            · simp [BlockBase.Get, hem, hnull] at h1
            · exact Or.inr (Or.inr ⟨rfl, rfl, hnull, o, by simpa [BlockBase.Get, hem] using ho, he⟩)
    by_cases hw : blk.cnt_weak = 0
    · rcases hcase with hd | ⟨hd, hem, hnull⟩ | ⟨hd, hem, o, ho, he⟩ | ⟨hd, hem, hnull, o, ho, he⟩
      · simp [SharedPtr.Reset, decCnt, bothZero, deleteBlock, Heap.load, hb, hs, hc, hw, hd, bind,
          Except.bind, pure, Except.pure]
        intro x hx; simp [hx]
      · simp [SharedPtr.Reset, decCnt, bothZero, deleteBlock, deleteObj, Heap.load, hb, hs, hc, hw,
          hd, hem, hnull, bind, Except.bind, pure, Except.pure]
        intro x hx; simp [hx]
      · simp [SharedPtr.Reset, decCnt, bothZero, deleteBlock, callDtor, objDtor, Heap.load,
          Heap.loadObj, hb, hs, hc, hw, hd, hem, ho, he, bind, Except.bind, pure, Except.pure]
        intro x hx; simp [hx]
      · simp [SharedPtr.Reset, decCnt, bothZero, deleteBlock, deleteObj, callDtor, objDtor,
          Heap.load, Heap.loadObj, hb, hs, hc, hw, hd, hem, hnull, ho, he, bind, Except.bind, pure,
          Except.pure]
        intro x hx; simp [hx]
    · rcases hcase with hd | ⟨hd, hem, hnull⟩ | ⟨hd, hem, o, ho, he⟩ | ⟨hd, hem, hnull, o, ho, he⟩
      · simp [SharedPtr.Reset, decCnt, bothZero, DeletePtr, Heap.load, hb, hs, hc, hw, hd, bind,
          Except.bind, pure, Except.pure]
        intro x hx; simp [hx]
      · simp [SharedPtr.Reset, decCnt, bothZero, DeletePtr, deleteObj, Heap.load, hb, hs, hc, hw,
          hd, hem, hnull, bind, Except.bind, pure, Except.pure]
        intro x hx; simp [hx]
      · simp [SharedPtr.Reset, decCnt, bothZero, DeletePtr, callDtor, objDtor, Heap.load,
          Heap.loadObj, hb, hs, hc, hw, hd, hem, ho, he, bind, Except.bind, pure, Except.pure]
        intro x hx; simp [hx]
      · simp [SharedPtr.Reset, decCnt, bothZero, DeletePtr, deleteObj, callDtor, objDtor,
          Heap.load, Heap.loadObj, hb, hs, hc, hw, hd, hem, hnull, ho, he, bind, Except.bind, pure,
          Except.pure]
        intro x hx; simp [hx]
  · exact ⟨_, Reset_keep _ false s h blk hb hs hc, fun x hx => by simp [hx]⟩

/-- Releasing a share of a block with a self-referencing object succeeds and touches no
other block. -/
theorem Reset_selfRef_frame (n : Nat) (s : Heap) (h : SharedPtr) (blk : BlockBase)
    (hb : h.block_ ≠ 0) (hs : s.blocks h.block_ = some blk) (hd : blk.deleted = false)
    (hself : SelfRefAt s (blk.Get h.block_) h.block_) :
    ∃ s1, SharedPtr.Reset (objDtor (n + 1)) true s h = Except.ok (s1, ⟨Ptr.null, 0⟩) ∧
      ∀ x, x ≠ h.block_ → s1.blocks x = s.blocks x := by
  obtain ⟨hp, o, ho, hoe, hoa, hw⟩ := hself
  by_cases hc : sizeDec blk.cnt = 0
  · have h10 : sizeDec (sizeInc 0) = 0 := by decide
    have h1 : sizeInc 0 ≠ 0 := by decide
    cases hem : blk.emplace with
    | true =>
      have hg : blk.Get h.block_ = Ptr.storage h.block_ := by simp [BlockBase.Get, hem]
      rw [hg] at hp ho
      by_cases hw0 : blk.cnt_weak = 0
      · have hm : sizeDec 0 ≠ 0 := by decide
        simp [SharedPtr.Reset, decCnt, bothZero, deleteBlock, callDtor, objDtor, WeakPtr.Reset,
          decWeak, Heap.load, Heap.loadObj, hb, hs, hc, hw0, hd, hem, ho, hoe, hw, hm, bind,
          Except.bind, pure, Except.pure]
        intro x hx; simp [hx]
      · by_cases hw1 : sizeDec blk.cnt_weak = 0
        · simp [SharedPtr.Reset, decCnt, incCnt, bothZero, DeletePtr, deleteBlock, callDtor,
            objDtor, WeakPtr.Reset, decWeak, Heap.load, Heap.loadObj, hb, hs, hc, hw0, hw1, hd,
            hem, ho, hoe, hw, h10, h1, bind, Except.bind, pure, Except.pure]
          intro x hx; simp [hx]
        · simp [SharedPtr.Reset, decCnt, incCnt, bothZero, DeletePtr, deleteBlock, callDtor,
            objDtor, WeakPtr.Reset, decWeak, Heap.load, Heap.loadObj, hb, hs, hc, hw0, hw1, hd,
            hem, ho, hoe, hw, h10, h1, bind, Except.bind, pure, Except.pure]
          intro x hx; simp [hx]
    | false =>
      have hg : blk.Get h.block_ = blk.ptr := by simp [BlockBase.Get, hem]
      rw [hg] at hp ho
      by_cases hw0 : blk.cnt_weak = 0
      · have hm : sizeDec 0 ≠ 0 := by decide
        simp [SharedPtr.Reset, decCnt, bothZero, deleteBlock, deleteObj, callDtor, objDtor,
          WeakPtr.Reset, decWeak, Heap.load, Heap.loadObj, hb, hs, hc, hw0, hd, hem, hp, ho, hoe,
          hw, hm, bind, Except.bind, pure, Except.pure]
        intro x hx; simp [hx]
      · by_cases hw1 : sizeDec blk.cnt_weak = 0
        · simp [SharedPtr.Reset, decCnt, incCnt, bothZero, DeletePtr, deleteBlock, deleteObj,
            callDtor, objDtor, WeakPtr.Reset, decWeak, Heap.load, Heap.loadObj, hb, hs, hc, hw0,
            hw1, hd, hem, hp, ho, hoe, hw, h10, h1, bind, Except.bind, pure, Except.pure]
          intro x hx; simp [hx]
        · simp [SharedPtr.Reset, decCnt, incCnt, bothZero, DeletePtr, deleteBlock, deleteObj,
            callDtor, objDtor, WeakPtr.Reset, decWeak, Heap.load, Heap.loadObj, hb, hs, hc, hw0,
            hw1, hd, hem, hp, ho, hoe, hw, h10, h1, bind, Except.bind, pure, Except.pure]
          intro x hx; simp [hx]
  · exact ⟨_, Reset_keep _ true s h blk hb hs hc, fun x hx => by simp [hx]⟩

/-- Releasing a share of a releasable block succeeds and touches no other block. -/
theorem Reset_frame (n : Nat) (esft : Bool) (s : Heap) (h : SharedPtr) (blk : BlockBase)
    (hb : h.block_ ≠ 0) (hs : s.blocks h.block_ = some blk)
    (hr : Releasable esft s h.block_ blk) :
    ∃ s1, SharedPtr.Reset (objDtor (n + 1)) esft s h = Except.ok (s1, ⟨Ptr.null, 0⟩) ∧
      ∀ x, x ≠ h.block_ → s1.blocks x = s.blocks x := by
  rcases hr with hc | ⟨he, hp⟩ | ⟨he, hd, hself⟩
  · exact ⟨_, Reset_keep _ esft s h blk hb hs hc, fun x hx => by simp [hx]⟩
  · subst he
    exact Reset_plain_frame n s h blk hb hs hp
  · subst he
    exact Reset_selfRef_frame n s h blk hb hs hd hself

theorem WeakReset_null (d : Dtor) (s : Heap) (w : WeakPtr) (hb : w.block_ = 0) :
    WeakPtr.Reset d s w = Except.ok (s, ⟨0, Ptr.null⟩) := by
  simp [WeakPtr.Reset, hb, bind, Except.bind, pure, Except.pure]

theorem WeakReset_keep (d : Dtor) (s : Heap) (w : WeakPtr) (blk : BlockBase)
    (hb : w.block_ ≠ 0) (hs : s.blocks w.block_ = some blk)
    (hk : sizeDec blk.cnt_weak ≠ 0 ∨ blk.cnt ≠ 0) :
    WeakPtr.Reset d s w = Except.ok
      (s.setBlock w.block_ (some { blk with cnt_weak := sizeDec blk.cnt_weak }), ⟨0, Ptr.null⟩) := by
  rcases hk with hk | hk <;>
    simp [WeakPtr.Reset, decWeak, Heap.load, hb, hs, hk, bind, Except.bind, pure, Except.pure]

theorem WeakReset_last (d : Dtor) (s : Heap) (w : WeakPtr) (blk : BlockBase)
    (hb : w.block_ ≠ 0) (hs : s.blocks w.block_ = some blk)
    (hk : sizeDec blk.cnt_weak = 0) (hc : blk.cnt = 0) (hd : blk.deleted = true) :
    WeakPtr.Reset d s w = Except.ok
      (((s.setBlock w.block_ (some { blk with cnt_weak := 0 })).freeBlock w.block_
        blk.emplace).emit (Event.dealloc w.block_), ⟨0, Ptr.null⟩) := by
  simp [WeakPtr.Reset, decWeak, deleteBlock, Heap.load, hb, hs, hk, hc, hd, bind, Except.bind,
    pure, Except.pure]

/-- Resetting `j` weak handles of an expired block that has `k ≥ j` of them: the block
survives while `j < k` and is released, with no destructor call, when `j = k`. -/
theorem resetAll_expired (d : Dtor) (b : Nat) (hb : b ≠ 0) :
    ∀ (ws : List WeakPtr) (s : Heap) (blk : BlockBase), (∀ w ∈ ws, w.block_ = b) →
      s.blocks b = some blk → blk.cnt = 0 → blk.deleted = true → ws.length ≤ blk.cnt_weak →
      blk.cnt_weak < SIZE_MOD →
      ∃ s2, WeakPtr.resetAll d s ws = Except.ok s2 ∧
        (ws.length < blk.cnt_weak →
          s2.blocks b = some { blk with cnt_weak := blk.cnt_weak - ws.length } ∧ s2.log = s.log) ∧
        (ws.length = blk.cnt_weak → 1 ≤ blk.cnt_weak →
          s2.blocks b = none ∧ s2.log = s.log ++ [Event.dealloc b]) := by
  intro ws
  induction ws with
  | nil =>
    intro s blk _ hs _ _ _ _
    refine ⟨s, rfl, fun _ => ⟨by simpa using hs, rfl⟩, fun h0 h1 => ?_⟩
    simp at h0; omega
  | cons w ws ih =>
    intro s blk hall hs hc hd hlen hlt
    have hwb : w.block_ = b := hall w (List.mem_cons_self _ _)
    have hall2 : ∀ w2 ∈ ws, w2.block_ = b := fun w2 h2 => hall w2 (List.mem_cons_of_mem _ h2)
    simp only [List.length_cons] at hlen
    have hdec : sizeDec blk.cnt_weak = blk.cnt_weak - 1 := sizeDec_of_pos _ (by omega) hlt
    by_cases hlast : blk.cnt_weak = 1
    · -- the last weak handle: `ws` must be empty
      have hnil : ws = [] := by
        cases ws with
        | nil => rfl
        | cons _ _ => simp at hlen; omega
      subst hnil
      have hr := WeakReset_last d s w blk (hwb ▸ hb) (hwb ▸ hs) (by omega) hc hd
      rw [hwb] at hr
      refine ⟨_, by simp [WeakPtr.resetAll, hr, bind, Except.bind, pure, Except.pure]; rfl, ?_, ?_⟩
      · intro h; simp at h; omega
      · intro _ _; simp
    · have hr := WeakReset_keep d s w blk (hwb ▸ hb) (hwb ▸ hs) (Or.inl (by omega))
      rw [hwb] at hr
      obtain ⟨s2, h2, hA, hB⟩ := ih (s.setBlock b (some { blk with cnt_weak := sizeDec blk.cnt_weak }))
        { blk with cnt_weak := sizeDec blk.cnt_weak } hall2 (by simp) hc hd
        (by simp only [hdec]; omega) (by simp only [hdec]; omega)
      refine ⟨s2, by simp [WeakPtr.resetAll, hr, bind, Except.bind, h2], ?_, ?_⟩
      · intro hl
        simp only [List.length_cons] at hl
        have := hA (by simp only [hdec]; omega)
        simp only [hdec, setBlock_log] at this
        refine ⟨?_, this.2⟩
        rw [this.1]
        have e : blk.cnt_weak - 1 - ws.length = blk.cnt_weak - (ws.length + 1) := by omega
        simp only [List.length_cons, e]
      · intro hl h1
        simp only [List.length_cons] at hl
        have := hB (by simp only [hdec]; omega) (by simp only [hdec]; omega)
        simpa using this

/-! ## Construction -/

theorem copy_plain (d : Dtor) (s : Heap) (a : SharedPtr) (blk : BlockBase)
    (hb : a.block_ ≠ 0) (hs : s.blocks a.block_ = some blk) :
    SharedPtr.copy d false s a = Except.ok
      (s.setBlock a.block_ (some { blk with cnt := sizeInc blk.cnt }), ⟨a.ptr_, a.block_⟩) := by
  simp [SharedPtr.copy, incCnt_of s _ blk hb hs, hb, bind, Except.bind, pure, Except.pure]

theorem copy_selfRef (d : Dtor) (s : Heap) (a : SharedPtr) (blk : BlockBase) (o : Obj)
    (hb : a.block_ ≠ 0) (hs : s.blocks a.block_ = some blk) (hc0 : blk.cnt ≠ 0)
    (hk : blk.cnt_weak < SIZE_MOD) (hp : a.ptr_ ≠ Ptr.null) (ho : s.objs a.ptr_ = some o)
    (hoe : o.esft = true) (hoa : o.alive = true) (hw : o.weak_this.block_ = a.block_) :
    SharedPtr.copy d true s a = Except.ok
      ((s.setObj a.ptr_ (some { o with weak_this := ⟨a.block_, a.ptr_⟩ })).setBlock a.block_
        (some { blk with cnt := sizeInc blk.cnt }), ⟨a.ptr_, a.block_⟩) := by
  simp [SharedPtr.copy, setWeakThis, WeakPtr.assignShared, WeakPtr.Reset, hoe, hoa, hw, hb, hs,
      bind, Except.bind, pure, Except.pure, Heap.load, hc0, incWeak, decWeak, Heap.loadObj, hp, ho,
      incCnt, sizeInc_sizeDec _ hk]
  apply Heap.ext_fields <;> intros <;> simp
  split_ifs <;> simp_all

theorem alias_plain (d : Dtor) (s : Heap) (a : SharedPtr) (p : Ptr) (blk : BlockBase)
    (hb : a.block_ ≠ 0) (hs : s.blocks a.block_ = some blk) :
    SharedPtr.alias d false s a p = Except.ok
      (s.setBlock a.block_ (some { blk with cnt := sizeInc blk.cnt }), ⟨p, a.block_⟩) := by
  simp [SharedPtr.alias, incCnt_of s _ blk hb hs, hb, bind, Except.bind, pure, Except.pure]

theorem alias_selfRef (d : Dtor) (s : Heap) (a : SharedPtr) (p : Ptr) (blk : BlockBase) (o : Obj)
    (hb : a.block_ ≠ 0) (hs : s.blocks a.block_ = some blk) (hc0 : blk.cnt ≠ 0)
    (hk : blk.cnt_weak < SIZE_MOD) (hp : p ≠ Ptr.null) (ho : s.objs p = some o)
    (hoe : o.esft = true) (hoa : o.alive = true) (hw : o.weak_this.block_ = a.block_) :
    SharedPtr.alias d true s a p = Except.ok
      ((s.setObj p (some { o with weak_this := ⟨a.block_, p⟩ })).setBlock a.block_
        (some { blk with cnt := sizeInc blk.cnt }), ⟨p, a.block_⟩) := by
  simp [SharedPtr.alias, setWeakThis, WeakPtr.assignShared, WeakPtr.Reset, hoe, hoa, hw, hb, hs,
      bind, Except.bind, pure, Except.pure, Heap.load, hc0, incWeak, decWeak, Heap.loadObj, hp, ho,
      incCnt, sizeInc_sizeDec _ hk]
  apply Heap.ext_fields <;> intros <;> simp
  split_ifs <;> simp_all

theorem alias_selfRef_fresh (d : Dtor) (s : Heap) (a : SharedPtr) (p : Ptr) (blk : BlockBase)
    (o : Obj) (hb : a.block_ ≠ 0) (hs : s.blocks a.block_ = some blk)
    (hp : p ≠ Ptr.null) (ho : s.objs p = some o)
    (hoe : o.esft = true) (hoa : o.alive = true) (hw : o.weak_this.block_ = 0) :
    SharedPtr.alias d true s a p = Except.ok
      ((s.setObj p (some { o with weak_this := ⟨a.block_, p⟩ })).setBlock a.block_
        (some { blk with cnt := sizeInc blk.cnt, cnt_weak := sizeInc blk.cnt_weak }),
       ⟨p, a.block_⟩) := by
  simp [SharedPtr.alias, setWeakThis, WeakPtr.assignShared, WeakPtr.Reset, hoe, hoa, hw, hb, hs,
      bind, Except.bind, pure, Except.pure, Heap.load, incWeak, Heap.loadObj, hp, ho, incCnt]
  apply Heap.ext_fields <;> intros <;> simp
  split_ifs <;> simp_all

/-- Whatever the aliasing constructor does to the state, the handle it builds holds the
given pointer and the block of the handle it was built from. -/
theorem alias_handle (d : Dtor) (esft : Bool) (s s1 : Heap) (a m : SharedPtr) (p : Ptr)
    (h : SharedPtr.alias d esft s a p = Except.ok (s1, m)) : m = ⟨p, a.block_⟩ := by
  unfold SharedPtr.alias at h
  simp only [bind, Except.bind, pure, Except.pure] at h
  cases esft with
  | false =>
    simp only [Bool.false_eq_true, if_false] at h
    split at h
    · split at h
      · simp at h
      · simp only [Except.ok.injEq, Prod.mk.injEq] at h
        exact h.2.symm
    · simp only [Except.ok.injEq, Prod.mk.injEq] at h
      exact h.2.symm
  | true =>
    simp only [if_true] at h
    split at h
    · simp at h
    · split at h
      · split at h
        · simp at h
        · simp only [Except.ok.injEq, Prod.mk.injEq] at h
          exact h.2.symm
      · simp only [Except.ok.injEq, Prod.mk.injEq] at h
        exact h.2.symm

theorem MakeShared_plain (d : Dtor) (s : Heap) (v : Int) :
    MakeShared d false s v = Except.ok
      ((s.newBlock true Ptr.null).1.setObj (Ptr.storage (s.next + 1))
        (some { val := v, alive := true, esft := false, weak_this := {} }),
       ⟨Ptr.storage (s.next + 1), s.next + 1⟩) := by
  simp [MakeShared, SharedPtr.ofBlock, Heap.newBlock, bind, Except.bind, pure, Except.pure]

theorem MakeShared_selfRef (d : Dtor) (s : Heap) (v : Int) :
    MakeShared d true s v = Except.ok
      (((s.newBlock true Ptr.null).1.setBlock (s.next + 1)
          (some { cnt := 1, cnt_weak := 1, deleted := false, emplace := true, ptr := Ptr.null })).setObj
        (Ptr.storage (s.next + 1))
        (some { val := v, alive := true, esft := true,
                weak_this := ⟨s.next + 1, Ptr.storage (s.next + 1)⟩ }),
       ⟨Ptr.storage (s.next + 1), s.next + 1⟩) := by
  simp [MakeShared, SharedPtr.ofBlock, Heap.newBlock, setWeakThis, WeakPtr.assignShared,
    WeakPtr.Reset, incWeak, Heap.load, Heap.loadObj, Heap.setObj, Heap.setBlock, sizeInc, SIZE_MOD,
    bind, Except.bind, pure, Except.pure]
  funext a
  split_ifs <;> simp_all

/-- What `ptr->weak_this = *this;` does for a handle attached to a block with a nonzero strong
count, when `ptr_` points to a living object of a type with the member: `weak_this` ends up
holding the block and the pointer of the handle. The weak count of the block is what it was
when `weak_this` was attached to it before, and one higher when `weak_this` was empty or
attached to another block, which stays allocated and loses one from its weak count. -/
theorem setWeakThis_attach (d : Dtor) (s : Heap) (this : SharedPtr) (blk : BlockBase) (o : Obj)
    (hb : this.block_ ≠ 0) (hs : s.blocks this.block_ = some blk) (hc0 : blk.cnt ≠ 0)
    (hk : blk.cnt_weak + 1 < SIZE_MOD) (hp : this.ptr_ ≠ Ptr.null)
    (ho : s.objs this.ptr_ = some o) (hoe : o.esft = true) (hoa : o.alive = true)
    (hw : o.weak_this.block_ = this.block_ ∨ o.weak_this.block_ = 0 ∨
      ∃ kx, s.blocks o.weak_this.block_ = some kx ∧ (kx.cnt ≠ 0 ∨ sizeDec kx.cnt_weak ≠ 0)) :
    ∃ s1, setWeakThis d s this.ptr_ this = Except.ok s1 ∧
      s1.blocks this.block_ = some { blk with cnt_weak :=
        if o.weak_this.block_ = this.block_ then blk.cnt_weak else blk.cnt_weak + 1 } ∧
      s1.objs this.ptr_ = some { o with weak_this := ⟨this.block_, this.ptr_⟩ } ∧
      (∀ x, x ≠ this.block_ → x ≠ o.weak_this.block_ → s1.blocks x = s.blocks x) ∧
      (∀ q, q ≠ this.ptr_ → s1.objs q = s.objs q) ∧
      s1.log = s.log ∧ s1.next = s.next := by
  have hinc : sizeInc blk.cnt_weak = blk.cnt_weak + 1 := sizeInc_of_lt _ hk
  by_cases hsame : o.weak_this.block_ = this.block_
  · refine ⟨(s.setObj this.ptr_ (some { o with weak_this := ⟨this.block_, this.ptr_⟩ })), ?_, ?_,
      by simp, fun x _ _ => rfl, fun q hq => by simp [hq], rfl, rfl⟩
    · simp [setWeakThis, WeakPtr.assignShared, WeakPtr.Reset, hoe, hoa, hsame, hb, hs,
        bind, Except.bind, pure, Except.pure, Heap.load, hc0, incWeak, decWeak, Heap.loadObj, hp,
        ho, sizeInc_sizeDec _ (show blk.cnt_weak < SIZE_MOD by omega)]
      apply Heap.ext_fields <;> intros <;> simp
      intro hx
      rw [hx, hs]
    · simp [hsame, hs]
  · by_cases hzero : o.weak_this.block_ = 0
    · refine ⟨(s.setBlock this.block_ (some { blk with cnt_weak := blk.cnt_weak + 1 })).setObj
        this.ptr_ (some { o with weak_this := ⟨this.block_, this.ptr_⟩ }), ?_, ?_,
        by simp, fun x hx _ => by simp [hx], fun q hq => by simp [hq], rfl, rfl⟩
      · simp [setWeakThis, WeakPtr.assignShared, WeakPtr.Reset, hoe, hoa, hzero, hb, hs,
          bind, Except.bind, pure, Except.pure, Heap.load, incWeak, Heap.loadObj, hp, ho, hinc]
      · simp [hsame]
    · obtain ⟨kx, hkx, hsurv⟩ : ∃ kx, s.blocks o.weak_this.block_ = some kx ∧
          (kx.cnt ≠ 0 ∨ sizeDec kx.cnt_weak ≠ 0) := by
        rcases hw with h | h | h
        · exact absurd h hsame
        · exact absurd h hzero
        · exact h
      have hne : this.block_ ≠ o.weak_this.block_ := fun h => hsame h.symm
      have hcond : (sizeDec kx.cnt_weak == 0 && kx.cnt == 0) = false := by
        rcases hsurv with h | h <;> simp [h]
      refine ⟨((s.setBlock o.weak_this.block_
          (some { kx with cnt_weak := sizeDec kx.cnt_weak })).setBlock this.block_
          (some { blk with cnt_weak := blk.cnt_weak + 1 })).setObj
        this.ptr_ (some { o with weak_this := ⟨this.block_, this.ptr_⟩ }), ?_, ?_,
        by simp, fun x hx hx2 => by simp [hx, hx2], fun q hq => by simp [hq], rfl, rfl⟩
      · simp [setWeakThis, WeakPtr.assignShared, WeakPtr.Reset, hoe, hoa, hzero, hb, hs, hkx,
          hne, hcond, bind, Except.bind, pure, Except.pure, Heap.load, incWeak, decWeak,
          Heap.loadObj, hp, ho, hinc]
      · simp [hsame]

/-! ## C1: copy construction -/

/-- Claim C1 fails as stated: after `a.Reset(new T(42))`, which leaves `weak_this` of the
new object empty, the copy `b(a)` takes the block of `a` from counts 1/0 to 2/1; and after
an aliasing handle of another block has taken over `weak_this` of the object of `a`, the
copy `b(a)` takes it back, again from 1/0 to 2/1. The weak count is not unchanged. -/
theorem C1_counterexample :
    copyAfterResetPtr = Except.ok
      (some { cnt := 1, cnt_weak := 0, deleted := false, emplace := false, ptr := Ptr.raw 7 },
       some { cnt := 2, cnt_weak := 1, deleted := false, emplace := false, ptr := Ptr.raw 7 }) ∧
    copyAfterRewrap = Except.ok
      (some { cnt := 1, cnt_weak := 0, deleted := false, emplace := false, ptr := Ptr.raw 7 },
       some { cnt := 2, cnt_weak := 1, deleted := false, emplace := false, ptr := Ptr.raw 7 }) :=
  ⟨rfl, rfl⟩

/-- Claim C1, amended: `a` is attached to a block with strong count `c ≥ 1` (`c + 1` still a
`size_t`). For a handle type without the self-reference capability, copy-constructing `b`
from `a` succeeds; afterwards `a.UseCount()` and `b.UseCount()` are both `c + 1`,
`a.Get() == b.Get()`, `b` is attached to the block of `a`, and the weak count of that block
is what it was. For a handle type with the capability, `a.ptr_` pointing to a living object
(weak count plus one still a `size_t`), the same holds except for the weak count: the copy
attaches `weak_this` of the object to the block of `a`, so the weak count is what it was
when `weak_this` was attached to that block already, and one higher when `weak_this` was
empty or attached to another block (one that keeps a strong share or another weak handle).
-/
theorem C1_copy_shares_block (d : Dtor) (s : Heap) (a : SharedPtr) (blk : BlockBase) (c : Nat)
    (hb : a.block_ ≠ 0) (hs : s.blocks a.block_ = some blk) (hc : blk.cnt = c)
    (h1 : 1 ≤ c) (h2 : c + 1 < SIZE_MOD) :
    (∃ s1 b, SharedPtr.copy d false s a = Except.ok (s1, b) ∧
      SharedPtr.UseCount s1 a = Except.ok (c + 1) ∧
      SharedPtr.UseCount s1 b = Except.ok (c + 1) ∧
      SharedPtr.Get s1 a = SharedPtr.Get s1 b ∧
      SharedPtr.Get s1 b = Except.ok (if blk.deleted then Ptr.null else a.ptr_) ∧
      b.block_ = a.block_ ∧
      ∃ blk1, s1.blocks a.block_ = some blk1 ∧ blk1.cnt_weak = blk.cnt_weak) ∧
    (∀ o, a.ptr_ ≠ Ptr.null → s.objs a.ptr_ = some o → o.esft = true → o.alive = true →
      blk.cnt_weak + 1 < SIZE_MOD →
      (o.weak_this.block_ = a.block_ ∨ o.weak_this.block_ = 0 ∨
        ∃ kx, s.blocks o.weak_this.block_ = some kx ∧
          (kx.cnt ≠ 0 ∨ sizeDec kx.cnt_weak ≠ 0)) →
      ∃ s1 b, SharedPtr.copy d true s a = Except.ok (s1, b) ∧
        SharedPtr.UseCount s1 a = Except.ok (c + 1) ∧
        SharedPtr.UseCount s1 b = Except.ok (c + 1) ∧
        SharedPtr.Get s1 a = SharedPtr.Get s1 b ∧
        SharedPtr.Get s1 b = Except.ok (if blk.deleted then Ptr.null else a.ptr_) ∧
        b.block_ = a.block_ ∧
        (∃ blk1, s1.blocks a.block_ = some blk1 ∧ blk1.cnt_weak =
          if o.weak_this.block_ = a.block_ then blk.cnt_weak else blk.cnt_weak + 1) ∧
        s1.objs a.ptr_ = some { o with weak_this := ⟨a.block_, a.ptr_⟩ }) := by
  have hinc : sizeInc blk.cnt = c + 1 := by rw [hc]; exact sizeInc_of_lt c h2
  constructor
  · have hblk : (s.setBlock a.block_ (some { blk with cnt := sizeInc blk.cnt })).blocks
        a.block_ = some { blk with cnt := c + 1 } := by simp [hinc]
    refine ⟨_, ⟨a.ptr_, a.block_⟩, copy_plain d s a blk hb hs, ?_, ?_, rfl, ?_, rfl, _, hblk,
      rfl⟩
    · rw [useCount_of _ a _ hb hblk]
    · rw [useCount_of _ ⟨a.ptr_, a.block_⟩ _ hb hblk]
    · rw [get_of _ ⟨a.ptr_, a.block_⟩ _ hb hblk]
  · intro o hp ho hoe hoa hk hw
    obtain ⟨s1, hset, hb1, ho1, _, _, _, _⟩ :=
      setWeakThis_attach d s ⟨a.ptr_, a.block_⟩ blk o hb hs (by omega) hk hp ho hoe hoa hw
    have hcopy : SharedPtr.copy d true s a = Except.ok
        (s1.setBlock a.block_ (some { blk with cnt := c + 1, cnt_weak :=
          if o.weak_this.block_ = a.block_ then blk.cnt_weak else blk.cnt_weak + 1 }),
          ⟨a.ptr_, a.block_⟩) := by
      have hi := incCnt_of s1 a.block_ _ hb hb1
      simp only [hinc] at hi
      simp [SharedPtr.copy, hset, hi, hb, bind, Except.bind, pure, Except.pure]
    have hblk : (s1.setBlock a.block_ (some { blk with cnt := c + 1, cnt_weak :=
          if o.weak_this.block_ = a.block_ then blk.cnt_weak else blk.cnt_weak + 1 })).blocks
        a.block_ = some { blk with cnt := c + 1, cnt_weak :=
          if o.weak_this.block_ = a.block_ then blk.cnt_weak else blk.cnt_weak + 1 } := by simp
    refine ⟨_, ⟨a.ptr_, a.block_⟩, hcopy, ?_, ?_, rfl, ?_, rfl, ⟨_, hblk, rfl⟩, ?_⟩
    · rw [useCount_of _ a _ hb hblk]
    · rw [useCount_of _ ⟨a.ptr_, a.block_⟩ _ hb hblk]
    · rw [get_of _ ⟨a.ptr_, a.block_⟩ _ hb hblk]
    · simpa using ho1

/-- Witness of C1: the copy of a handle of a plain object, of a handle of an object whose
`weak_this` is attached to the block (weak count 1 before and after), and of the handle
that `Reset(new T())` leaves, with `weak_this` empty (weak count 0 before, 1 after). -/
theorem C1_witness :
    (∃ s1 b, SharedPtr.copy (objDtor 1) false (plainHeap 1 0) ⟨Ptr.storage 1, 1⟩ =
        Except.ok (s1, b) ∧ SharedPtr.UseCount s1 b = Except.ok 2 ∧ b.block_ = 1 ∧
      ∃ blk1, s1.blocks 1 = some blk1 ∧ blk1.cnt_weak = 0) ∧
    (∃ s1 b, SharedPtr.copy (objDtor 1) true selfRefHeap ⟨Ptr.storage 1, 1⟩ =
        Except.ok (s1, b) ∧ SharedPtr.UseCount s1 b = Except.ok 2 ∧ b.block_ = 1 ∧
      ∃ blk1, s1.blocks 1 = some blk1 ∧ blk1.cnt_weak = 1) ∧
    (∃ s1 b, SharedPtr.copy (objDtor 1) true
        ((newObj true Heap.empty 7 42).1.newBlock false (Ptr.raw 7)).1 ⟨Ptr.raw 7, 1⟩ =
        Except.ok (s1, b) ∧ SharedPtr.UseCount s1 b = Except.ok 2 ∧ b.block_ = 1 ∧
      ∃ blk1, s1.blocks 1 = some blk1 ∧ blk1.cnt_weak = 1) := by
  obtain ⟨s1, b, h1, _, h3, _, _, h6, h7⟩ :=
    (C1_copy_shares_block (objDtor 1) (plainHeap 1 0) ⟨Ptr.storage 1, 1⟩
      { cnt := 1, cnt_weak := 0, deleted := false, emplace := true, ptr := Ptr.null } 1
      (by decide) rfl rfl (by decide) (by decide)).1
  obtain ⟨t1, b2, k1, _, k3, _, _, k6, k7, _⟩ :=
    (C1_copy_shares_block (objDtor 1) selfRefHeap ⟨Ptr.storage 1, 1⟩
      { cnt := 1, cnt_weak := 1, deleted := false, emplace := true, ptr := Ptr.null } 1
      (by decide) rfl rfl (by decide) (by decide)).2
      { val := 42, alive := true, esft := true, weak_this := ⟨1, Ptr.storage 1⟩ }
      (by decide) rfl rfl rfl (by decide) (Or.inl rfl)
  obtain ⟨u1, b3, l1, _, l3, _, _, l6, l7, _⟩ :=
    (C1_copy_shares_block (objDtor 1)
      ((newObj true Heap.empty 7 42).1.newBlock false (Ptr.raw 7)).1 ⟨Ptr.raw 7, 1⟩
      { cnt := 1, cnt_weak := 0, deleted := false, emplace := false, ptr := Ptr.raw 7 } 1
      (by decide) rfl rfl (by decide) (by decide)).2
      { val := 42, alive := true, esft := true, weak_this := {} }
      (by decide) rfl rfl rfl (by decide) (Or.inr (Or.inl rfl))
  exact ⟨⟨s1, b, h1, h3, h6, h7⟩, ⟨t1, b2, k1, k3, k6, k7⟩, ⟨u1, b3, l1, l3, l6, l7⟩⟩

/-! ## C2: move construction and move assignment -/

/-- Claim C4 fails: for a weak handle whose block has strong count 0, `Expired()` is true and
`Lock()` returns a handle that is attached to the block (`operator bool` true,
`UseCount() == 1`); only `Get()` is null. -/
theorem C4_lock_on_expired_is_attached :
    lockExpired = Except.ok (true, true, 1, Ptr.null, ⟨Ptr.null, 1⟩) := by
  rfl

/-! ## C5: explicit promotion -/

/-- Claim C5 fails: for an expired weak handle the promotion throws `BadWeakPtr`, but once
`Lock()` has been called on it and the result is held, the promotion of the same handle
returns a handle with use count 2 whose `Get()` is the address of the destroyed object. -/
theorem C5_promotion_after_lock_does_not_throw :
    promoteExpired = Except.error Err.BadWeakPtr ∧
    promoteAfterLock = Except.ok
      ([Event.dtor (Ptr.storage 1)], false, ⟨Ptr.storage 1, 1⟩, 2, Ptr.storage 1) := by
  exact ⟨rfl, rfl⟩

/-! ## C6: `MakeShared` followed by destruction -/

/-- Claim C7 fails for the embedded-storage block: `MakeShared`, a weak handle, reset of the
strong handle, `Lock()` and drop of its result, reset of the weak handle: the destructor
of the one managed object runs twice (the block is deallocated once). For a separately
allocated object the same code runs the destructor once. -/
theorem C7_destructor_runs_twice :
    lockThenDrop = Except.ok
      [Event.dtor (Ptr.storage 1), Event.dtor (Ptr.storage 1), Event.dealloc 1] ∧
    lockThenDropRaw = Except.ok [Event.dtor (Ptr.raw 7), Event.dealloc 1] := by
  exact ⟨rfl, rfl⟩

/-! ## C8: the scenario with the value 42 -/

/-- Claim C8: for every value `v`, `h1 = MakeShared(v)` has use count 1; after `h2 = h1` both
report 2; after `h1` is reset `h2` reports 1, nothing has been destroyed or deallocated,
the object is alive and `*h2 == v`. -/
theorem C8_make_copy_drop (d : Dtor) (esft : Bool) (s : Heap) (v : Int) :
    ∃ s1 h1 s2 h2 s3, MakeShared d esft s v = Except.ok (s1, h1) ∧
      SharedPtr.UseCount s1 h1 = Except.ok 1 ∧
      SharedPtr.copy d esft s1 h1 = Except.ok (s2, h2) ∧
      SharedPtr.UseCount s2 h1 = Except.ok 2 ∧ SharedPtr.UseCount s2 h2 = Except.ok 2 ∧
      SharedPtr.Reset d esft s2 h1 = Except.ok (s3, SharedPtr.null) ∧
      SharedPtr.UseCount s3 h2 = Except.ok 1 ∧
      s3.log = s.log ∧ s3.isAlive h2.ptr_ = true ∧
      SharedPtr.Get s3 h2 = Except.ok h2.ptr_ ∧ h2.ptr_ ≠ Ptr.null ∧
      SharedPtr.deref s3 h2 = Except.ok v := by
  have hb : s.next + 1 ≠ 0 := by omega
  have h21 : sizeInc 1 = 2 := by decide
  have h12 : sizeDec 2 = 1 := by decide
  -- the facts about the three states that the observers need
  have key : ∃ s1 s2 w o, MakeShared d esft s v =
        Except.ok (s1, ⟨Ptr.storage (s.next + 1), s.next + 1⟩) ∧
      s1.blocks (s.next + 1) =
        some { cnt := 1, cnt_weak := w, deleted := false, emplace := true, ptr := Ptr.null } ∧
      SharedPtr.copy d esft s1 ⟨Ptr.storage (s.next + 1), s.next + 1⟩ =
        Except.ok (s2, ⟨Ptr.storage (s.next + 1), s.next + 1⟩) ∧
      s2.blocks (s.next + 1) =
        some { cnt := 2, cnt_weak := w, deleted := false, emplace := true, ptr := Ptr.null } ∧
      s2.objs (Ptr.storage (s.next + 1)) = some o ∧ o.val = v ∧ o.alive = true ∧
      s2.log = s.log := by
    cases esft with
    | false =>
      exact ⟨_, _, 0, { val := v, alive := true, esft := false, weak_this := {} },
        MakeShared_plain d s v, by simp [Heap.newBlock],
        copy_plain d _ ⟨Ptr.storage (s.next + 1), s.next + 1⟩
          { cnt := 1, cnt_weak := 0, deleted := false, emplace := true, ptr := Ptr.null } hb
          (by simp [Heap.newBlock]),
        by simp [h21], by simp, rfl, rfl, by simp [Heap.newBlock]⟩
    | true =>
      exact ⟨_, _, 1,
        { val := v, alive := true, esft := true,
          weak_this := ⟨s.next + 1, Ptr.storage (s.next + 1)⟩ },
        MakeShared_selfRef d s v, by simp,
        copy_selfRef d _ ⟨Ptr.storage (s.next + 1), s.next + 1⟩
          { cnt := 1, cnt_weak := 1, deleted := false, emplace := true, ptr := Ptr.null }
          { val := v, alive := true, esft := true,
            weak_this := ⟨s.next + 1, Ptr.storage (s.next + 1)⟩ }
          hb (by simp) (by simp) (by decide) (by simp) (by simp) rfl rfl rfl,
        by simp [h21], by simp, rfl, rfl, by simp [Heap.newBlock]⟩
  obtain ⟨s1, s2, w, o, hmk, hb1, hcopy, hb2, ho2, hov, hoa, hl2⟩ := key
  have hreset := Reset_keep d esft s2 ⟨Ptr.storage (s.next + 1), s.next + 1⟩ _ hb hb2
    (by simp [h12])
  refine ⟨s1, _, s2, _, _, hmk, ?_, hcopy, ?_, ?_, hreset, ?_, ?_, ?_, ?_, ?_, ?_⟩
  · rw [useCount_of s1 _ _ hb hb1]
  · rw [useCount_of s2 _ _ hb hb2]
  · rw [useCount_of s2 _ _ hb hb2]
  · rw [useCount_of _ ⟨Ptr.storage (s.next + 1), s.next + 1⟩ _ hb
      (show (Heap.setBlock s2 _ _).blocks (s.next + 1) = _ by simp; rfl)]
    simp [h12]
  · simpa using hl2
  · simp [Heap.isAlive, ho2, hoa]
  · rw [get_of _ ⟨Ptr.storage (s.next + 1), s.next + 1⟩ _ hb
      (show (Heap.setBlock s2 _ _).blocks (s.next + 1) = _ by simp; rfl)]
    simp
  · simp
  · simp [SharedPtr.deref, Heap.loadObj, ho2, hoa, hov, bind, Except.bind, pure, Except.pure]

/-! ## C9: aliasing construction -/

/-- The aliasing construction where it is defined. `base` is attached to a block with strong
count `c ≥ 1` (with `c + 1` still a `size_t`) whose object is not destroyed. The aliasing
construction `member(base, p)` gives `member.Get() == p` and
`member.UseCount() == base.UseCount() == c + 1` on the block of `base`; after `base` is
reset nothing has been destroyed or deallocated, the block is allocated with strong count
`c`, and `member.UseCount() == c`. For a member type with the self-reference capability
`p` points to a living object whose `weak_this` is empty or attached to that block. -/
theorem alias_shares_ownership (d : Dtor) (esft esftBase : Bool) (s : Heap) (base : SharedPtr)
    (blk : BlockBase) (c : Nat) (p : Ptr)
    (hb : base.block_ ≠ 0) (hs : s.blocks base.block_ = some blk) (hc : blk.cnt = c)
    (h1 : 1 ≤ c) (h2 : c + 1 < SIZE_MOD) (hd : blk.deleted = false)
    (hT : esft = true → SelfRefAt s p 0 ∨
      (SelfRefAt s p base.block_ ∧ blk.cnt_weak < SIZE_MOD)) :
    ∃ s1 member s2, SharedPtr.alias d esft s base p = Except.ok (s1, member) ∧
      SharedPtr.Get s1 member = Except.ok p ∧
      SharedPtr.UseCount s1 member = Except.ok (c + 1) ∧
      SharedPtr.UseCount s1 base = Except.ok (c + 1) ∧
      member.block_ = base.block_ ∧
      SharedPtr.Reset d esftBase s1 base = Except.ok (s2, SharedPtr.null) ∧
      s2.log = s.log ∧ s2.objs = s1.objs ∧
      (∃ blk2, s2.blocks base.block_ = some blk2 ∧ blk2.deleted = false ∧ blk2.cnt = c) ∧
      SharedPtr.UseCount s2 member = Except.ok c ∧
      SharedPtr.Get s2 member = Except.ok p := by
  have hinc : sizeInc blk.cnt = c + 1 := by rw [hc]; exact sizeInc_of_lt c h2
  have hdec : sizeDec (c + 1) = c := by
    have := sizeDec_of_pos (c + 1) (by omega) h2
    simpa using this
  have key : ∃ s1 k, SharedPtr.alias d esft s base p = Except.ok (s1, ⟨p, base.block_⟩) ∧
      s1.blocks base.block_ = some { blk with cnt := c + 1, cnt_weak := k } ∧
      s1.log = s.log := by
    cases esft with
    | false => exact ⟨_, blk.cnt_weak, alias_plain d s base p blk hb hs, by simp [hinc], rfl⟩
    | true =>
      rcases hT rfl with ⟨hp, o, ho, hoe, hoa, hw⟩ | ⟨⟨hp, o, ho, hoe, hoa, hw⟩, hk⟩
      · exact ⟨_, sizeInc blk.cnt_weak,
          alias_selfRef_fresh d s base p blk o hb hs hp ho hoe hoa hw, by simp [hinc], rfl⟩
      · exact ⟨_, blk.cnt_weak,
          alias_selfRef d s base p blk o hb hs (by omega) hk hp ho hoe hoa hw,
          by simp [hinc], rfl⟩
  obtain ⟨s1, k, halias, hblk, hlog⟩ := key
  have hreset := Reset_keep d esftBase s1 base { blk with cnt := c + 1, cnt_weak := k } hb hblk
    (by simp only [hdec]; omega)
  have hblk2 : (s1.setBlock base.block_
      (some { blk with cnt := c, cnt_weak := k })).blocks base.block_ =
      some { blk with cnt := c, cnt_weak := k } := by simp
  simp only [hdec] at hreset
  refine ⟨s1, ⟨p, base.block_⟩, _, halias, ?_, ?_, ?_, rfl, hreset, by simpa using hlog, rfl,
    ⟨_, hblk2, hd, rfl⟩, ?_, ?_⟩
  · rw [get_of s1 ⟨p, base.block_⟩ _ hb hblk]; simp [hd]
  · rw [useCount_of s1 ⟨p, base.block_⟩ _ hb hblk]
  · rw [useCount_of s1 base _ hb hblk]
  · rw [useCount_of _ ⟨p, base.block_⟩ _ hb hblk2]
  · rw [get_of _ ⟨p, base.block_⟩ _ hb hblk2]; simp [hd]

/-- The aliasing construction on a self-referencing object owned by one handle: an alias of
the handle reports use count 2, and use count 1 after the handle is reset. -/
theorem alias_shares_ownership_example :
    SelfRefAt selfRefHeap (Ptr.storage 1) 1 ∧
    ∃ s1 member s2, SharedPtr.alias (objDtor 1) true selfRefHeap ⟨Ptr.storage 1, 1⟩
        (Ptr.storage 1) = Except.ok (s1, member) ∧
      SharedPtr.Get s1 member = Except.ok (Ptr.storage 1) ∧
      SharedPtr.UseCount s1 member = Except.ok 2 ∧
      SharedPtr.Reset (objDtor 1) true s1 ⟨Ptr.storage 1, 1⟩ = Except.ok (s2, SharedPtr.null) ∧
      s2.log = [] ∧ SharedPtr.UseCount s2 member = Except.ok 1 :=
  have hself : SelfRefAt selfRefHeap (Ptr.storage 1) 1 :=
    ⟨by decide, ⟨{ val := 42, alive := true, esft := true, weak_this := ⟨1, Ptr.storage 1⟩ },
      rfl, rfl, rfl, rfl⟩⟩
  ⟨hself, by
    obtain ⟨s1, m, s2, h1, h2, h3, _, _, h6, h7, _, _, h10, _⟩ :=
      alias_shares_ownership (objDtor 1) true true selfRefHeap ⟨Ptr.storage 1, 1⟩
        { cnt := 1, cnt_weak := 1, deleted := false, emplace := true, ptr := Ptr.null } 1
        (Ptr.storage 1) (by decide) rfl rfl (by decide) (by decide) rfl
        (fun _ => Or.inr ⟨hself, by decide⟩)
    exact ⟨s1, m, s2, h1, h2, h3, h6, h7, h10⟩⟩

/-- Claim C9 fails for a member type with the self-reference capability and a null pointer:
the aliasing constructor runs `ptr_->weak_this = *this` without a test, so
`member(base, nullptr)` reads through the null pointer (undefined behaviour), whatever
the state and `base`, and no handle is built. The sibling constructor
`SharedPtr(BlockBase*, T*, bool)` tests `if (ptr)` first and builds the handle from the same
block and the null pointer. -/
theorem C9_alias_null_pointer (d : Dtor) (s : Heap) (base : SharedPtr) :
    SharedPtr.alias d true s base Ptr.null = Except.error Err.UB ∧
    SharedPtr.ofBlock d true s base.block_ Ptr.null false =
      Except.ok (s, ⟨Ptr.null, base.block_⟩) :=
  ⟨rfl, rfl⟩

/-! ## C10: equality -/

/-- Claim C10: `x == y` holds exactly when `x` and `y` hold the same block pointer, so two
empty handles are equal; two handles built by aliasing from one root are equal to each
other and to the root, while their `Get()` values are the two pointers they were given. -/
theorem C10_eq_iff_same_block :
    (∀ x y : SharedPtr, SharedPtr.eq x y = true ↔ x.block_ = y.block_) ∧
    SharedPtr.eq SharedPtr.null SharedPtr.null = true ∧
    (∀ (d : Dtor) (e1 e2 : Bool) (s s1 s2 : Heap) (root m1 m2 : SharedPtr) (p q : Ptr),
      SharedPtr.alias d e1 s root p = Except.ok (s1, m1) →
      SharedPtr.alias d e2 s1 root q = Except.ok (s2, m2) →
      SharedPtr.eq m1 m2 = true ∧ SharedPtr.eq m1 root = true ∧ SharedPtr.eq m2 root = true ∧
      m1.ptr_ = p ∧ m2.ptr_ = q ∧
      ∀ blk, root.block_ ≠ 0 → s2.blocks root.block_ = some blk → blk.deleted = false →
        SharedPtr.Get s2 m1 = Except.ok p ∧ SharedPtr.Get s2 m2 = Except.ok q) := by
  refine ⟨fun x y => by simp [SharedPtr.eq], rfl, ?_⟩
  intro d e1 e2 s s1 s2 root m1 m2 p q h1 h2
  have e1 := alias_handle d _ s s1 root m1 p h1
  have e2 := alias_handle d _ s1 s2 root m2 q h2
  subst e1 e2
  refine ⟨by simp [SharedPtr.eq], by simp [SharedPtr.eq], by simp [SharedPtr.eq], rfl, rfl, ?_⟩
  intro blk hb hs hd
  exact ⟨by rw [get_of s2 ⟨p, root.block_⟩ blk hb hs]; simp [hd],
    by rw [get_of s2 ⟨q, root.block_⟩ blk hb hs]; simp [hd]⟩

/-- Witness of C10: two aliases of one root with different pointers are equal and report
different `Get()` values. -/
theorem C10_witness :
    SharedPtr.eq ⟨Ptr.raw 5, 1⟩ ⟨Ptr.raw 6, 1⟩ = true ∧
    SharedPtr.eq ⟨Ptr.raw 5, 1⟩ ⟨Ptr.storage 1, 1⟩ = true ∧
    SharedPtr.Get (((plainHeap 1 0).setBlock 1 (some
        { cnt := 2, cnt_weak := 0, deleted := false, emplace := true, ptr := Ptr.null })).setBlock 1
          (some { cnt := 3, cnt_weak := 0, deleted := false, emplace := true, ptr := Ptr.null }))
      ⟨Ptr.raw 5, 1⟩ = Except.ok (Ptr.raw 5) ∧
    SharedPtr.Get (((plainHeap 1 0).setBlock 1 (some
        { cnt := 2, cnt_weak := 0, deleted := false, emplace := true, ptr := Ptr.null })).setBlock 1
          (some { cnt := 3, cnt_weak := 0, deleted := false, emplace := true, ptr := Ptr.null }))
      ⟨Ptr.raw 6, 1⟩ = Except.ok (Ptr.raw 6) := by
  obtain ⟨h1, h2, _, _, _, h6⟩ := C10_eq_iff_same_block.2.2 (objDtor 1) false false (plainHeap 1 0)
    ((plainHeap 1 0).setBlock 1 (some
      { cnt := 2, cnt_weak := 0, deleted := false, emplace := true, ptr := Ptr.null }))
    (((plainHeap 1 0).setBlock 1 (some
        { cnt := 2, cnt_weak := 0, deleted := false, emplace := true, ptr := Ptr.null })).setBlock 1
          (some { cnt := 3, cnt_weak := 0, deleted := false, emplace := true, ptr := Ptr.null }))
    ⟨Ptr.storage 1, 1⟩ ⟨Ptr.raw 5, 1⟩ ⟨Ptr.raw 6, 1⟩ (Ptr.raw 5) (Ptr.raw 6) rfl rfl
  have h7 := h6 { cnt := 3, cnt_weak := 0, deleted := false, emplace := true, ptr := Ptr.null }
    (by decide) rfl rfl
  exact ⟨h1, h2, h7.1, h7.2⟩

/-! ## C11: `SharedFromThis` after construction from a raw pointer -/

theorem ofRaw_plain (d : Dtor) (s : Heap) (p : Ptr) :
    SharedPtr.ofRaw d false s p = Except.ok ((s.newBlock false p).1, ⟨p, s.next + 1⟩) := by
  simp [SharedPtr.ofRaw, Heap.newBlock, bind, Except.bind, pure, Except.pure]

theorem ofRaw_selfRef (d : Dtor) (s : Heap) (p : Ptr) (o : Obj) (hp : p ≠ Ptr.null)
    (ho : s.objs p = some o) (hoe : o.esft = true) (hoa : o.alive = true)
    (hw : o.weak_this.block_ = 0) :
    SharedPtr.ofRaw d true s p = Except.ok
      (((s.newBlock false p).1.setBlock (s.next + 1)
          (some { cnt := 1, cnt_weak := 1, deleted := false, emplace := false, ptr := p })).setObj p
        (some { o with weak_this := ⟨s.next + 1, p⟩ }), ⟨p, s.next + 1⟩) := by
  simp [SharedPtr.ofRaw, Heap.newBlock, setWeakThis, WeakPtr.assignShared, WeakPtr.Reset, incWeak,
    Heap.load, Heap.loadObj, hp, ho, hoe, hoa, hw, show sizeInc 0 = 1 from by decide, bind,
    Except.bind, pure, Except.pure]

/-- Claim C11: for every state, address and value, after `strong = SharedPtr<T>(new T(v))` for
a `T` with the self-reference capability, `strong->SharedFromThis()` returns a handle on the
block of `strong` with the pointer of `strong`; no block is created, both handles report
`UseCount() == 2`, and the weak count of the block is 1 before and after the call. -/
theorem C11_shared_from_this (d : Dtor) (s : Heap) (a : Nat) (v : Int) :
    ∃ s1 strong s2 h,
      SharedPtr.ofRaw d true (newObj true s a v).1 (newObj true s a v).2 = Except.ok (s1, strong) ∧
      strong.ptr_ = Ptr.raw a ∧
      SharedPtr.Get s1 strong = Except.ok (Ptr.raw a) ∧
      SharedFromThis d s1 (Ptr.raw a) = Except.ok (s2, h) ∧
      h.block_ = strong.block_ ∧ h.ptr_ = strong.ptr_ ∧
      SharedPtr.Get s2 h = Except.ok (Ptr.raw a) ∧
      SharedPtr.UseCount s2 h = Except.ok 2 ∧ SharedPtr.UseCount s2 strong = Except.ok 2 ∧
      s2.next = s1.next ∧ (∀ x, x ≠ strong.block_ → s2.blocks x = s1.blocks x) ∧
      (∃ blk1, s1.blocks strong.block_ = some blk1 ∧ blk1.cnt_weak = 1) ∧
      (∃ blk2, s2.blocks strong.block_ = some blk2 ∧ blk2.cnt_weak = 1) ∧
      s2.log = s.log := by
  have hb : s.next + 1 ≠ 0 := by omega
  have h1 := ofRaw_selfRef d (newObj true s a v).1 (Ptr.raw a)
    { val := v, alive := true, esft := true, weak_this := {} } (by simp) (by simp [newObj])
    rfl rfl rfl
  have h2 : ∃ s2, SharedFromThis d
      ((((newObj true s a v).1.newBlock false (Ptr.raw a)).1.setBlock ((newObj true s a v).1.next + 1)
          (some { cnt := 1, cnt_weak := 1, deleted := false, emplace := false,
                  ptr := Ptr.raw a })).setObj (Ptr.raw a)
        (some { val := v, alive := true, esft := true,
                weak_this := ⟨(newObj true s a v).1.next + 1, Ptr.raw a⟩ }))
      (Ptr.raw a) = Except.ok (s2, ⟨Ptr.raw a, s.next + 1⟩) ∧
      s2.blocks (s.next + 1) =
        some { cnt := 2, cnt_weak := 1, deleted := false, emplace := false, ptr := Ptr.raw a } ∧
      s2.next = s.next + 1 ∧
      (∀ x, x ≠ s.next + 1 → s2.blocks x = s.blocks x) ∧ s2.log = s.log := by
    simp [SharedFromThis, SharedPtr.ofBlock, setWeakThis, WeakPtr.assignShared, WeakPtr.Reset,
      incWeak, decWeak, incCnt, Heap.load, Heap.loadObj, Heap.newBlock, newObj,
      show sizeInc 0 = 1 from by decide, show sizeDec 1 = 0 from by decide,
      show sizeInc 1 = 2 from by decide, bind, Except.bind, pure, Except.pure]
    intro x hx; simp [hx]
  obtain ⟨s2, h2, hb2, hn2, hf2, hl2⟩ := h2
  refine ⟨_, _, s2, _, h1, rfl, ?_, h2, rfl, rfl, ?_, ?_, ?_, ?_, ?_, ?_, ⟨_, hb2, rfl⟩, hl2⟩
  · simp [SharedPtr.Get, Heap.load, newObj, Heap.newBlock, bind, Except.bind, pure, Except.pure]
  · exact get_of s2 ⟨Ptr.raw a, s.next + 1⟩ _ hb hb2
  · exact useCount_of s2 ⟨Ptr.raw a, s.next + 1⟩ _ hb hb2
  · exact useCount_of s2 ⟨Ptr.raw a, s.next + 1⟩ _ hb hb2
  · simp [hn2, newObj, Heap.newBlock]
  · intro x hx
    have hx2 : x ≠ s.next + 1 := hx
    simp [hf2 x hx2, newObj, Heap.newBlock, hx2]
  · exact ⟨{ cnt := 1, cnt_weak := 1, deleted := false, emplace := false, ptr := Ptr.raw a },
      by simp [newObj], rfl⟩

/-! ## C14: `Get` of a handle whose object is destroyed -/

/-- Claim C14 fails: after the object at `raw 7` has been destroyed and freed, `w.Lock()`
(kept) returns a handle whose `Get()` is null, but the promotion `SharedPtr(w)` that
follows returns an attached handle whose `Get()` is the address of the destroyed object. -/
theorem C14_get_exposes_destroyed_object :
    staleGet = Except.ok ([Event.dtor (Ptr.raw 7)], false, Ptr.null, true, Ptr.raw 7) := by
  rfl

/-! ## C17: the observers of `WeakPtr` -/

/-- Claim C17: `w.Expired()` is true exactly when `w` has no block, or stores a null
pointer, or the strong count of its block is 0; `w.UseCount()` is the strong count of the
block, and 0 when `w` has no block. -/
theorem C17_weak_observers (s : Heap) (w : WeakPtr) :
    (w.block_ = 0 → WeakPtr.Expired s w = Except.ok true ∧ WeakPtr.UseCount s w = Except.ok 0) ∧
    (∀ blk, w.block_ ≠ 0 → s.blocks w.block_ = some blk →
      WeakPtr.UseCount s w = Except.ok blk.cnt ∧
      ∃ e, WeakPtr.Expired s w = Except.ok e ∧
        (e = true ↔ (w.block_ = 0 ∨ w.ptr_ = Ptr.null ∨ blk.cnt = 0))) := by
  constructor
  · intro h0
    constructor
    · simp only [WeakPtr.Expired, h0, pure, Except.pure]
      split <;> simp
    · simp [WeakPtr.UseCount, h0, pure, Except.pure]
  · intro blk hb hs
    refine ⟨weakUseCount_of s w blk hb hs, ?_⟩
    by_cases hp : w.ptr_ = Ptr.null
    · exact ⟨true, by simp [WeakPtr.Expired, hp, pure, Except.pure], by simp [hp]⟩
    · by_cases hc : blk.cnt = 0
      · exact ⟨true, by simp [WeakPtr.Expired, hp, hb, Heap.load, hs, hc, bind, Except.bind, pure,
          Except.pure], by simp [hc]⟩
      · exact ⟨false, by simp [WeakPtr.Expired, hp, hb, Heap.load, hs, hc, bind, Except.bind, pure,
          Except.pure], by simp [hp, hb, hc]⟩

/-- Witness of C17 on a block with strong count 0 and on one with strong count 1. -/
theorem C17_witness :
    WeakPtr.Expired (plainHeap 0 1) ⟨1, Ptr.storage 1⟩ = Except.ok true ∧
    WeakPtr.Expired (plainHeap 1 1) ⟨1, Ptr.storage 1⟩ = Except.ok false ∧
    WeakPtr.UseCount (plainHeap 1 1) ⟨1, Ptr.storage 1⟩ = Except.ok 1 := by
  obtain ⟨h1, e1, h2, h3⟩ := (C17_weak_observers (plainHeap 0 1) ⟨1, Ptr.storage 1⟩).2
    { cnt := 0, cnt_weak := 1, deleted := false, emplace := true, ptr := Ptr.null }
    (by decide) rfl
  obtain ⟨h4, e2, h5, h6⟩ := (C17_weak_observers (plainHeap 1 1) ⟨1, Ptr.storage 1⟩).2
    { cnt := 1, cnt_weak := 1, deleted := false, emplace := true, ptr := Ptr.null }
    (by decide) rfl
  refine ⟨?_, ?_, h4⟩
  · have : e1 = true := h3.2 (Or.inr (Or.inr rfl))
    rw [h2, this]
  · have : e2 ≠ true := fun h => by
      rcases h6.1 h with h | h | h <;> simp at h
    cases e2 with
    | true => exact absurd rfl this
    | false => exact h5

/-! ## C19: construction from a raw pointer -/

/-- Construction from a raw pointer where it is defined. `SharedPtr(p)` creates one new
`Block<T>` (at the next address, every other block untouched) with strong count 1 and is
attached to it, so `UseCount() == 1` and `Get() == p`. For a handle type without the
self-reference capability this holds for every `p` and the weak count is 0; for one with
it, `p` pointing to a living object that is not owned yet, the object's `weak_this` holds
the new block and `p`, and the counts are 1 and 1. -/
theorem ofRaw_construction (d : Dtor) (s : Heap) (p : Ptr) :
    (∃ s1, SharedPtr.ofRaw d false s p = Except.ok (s1, ⟨p, s.next + 1⟩) ∧
      s1.blocks (s.next + 1) =
        some { cnt := 1, cnt_weak := 0, deleted := false, emplace := false, ptr := p } ∧
      (∀ x, x ≠ s.next + 1 → s1.blocks x = s.blocks x) ∧ s1.next = s.next + 1 ∧
      s1.objs = s.objs ∧ s1.log = s.log ∧
      SharedPtr.UseCount s1 ⟨p, s.next + 1⟩ = Except.ok 1 ∧
      SharedPtr.Get s1 ⟨p, s.next + 1⟩ = Except.ok p) ∧
    (∀ o, p ≠ Ptr.null → s.objs p = some o → o.esft = true → o.alive = true →
      o.weak_this.block_ = 0 →
      ∃ s1, SharedPtr.ofRaw d true s p = Except.ok (s1, ⟨p, s.next + 1⟩) ∧
        s1.blocks (s.next + 1) =
          some { cnt := 1, cnt_weak := 1, deleted := false, emplace := false, ptr := p } ∧
        (∀ x, x ≠ s.next + 1 → s1.blocks x = s.blocks x) ∧ s1.next = s.next + 1 ∧
        s1.objs p = some { o with weak_this := ⟨s.next + 1, p⟩ } ∧
        (∀ q, q ≠ p → s1.objs q = s.objs q) ∧ s1.log = s.log ∧
        SharedPtr.UseCount s1 ⟨p, s.next + 1⟩ = Except.ok 1 ∧
        SharedPtr.Get s1 ⟨p, s.next + 1⟩ = Except.ok p) := by
  have hb : s.next + 1 ≠ 0 := by omega
  constructor
  · refine ⟨_, ofRaw_plain d s p, by simp [Heap.newBlock], fun x hx => by simp [Heap.newBlock, hx],
      rfl, rfl, rfl, ?_, ?_⟩
    · simp [SharedPtr.UseCount, Heap.load, Heap.newBlock, bind, Except.bind, pure, Except.pure]
    · exact get_of _ ⟨p, s.next + 1⟩
        { cnt := 1, cnt_weak := 0, deleted := false, emplace := false, ptr := p } hb
        (by simp [Heap.newBlock])
  · intro o hp ho hoe hoa hw
    refine ⟨_, ofRaw_selfRef d s p o hp ho hoe hoa hw, by simp,
      fun x hx => by simp [Heap.newBlock, hx], rfl, by simp,
      fun q hq => by simp [Heap.newBlock, hq], rfl, ?_, ?_⟩
    · simp [SharedPtr.UseCount, Heap.load, bind, Except.bind, pure, Except.pure]
    · exact get_of _ ⟨p, s.next + 1⟩
        { cnt := 1, cnt_weak := 1, deleted := false, emplace := false, ptr := p } hb (by simp)

/-- Construction from a raw pointer for a self-referencing object made by `new T(42)` at
`raw 7`. -/
theorem ofRaw_construction_example :
    ∃ s1, SharedPtr.ofRaw (objDtor 1) true (newObj true Heap.empty 7 42).1 (Ptr.raw 7) =
        Except.ok (s1, ⟨Ptr.raw 7, 1⟩) ∧
      s1.blocks 1 = some { cnt := 1, cnt_weak := 1, deleted := false, emplace := false,
                           ptr := Ptr.raw 7 } ∧
      s1.objs (Ptr.raw 7) =
        some { val := 42, alive := true, esft := true, weak_this := ⟨1, Ptr.raw 7⟩ } := by
  obtain ⟨s1, h1, h2, _, _, h5, _⟩ :=
    (ofRaw_construction (objDtor 1) (newObj true Heap.empty 7 42).1 (Ptr.raw 7)).2
      { val := 42, alive := true, esft := true, weak_this := {} } (by decide) rfl rfl rfl rfl
  exact ⟨s1, h1, h2, h5⟩

/-- Claim C19 fails for a type with the self-reference capability and a null pointer:
`SharedPtr(T* ptr)` runs `ptr->weak_this = *this` without a test, so `SharedPtr<T>(nullptr)`
reads through the null pointer (undefined behaviour), whatever the state. The sibling
constructor `SharedPtr(BlockBase*, T*, bool)` tests `if (ptr)` first and builds the handle.
It fails as well for an object with the capability handed over as
`SharedPtr<Base>(new Derived)`: the constructor tests the type of the handle, so the handle
is built with strong count 1, but `weak_this` of the object stays empty and the weak count
is 0. -/
theorem C19_raw_null_pointer (d : Dtor) (s : Heap) :
    SharedPtr.ofRaw d true s Ptr.null = Except.error Err.UB ∧
    (∀ bb, SharedPtr.ofBlock d true s bb Ptr.null false = Except.ok (s, ⟨Ptr.null, bb⟩)) ∧
    rawOfDerived = Except.ok (⟨Ptr.raw 7, 1⟩,
      some { cnt := 1, cnt_weak := 0, deleted := false, emplace := false, ptr := Ptr.raw 7 },
      some { val := 42, alive := true, esft := true, weak_this := ⟨0, Ptr.null⟩ }) :=
  ⟨rfl, fun _ => rfl, rfl⟩

/-! ## C15: the cases of `SharedPtr::Reset` -/

theorem Reset_last_noweak_emplace (n : Nat) (s : Heap) (h : SharedPtr) (blk : BlockBase)
    (o : Obj) (hb : h.block_ ≠ 0) (hs : s.blocks h.block_ = some blk)
    (hc : sizeDec blk.cnt = 0) (hw : blk.cnt_weak = 0) (hd : blk.deleted = false)
    (hem : blk.emplace = true) (ho : s.objs (Ptr.storage h.block_) = some o)
    (he : o.esft = false) :
    SharedPtr.Reset (objDtor (n + 1)) false s h = Except.ok
      ((((s.setBlock h.block_ none).emit (Event.dtor (Ptr.storage h.block_))).setObj
        (Ptr.storage h.block_) none).emit (Event.dealloc h.block_), ⟨Ptr.null, 0⟩) := by
  simp [SharedPtr.Reset, decCnt, bothZero, deleteBlock, callDtor, objDtor, Heap.load, Heap.loadObj,
    hb, hs, hc, hw, hd, hem, ho, he, bind, Except.bind, pure, Except.pure]
  apply Heap.ext_fields <;> intros <;> simp
  all_goals (split_ifs <;> simp_all)

theorem Reset_last_noweak_raw (n : Nat) (s : Heap) (h : SharedPtr) (blk : BlockBase)
    (o : Obj) (hb : h.block_ ≠ 0) (hs : s.blocks h.block_ = some blk)
    (hc : sizeDec blk.cnt = 0) (hw : blk.cnt_weak = 0) (hd : blk.deleted = false)
    (hem : blk.emplace = false) (hp : blk.ptr ≠ Ptr.null) (ho : s.objs blk.ptr = some o)
    (he : o.esft = false) :
    SharedPtr.Reset (objDtor (n + 1)) false s h = Except.ok
      ((((s.setBlock h.block_ none).emit (Event.dtor blk.ptr)).setObj blk.ptr none).emit
        (Event.dealloc h.block_), ⟨Ptr.null, 0⟩) := by
  simp [SharedPtr.Reset, decCnt, bothZero, deleteBlock, deleteObj, callDtor, objDtor, Heap.load,
    Heap.loadObj, hb, hs, hc, hw, hd, hem, hp, ho, he, bind, Except.bind, pure, Except.pure]
  apply Heap.ext_fields <;> intros <;> simp
  all_goals (split_ifs <;> simp_all)

theorem DeletePtr_emplace_fck (d : Dtor) (s : Heap) (b : Nat) (blk : BlockBase)
    (hb : b ≠ 0) (hs : s.blocks b = some blk) (hd : blk.deleted = false)
    (hem : blk.emplace = true) :
    DeletePtr d s b true = Except.ok (s.setBlock b (some { blk with deleted := true })) := by
  simp [DeletePtr, Heap.load, hb, hs, hd, hem, bind, Except.bind, pure, Except.pure]

theorem DeletePtr_raw_fck (n : Nat) (s : Heap) (b : Nat) (blk : BlockBase) (o : Obj)
    (hb : b ≠ 0) (hs : s.blocks b = some blk) (hd : blk.deleted = false)
    (hem : blk.emplace = false) (hp : blk.ptr ≠ Ptr.null) (ho : s.objs blk.ptr = some o)
    (he : o.esft = false) :
    DeletePtr (objDtor (n + 1)) s b true = Except.ok
      (((s.setBlock b (some { blk with deleted := true })).emit (Event.dtor blk.ptr)).setObj
        blk.ptr none) := by
  simp [DeletePtr, Heap.load, hb, hs, hd, hem, bind, Except.bind, pure, Except.pure,
    deleteObj, callDtor, objDtor, Heap.loadObj, hp, ho, he]
  apply Heap.ext_fields <;> intros <;> simp
  all_goals (split_ifs <;> simp_all)

/-- The cases of `DeletePtr` and of the block destructors. On a block at `b` whose flag is
set, `DeletePtr` with either defer flag changes nothing and the block destructor only
releases the block. On a block whose flag is clear and that manages an object without the
self-reference capability: the block destructor destroys the object once and releases the
block; `DeletePtr` on a `Block` with either defer flag, and on a `BlockEmplace` with the
defer flag false, destroys the object exactly once and sets the flag, and a second
`DeletePtr` changes nothing; `DeletePtr(true)` on a `BlockEmplace` only sets the flag. -/
theorem DeletePtr_cases (n : Nat) (s : Heap) (b : Nat) (blk : BlockBase) (fck : Bool)
    (hb : b ≠ 0) (hs : s.blocks b = some blk) :
    (blk.deleted = true →
      DeletePtr (objDtor (n + 1)) s b fck = Except.ok s ∧
      ∃ s2, deleteBlock (objDtor (n + 1)) s b = Except.ok s2 ∧ s2.blocks b = none ∧
        s2.log = s.log ++ [Event.dealloc b]) ∧
    (blk.deleted = false → ∀ o, blk.Get b ≠ Ptr.null → s.objs (blk.Get b) = some o →
      o.esft = false →
      (∃ s2, deleteBlock (objDtor (n + 1)) s b = Except.ok s2 ∧ s2.blocks b = none ∧
        s2.objs (blk.Get b) = none ∧
        s2.log = s.log ++ [Event.dtor (blk.Get b), Event.dealloc b]) ∧
      (blk.emplace = false ∨ fck = false →
        ∃ s1, DeletePtr (objDtor (n + 1)) s b fck = Except.ok s1 ∧
          (∃ blk1, s1.blocks b = some blk1 ∧ blk1.deleted = true ∧ blk1.cnt = blk.cnt ∧
            blk1.cnt_weak = blk.cnt_weak) ∧
          s1.isAlive (blk.Get b) = false ∧
          s1.log = s.log ++ [Event.dtor (blk.Get b)] ∧
          ∀ fck2, DeletePtr (objDtor (n + 1)) s1 b fck2 = Except.ok s1) ∧
      (blk.emplace = true → fck = true →
        DeletePtr (objDtor (n + 1)) s b fck =
          Except.ok (s.setBlock b (some { blk with deleted := true })))) := by
  refine ⟨fun hd => ⟨DeletePtr_deleted _ s b blk fck hb hs hd,
    _, deleteBlock_deleted _ s b blk hb hs hd, ?_, by simp⟩, fun hd o hp ho he => ?_⟩
  · cases hem : blk.emplace <;> simp [Heap.freeBlock]
  · cases hem : blk.emplace with
    | true =>
      have hg : blk.Get b = Ptr.storage b := by simp [BlockBase.Get, hem]
      rw [hg] at hp ho ⊢
      refine ⟨⟨_, deleteBlock_emplace n s b blk o hb hs hd hem ho he, by simp, by simp,
        by simp⟩, fun hf => ?_, fun _ hf => ?_⟩
      · have hf2 : fck = false := by simpa using hf
        subst hf2
        refine ⟨_, DeletePtr_emplace n s b blk o hb hs hd hem ho he,
          ⟨{ blk with deleted := true }, by simp, rfl, rfl, rfl⟩, by simp [Heap.isAlive],
          by simp, fun fck2 => ?_⟩
        exact DeletePtr_deleted _ _ b { blk with deleted := true } fck2 hb (by simp) rfl
      · subst hf
        simpa [hem] using DeletePtr_emplace_fck (objDtor (n + 1)) s b blk hb hs hd hem
    | false =>
      have hg : blk.Get b = blk.ptr := by simp [BlockBase.Get, hem]
      rw [hg] at hp ho ⊢
      refine ⟨⟨_, deleteBlock_raw n s b blk o hb hs hd hem hp ho he, by simp, by simp,
        by simp⟩, fun _ => ?_, fun hf => by simp at hf⟩
      cases fck with
      | false =>
        refine ⟨_, DeletePtr_raw n s b blk o hb hs hd hem hp ho he,
          ⟨{ blk with deleted := true, ptr := Ptr.null }, by simp, rfl, rfl, rfl⟩,
          by simp [Heap.isAlive], by simp, fun fck2 => ?_⟩
        exact DeletePtr_deleted _ _ b { blk with deleted := true, ptr := Ptr.null } fck2 hb
          (by simp) rfl
      | true =>
        refine ⟨_, DeletePtr_raw_fck n s b blk o hb hs hd hem hp ho he,
          ⟨{ blk with deleted := true }, by simp, rfl, rfl, rfl⟩,
          by simp [Heap.isAlive], by simp, fun fck2 => ?_⟩
        exact DeletePtr_deleted _ _ b { blk with deleted := true } fck2 hb (by simp) rfl

/-- The call `DeletePtr(false)` on a `BlockEmplace<int>` with strong count 1 logs the
destructor once and sets the flag. -/
theorem DeletePtr_cases_example :
    ∃ s1, DeletePtr (objDtor 1) (plainHeap 1 0) 1 false = Except.ok s1 ∧
      (∃ blk1, s1.blocks 1 = some blk1 ∧ blk1.deleted = true ∧ blk1.cnt = 1 ∧
        blk1.cnt_weak = 0) ∧
      s1.isAlive (Ptr.storage 1) = false ∧
      s1.log = [Event.dtor (Ptr.storage 1)] ∧
      ∀ fck2, DeletePtr (objDtor 1) s1 1 fck2 = Except.ok s1 :=
  ((DeletePtr_cases 0 (plainHeap 1 0) 1
    { cnt := 1, cnt_weak := 0, deleted := false, emplace := true, ptr := Ptr.null } false
    (by decide) rfl).2 rfl { val := 42 } (by decide) rfl rfl).2.1 (Or.inr rfl)

/-- Claim C20 fails for `BlockEmplace` with the defer flag set: `DeletePtr(true)` on a
`BlockEmplace<int>` whose flag is clear sets the flag without running the destructor
(nothing is logged and the object is still alive), and the block destructor that follows
does not run it either, so the object is never destroyed: only the deallocation is logged.
The sibling `Block::DeletePtr(true)` deletes the object at once, and `delete block` then
logs the deallocation alone. -/
theorem C20_deferred_delete_skips_destructor :
    deferredDeleteEmplace = Except.ok ([], true, some true, [Event.dealloc 1]) ∧
    deferredDeleteRaw = Except.ok ([Event.dtor (Ptr.raw 7)], false, some true,
      [Event.dtor (Ptr.raw 7), Event.dealloc 1]) :=
  ⟨rfl, rfl⟩

/-! ## C16: the cases of `WeakPtr::Reset` -/

/-- The last weak handle of a block without strong shares releases the block, whatever
state its object is in, and touches no other block. -/
theorem WeakReset_last_plain (n : Nat) (s : Heap) (w : WeakPtr) (blk : BlockBase)
    (hb : w.block_ ≠ 0) (hs : s.blocks w.block_ = some blk)
    (hk : sizeDec blk.cnt_weak = 0) (hc : blk.cnt = 0) (hp : PlainObj s w.block_ blk) :
    ∃ s1, WeakPtr.Reset (objDtor (n + 1)) s w = Except.ok (s1, ⟨0, Ptr.null⟩) ∧
      s1.blocks w.block_ = none ∧ ∀ x, x ≠ w.block_ → s1.blocks x = s.blocks x := by
  cases hd : blk.deleted with
  | true =>
    refine ⟨_, WeakReset_last _ s w blk hb hs hk hc hd, ?_, fun x hx => ?_⟩ <;>
      cases hem : blk.emplace <;> simp [Heap.freeBlock, *]
  | false =>
    cases hem : blk.emplace with
    | true =>
      rcases hp with h1 | h1 | ⟨o, ho, he⟩
      · simp [hd] at h1
      · simp [BlockBase.Get, hem] at h1
      · simp [BlockBase.Get, hem] at ho
        simp [WeakPtr.Reset, decWeak, deleteBlock, callDtor, objDtor, Heap.load, Heap.loadObj,
          Heap.freeBlock, hb, hs, hk, hc, hd, hem, ho, he, bind, Except.bind, pure, Except.pure]
        intro x hx; simp [hx]
    | false =>
      by_cases hnull : blk.ptr = Ptr.null
      · simp [WeakPtr.Reset, decWeak, deleteBlock, deleteObj, Heap.load, Heap.freeBlock, hb, hs,
          hk, hc, hd, hem, hnull, bind, Except.bind, pure, Except.pure]
        intro x hx; simp [hx]
      · rcases hp with h1 | h1 | ⟨o, ho, he⟩
        · simp [hd] at h1
        · simp [BlockBase.Get, hem, hnull] at h1
        · simp [BlockBase.Get, hem] at ho
          simp [WeakPtr.Reset, decWeak, deleteBlock, deleteObj, callDtor, objDtor, Heap.load,
            Heap.loadObj, Heap.freeBlock, hb, hs, hk, hc, hd, hem, hnull, ho, he, bind,
            Except.bind, pure, Except.pure]
          intro x hx; simp [hx]

/-- Claim C16: `Reset()` and destruction of a `WeakPtr` attached to a block with strong
count `c` and weak count `w ≥ 1` (a `size_t`). The handle ends with no block and no
pointer. Unless `c = 0` and `w = 1`, the block stays allocated with weak count `w - 1` and
all other fields, the strong count among them, unchanged, and nothing is destroyed or
logged: in particular no destructor runs while `c > 0`. If `c = 0` and `w = 1` the block
is deallocated and no other block is touched; when the object is already destroyed, as it
is whenever the strong count has dropped to 0, the deallocation is the only event. -/
theorem C16_weak_reset (n : Nat) (s : Heap) (w : WeakPtr) (blk : BlockBase)
    (hb : w.block_ ≠ 0) (hs : s.blocks w.block_ = some blk)
    (hw1 : 1 ≤ blk.cnt_weak) (hw2 : blk.cnt_weak < SIZE_MOD) :
    (¬(blk.cnt = 0 ∧ blk.cnt_weak = 1) → ∀ d : Dtor,
      WeakPtr.Reset d s w = Except.ok
        (s.setBlock w.block_ (some { blk with cnt_weak := blk.cnt_weak - 1 }), ⟨0, Ptr.null⟩) ∧
      WeakPtr.destroy d s w = Except.ok
        (s.setBlock w.block_ (some { blk with cnt_weak := blk.cnt_weak - 1 }))) ∧
    (blk.cnt = 0 → blk.cnt_weak = 1 → PlainObj s w.block_ blk →
      ∃ s1, WeakPtr.Reset (objDtor (n + 1)) s w = Except.ok (s1, ⟨0, Ptr.null⟩) ∧
        WeakPtr.destroy (objDtor (n + 1)) s w = Except.ok s1 ∧
        s1.blocks w.block_ = none ∧ (∀ x, x ≠ w.block_ → s1.blocks x = s.blocks x) ∧
        (blk.deleted = true → s1.log = s.log ++ [Event.dealloc w.block_])) := by
  have hdec : sizeDec blk.cnt_weak = blk.cnt_weak - 1 := sizeDec_of_pos _ hw1 hw2
  refine ⟨fun hne d => ?_, fun hc hw hp => ?_⟩
  · have hk : sizeDec blk.cnt_weak ≠ 0 ∨ blk.cnt ≠ 0 := by
      rw [hdec]
      by_cases h0 : blk.cnt = 0
      · exact Or.inl (fun h => hne ⟨h0, by omega⟩)
      · exact Or.inr h0
    have h := WeakReset_keep d s w blk hb hs hk
    rw [hdec] at h
    exact ⟨h, by simp [WeakPtr.destroy, h, bind, Except.bind, pure, Except.pure]⟩
  · have hk : sizeDec blk.cnt_weak = 0 := by rw [hdec, hw]
    obtain ⟨s1, h1, h2, h3⟩ := WeakReset_last_plain n s w blk hb hs hk hc hp
    refine ⟨s1, h1, by simp [WeakPtr.destroy, h1, bind, Except.bind, pure, Except.pure], h2, h3,
      fun hd => ?_⟩
    have h4 := WeakReset_last (objDtor (n + 1)) s w blk hb hs hk hc hd
    rw [h1] at h4
    have h5 : s1 = ((s.setBlock w.block_ (some { blk with cnt_weak := 0 })).freeBlock w.block_
        blk.emplace).emit (Event.dealloc w.block_) := by
      simpa using h4
    rw [h5]
    cases hem : blk.emplace <;> simp [Heap.freeBlock]

/-- Witness of C16 on a `BlockEmplace<int>` at address 1: with counts 1/2 the weak count
drops to 1 and nothing else changes; with counts 0/1 and the object destroyed the block is
deallocated. -/
theorem C16_witness :
    (WeakPtr.Reset (objDtor 1) (plainHeap 1 2) ⟨1, Ptr.storage 1⟩ = Except.ok
      ((plainHeap 1 2).setBlock 1 (some
        { cnt := 1, cnt_weak := 1, deleted := false, emplace := true, ptr := Ptr.null }),
        ⟨0, Ptr.null⟩)) ∧
    (∃ s1, WeakPtr.Reset (objDtor 1) ((plainHeap 0 1).setBlock 1 (some
        { cnt := 0, cnt_weak := 1, deleted := true, emplace := true, ptr := Ptr.null }))
        ⟨1, Ptr.storage 1⟩ = Except.ok (s1, ⟨0, Ptr.null⟩) ∧
      s1.blocks 1 = none ∧ s1.log = [Event.dealloc 1]) := by
  refine ⟨((C16_weak_reset 0 (plainHeap 1 2) ⟨1, Ptr.storage 1⟩
    { cnt := 1, cnt_weak := 2, deleted := false, emplace := true, ptr := Ptr.null }
    (by decide) rfl (by decide) (by decide)).1 (by decide) (objDtor 1)).1, ?_⟩
  obtain ⟨s1, h1, _, h3, _, h5⟩ := (C16_weak_reset 0
    ((plainHeap 0 1).setBlock 1 (some
      { cnt := 0, cnt_weak := 1, deleted := true, emplace := true, ptr := Ptr.null }))
    ⟨1, Ptr.storage 1⟩
    { cnt := 0, cnt_weak := 1, deleted := true, emplace := true, ptr := Ptr.null }
    (by decide) (by simp) (by decide) (by decide)).2 rfl rfl (Or.inl rfl)
  exact ⟨s1, h1, h3, h5 rfl⟩

/-! ## C12: a self-referencing object outlived by a weak handle -/

/-- The last strong handle of a self-referencing object that weak handles other than the
embedded one still observe: the object is destroyed exactly once and the block stays,
expired, with the embedded weak reference gone. -/
theorem Reset_selfRef_last (n : Nat) (s : Heap) (h : SharedPtr) (blk : BlockBase)
    (hb : h.block_ ≠ 0) (hs : s.blocks h.block_ = some blk) (hc : blk.cnt = 1)
    (hw : 2 ≤ blk.cnt_weak) (hw2 : blk.cnt_weak < SIZE_MOD) (hd : blk.deleted = false)
    (hself : SelfRefAt s (blk.Get h.block_) h.block_) :
    ∃ s1, SharedPtr.Reset (objDtor (n + 1)) true s h = Except.ok (s1, ⟨Ptr.null, 0⟩) ∧
      (∃ blk1, s1.blocks h.block_ = some blk1 ∧ blk1.cnt = 0 ∧
        blk1.cnt_weak = blk.cnt_weak - 1 ∧ blk1.deleted = true ∧ blk1.emplace = blk.emplace) ∧
      s1.isAlive (blk.Get h.block_) = false ∧
      s1.log = s.log ++ [Event.dtor (blk.Get h.block_)] ∧
      ∀ x, x ≠ h.block_ → s1.blocks x = s.blocks x := by
  obtain ⟨hp, o, ho, hoe, hoa, hwt⟩ := hself
  have hc0 : sizeDec blk.cnt = 0 := by rw [hc]; decide
  have hw0 : blk.cnt_weak ≠ 0 := by omega
  have hdec : sizeDec blk.cnt_weak = blk.cnt_weak - 1 := sizeDec_of_pos _ (by omega) hw2
  have hw1 : sizeDec blk.cnt_weak ≠ 0 := by rw [hdec]; omega
  have h10 : sizeDec (sizeInc 0) = 0 := by decide
  have h1 : sizeInc 0 ≠ 0 := by decide
  cases hem : blk.emplace with
  | true =>
    have hg : blk.Get h.block_ = Ptr.storage h.block_ := by simp [BlockBase.Get, hem]
    rw [hg] at hp ho ⊢
    simp [SharedPtr.Reset, decCnt, incCnt, bothZero, DeletePtr, deleteBlock, callDtor,
      objDtor, WeakPtr.Reset, decWeak, Heap.load, Heap.loadObj, hb, hs, hc0, hw0, hw1, hd,
      hem, ho, hoe, hwt, h10, h1, bind, Except.bind, pure, Except.pure]
    exact ⟨hdec, by simp [Heap.isAlive], fun x hx => by simp [hx]⟩
  | false =>
    have hg : blk.Get h.block_ = blk.ptr := by simp [BlockBase.Get, hem]
    rw [hg] at hp ho ⊢
    simp [SharedPtr.Reset, decCnt, incCnt, bothZero, DeletePtr, deleteBlock, deleteObj,
      callDtor, objDtor, WeakPtr.Reset, decWeak, Heap.load, Heap.loadObj, hb, hs, hc0, hw0,
      hw1, hd, hem, hp, ho, hoe, hwt, h10, h1, bind, Except.bind, pure, Except.pure]
    exact ⟨hdec, by simp [Heap.isAlive], fun x hx => by simp [hx]⟩

/-- Obtaining a weak handle from a living self-referencing object, either way, raises the
weak count of its block by one and changes nothing else about the block or the object. -/
theorem weakFromObject_spec (d : Dtor) (s : Heap) (b : Nat) (p : Ptr) (blk : BlockBase)
    (o : Obj) (viaShared : Bool) (hb : b ≠ 0) (hs : s.blocks b = some blk)
    (hc : blk.cnt = 1) (hw2 : blk.cnt_weak + 1 < SIZE_MOD)
    (hd : blk.deleted = false) (hp : p ≠ Ptr.null) (ho : s.objs p = some o)
    (hoe : o.esft = true) (hoa : o.alive = true) (hwt : o.weak_this = ⟨b, p⟩) :
    ∃ s0, weakFromObject d s p viaShared = Except.ok (s0, ⟨b, p⟩) ∧
      s0.blocks b = some { blk with cnt_weak := blk.cnt_weak + 1 } ∧
      s0.objs p = some o ∧ s0.log = s.log ∧ ∀ x, x ≠ b → s0.blocks x = s.blocks x := by
  have hinc : sizeInc blk.cnt_weak = blk.cnt_weak + 1 := sizeInc_of_lt _ hw2
  have hid : sizeInc (sizeDec blk.cnt_weak) = blk.cnt_weak := sizeInc_sizeDec _ (by omega)
  have hwb : o.weak_this.block_ = b := by rw [hwt]
  have hwp : o.weak_this.ptr_ = p := by rw [hwt]
  cases viaShared with
  | false =>
    simp [weakFromObject, WeakFromThis, WeakPtr.copy, incWeak, Heap.load, Heap.loadObj, hb, hs,
      hp, ho, hoe, hoa, hwb, hwp, hinc, bind, Except.bind, pure, Except.pure]
    intro x hx hx2
    exact absurd hx2 hx
  | true =>
    simp [weakFromObject, SharedFromThis, SharedPtr.ofBlock, setWeakThis, WeakPtr.assignShared,
      WeakPtr.Reset, WeakPtr.ofShared, SharedPtr.destroy, SharedPtr.Reset, incWeak, decWeak,
      incCnt, decCnt, bothZero, Heap.load, Heap.loadObj, hb, hs, hp, ho, hoe, hoa, hwb, hwp,
      hinc, hid, hc, hd, show sizeInc 1 = 2 from by decide, show sizeDec 2 = 1 from by decide,
      bind, Except.bind, pure, Except.pure]
    refine ⟨?_, fun x hx => by simp [hx]⟩
    cases o
    simp_all

theorem StrongKept.refl (s : Heap) : StrongKept s s :=
  fun x => ⟨fun blk1 h => ⟨blk1, h, rfl⟩, fun _ h h0 => by rw [h0] at h; cases h⟩

theorem StrongKept.trans {s s1 s2 : Heap} (h1 : StrongKept s s1) (h2 : StrongKept s1 s2) :
    StrongKept s s2 := by
  intro x
  refine ⟨fun blk2 hb2 => ?_, fun blk hb hn => ?_⟩
  · obtain ⟨blk1, hb1, hc1⟩ := (h2 x).1 blk2 hb2
    obtain ⟨blk, hb, hc⟩ := (h1 x).1 blk1 hb1
    exact ⟨blk, hb, hc.trans hc1⟩
  · cases hs1 : s1.blocks x with
    | none => exact (h1 x).2 blk hb hs1
    | some blk1 =>
      obtain ⟨blk0, hb0, hc0⟩ := (h1 x).1 blk1 hs1
      rw [hb] at hb0
      cases hb0
      rw [hc0]
      exact (h2 x).2 blk1 hs1 hn

theorem StrongKept.setWeak (s : Heap) (b : Nat) (blk : BlockBase) (k : Nat)
    (hs : s.blocks b = some blk) :
    StrongKept s (s.setBlock b (some { blk with cnt_weak := k })) := by
  intro x
  by_cases hx : x = b
  · subst hx
    exact ⟨fun blk1 h => ⟨blk, hs, by simp at h; rw [← h]⟩, fun _ _ h => by simp at h⟩
  · exact ⟨fun blk1 h => ⟨blk1, by simpa [hx] using h, rfl⟩,
      fun blk0 h h0 => by simp [hx] at h0; rw [h0] at h; cases h⟩

theorem StrongKept.free (s : Heap) (b : Nat) (blk blk2 : BlockBase) (e : Bool) (ev : Event)
    (hs : s.blocks b = some blk) (hc : blk.cnt = 0) :
    StrongKept s (((s.setBlock b (some blk2)).freeBlock b e).emit ev) := by
  intro x
  by_cases hx : x = b
  · subst hx
    refine ⟨fun blk1 h => ?_, fun blk0 h _ => ?_⟩
    · cases e <;> simp [Heap.freeBlock] at h
    · rw [hs] at h; cases h; exact hc
  · refine ⟨fun blk1 h => ⟨blk1, ?_, rfl⟩, fun blk0 h h0 => ?_⟩
    · cases e <;> simpa [Heap.freeBlock, hx] using h
    · cases e <;> simp [Heap.freeBlock, hx] at h0 <;> rw [h0] at h <;> cases h

/-- `WeakPtr::Reset` of a handle that is empty or attached to an allocated block succeeds
with any destructor, keeps the strong counts and touches no other block. -/
theorem WeakReset_kept (d : Dtor) (s : Heap) (w : WeakPtr) (hw : HandleOk s w.block_) :
    ∃ s1, WeakPtr.Reset d s w = Except.ok (s1, ⟨0, Ptr.null⟩) ∧ StrongKept s s1 ∧
      (∀ x, x ≠ w.block_ → s1.blocks x = s.blocks x) ∧
      (∀ blk, w.block_ ≠ 0 → s.blocks w.block_ = some blk →
        sizeDec blk.cnt_weak ≠ 0 ∨ blk.cnt ≠ 0 →
        s1.blocks w.block_ = some { blk with cnt_weak := sizeDec blk.cnt_weak }) ∧
      (∀ blk, w.block_ ≠ 0 → s.blocks w.block_ = some blk →
        sizeDec blk.cnt_weak = 0 → blk.cnt = 0 → s1.blocks w.block_ = none) := by
  by_cases hb : w.block_ = 0
  · exact ⟨s, WeakReset_null d s w hb, StrongKept.refl s, fun _ _ => rfl,
      fun _ h => absurd hb h, fun _ h => absurd hb h⟩
  · rcases hw with h0 | ⟨blk, hs, hinv⟩
    · exact absurd h0 hb
    · by_cases hk : sizeDec blk.cnt_weak ≠ 0 ∨ blk.cnt ≠ 0
      · refine ⟨_, WeakReset_keep d s w blk hb hs hk, StrongKept.setWeak s _ blk _ hs,
          fun x hx => by simp [hx], fun blk0 _ h0 _ => ?_, fun blk0 _ h0 h1 h2 => ?_⟩
        · rw [hs] at h0; cases h0; simp
        · rw [hs] at h0; cases h0
          rcases hk with hk | hk
          · exact absurd h1 hk
          · exact absurd h2 hk
      · have hk1 : sizeDec blk.cnt_weak = 0 := by
          by_contra h; exact hk (Or.inl h)
        have hc : blk.cnt = 0 := by
          by_contra h; exact hk (Or.inr h)
        refine ⟨_, WeakReset_last d s w blk hb hs hk1 hc (hinv hc),
          StrongKept.free s _ blk _ _ _ hs hc, fun x hx => ?_, fun blk0 _ h0 h1 => ?_,
          fun _ _ _ _ _ => ?_⟩
        · cases blk.emplace <;> simp [Heap.freeBlock, hx]
        · rw [hs] at h0; cases h0
          exact absurd h1 hk
        · cases blk.emplace <;> simp [Heap.freeBlock]

theorem incWeak_kept (s : Heap) (b : Nat) (blk : BlockBase) (hb : b ≠ 0)
    (hs : s.blocks b = some blk) :
    ∃ s1, incWeak s b = Except.ok s1 ∧ StrongKept s s1 :=
  ⟨_, incWeak_of s b blk hb hs, StrongKept.setWeak s b blk _ hs⟩

/-- A reset of `this` followed by attaching to the block `b`, the body shared by the
assignment operators of `WeakPtr`, keeps the strong counts. -/
theorem resetThenAttach_kept (d : Dtor) (s : Heap) (this : WeakPtr) (b : Nat)
    (hthis : HandleOk s this.block_)
    (hb : b ≠ 0 → ∃ blk, s.blocks b = some blk ∧
      (b = this.block_ → sizeDec blk.cnt_weak ≠ 0 ∨ blk.cnt ≠ 0)) :
    ∃ s1 s2, WeakPtr.Reset d s this = Except.ok (s1, ⟨0, Ptr.null⟩) ∧
      (b = 0 → s2 = s1) ∧ (b ≠ 0 → incWeak s1 b = Except.ok s2) ∧ StrongKept s s2 := by
  obtain ⟨s1, h1, hk1, hf1, hkeep, _⟩ := WeakReset_kept d s this hthis
  by_cases hb0 : b = 0
  · exact ⟨s1, s1, h1, fun _ => rfl, fun h => absurd hb0 h, hk1⟩
  · obtain ⟨blk, hs, hsame⟩ := hb hb0
    have hs1 : ∃ blk1, s1.blocks b = some blk1 := by
      by_cases hbt : b = this.block_
      · subst hbt
        exact ⟨_, hkeep blk hb0 hs (hsame rfl)⟩
      · exact ⟨blk, by rw [hf1 b hbt]; exact hs⟩
    obtain ⟨blk1, hs1⟩ := hs1
    obtain ⟨s2, h2, hk2⟩ := incWeak_kept s1 b blk1 hb0 hs1
    exact ⟨s1, s2, h1, fun h => absurd h hb0, fun _ => h2, hk1.trans hk2⟩

/-- Claim C18: for a `WeakPtr` `this` that is empty or attached to an allocated block, a
`WeakPtr` `other` and a `SharedPtr` `sp` that are empty or attached to allocated blocks
(two weak handles on one block count for 2 in its weak count, an attached `SharedPtr`
for at least 1 in the strong count), copy and converting construction, construction and
assignment from `sp`, copy and move assignment, `Reset` and destruction succeed and keep
the strong count of every block; move construction and `Swap` only exchange the fields of
the handles. Copy construction and construction from an attached `SharedPtr` raise the
weak count of the block by exactly one (within `size_t`), and destruction lowers it by
exactly one, the block being deallocated when both counts are then 0. -/
theorem C18_weak_ops_keep_strong (d : Dtor) (s : Heap) (this other : WeakPtr) (sp : SharedPtr)
    (hthis : HandleOk s this.block_)
    (hother : other.block_ ≠ 0 → ∃ blk, s.blocks other.block_ = some blk ∧
      (other.block_ = this.block_ → 2 ≤ blk.cnt_weak ∧ blk.cnt_weak < SIZE_MOD))
    (hsp : sp.block_ ≠ 0 → ∃ blk, s.blocks sp.block_ = some blk ∧ blk.cnt ≠ 0) :
    (∃ s1, WeakPtr.copy s other = Except.ok (s1, ⟨other.block_, other.ptr_⟩) ∧
      StrongKept s s1) ∧
    (∃ s1, WeakPtr.ofShared s sp = Except.ok (s1, ⟨sp.block_, sp.ptr_⟩) ∧ StrongKept s s1) ∧
    (∃ s1, WeakPtr.assignShared d s this sp = Except.ok (s1, ⟨sp.block_, sp.ptr_⟩) ∧
      StrongKept s s1) ∧
    (∃ s1, WeakPtr.assign d s this other false = Except.ok (s1, ⟨other.block_, other.ptr_⟩) ∧
      StrongKept s s1) ∧
    WeakPtr.assign d s this other true = Except.ok (s, this) ∧
    (∃ s1, WeakPtr.moveAssign d s this other =
        Except.ok (s1, ⟨other.block_, other.ptr_⟩, ⟨0, Ptr.null⟩) ∧ StrongKept s s1) ∧
    WeakPtr.move other = (⟨other.block_, other.ptr_⟩, ⟨0, Ptr.null⟩) ∧
    WeakPtr.Swap this other = (⟨other.block_, other.ptr_⟩, ⟨this.block_, this.ptr_⟩) ∧
    (∃ s1, WeakPtr.Reset d s this = Except.ok (s1, ⟨0, Ptr.null⟩) ∧
      WeakPtr.destroy d s this = Except.ok s1 ∧ StrongKept s s1) ∧
    (∀ blk, other.block_ ≠ 0 → s.blocks other.block_ = some blk →
      blk.cnt_weak + 1 < SIZE_MOD →
      WeakPtr.copy s other = Except.ok (s.setBlock other.block_
        (some { blk with cnt_weak := blk.cnt_weak + 1 }), ⟨other.block_, other.ptr_⟩)) ∧
    (∀ blk, sp.block_ ≠ 0 → s.blocks sp.block_ = some blk → blk.cnt_weak + 1 < SIZE_MOD →
      WeakPtr.ofShared s sp = Except.ok (s.setBlock sp.block_
        (some { blk with cnt_weak := blk.cnt_weak + 1 }), ⟨sp.block_, sp.ptr_⟩)) ∧
    (∀ blk, this.block_ ≠ 0 → s.blocks this.block_ = some blk → 1 ≤ blk.cnt_weak →
      blk.cnt_weak < SIZE_MOD →
      ∃ s1, WeakPtr.destroy d s this = Except.ok s1 ∧
        (s1.blocks this.block_ = some { blk with cnt_weak := blk.cnt_weak - 1 } ∨
          (s1.blocks this.block_ = none ∧ blk.cnt = 0 ∧ blk.cnt_weak = 1))) := by
  have hob : other.block_ ≠ 0 → ∃ blk, s.blocks other.block_ = some blk ∧
      (other.block_ = this.block_ → sizeDec blk.cnt_weak ≠ 0 ∨ blk.cnt ≠ 0) := by
    intro h
    obtain ⟨blk, hs, hsame⟩ := hother h
    refine ⟨blk, hs, fun he => Or.inl ?_⟩
    obtain ⟨h2, h3⟩ := hsame he
    rw [sizeDec_of_pos _ (by omega) h3]
    omega
  have hspb : sp.block_ ≠ 0 → ∃ blk, s.blocks sp.block_ = some blk ∧
      (sp.block_ = this.block_ → sizeDec blk.cnt_weak ≠ 0 ∨ blk.cnt ≠ 0) := by
    intro h
    obtain ⟨blk, hs, hc⟩ := hsp h
    exact ⟨blk, hs, fun _ => Or.inr hc⟩
  obtain ⟨r1, hr1, hkr, _, hkeep, hgone⟩ := WeakReset_kept d s this hthis
  refine ⟨?_, ?_, ?_, ?_, ?_, ?_, rfl, rfl, ?_, ?_, ?_, ?_⟩
  · by_cases hb : other.block_ = 0
    · exact ⟨s, by simp [WeakPtr.copy, hb, bind, Except.bind, pure, Except.pure],
        StrongKept.refl s⟩
    · obtain ⟨blk, hs, _⟩ := hother hb
      exact ⟨s.setBlock other.block_ (some { blk with cnt_weak := sizeInc blk.cnt_weak }),
        by simp [WeakPtr.copy, hb, incWeak_of s _ blk hb hs, bind, Except.bind, pure,
          Except.pure], StrongKept.setWeak s _ blk _ hs⟩
  · by_cases hb : sp.block_ = 0
    · exact ⟨s, by simp [WeakPtr.ofShared, hb, bind, Except.bind, pure, Except.pure],
        StrongKept.refl s⟩
    · obtain ⟨blk, hs, _⟩ := hsp hb
      exact ⟨s.setBlock sp.block_ (some { blk with cnt_weak := sizeInc blk.cnt_weak }),
        by simp [WeakPtr.ofShared, hb, incWeak_of s _ blk hb hs, bind, Except.bind, pure,
          Except.pure], StrongKept.setWeak s _ blk _ hs⟩
  · obtain ⟨s1, s2, h1, h20, h2, hk⟩ := resetThenAttach_kept d s this sp.block_ hthis hspb
    refine ⟨s2, ?_, hk⟩
    by_cases hb : sp.block_ = 0
    · simp [WeakPtr.assignShared, h1, hb, h20 hb, bind, Except.bind, pure, Except.pure]
    · simp [WeakPtr.assignShared, h1, hb, h2 hb, bind, Except.bind, pure, Except.pure]
  · obtain ⟨s1, s2, h1, h20, h2, hk⟩ := resetThenAttach_kept d s this other.block_ hthis hob
    refine ⟨s2, ?_, hk⟩
    by_cases hb : other.block_ = 0
    · simp [WeakPtr.assign, h1, hb, h20 hb, bind, Except.bind, pure, Except.pure]
    · simp [WeakPtr.assign, h1, hb, h2 hb, bind, Except.bind, pure, Except.pure]
  · simp [WeakPtr.assign, pure, Except.pure]
  · exact ⟨r1, by simp [WeakPtr.moveAssign, hr1, bind, Except.bind, pure, Except.pure], hkr⟩
  · exact ⟨r1, hr1, by simp [WeakPtr.destroy, hr1, bind, Except.bind, pure, Except.pure], hkr⟩
  · intro blk hb hs hlt
    simp [WeakPtr.copy, hb, incWeak_of s _ blk hb hs, sizeInc_of_lt _ hlt, bind, Except.bind,
      pure, Except.pure]
  · intro blk hb hs hlt
    simp [WeakPtr.ofShared, hb, incWeak_of s _ blk hb hs, sizeInc_of_lt _ hlt, bind,
      Except.bind, pure, Except.pure]
  · intro blk hb hs h1 hlt
    refine ⟨r1, by simp [WeakPtr.destroy, hr1, bind, Except.bind, pure, Except.pure], ?_⟩
    have hdec := sizeDec_of_pos _ h1 hlt
    by_cases hk : sizeDec blk.cnt_weak ≠ 0 ∨ blk.cnt ≠ 0
    · left
      rw [hkeep blk hb hs hk, hdec]
    · right
      have hk1 : sizeDec blk.cnt_weak = 0 := by
        by_contra h; exact hk (Or.inl h)
      have hc : blk.cnt = 0 := by
        by_contra h; exact hk (Or.inr h)
      exact ⟨hgone blk hb hs hk1 hc, hc, by omega⟩

/-- Witness of C18 on a `BlockEmplace<int>` with strong count 1 and two weak handles:
copy assignment between the two keeps the strong counts, and copy construction raises
the weak count from 2 to 3. -/
theorem C18_witness :
    (∃ s1, WeakPtr.assign (objDtor 1) (plainHeap 1 2) ⟨1, Ptr.storage 1⟩ ⟨1, Ptr.storage 1⟩
        false = Except.ok (s1, ⟨1, Ptr.storage 1⟩) ∧ StrongKept (plainHeap 1 2) s1) ∧
    WeakPtr.copy (plainHeap 1 2) ⟨1, Ptr.storage 1⟩ = Except.ok
      ((plainHeap 1 2).setBlock 1 (some
        { cnt := 1, cnt_weak := 3, deleted := false, emplace := true, ptr := Ptr.null }),
        ⟨1, Ptr.storage 1⟩) := by
  have h := C18_weak_ops_keep_strong (objDtor 1) (plainHeap 1 2) ⟨1, Ptr.storage 1⟩
    ⟨1, Ptr.storage 1⟩ ⟨Ptr.storage 1, 1⟩
    (Or.inr ⟨{ cnt := 1, cnt_weak := 2, deleted := false, emplace := true, ptr := Ptr.null },
      rfl, by decide⟩)
    (fun _ => ⟨{ cnt := 1, cnt_weak := 2, deleted := false, emplace := true, ptr := Ptr.null },
      rfl, fun _ => ⟨by decide, by decide⟩⟩)
    (fun _ => ⟨{ cnt := 1, cnt_weak := 2, deleted := false, emplace := true, ptr := Ptr.null },
      rfl, by decide⟩)
  exact ⟨h.2.2.2.1, h.2.2.2.2.2.2.2.2.2.1
    { cnt := 1, cnt_weak := 2, deleted := false, emplace := true, ptr := Ptr.null }
    (by decide) rfl (by decide)⟩

/-! ## C13: the counting invariant -/

theorem selfBlock_setBlock (s : Heap) (b : Nat) (v : Option BlockBase) (p : Ptr) :
    (s.setBlock b v).selfBlock p = s.selfBlock p := rfl

theorem selfBlock_emit (s : Heap) (e : Event) (p : Ptr) :
    (s.emit e).selfBlock p = s.selfBlock p := rfl

theorem selfBlock_setObj_ne (s : Heap) (p q : Ptr) (v : Option Obj) (h : q ≠ p) :
    (s.setObj p v).selfBlock q = s.selfBlock q := by
  simp [Heap.selfBlock, Heap.setObj, h]

theorem selfBlock_setObj_self (s : Heap) (p : Ptr) (v : Option Obj) :
    (s.setObj p v).selfBlock p = match v with
      | some o => o.weak_this.block_
      | none => 0 := by
  simp [Heap.selfBlock, Heap.setObj]

theorem emb_congr (s t : Heap) (A : List Ptr) (b : Nat)
    (h : ∀ q, q ∈ A → t.selfBlock q = s.selfBlock q) : emb t A b = emb s A b := by
  unfold emb
  congr 1
  exact List.map_congr_left h

theorem emb_update (s t : Heap) (p : Ptr) (b : Nat) :
    ∀ A : List Ptr, A.Nodup → p ∈ A → (∀ q, q ∈ A → q ≠ p → t.selfBlock q = s.selfBlock q) →
      (emb t A b : Int) = emb s A b - (if s.selfBlock p = b then 1 else 0) +
        (if t.selfBlock p = b then 1 else 0) := by
  intro A
  induction A with
  | nil => intro _ hp; cases hp
  | cons q A ih =>
    intro hnd hp hq
    have hq2 : q ∉ A := (List.nodup_cons.mp hnd).1
    have hnd2 : A.Nodup := (List.nodup_cons.mp hnd).2
    by_cases hqp : q = p
    · subst hqp
      have hA : emb t A b = emb s A b :=
        emb_congr s t A b (fun r hr => hq r (List.mem_cons_of_mem _ hr)
          (fun h => hq2 (h ▸ hr)))
      simp only [emb] at hA ⊢
      simp only [List.map_cons, List.count_cons, hA]
      split_ifs <;> simp_all
    · have hpA : p ∈ A := by
        rcases List.mem_cons.mp hp with h | h
        · exact absurd h.symm hqp
        · exact h
      have ih2 := ih hnd2 hpA (fun r hr hrp => hq r (List.mem_cons_of_mem _ hr) hrp)
      have hqq := hq q (List.mem_cons_self _ _) hqp
      simp only [emb] at ih2 ⊢
      simp only [List.map_cons, List.count_cons, hqq]
      push_cast
      rw [ih2]
      ring

@[simp] theorem emb_setBlock (s : Heap) (b : Nat) (v : Option BlockBase) (A : List Ptr) (x : Nat) :
    emb (s.setBlock b v) A x = emb s A x := rfl

@[simp] theorem emb_emit (s : Heap) (e : Event) (A : List Ptr) (x : Nat) :
    emb (s.emit e) A x = emb s A x := rfl

theorem upd_same (f : Nat → Int) (b : Nat) (k : Int) : upd f b k b = f b + k := by
  simp [upd]

theorem upd_ne (f : Nat → Int) (b x : Nat) (k : Int) (h : x ≠ b) : upd f b k x = f x := by
  simp [upd, h]

theorem Bal.congr {s : Heap} {nS nW nS1 nW1 : Nat → Int} {A : List Ptr} (h : Bal s nS nW A)
    (hS : ∀ b, b ≠ 0 → nS1 b = nS b) (hW : ∀ b, b ≠ 0 → nW1 b = nW b) : Bal s nS1 nW1 A :=
  ⟨fun b blk hb hs => by rw [hS b hb, hW b hb]; exact h.alloc b blk hb hs,
   fun b hb hs => by rw [hS b hb, hW b hb]; exact h.free b hb hs,
   h.nodup, h.cover, h.attached, h.fresh, h.zero⟩

/-- Rewriting the block at `b`: the counts kept for `b` move with the counts of the block. -/
theorem Bal.setBlock {s : Heap} {nS nW : Nat → Int} {A : List Ptr} (h : Bal s nS nW A)
    (b : Nat) (blk blk1 : BlockBase) (k j : Int) (hb : b ≠ 0) (hs : s.blocks b = some blk)
    (hk : (blk1.cnt : Int) = blk.cnt + k) (hj : (blk1.cnt_weak : Int) = blk.cnt_weak + j) :
    Bal (s.setBlock b (some blk1)) (upd nS b k) (upd nW b j) A := by
  refine ⟨fun x blkx hx hsx => ?_, fun x hx hsx => ?_, h.nodup, h.cover, h.attached,
    fun x hx => ?_, by simp [Ne.symm hb, h.zero]⟩
  · by_cases hxb : x = b
    · subst hxb
      simp at hsx
      subst hsx
      obtain ⟨h1, h2⟩ := h.alloc x blk hx hs
      rw [upd_same, upd_same, emb_setBlock]
      constructor <;> omega
    · rw [upd_ne _ _ _ _ hxb, upd_ne _ _ _ _ hxb, emb_setBlock]
      exact h.alloc x blkx hx (by simpa [hxb] using hsx)
  · by_cases hxb : x = b
    · subst hxb
      simp at hsx
    · rw [upd_ne _ _ _ _ hxb, upd_ne _ _ _ _ hxb, emb_setBlock]
      exact h.free x hx (by simpa [hxb] using hsx)
  · have hxb : x ≠ b := by
      intro hxb
      subst hxb
      have := (h.fresh x hx).1
      rw [hs] at this
      cases this
    exact ⟨by simpa [hxb] using (h.fresh x hx).1, (h.fresh x hx).2⟩

/-- Releasing a block both of whose counts are 0. -/
theorem Bal.freeBlk {s : Heap} {nS nW : Nat → Int} {A : List Ptr} (h : Bal s nS nW A)
    (b : Nat) (blk : BlockBase) (hb : b ≠ 0) (hs : s.blocks b = some blk)
    (hc : blk.cnt = 0) (hw : blk.cnt_weak = 0) :
    Bal (s.setBlock b none) nS nW A := by
  refine ⟨fun x blkx hx hsx => ?_, fun x hx hsx => ?_, h.nodup, h.cover, h.attached,
    fun x hx => ?_, by simp [Ne.symm hb, h.zero]⟩
  · by_cases hxb : x = b
    · subst hxb
      simp at hsx
    · rw [emb_setBlock]
      exact h.alloc x blkx hx (by simpa [hxb] using hsx)
  · by_cases hxb : x = b
    · subst hxb
      obtain ⟨h1, h2⟩ := h.alloc x blk hx hs
      rw [emb_setBlock]
      constructor <;> omega
    · rw [emb_setBlock]
      exact h.free x hx (by simpa [hxb] using hsx)
  · by_cases hxb : x = b
    · subst hxb
      exact ⟨by simp, (h.fresh x hx).2⟩
    · exact ⟨by simpa [hxb] using (h.fresh x hx).1, (h.fresh x hx).2⟩

theorem Bal.emit {s : Heap} {nS nW : Nat → Int} {A : List Ptr} (h : Bal s nS nW A)
    (e : Event) : Bal (s.emit e) nS nW A :=
  ⟨h.alloc, h.free, h.nodup, h.cover, h.attached, h.fresh, h.zero⟩

/-- The value of `selfBlock` that writing `v` at an address gives. -/
theorem Bal.setObj {s : Heap} {nS nW : Nat → Int} {A : List Ptr} (h : Bal s nS nW A)
    (p : Ptr) (v : Option Obj) (hp : p ∈ A)
    (hv : ∀ o, v = some o → o.weak_this.block_ ≠ 0 → o.esft = true ∧ o.alive = true) :
    Bal (s.setObj p v) nS
      (upd (upd nW (s.selfBlock p) 1) ((s.setObj p v).selfBlock p) (-1)) A := by
  have he : ∀ x, (emb (s.setObj p v) A x : Int) = emb s A x -
      (if s.selfBlock p = x then 1 else 0) + (if (s.setObj p v).selfBlock p = x then 1 else 0) :=
    fun x => emb_update s (s.setObj p v) p x A h.nodup hp
      (fun q _ hq => selfBlock_setObj_ne s p q v hq)
  have hw : ∀ x, upd (upd nW (s.selfBlock p) 1) ((s.setObj p v).selfBlock p) (-1) x +
      emb (s.setObj p v) A x = nW x + emb s A x := by
    intro x
    rw [he x]
    generalize s.selfBlock p = a
    generalize (s.setObj p v).selfBlock p = c
    generalize (emb s A x : Int) = e
    unfold upd
    split_ifs <;> omega
  refine ⟨fun x blkx hx hsx => ?_, fun x hx hsx => ?_, h.nodup, fun q hq => ?_,
    fun q o hq ho => ?_, fun x hx => h.fresh x hx, h.zero⟩
  · rw [hw x]
    exact h.alloc x blkx hx hsx
  · rw [hw x]
    exact h.free x hx hsx
  · by_cases hqp : q = p
    · subst hqp; exact hp
    · exact h.cover q (by simpa [Heap.setObj, hqp] using hq)
  · by_cases hqp : q = p
    · subst hqp
      exact hv o (by simpa [Heap.setObj] using hq) ho
    · exact h.attached q o (by simpa [Heap.setObj, hqp] using hq) ho

theorem emb_newBlock (s : Heap) (e : Bool) (ptr : Ptr) (A : List Ptr) (x : Nat) :
    emb (s.newBlock e ptr).1 A x = emb s A x := rfl

/-- Allocating a block for a new strong handle. -/
theorem Bal.newBlock {s : Heap} {nS nW : Nat → Int} {A : List Ptr} (h : Bal s nS nW A)
    (e : Bool) (ptr : Ptr) :
    Bal (s.newBlock e ptr).1 (upd nS (s.next + 1) 1) nW A := by
  have hf := h.fresh (s.next + 1) (by omega)
  have hz := h.free (s.next + 1) (by omega) hf.1
  refine ⟨fun x blkx hx hsx => ?_, fun x hx hsx => ?_, h.nodup, h.cover, h.attached,
    fun x hx => ?_, by simp [Heap.newBlock, h.zero]⟩
  · by_cases hxb : x = s.next + 1
    · subst hxb
      simp [Heap.newBlock] at hsx
      subst hsx
      rw [upd_same, emb_newBlock]
      constructor
      · simp only [hz.1]; rfl
      · simp only [hz.2]; rfl
    · rw [upd_ne _ _ _ _ hxb, emb_newBlock]
      exact h.alloc x blkx hx (by simpa [Heap.newBlock, hxb] using hsx)
  · by_cases hxb : x = s.next + 1
    · subst hxb
      simp [Heap.newBlock] at hsx
    · rw [upd_ne _ _ _ _ hxb, emb_newBlock]
      exact h.free x hx (by simpa [Heap.newBlock, hxb] using hsx)
  · have hx1 : s.next < x := by simp [Heap.newBlock] at hx; omega
    have hx2 : x ≠ s.next + 1 := by simp [Heap.newBlock] at hx; omega
    exact ⟨by simpa [Heap.newBlock, hx2] using (h.fresh x hx1).1, (h.fresh x hx1).2⟩

/-- Constructing an object, its `weak_this` empty, at a free address. -/
theorem Bal.insertObj {s : Heap} {nS nW : Nat → Int} {A : List Ptr} (h : Bal s nS nW A)
    (p : Ptr) (o : Obj) (hs : s.objs p = none) (ho : o.weak_this.block_ = 0)
    (hp : ∀ k, s.next < k → p ≠ Ptr.storage k) :
    Bal (s.setObj p (some o)) nS nW (List.insert p A) := by
  have h0 : s.selfBlock p = 0 := by simp [Heap.selfBlock, hs]
  have h1 : (s.setObj p (some o)).selfBlock p = 0 := by
    rw [selfBlock_setObj_self]; exact ho
  by_cases hpA : p ∈ A
  · rw [List.insert_of_mem hpA]
    refine (h.setObj p (some o) hpA (fun o1 ho1 hne => ?_)).congr (fun _ _ => rfl)
      (fun b hb => ?_)
    · cases ho1; exact absurd ho hne
    · rw [h0, h1, upd_ne _ _ _ _ hb, upd_ne _ _ _ _ hb]
  · rw [List.insert_of_not_mem hpA]
    have he : ∀ x, x ≠ 0 → emb (s.setObj p (some o)) (p :: A) x = emb s A x := by
      intro x hx
      have := emb_congr s (s.setObj p (some o)) A x
        (fun q hq => selfBlock_setObj_ne s p q _ (fun hqp => hpA (hqp ▸ hq)))
      simp only [emb] at this ⊢
      simp only [List.map_cons, List.count_cons, h1, this]
      simp [Ne.symm hx]
    refine ⟨fun x blkx hx hsx => ?_, fun x hx hsx => ?_, List.nodup_cons.mpr ⟨hpA, h.nodup⟩,
      fun q hq => ?_, fun q o1 hq ho1 => ?_, fun x hx => ?_, h.zero⟩
    · rw [he x hx]; exact h.alloc x blkx hx hsx
    · rw [he x hx]; exact h.free x hx hsx
    · by_cases hqp : q = p
      · subst hqp; exact List.mem_cons_self _ _
      · exact List.mem_cons_of_mem _ (h.cover q (by simpa [Heap.setObj, hqp] using hq))
    · by_cases hqp : q = p
      · subst hqp
        simp [Heap.setObj] at hq
        subst hq
        exact absurd ho ho1
      · exact h.attached q o1 (by simpa [Heap.setObj, hqp] using hq) ho1
    · refine ⟨(h.fresh x hx).1, fun hmem => ?_⟩
      rcases List.mem_cons.mp hmem with h2 | h2
      · exact hp x hx h2.symm
      · exact (h.fresh x hx).2 h2

/-! ### Reading the result of a successful operation -/

theorem bind_ok {α β : Type} (x : Except Err α) (f : α → Except Err β) (b : β) :
    (x >>= f) = Except.ok b ↔ ∃ a, x = Except.ok a ∧ f a = Except.ok b := by
  cases x with
  | error e => simp [bind, Except.bind]
  | ok a => simp [bind, Except.bind]

theorem load_ok (s : Heap) (b : Nat) (blk : BlockBase) :
    s.load b = Except.ok blk ↔ b ≠ 0 ∧ s.blocks b = some blk := by
  unfold Heap.load
  by_cases hb : b = 0
  · simp [hb]
  · cases hs : s.blocks b <;> simp [hb]

theorem loadObj_ok (s : Heap) (p : Ptr) (o : Obj) :
    s.loadObj p = Except.ok o ↔ p ≠ Ptr.null ∧ s.objs p = some o := by
  unfold Heap.loadObj
  by_cases hp : p = Ptr.null
  · simp [hp]
  · cases hs : s.objs p <;> simp [hp]

theorem incCnt_ok (s t : Heap) (b : Nat) :
    incCnt s b = Except.ok t ↔ ∃ blk, b ≠ 0 ∧ s.blocks b = some blk ∧
      t = s.setBlock b (some { blk with cnt := sizeInc blk.cnt }) := by
  simp only [incCnt, bind_ok, load_ok, pure, Except.pure, Except.ok.injEq]
  constructor
  · rintro ⟨blk, ⟨h1, h2⟩, h3⟩; exact ⟨blk, h1, h2, h3.symm⟩
  · rintro ⟨blk, h1, h2, h3⟩; exact ⟨blk, ⟨h1, h2⟩, h3.symm⟩

theorem decCnt_ok (s t : Heap) (b : Nat) :
    decCnt s b = Except.ok t ↔ ∃ blk, b ≠ 0 ∧ s.blocks b = some blk ∧
      t = s.setBlock b (some { blk with cnt := sizeDec blk.cnt }) := by
  simp only [decCnt, bind_ok, load_ok, pure, Except.pure, Except.ok.injEq]
  constructor
  · rintro ⟨blk, ⟨h1, h2⟩, h3⟩; exact ⟨blk, h1, h2, h3.symm⟩
  · rintro ⟨blk, h1, h2, h3⟩; exact ⟨blk, ⟨h1, h2⟩, h3.symm⟩

theorem incWeak_ok (s t : Heap) (b : Nat) :
    incWeak s b = Except.ok t ↔ ∃ blk, b ≠ 0 ∧ s.blocks b = some blk ∧
      t = s.setBlock b (some { blk with cnt_weak := sizeInc blk.cnt_weak }) := by
  simp only [incWeak, bind_ok, load_ok, pure, Except.pure, Except.ok.injEq]
  constructor
  · rintro ⟨blk, ⟨h1, h2⟩, h3⟩; exact ⟨blk, h1, h2, h3.symm⟩
  · rintro ⟨blk, h1, h2, h3⟩; exact ⟨blk, ⟨h1, h2⟩, h3.symm⟩

theorem decWeak_ok (s t : Heap) (b : Nat) :
    decWeak s b = Except.ok t ↔ ∃ blk, b ≠ 0 ∧ s.blocks b = some blk ∧
      t = s.setBlock b (some { blk with cnt_weak := sizeDec blk.cnt_weak }) := by
  simp only [decWeak, bind_ok, load_ok, pure, Except.pure, Except.ok.injEq]
  constructor
  · rintro ⟨blk, ⟨h1, h2⟩, h3⟩; exact ⟨blk, h1, h2, h3.symm⟩
  · rintro ⟨blk, h1, h2, h3⟩; exact ⟨blk, ⟨h1, h2⟩, h3.symm⟩

theorem Rel.refl_rel (j : Nat) (e : Option Nat) (s : Heap) : Rel j e s s :=
  ⟨fun _ blk1 h => ⟨blk1, h, rfl, rfl, by omega, fun _ => ⟨rfl, rfl, fun hp => hp⟩⟩,
   fun _ o1 h => ⟨o1, h, fun ha => ha⟩, rfl⟩

theorem Rel.trans_rel {j1 j2 : Nat} {e : Option Nat} {s t u : Heap} (h1 : Rel j1 e s t)
    (h2 : Rel j2 e t u) : Rel (j1 + j2) e s u := by
  refine ⟨fun x blk2 hx => ?_, fun q o2 hq => ?_, by rw [h2.next, h1.next]⟩
  · obtain ⟨blk1, hb1, c1, e1, w1, r1⟩ := h2.blocks x blk2 hx
    obtain ⟨blk, hb, c0, e0, w0, r0⟩ := h1.blocks x blk1 hb1
    refine ⟨blk, hb, c1.trans c0, e1.trans e0, by omega, fun hne => ?_⟩
    obtain ⟨a1, a2, a3⟩ := r1 hne
    obtain ⟨b1, b2, b3⟩ := r0 hne
    exact ⟨a1.trans b1, a2.trans b2, fun hp => a3 (b3 hp)⟩
  · obtain ⟨o1, ho1, a1⟩ := h2.objs q o2 hq
    obtain ⟨o, ho, a0⟩ := h1.objs q o1 ho1
    exact ⟨o, ho, fun ha => a0 (a1 ha)⟩

theorem Rel.weaken {j j1 : Nat} {e : Option Nat} {s t : Heap} (h : Rel j none s t)
    (hj : j ≤ j1) : Rel j1 e s t := by
  refine ⟨fun x blk1 hx => ?_, h.objs, h.next⟩
  obtain ⟨blk, hb, c, em, w, r⟩ := h.blocks x blk1 hx
  exact ⟨blk, hb, c, em, by omega, fun _ => r (by simp)⟩

theorem Rel.mono {j j1 : Nat} {e : Option Nat} {s t : Heap} (h : Rel j e s t)
    (hj : j ≤ j1) : Rel j1 e s t := by
  refine ⟨fun x blk1 hx => ?_, h.objs, h.next⟩
  obtain ⟨blk, hb, c, em, w, r⟩ := h.blocks x blk1 hx
  exact ⟨blk, hb, c, em, by omega, r⟩

theorem Bounded.rel {K j : Nat} {e : Option Nat} {s t : Heap} (hB : Bounded K s)
    (h : Rel j e s t) : Bounded (K + j) t := by
  intro x blk1 hx
  obtain ⟨blk, hb, c, _, w, _⟩ := h.blocks x blk1 hx
  obtain ⟨b1, b2⟩ := hB x blk hb
  exact ⟨by omega, by omega⟩

/-- Removing an object whose `weak_this` is empty (or that is not there). -/
theorem Bal.removeObj {s : Heap} {nS nW : Nat → Int} {A : List Ptr} (h : Bal s nS nW A)
    (p : Ptr) (hp : s.selfBlock p = 0) : Bal (s.setObj p none) nS nW A := by
  have he : ∀ x, emb (s.setObj p none) A x = emb s A x := by
    intro x
    refine emb_congr s _ A x (fun q _ => ?_)
    by_cases hqp : q = p
    · subst hqp; rw [selfBlock_setObj_self, hp]
    · exact selfBlock_setObj_ne s p q none hqp
  refine ⟨fun x blkx hx hsx => ?_, fun x hx hsx => ?_, h.nodup, fun q hq => ?_,
    fun q o hq ho => ?_, h.fresh, h.zero⟩
  · rw [he x]; exact h.alloc x blkx hx hsx
  · rw [he x]; exact h.free x hx hsx
  · by_cases hqp : q = p
    · subst hqp; simp [Heap.setObj] at hq
    · exact h.cover q (by simpa [Heap.setObj, hqp] using hq)
  · by_cases hqp : q = p
    · subst hqp; simp [Heap.setObj] at hq
    · exact h.attached q o (by simpa [Heap.setObj, hqp] using hq) ho

/-- `WeakPtr::Reset` of a handle, embedded or not, whose share is counted: the ledger
loses one weak handle of the block, unless the handle was the `weak_this` of the object in
the storage of that very block, which is then gone with the block. -/
theorem WeakReset_spec (d : Dtor) (s t : Heap) (w w1 : WeakPtr) (nS nW : Nat → Int)
    (A : List Ptr) (hbal : Bal s nS nW A)
    (hpos : w.block_ ≠ 0 → ∀ blk, s.blocks w.block_ = some blk →
      1 ≤ blk.cnt_weak ∧ blk.cnt_weak < SIZE_MOD)
    (hflag : w.block_ ≠ 0 → ∀ blk, s.blocks w.block_ = some blk → blk.cnt = 0 →
      blk.deleted = true)
    (h : WeakPtr.Reset d s w = Except.ok (t, w1)) :
    w1 = ⟨0, Ptr.null⟩ ∧ Rel 0 none s t ∧ (∀ q o, t.objs q = some o → s.objs q = some o) ∧
    (∀ q, q ≠ Ptr.storage w.block_ → t.objs q = s.objs q) ∧
    (∀ x blk, s.blocks x = some blk → t.blocks x = none → blk.emplace = true →
      t.objs (Ptr.storage x) = none) ∧
    ((∃ blk, w.block_ ≠ 0 ∧ s.blocks w.block_ = some blk ∧ blk.emplace = true ∧
        blk.deleted = true ∧
        s.selfBlock (Ptr.storage w.block_) ≠ 0 ∧ t.objs (Ptr.storage w.block_) = none) ∨
      Bal t nS (upd nW w.block_ (-1)) A) := by
  by_cases hb : w.block_ = 0
  · rw [WeakReset_null d s w hb] at h
    cases h
    exact ⟨rfl, Rel.refl_rel _ _ _, fun _ _ hq => hq, fun _ _ => rfl,
      fun x blk h1 h2 _ => (by rw [h1] at h2; cases h2),
      Or.inr (hbal.congr (fun _ _ => rfl) (fun x hx => upd_ne _ _ _ _ (by rw [hb]; exact hx)))⟩
  · cases hs : s.blocks w.block_ with
    | none =>
      simp [WeakPtr.Reset, decWeak, Heap.load, hb, hs, bind, Except.bind] at h
    | some blk =>
      obtain ⟨hp1, hp2⟩ := hpos hb blk hs
      have hdec : sizeDec blk.cnt_weak = blk.cnt_weak - 1 := sizeDec_of_pos _ hp1 hp2
      by_cases hk : sizeDec blk.cnt_weak ≠ 0 ∨ blk.cnt ≠ 0
      · rw [WeakReset_keep d s w blk hb hs hk] at h
        cases h
        refine ⟨rfl, ⟨fun x blk1 hx => ?_, fun q o1 hq => ⟨o1, hq, fun ha => ha⟩, rfl⟩,
          fun _ _ hq => hq, fun _ _ => rfl, fun x blkx h1 h2 _ => ?_, Or.inr ?_⟩
        · by_cases hxb : x = w.block_
          · subst hxb
            simp at hx
            subst hx
            refine ⟨blk, hs, rfl, rfl, ?_, fun _ => ⟨rfl, rfl, fun _ => ?_⟩⟩
            · simp only [hdec]; omega
            · simp only
              rcases hk with hk | hk <;> omega
          · exact ⟨blk1, by simpa [hxb] using hx, rfl, rfl, by omega,
              fun _ => ⟨rfl, rfl, fun hp => hp⟩⟩
        · exfalso
          by_cases hxb : x = w.block_
          · subst hxb; simp at h2
          · simp [hxb, h1] at h2
        · have := hbal.setBlock w.block_ blk
            { blk with cnt_weak := sizeDec blk.cnt_weak } 0 (-1) hb hs (by simp)
            (by simp only [hdec]; omega)
          exact this.congr (fun x _ => by unfold upd; split_ifs <;> simp) (fun _ _ => rfl)
      · have hk1 : sizeDec blk.cnt_weak = 0 := by
          by_contra hne; exact hk (Or.inl hne)
        have hc : blk.cnt = 0 := by
          by_contra hne; exact hk (Or.inr hne)
        have hd := hflag hb blk hs hc
        rw [WeakReset_last d s w blk hb hs hk1 hc hd] at h
        cases h
        have hbal1 : Bal ((s.setBlock w.block_ (some { blk with cnt_weak := 0 })).setBlock
            w.block_ none) nS (upd nW w.block_ (-1)) A := by
          have h1 := hbal.setBlock w.block_ blk { blk with cnt_weak := 0 } 0 (-1) hb hs
            (by simp) (by simp only; omega)
          have h2 := h1.freeBlk w.block_ { blk with cnt_weak := 0 } hb (by simp) hc rfl
          exact h2.congr (fun x _ => by unfold upd; split_ifs <;> simp) (fun _ _ => rfl)
        refine ⟨rfl, ⟨fun x blk1 hx => ?_, fun q o1 hq => ?_, ?_⟩, fun q o hq => ?_,
          fun q hq => ?_, fun x blkx h1 h2 hemx => ?_, ?_⟩
        · have hxb : x ≠ w.block_ := by
            intro hxb; subst hxb
            cases hem : blk.emplace <;> simp [Heap.freeBlock, hem] at hx
          refine ⟨blk1, ?_, rfl, rfl, by omega, fun _ => ⟨rfl, rfl, fun hp => hp⟩⟩
          cases hem : blk.emplace <;> simpa [Heap.freeBlock, hem, hxb] using hx
        · refine ⟨o1, ?_, fun ha => ha⟩
          cases hem : blk.emplace <;> simp [Heap.freeBlock, Heap.setObj, hem] at hq
          · exact hq
          · exact hq.2
        · cases hem : blk.emplace <;> simp [Heap.freeBlock, Heap.setObj, Heap.setBlock, Heap.emit]
        · cases hem : blk.emplace <;> simp [Heap.freeBlock, Heap.setObj, hem] at hq
          · exact hq
          · exact hq.2
        · cases hem : blk.emplace <;> simp [Heap.freeBlock, Heap.setObj, hq]
        · by_cases hxb : x = w.block_
          · subst hxb
            rw [hs] at h1
            cases h1
            simp [Heap.freeBlock, Heap.setObj, hemx]
          · exfalso
            cases hem : blk.emplace <;> simp [Heap.freeBlock, hem, hxb, h1] at h2
        · cases hem : blk.emplace with
          | false =>
            right
            simpa [Heap.freeBlock, hem] using hbal1.emit (Event.dealloc w.block_)
          | true =>
            by_cases hself : s.selfBlock (Ptr.storage w.block_) = 0
            · right
              have h3 := (hbal1.removeObj (Ptr.storage w.block_) hself).emit
                (Event.dealloc w.block_)
              simpa [Heap.freeBlock, hem] using h3
            · left
              exact ⟨blk, hb, rfl, hem, hd, hself, by simp [Heap.freeBlock, Heap.setObj]⟩

theorem selfBlock_of (s : Heap) (p : Ptr) (o : Obj) (h : s.objs p = some o) :
    s.selfBlock p = o.weak_this.block_ := by
  simp [Heap.selfBlock, h]

theorem emb_pos (s : Heap) (A : List Ptr) (p : Ptr) (hp : p ∈ A) :
    1 ≤ emb s A (s.selfBlock p) := by
  unfold emb
  exact List.count_pos_iff.mpr (List.mem_map.mpr ⟨p, hp, rfl⟩)

theorem Bal.alive_of_selfBlock {s : Heap} {nS nW : Nat → Int} {A : List Ptr}
    (h : Bal s nS nW A) (q : Ptr) (hq : s.selfBlock q ≠ 0) : s.isAlive q = true := by
  unfold Heap.selfBlock at hq
  unfold Heap.isAlive
  cases ho : s.objs q with
  | none => simp [ho] at hq
  | some o =>
    simp only [ho] at hq
    exact (h.attached q o ho hq).2

/-- One run of the destructor on a tracked object: the ledger is kept, the member
`weak_this` ends up empty and the object dead. -/
theorem callDtor_spec (n : Nat) (s t : Heap) (p : Ptr) (nS nW : Nat → Int) (A : List Ptr)
    (K : Nat) (hbal : Bal s nS nW A) (hnn : ∀ x, 0 ≤ nW x) (hK : Bounded K s)
    (hKlt : K < SIZE_MOD)
    (hflag : ∀ x blk, x ≠ 0 → s.blocks x = some blk → blk.cnt = 0 → blk.deleted = true)
    (hdead : ∀ x blk, x ≠ 0 → s.blocks x = some blk → blk.emplace = true →
      blk.deleted = true → Ptr.storage x ≠ p → s.isAlive (Ptr.storage x) = false)
    (h : callDtor (objDtor n) p s = Except.ok t) :
    Bal t nS nW A ∧ Rel 0 none s t ∧ t.isAlive p = false ∧ t.selfBlock p = 0 ∧
      (∃ o, t.objs p = some o) ∧ (∀ q o, q ≠ p → t.objs q = some o → s.objs q = some o) ∧
      (∀ x blk, s.blocks x = some blk → blk.emplace = true → Ptr.storage x = p →
        ∃ blk1, t.blocks x = some blk1) := by
  simp only [callDtor, bind_ok, loadObj_ok, pure, Except.pure, Except.ok.injEq] at h
  obtain ⟨o0, ⟨hp, ho0⟩, s1, hd, o2, ⟨_, ho2⟩, ht⟩ := h
  subst ht
  have hpA : p ∈ A := hbal.cover p (by rw [ho0]; simp)
  cases n with
  | zero => simp [objDtor] at hd
  | succ n =>
    simp only [objDtor, bind_ok, loadObj_ok] at hd
    obtain ⟨o, ⟨_, ho⟩, hd⟩ := hd
    have ho' : s.objs p = some o := ho
    rw [ho0] at ho'
    cases ho'
    cases hes : o0.esft with
    | false =>
      simp only [hes, Bool.false_eq_true, if_false, pure, Except.pure, Except.ok.injEq] at hd
      subst hd
      have ho2' : s.objs p = some o2 := ho2
      rw [ho0] at ho2'
      cases ho2'
      have hw0 : o0.weak_this.block_ = 0 := by
        by_contra hne
        have := (hbal.attached p o0 ho0 hne).1
        rw [hes] at this
        cases this
      have hs0 : (s.emit (Event.dtor p)).selfBlock p = 0 := by
        rw [selfBlock_emit, selfBlock_of s p o0 ho0, hw0]
      have hb1 := (hbal.emit (Event.dtor p)).setObj p (some { o0 with alive := false }) hpA
        (fun o1 ho1 hne => by cases ho1; exact absurd hw0 hne)
      refine ⟨hb1.congr (fun _ _ => rfl) (fun x hx => ?_), ⟨fun x blk1 hx => ?_,
        fun q o1 hq => ?_, rfl⟩, by simp [Heap.isAlive, Heap.setObj],
        by rw [selfBlock_setObj_self]; exact hw0,
        ⟨{ o0 with alive := false }, by simp [Heap.setObj]⟩,
        fun q o hq hqo => by simpa [Heap.setObj, Heap.emit, hq] using hqo,
        fun x blk hx _ _ => ⟨blk, hx⟩⟩
      · rw [hs0, selfBlock_setObj_self]
        simp only [hw0]
        rw [upd_ne _ _ _ _ hx, upd_ne _ _ _ _ hx]
      · exact ⟨blk1, hx, rfl, rfl, by omega, fun _ => ⟨rfl, rfl, fun hp => hp⟩⟩
      · by_cases hqp : q = p
        · subst hqp
          simp [Heap.setObj] at hq
          subst hq
          exact ⟨o0, ho0, fun ha => by simp at ha⟩
        · exact ⟨o1, by simpa [Heap.setObj, Heap.emit, hqp] using hq, fun ha => ha⟩
    | true =>
      simp only [hes, if_true, bind_ok, loadObj_ok, pure, Except.pure, Except.ok.injEq,
        Prod.exists] at hd
      obtain ⟨s2, w, hr, o1, ⟨_, ho1⟩, hs1⟩ := hd
      subst hs1
      have hsb : s.selfBlock p = o0.weak_this.block_ := selfBlock_of s p o0 ho0
      obtain ⟨hw, hrel, hshrink, hsame, hgone, hcase⟩ := WeakReset_spec (objDtor n)
        (s.emit (Event.dtor p)) s2 o0.weak_this w nS nW A (hbal.emit _)
        (fun hb blk hs => by
          have h1 := (hbal.alloc _ blk hb hs).2
          have h2 := emb_pos s A p hpA
          rw [hsb] at h2
          have h3 := hnn o0.weak_this.block_
          have h4 := (hK _ blk hs).2
          constructor <;> omega)
        (fun hb blk hs => hflag _ blk hb hs) hr
      subst hw
      have ho1' : s.objs p = some o1 := hshrink p o1 ho1
      rw [ho0] at ho1'
      cases ho1'
      simp [Heap.setObj] at ho2
      subst ho2
      have hbal2 : Bal s2 nS (upd nW o0.weak_this.block_ (-1)) A := by
        rcases hcase with ⟨blk, hb0, hs, hem, hdl, hself, hgone⟩ | hb2
        · exfalso
          by_cases hpp : Ptr.storage o0.weak_this.block_ = p
          · rw [hpp, ho1] at hgone
            cases hgone
          · have h1 := hdead _ blk hb0 hs hem hdl hpp
            have h2 := hbal.alive_of_selfBlock _ hself
            rw [h1] at h2
            cases h2
        · exact hb2
      have hs2 : s2.selfBlock p = o0.weak_this.block_ := selfBlock_of s2 p o0 ho1
      have hb3 := hbal2.setObj p (some { o0 with weak_this := ⟨0, Ptr.null⟩ }) hpA
        (fun o1 ho1 hne => by cases ho1; exact absurd rfl hne)
      have hb4 := hb3.setObj p
        (some { val := o0.val, alive := false, esft := o0.esft, weak_this := ⟨0, Ptr.null⟩ }) hpA
        (fun o1 ho1 hne => by cases ho1; exact absurd rfl hne)
      refine ⟨hb4.congr (fun _ _ => rfl) (fun x hx => ?_), ⟨fun x blk1 hx => ?_,
        fun q o1 hq => ?_, ?_⟩, by simp [Heap.isAlive, Heap.setObj],
        by rw [selfBlock_setObj_self],
        ⟨{ val := o0.val, alive := false, esft := o0.esft, weak_this := ⟨0, Ptr.null⟩ },
          by simp [Heap.setObj]⟩,
        fun q o hq hqo => ?_, fun x blk hx hemx hxp => ?_⟩
      · simp only [upd, selfBlock_setObj_self, hs2]
        split_ifs <;> omega
      · exact hrel.blocks x blk1 hx
      · by_cases hqp : q = p
        · subst hqp
          simp [Heap.setObj] at hq
          subst hq
          exact ⟨o0, ho0, fun ha => by simp at ha⟩
        · exact hrel.objs q o1 (by simpa [Heap.setObj, hqp] using hq)
      · exact hrel.next
      · exact hshrink q o (by simpa [Heap.setObj, hq] using hqo)
      · cases hx2 : s2.blocks x with
        | some blk1 => exact ⟨blk1, hx2⟩
        | none =>
          have := hgone x blk hx hx2 hemx
          rw [hxp, ho1] at this
          cases this

theorem Bal.setFlags {s : Heap} {nS nW : Nat → Int} {A : List Ptr} (h : Bal s nS nW A)
    (b : Nat) (blk blk1 : BlockBase) (hb : b ≠ 0) (hs : s.blocks b = some blk)
    (hk : blk1.cnt = blk.cnt) (hj : blk1.cnt_weak = blk.cnt_weak) :
    Bal (s.setBlock b (some blk1)) nS nW A :=
  (h.setBlock b blk blk1 0 0 hb hs (by omega) (by omega)).congr
    (fun x _ => by unfold upd; split_ifs <;> simp) (fun x _ => by unfold upd; split_ifs <;> simp)

theorem Bounded.setBlock_bounded {K : Nat} {s : Heap} (h : Bounded K s) (b : Nat) (blk1 : BlockBase)
    (h1 : blk1.cnt ≤ K) (h2 : blk1.cnt_weak ≤ K) : Bounded K (s.setBlock b (some blk1)) := by
  intro x blkx hx
  by_cases hxb : x = b
  · subst hxb
    simp at hx
    subst hx
    exact ⟨h1, h2⟩
  · exact h x blkx (by simpa [hxb] using hx)

/-- From a block rewritten at `b` before the step to the block as it was. -/
theorem Rel.setBlock_left {j : Nat} {s t : Heap} {b : Nat} {blk blk1 : BlockBase}
    (h : Rel j none (s.setBlock b (some blk1)) t) (hs : s.blocks b = some blk)
    (hc : blk1.cnt = blk.cnt) (he : blk1.emplace = blk.emplace)
    (hw : blk1.cnt_weak = blk.cnt_weak) : Rel j (some b) s t := by
  refine ⟨fun x blk2 hx => ?_, fun q o1 hq => h.objs q o1 hq, h.next⟩
  obtain ⟨blk0, hb0, c, em, w, r⟩ := h.blocks x blk2 hx
  by_cases hxb : x = b
  · subst hxb
    simp at hb0
    subst hb0
    exact ⟨blk, hs, by omega, by rw [em, he], by omega, fun hne => absurd rfl hne⟩
  · exact ⟨blk0, by simpa [hxb] using hb0, c, em, w, fun _ => r (by simp)⟩

/-- A block rewritten at `b` after the step. -/
theorem Rel.setBlock_right {j : Nat} {s t : Heap} {b : Nat} {blk2 blk3 : BlockBase}
    (h : Rel j (some b) s t) (ht : t.blocks b = some blk2)
    (hc : blk3.cnt = blk2.cnt) (he : blk3.emplace = blk2.emplace)
    (hw : blk3.cnt_weak = blk2.cnt_weak) : Rel j (some b) s (t.setBlock b (some blk3)) := by
  refine ⟨fun x blk4 hx => ?_, fun q o1 hq => h.objs q o1 hq, h.next⟩
  by_cases hxb : x = b
  · subst hxb
    simp at hx
    subst hx
    obtain ⟨blk0, hb0, c, em, w, _⟩ := h.blocks x blk2 ht
    exact ⟨blk0, hb0, by omega, by rw [he, em], by omega, fun hne => absurd rfl hne⟩
  · exact h.blocks x blk4 (by simpa [hxb] using hx)

/-- The statement `delete ptr;` on a tracked object. -/
theorem deleteObj_spec (n : Nat) (s t : Heap) (p : Ptr) (nS nW : Nat → Int) (A : List Ptr)
    (K : Nat) (hbal : Bal s nS nW A) (hnn : ∀ x, 0 ≤ nW x) (hK : Bounded K s)
    (hKlt : K < SIZE_MOD)
    (hflag : ∀ x blk, x ≠ 0 → s.blocks x = some blk → blk.cnt = 0 → blk.deleted = true)
    (hdead : ∀ x blk, x ≠ 0 → s.blocks x = some blk → blk.emplace = true →
      blk.deleted = true → Ptr.storage x ≠ p → s.isAlive (Ptr.storage x) = false)
    (h : deleteObj (objDtor n) p s = Except.ok t) :
    Bal t nS nW A ∧ Rel 0 none s t := by
  unfold deleteObj at h
  by_cases hp : p = Ptr.null
  · simp only [hp, if_true, pure, Except.pure, Except.ok.injEq] at h
    subst h
    exact ⟨hbal, Rel.refl_rel _ _ _⟩
  · simp only [hp, if_false, bind_ok, pure, Except.pure, Except.ok.injEq] at h
    obtain ⟨s1, hc, ht⟩ := h
    subst ht
    obtain ⟨hb1, hrel, _, hself, _, _⟩ :=
      callDtor_spec n s s1 p nS nW A K hbal hnn hK hKlt hflag hdead hc
    refine ⟨hb1.removeObj p hself, ⟨fun x blk1 hx => hrel.blocks x blk1 hx,
      fun q o1 hq => ?_, hrel.next⟩⟩
    by_cases hqp : q = p
    · subst hqp; simp [Heap.setObj] at hq
    · exact hrel.objs q o1 (by simpa [Heap.setObj, hqp] using hq)

/-- `DeletePtr()` as `SharedPtr::Reset` calls it: the ledger is kept, the block at `b`
survives with its flag set and, for a `BlockEmplace`, its object dead. -/
theorem DeletePtr_spec (n : Nat) (s t : Heap) (b : Nat) (nS nW : Nat → Int) (A : List Ptr)
    (K : Nat) (hbal : Bal s nS nW A) (hnn : ∀ x, 0 ≤ nW x) (hK : Bounded K s)
    (hKlt : K < SIZE_MOD)
    (hflag : ∀ x blk, x ≠ 0 → x ≠ b → s.blocks x = some blk → blk.cnt = 0 →
      blk.deleted = true)
    (hdead : ∀ x blk, x ≠ 0 → s.blocks x = some blk → blk.emplace = true →
      blk.deleted = true → s.isAlive (Ptr.storage x) = false)
    (h : DeletePtr (objDtor n) s b false = Except.ok t) :
    Bal t nS nW A ∧ Rel 0 (some b) s t ∧
      ∃ blk1, t.blocks b = some blk1 ∧ blk1.deleted = true ∧
        (blk1.emplace = true → t.isAlive (Ptr.storage b) = false) := by
  simp only [DeletePtr, bind_ok, load_ok] at h
  obtain ⟨blk, ⟨hb, hs⟩, h⟩ := h
  cases hd : blk.deleted with
  | true =>
    simp only [hd, Bool.not_true, Bool.false_eq_true, if_false, pure, Except.pure,
      Except.ok.injEq] at h
    subst h
    exact ⟨hbal, Rel.refl_rel _ _ _, blk, hs, hd, fun hem => hdead b blk hb hs hem hd⟩
  | false =>
    simp only [hd, Bool.not_false, if_true] at h
    have hbal1 : Bal (s.setBlock b (some { blk with deleted := true })) nS nW A :=
      hbal.setFlags b blk _ hb hs rfl rfl
    have hK1 : Bounded K (s.setBlock b (some { blk with deleted := true })) :=
      hK.setBlock_bounded b _ (hK b blk hs).1 (hK b blk hs).2
    have hflag1 : ∀ x blkx, x ≠ 0 →
        (s.setBlock b (some { blk with deleted := true })).blocks x = some blkx →
        blkx.cnt = 0 → blkx.deleted = true := by
      intro x blkx hx hsx hc
      by_cases hxb : x = b
      · subst hxb
        simp at hsx
        subst hsx
        rfl
      · exact hflag x blkx hx hxb (by simpa [hxb] using hsx) hc
    by_cases hem : blk.emplace = true
    · rw [if_pos hem] at h
      have hdead1 : ∀ x blkx, x ≠ 0 →
          (s.setBlock b (some { blk with deleted := true })).blocks x = some blkx →
          blkx.emplace = true → blkx.deleted = true → Ptr.storage x ≠ Ptr.storage b →
          (s.setBlock b (some { blk with deleted := true })).isAlive (Ptr.storage x) = false := by
        intro x blkx hx hsx he hdl hne
        have hxb : x ≠ b := fun hxb => hne (by rw [hxb])
        exact hdead x blkx hx (by simpa [hxb] using hsx) he hdl
      obtain ⟨hb2, hrel, halive, _, _, _, hstay⟩ := callDtor_spec n _ t (Ptr.storage b) nS nW
        A K hbal1 hnn hK1 hKlt hflag1 hdead1 h
      obtain ⟨blk1, hb1⟩ := hstay b { blk with deleted := true } (by simp) hem rfl
      obtain ⟨blk0, hb0, _, _, _, r⟩ := hrel.blocks b blk1 hb1
      simp at hb0
      subst hb0
      exact ⟨hb2, hrel.setBlock_left hs rfl rfl rfl, blk1, hb1, (r (by simp)).1,
        fun _ => halive⟩
    · rw [if_neg hem] at h
      simp only [bind_ok, load_ok, pure, Except.pure, Except.ok.injEq] at h
      obtain ⟨s2, hdo, blk2, ⟨_, hs2⟩, ht⟩ := h
      subst ht
      have hdead1 : ∀ x blkx, x ≠ 0 →
          (s.setBlock b (some { blk with deleted := true })).blocks x = some blkx →
          blkx.emplace = true → blkx.deleted = true → Ptr.storage x ≠ blk.ptr →
          (s.setBlock b (some { blk with deleted := true })).isAlive (Ptr.storage x) = false := by
        intro x blkx hx hsx he hdl _
        by_cases hxb : x = b
        · subst hxb
          simp at hsx
          subst hsx
          exact absurd he hem
        · exact hdead x blkx hx (by simpa [hxb] using hsx) he hdl
      obtain ⟨hb2, hrel⟩ := deleteObj_spec n _ s2 blk.ptr nS nW A K hbal1 hnn hK1 hKlt hflag1
        hdead1 hdo
      obtain ⟨blk0, hb0, _, e0, _, r⟩ := hrel.blocks b blk2 hs2
      simp at hb0
      subst hb0
      refine ⟨hb2.setFlags b blk2 _ hb hs2 rfl rfl,
        (hrel.setBlock_left hs rfl rfl rfl).setBlock_right hs2 rfl rfl rfl,
        { blk2 with ptr := Ptr.null }, by simp, (r (by simp)).1, fun he => ?_⟩
      exact absurd (e0 ▸ he) hem

theorem deleteBlock_ok (d : Dtor) (s t : Heap) (b : Nat)
    (h : deleteBlock d s b = Except.ok t) :
    ∃ blk s1 blk1, b ≠ 0 ∧ s.blocks b = some blk ∧ DeletePtr d s b false = Except.ok s1 ∧
      s1.blocks b = some blk1 ∧ t = (s1.freeBlock b blk.emplace).emit (Event.dealloc b) := by
  simp only [deleteBlock, bind_ok, load_ok] at h
  obtain ⟨blk, ⟨hb, hs⟩, h⟩ := h
  cases hd : blk.deleted with
  | true =>
    simp only [hd, Bool.not_true, Bool.false_eq_true, if_false, bind_ok, load_ok, pure,
      Except.pure, Except.ok.injEq] at h
    obtain ⟨s1, h1, blk1, ⟨_, hs1⟩, ht⟩ := h
    subst h1
    refine ⟨blk, s, blk1, hb, hs, ?_, hs1, ht.symm⟩
    simp [DeletePtr, Heap.load, hb, hs, hd, bind, Except.bind, pure, Except.pure]
  | false =>
    by_cases hem : blk.emplace = true
    · simp only [hd, Bool.not_false, if_true, if_pos hem, bind_ok, load_ok, pure,
        Except.pure, Except.ok.injEq] at h
      obtain ⟨s1, h1, blk1, ⟨_, hs1⟩, ht⟩ := h
      refine ⟨blk, s1, blk1, hb, hs, ?_, hs1, ht.symm⟩
      simp only [DeletePtr, bind_ok, load_ok]
      refine ⟨blk, ⟨hb, hs⟩, ?_⟩
      simp only [hd, Bool.not_false, if_true, if_pos hem]
      exact h1
    · simp only [hd, Bool.not_false, if_true, if_neg hem, bind_ok, load_ok, pure,
        Except.pure, Except.ok.injEq] at h
      obtain ⟨s2, h1, blk2, ⟨_, hs2⟩, s3, h3, blk3, ⟨_, hs3⟩, ht⟩ := h
      refine ⟨blk, s3, blk3, hb, hs, ?_, hs3, ht.symm⟩
      simp only [DeletePtr, bind_ok, load_ok]
      refine ⟨blk, ⟨hb, hs⟩, ?_⟩
      simp only [hd, Bool.not_false, if_true, if_neg hem, bind_ok, load_ok, pure,
        Except.pure, Except.ok.injEq]
      exact ⟨s2, h1, blk2, ⟨hb, hs2⟩, h3⟩

/-- The statement `delete block_;` on a block both of whose counts are 0. -/
theorem deleteBlock_spec (n : Nat) (s t : Heap) (b : Nat) (nS nW : Nat → Int) (A : List Ptr)
    (K : Nat) (hbal : Bal s nS nW A) (hnn : ∀ x, 0 ≤ nW x) (hK : Bounded K s)
    (hKlt : K < SIZE_MOD)
    (hflag : ∀ x blk, x ≠ 0 → x ≠ b → s.blocks x = some blk → blk.cnt = 0 →
      blk.deleted = true)
    (hdead : ∀ x blk, x ≠ 0 → s.blocks x = some blk → blk.emplace = true →
      blk.deleted = true → s.isAlive (Ptr.storage x) = false)
    (hzero : ∀ blk, s.blocks b = some blk → blk.cnt = 0 ∧ blk.cnt_weak = 0)
    (h : deleteBlock (objDtor n) s b = Except.ok t) :
    Bal t nS nW A ∧ Rel 0 (some b) s t ∧ t.blocks b = none := by
  obtain ⟨blk, s1, blk1, hb, hs, hdp, hs1, ht⟩ := deleteBlock_ok _ s t b h
  subst ht
  obtain ⟨hb1, hrel, blk1', hs1', hd1, hal⟩ :=
    DeletePtr_spec n s s1 b nS nW A K hbal hnn hK hKlt hflag hdead hdp
  rw [hs1] at hs1'
  cases hs1'
  obtain ⟨blk0, hb0, c0, e0, w0, _⟩ := hrel.blocks b blk1 hs1
  rw [hs] at hb0
  cases hb0
  obtain ⟨hz1, hz2⟩ := hzero blk hs
  have hbal2 : Bal (s1.setBlock b none) nS nW A :=
    hb1.freeBlk b blk1 hb hs1 (by omega) (by omega)
  have hrel2 : Rel 0 (some b) s1 (s1.setBlock b none) := by
    refine ⟨fun x blk2 hx => ?_, fun q o1 hq => ⟨o1, hq, fun ha => ha⟩, rfl⟩
    by_cases hxb : x = b
    · subst hxb; simp at hx
    · exact ⟨blk2, by simpa [hxb] using hx, rfl, rfl, by omega,
        fun _ => ⟨rfl, rfl, fun hp => hp⟩⟩
  cases hem : blk.emplace with
  | false =>
    simp only [Heap.freeBlock, Bool.false_eq_true, if_false]
    refine ⟨hbal2.emit _, ?_, by simp [Heap.emit]⟩
    have := hrel.trans_rel hrel2
    exact ⟨this.blocks, this.objs, this.next⟩
  | true =>
    simp only [Heap.freeBlock, if_true]
    have hself : s1.selfBlock (Ptr.storage b) = 0 := by
      by_contra hne
      have h1 := hb1.alive_of_selfBlock _ hne
      rw [hal (by rw [e0, hem])] at h1
      cases h1
    refine ⟨(hbal2.removeObj _ hself).emit _, ?_, by simp [Heap.emit, Heap.setObj]⟩
    have h3 := hrel.trans_rel hrel2
    refine ⟨fun x blk2 hx => h3.blocks x blk2 hx, fun q o1 hq => ?_, h3.next⟩
    by_cases hqp : q = Ptr.storage b
    · subst hqp; simp [Heap.emit, Heap.setObj] at hq
    · exact h3.objs q o1 (by simpa [Heap.emit, Heap.setObj, hqp] using hq)

theorem Rel.off {j : Nat} {e : Option Nat} {s t : Heap} (h : Rel j e s t) (b : Nat)
    (he : e = none ∨ e = some b) : RelOff j b s t := by
  refine ⟨fun x blk1 hxb hx => ?_, h.objs, h.next⟩
  obtain ⟨blk, hb, c, em, w, r⟩ := h.blocks x blk1 hx
  have hne : e ≠ some x := by
    rcases he with he | he
    · rw [he]; simp
    · rw [he]; intro h2; exact hxb (Option.some.inj h2).symm
  obtain ⟨r1, r2, r3⟩ := r hne
  exact ⟨blk, hb, c, em, w, r1, r2, r3⟩

theorem RelOff.refl_off (j b : Nat) (s : Heap) : RelOff j b s s :=
  ⟨fun _ blk1 _ h => ⟨blk1, h, rfl, rfl, by omega, rfl, rfl, fun hp => hp⟩,
   fun _ o1 h => ⟨o1, h, fun ha => ha⟩, rfl⟩

theorem RelOff.trans_off {j1 j2 b : Nat} {s t u : Heap} (h1 : RelOff j1 b s t)
    (h2 : RelOff j2 b t u) : RelOff (j1 + j2) b s u := by
  refine ⟨fun x blk2 hxb hx => ?_, fun q o2 hq => ?_, by rw [h2.next, h1.next]⟩
  · obtain ⟨blk1, hb1, c1, e1, w1, d1, p1, r1⟩ := h2.blocks x blk2 hxb hx
    obtain ⟨blk, hb, c0, e0, w0, d0, p0, r0⟩ := h1.blocks x blk1 hxb hb1
    exact ⟨blk, hb, c1.trans c0, e1.trans e0, by omega, d1.trans d0, p1.trans p0,
      fun hp => r1 (r0 hp)⟩
  · obtain ⟨o1, ho1, a1⟩ := h2.objs q o2 hq
    obtain ⟨o, ho, a0⟩ := h1.objs q o1 ho1
    exact ⟨o, ho, fun ha => a0 (a1 ha)⟩

theorem RelOff.setBlock_off (b : Nat) (s : Heap) (v : Option BlockBase) :
    RelOff 0 b s (s.setBlock b v) :=
  ⟨fun x blk1 hxb h => ⟨blk1, by simpa [hxb] using h, rfl, rfl, by omega, rfl, rfl,
    fun hp => hp⟩, fun _ o1 h => ⟨o1, h, fun ha => ha⟩, rfl⟩

theorem RelOff.alive {j b : Nat} {s t : Heap} (h : RelOff j b s t) (q : Ptr)
    (hq : s.isAlive q = false) : t.isAlive q = false := by
  unfold Heap.isAlive at hq ⊢
  cases ht : t.objs q with
  | none => rfl
  | some o1 =>
    obtain ⟨o, ho, ha⟩ := h.objs q o1 ht
    rw [ho] at hq
    simp only at hq ⊢
    cases h1 : o1.alive with
    | false => rfl
    | true => rw [ha h1] at hq; cases hq

/-- The blocks away from `b` stay as `BlockOk` says; the block at `b` is checked apart. -/
theorem Aux.relOff {j b : Nat} {s t : Heap} (haux : Aux s) (h : RelOff j b s t)
    (hb : ∀ blk, b ≠ 0 → t.blocks b = some blk → BlockOk t b blk) : Aux t := by
  intro x blk1 hx hsx
  by_cases hxb : x = b
  · subst hxb; exact hb blk1 hx hsx
  · obtain ⟨blk, hs, c, e, _, d, _, r⟩ := h.blocks x blk1 hxb hsx
    obtain ⟨a1, a2, a3⟩ := haux x blk hx hs
    refine ⟨fun hc => ?_, fun he hd => ?_, r a3⟩
    · rw [d]; exact a1 (by omega)
    · exact h.alive _ (a2 (by rw [← e]; exact he) (by rw [← d]; exact hd))

theorem Bounded.relOff_bounded {K j b : Nat} {s t : Heap} (hK : Bounded K s) (h : RelOff j b s t)
    (hb : ∀ blk, t.blocks b = some blk → blk.cnt ≤ K + j ∧ blk.cnt_weak ≤ K + j) :
    Bounded (K + j) t := by
  intro x blk1 hsx
  by_cases hxb : x = b
  · subst hxb; exact hb blk1 hsx
  · obtain ⟨blk, hs, c, _, w, _⟩ := h.blocks x blk1 hxb hsx
    obtain ⟨b1, b2⟩ := hK x blk hs
    exact ⟨by omega, by omega⟩

theorem bothZero_ok (s : Heap) (b : Nat) (r : Bool) :
    bothZero s b = Except.ok r ↔ ∃ blk, b ≠ 0 ∧ s.blocks b = some blk ∧
      r = (blk.cnt == 0 && blk.cnt_weak == 0) := by
  simp only [bothZero, bind_ok, load_ok, pure, Except.pure, Except.ok.injEq]
  constructor
  · rintro ⟨blk, ⟨h1, h2⟩, h3⟩; exact ⟨blk, h1, h2, h3.symm⟩
  · rintro ⟨blk, h1, h2, h3⟩; exact ⟨blk, ⟨h1, h2⟩, h3.symm⟩

theorem setBlock_self (s : Heap) (b : Nat) (blk : BlockBase) (h : s.blocks b = some blk) :
    s.setBlock b (some blk) = s := by
  apply Heap.ext_fields <;> intros <;> simp
  intro hx
  subst hx
  exact h.symm

/-- The tail of `SharedPtr::Reset` for the last strong handle of a block that weak handles
still share: `DeletePtr()`, the strong count (raised to `c2` meanwhile for a type with the
self-reference capability) back at 0, and the block released if no weak handle is left. -/
theorem expire_spec (n : Nat) (s2 s3 t : Heap) (b : Nat) (blk2 : BlockBase)
    (nS nW : Nat → Int) (A : List Ptr) (K : Nat) (hbal : Bal s2 nS nW A)
    (hnn : ∀ x, 0 ≤ nW x) (hK : Bounded K s2) (hKlt : K < SIZE_MOD)
    (hflag : ∀ x blk, x ≠ 0 → x ≠ b → s2.blocks x = some blk → blk.cnt = 0 →
      blk.deleted = true)
    (hdead : ∀ x blk, x ≠ 0 → s2.blocks x = some blk → blk.emplace = true →
      blk.deleted = true → s2.isAlive (Ptr.storage x) = false)
    (hb : b ≠ 0) (hs2 : s2.blocks b = some blk2)
    (hdp : DeletePtr (objDtor n) s2 b false = Except.ok s3)
    (hfin : ∀ blk3, s3.blocks b = some blk3 → blk3.cnt = blk2.cnt →
      if blk3.cnt_weak = 0 then
        deleteBlock (objDtor n) (s3.setBlock b (some { blk3 with cnt := 0 })) b = Except.ok t
      else t = s3.setBlock b (some { blk3 with cnt := 0 })) :
    Bal t (upd nS b (-(blk2.cnt : Int))) nW A ∧ RelOff 0 b s2 t ∧
      ∀ blk, t.blocks b = some blk → BlockOk t b blk ∧ blk.cnt = 0 ∧ blk.cnt_weak ≤ K := by
  obtain ⟨hb3, hrel, blk3, hs3, hd3, hal3⟩ :=
    DeletePtr_spec n s2 s3 b nS nW A K hbal hnn hK hKlt hflag hdead hdp
  obtain ⟨blk2', hs2', c3, e3, w3, _⟩ := hrel.blocks b blk3 hs3
  rw [hs2] at hs2'
  cases hs2'
  have hfin3 := hfin blk3 hs3 c3
  have hbal4 : Bal (s3.setBlock b (some { blk3 with cnt := 0 })) (upd nS b (-(blk2.cnt : Int)))
      nW A := by
    refine (hb3.setBlock b blk3 { blk3 with cnt := 0 } (-(blk2.cnt : Int)) 0 hb hs3 ?_
      (by simp)).congr (fun _ _ => rfl) (fun x _ => by unfold upd; split_ifs <;> simp)
    simp only [c3]
    push_cast
    omega
  have hoff : RelOff 0 b s2 (s3.setBlock b (some { blk3 with cnt := 0 })) :=
    (hrel.off b (Or.inr rfl)).trans_off (RelOff.setBlock_off b s3 _)
  by_cases hw : blk3.cnt_weak = 0
  · rw [if_pos hw] at hfin3
    have hK4 : Bounded K (s3.setBlock b (some { blk3 with cnt := 0 })) := by
      have h3 : Bounded (K + 0) s3 := hK.rel hrel
      exact h3.setBlock_bounded b _ (by simp) (by simp only [hw]; omega)
    have hflag4 : ∀ x blk, x ≠ 0 → x ≠ b →
        (s3.setBlock b (some { blk3 with cnt := 0 })).blocks x = some blk → blk.cnt = 0 →
        blk.deleted = true := by
      intro x blk hx hxb hsx hc
      obtain ⟨blk0, hs0, c0, _, _, d0, _⟩ := hoff.blocks x blk hxb hsx
      rw [d0]
      exact hflag x blk0 hx hxb hs0 (by omega)
    have hdead4 : ∀ x blk, x ≠ 0 →
        (s3.setBlock b (some { blk3 with cnt := 0 })).blocks x = some blk →
        blk.emplace = true → blk.deleted = true →
        (s3.setBlock b (some { blk3 with cnt := 0 })).isAlive (Ptr.storage x) = false := by
      intro x blk hx hsx he hd
      by_cases hxb : x = b
      · subst hxb
        simp at hsx
        subst hsx
        have := hal3 he
        simpa [Heap.isAlive, Heap.setBlock] using this
      · obtain ⟨blk0, hs0, _, e0, _, d0, _⟩ := hoff.blocks x blk hxb hsx
        exact hoff.alive _ (hdead x blk0 hx hs0 (by rw [← e0]; exact he) (by rw [← d0]; exact hd))
    obtain ⟨hbt, hrelt, hgone⟩ := deleteBlock_spec n _ t b _ nW A K hbal4 hnn hK4 hKlt hflag4
      hdead4 (fun blk hblk => by simp at hblk; subst hblk; exact ⟨rfl, hw⟩) hfin3
    refine ⟨hbt, ?_, fun blk hblk => ?_⟩
    · have := hoff.trans_off (hrelt.off b (Or.inr rfl))
      exact ⟨this.blocks, this.objs, this.next⟩
    · rw [hgone] at hblk
      cases hblk
  · rw [if_neg hw] at hfin3
    subst hfin3
    refine ⟨hbal4, hoff, fun blk hblk => ?_⟩
    simp at hblk
    subst hblk
    refine ⟨⟨fun _ => hd3, fun he _ => ?_, Or.inr (by simp only; omega)⟩, rfl, ?_⟩
    · have := hal3 he
      simpa [Heap.isAlive, Heap.setBlock] using this
    · have := (hK b blk2 hs2).2
      simp only
      omega

/-- `SharedPtr::Reset` of a handle whose share is counted: the ledger loses one strong
handle of the block, and the state is again as it is between two operations. -/
theorem Reset_spec (n : Nat) (f : Bool) (s t : Heap) (h h1 : SharedPtr) (nS nW : Nat → Int)
    (A : List Ptr) (K : Nat) (hbal : Bal s nS nW A) (hnn : ∀ x, 0 ≤ nW x) (haux : Aux s)
    (hK : Bounded K s) (hKlt : K + 1 < SIZE_MOD) (hown : h.block_ ≠ 0 → 1 ≤ nS h.block_)
    (hr : SharedPtr.Reset (objDtor n) f s h = Except.ok (t, h1)) :
    h1 = ⟨Ptr.null, 0⟩ ∧ Bal t (upd nS h.block_ (-1)) nW A ∧ Aux t ∧ Bounded K t := by
  by_cases hb : h.block_ = 0
  · rw [Reset_null _ f s h hb] at hr
    cases hr
    exact ⟨rfl, hbal.congr (fun x hx => upd_ne _ _ _ _ (by rw [hb]; exact hx)) (fun _ _ => rfl),
      haux, hK⟩
  · simp only [SharedPtr.Reset, hb, ne_eq, not_false_eq_true, if_true, bind_ok, decCnt_ok,
      bothZero_ok, pure, Except.pure] at hr
    obtain ⟨s1, ⟨blk, _, hs, hs1⟩, r, ⟨blk1, _, hsb1, hr1⟩, hr⟩ := hr
    subst hs1
    simp only [setBlock_blocks, if_true, Option.some.injEq] at hsb1
    subst hsb1
    have hc1 : 1 ≤ blk.cnt := by
      have := (hbal.alloc _ blk hb hs).1
      have := hown hb
      omega
    have hcK := hK _ blk hs
    have hdec : sizeDec blk.cnt = blk.cnt - 1 := sizeDec_of_pos _ hc1 (by omega)
    rw [hdec] at hr hr1
    have hbalc : ∀ c : Nat, Bal (s.setBlock h.block_ (some { blk with cnt := c }))
        (upd nS h.block_ ((c : Int) - blk.cnt)) nW A := fun c =>
      (hbal.setBlock _ blk _ ((c : Int) - blk.cnt) 0 hb hs (by simp only; omega) (by simp)).congr
        (fun _ _ => rfl) (fun x _ => by unfold upd; split_ifs <;> simp)
    have hKc : ∀ c : Nat, c ≤ K → Bounded K (s.setBlock h.block_ (some { blk with cnt := c })) :=
      fun c hc => hK.setBlock_bounded _ _ hc hcK.2
    have hoffc : ∀ c : Nat,
        RelOff 0 h.block_ s (s.setBlock h.block_ (some { blk with cnt := c })) :=
      fun c => RelOff.setBlock_off _ s _
    have hflagc : ∀ (c : Nat) x blkx, x ≠ 0 → x ≠ h.block_ →
        (s.setBlock h.block_ (some { blk with cnt := c })).blocks x = some blkx →
        blkx.cnt = 0 → blkx.deleted = true := by
      intro c x blkx hx hxb hsx hc
      exact (haux x blkx hx (by simpa [hxb] using hsx)).1 hc
    have hdeadc : ∀ (c : Nat) x blkx, x ≠ 0 →
        (s.setBlock h.block_ (some { blk with cnt := c })).blocks x = some blkx →
        blkx.emplace = true → blkx.deleted = true →
        (s.setBlock h.block_ (some { blk with cnt := c })).isAlive (Ptr.storage x) = false := by
      intro c x blkx hx hsx he hd
      by_cases hxb : x = h.block_
      · subst hxb
        simp at hsx
        subst hsx
        exact (haux _ blk hx hs).2.1 he hd
      · exact (haux x blkx hx (by simpa [hxb] using hsx)).2.1 he hd
    have hm1 : ∀ x, x ≠ 0 → upd nS h.block_ (((blk.cnt - 1 : Nat) : Int) - blk.cnt) x =
        upd nS h.block_ (-1) x := by
      intro x _
      unfold upd
      split_ifs <;> omega
    cases r with
    | true =>
      simp only [if_true, bind_ok, Except.ok.injEq, Prod.mk.injEq] at hr
      obtain ⟨y, hdel, hy, hh⟩ := hr
      subst hy
      have hz : blk.cnt - 1 = 0 ∧ blk.cnt_weak = 0 := by
        simpa using hr1.symm
      obtain ⟨hbt, hrelt, hgone⟩ := deleteBlock_spec n _ y h.block_ _ nW A K
        (hbalc (blk.cnt - 1)) hnn (hKc _ (by omega)) (by omega) (hflagc _) (hdeadc _)
        (fun b2 hb2 => by simp at hb2; subst hb2; exact hz) hdel
      have hoff := (hoffc (blk.cnt - 1)).trans_off (hrelt.off h.block_ (Or.inr rfl))
      refine ⟨hh.symm, hbt.congr (fun x hx => (hm1 x hx).symm) (fun _ _ => rfl),
        haux.relOff hoff (fun b2 _ hb2 => ?_), hK.relOff_bounded hoff (fun b2 hb2 => ?_)⟩
      · rw [hgone] at hb2; cases hb2
      · rw [hgone] at hb2; cases hb2
    | false =>
      simp only [Bool.false_eq_true, if_false, bind_ok, load_ok, setBlock_blocks, if_true,
        Option.some.injEq] at hr
      obtain ⟨blk1, ⟨_, hblk1⟩, hr⟩ := hr
      subst hblk1
      simp only at hr
      by_cases hc0 : blk.cnt - 1 = 0
      · have hw0 : blk.cnt_weak ≠ 0 := by
          intro hw
          simp [hc0, hw] at hr1
        have hc0' : (blk.cnt - 1 == 0) = true := by simpa using hc0
        have hone : blk.cnt = 1 := by omega
        rw [hc0] at hr
        cases f with
        | true =>
          simp only [beq_self_eq_true, if_true, bind_ok, incCnt_ok, decCnt_ok, bothZero_ok,
            setBlock_blocks, Option.some.injEq, setBlock_setBlock, Except.ok.injEq,
            Prod.mk.injEq, show sizeInc 0 = 1 from by decide] at hr
          obtain ⟨s2, ⟨blk2, _, hblk2, hs2⟩, s3, hdp, s4, ⟨blk3, _, hs3, hs4⟩, r2,
            ⟨blk4, _, hs4b, hr2⟩, hr⟩ := hr
          subst hblk2
          simp only [show sizeInc 0 = 1 from by decide] at hs2
          subst hs2
          subst hs4
          simp only [setBlock_blocks, if_true, Option.some.injEq] at hs4b
          subst hs4b
          obtain ⟨hbt, hofft, hbt3⟩ := expire_spec n _ s3 t h.block_
            { blk with cnt := 1 } _ nW A K (hbalc 1) hnn (hKc 1 (by omega)) (by omega)
            (hflagc 1) (hdeadc 1) hb (by simp) hdp
            (fun blk3' hs3' hc3' => by
              rw [hs3] at hs3'
              cases hs3'
              have hc3 : blk3.cnt = 1 := hc3'
              simp only [hc3, show sizeDec 1 = 0 from by decide] at hr hr2
              by_cases hw : blk3.cnt_weak = 0
              · rw [if_pos hw]
                have hr2' : r2 = true := by rw [hr2]; simp [hw]
                subst hr2'
                simp only [if_true, bind_ok, Except.ok.injEq, Prod.mk.injEq] at hr
                obtain ⟨y, hy, hyt, _⟩ := hr
                subst hyt
                exact hy
              · rw [if_neg hw]
                have hr2' : r2 = false := by rw [hr2]; simp [hw]
                subst hr2'
                simp only [Bool.false_eq_true, if_false, bind_ok, Except.ok.injEq,
                  Prod.mk.injEq] at hr
                obtain ⟨y, hy, hyt, _⟩ := hr
                subst hy
                exact hyt.symm)
          have hh : h1 = ⟨Ptr.null, 0⟩ := by
            cases r2 <;>
              simp only [Bool.false_eq_true, if_false, if_true, bind_ok, Except.ok.injEq,
                Prod.mk.injEq] at hr <;>
              exact hr.choose_spec.2.2.symm
          refine ⟨hh, hbt.congr (fun x _ => ?_) (fun _ _ => rfl),
            haux.relOff ((hoffc 1).trans_off hofft) (fun b2 _ hb2 => (hbt3 b2 hb2).1),
            hK.relOff_bounded ((hoffc 1).trans_off hofft) (fun b2 hb2 => ?_)⟩
          · simp only [upd, hone]
            split_ifs <;> simp
          · obtain ⟨_, c, w⟩ := hbt3 b2 hb2
            omega
        | false =>
          simp only [beq_self_eq_true, if_true, Bool.false_eq_true, if_false, bind_ok,
            bothZero_ok, Except.ok.injEq, Prod.mk.injEq] at hr
          obtain ⟨s2, hs2, s3, hdp, s4, hs4, r2, ⟨blk4, _, hs4b, hr2⟩, hr⟩ := hr
          subst hs2
          subst hs4
          obtain ⟨hbt, hofft, hbt3⟩ := expire_spec n _ s3 t h.block_
            { blk with cnt := 0 } _ nW A K (hbalc 0) hnn (hKc 0 (by omega)) (by omega)
            (hflagc 0) (hdeadc 0) hb (by simp) hdp
            (fun blk3' hs3' hc3' => by
              rw [hs4b] at hs3'
              cases hs3'
              have hc3 : blk4.cnt = 0 := hc3'
              have hself : s3.setBlock h.block_ (some { blk4 with cnt := 0 }) = s3 := by
                have : ({ blk4 with cnt := 0 } : BlockBase) = blk4 := by
                  cases blk4; simp_all
                rw [this]
                exact setBlock_self s3 _ blk4 hs4b
              rw [hself]
              simp only [hc3] at hr2
              by_cases hw : blk4.cnt_weak = 0
              · rw [if_pos hw]
                have hr2' : r2 = true := by rw [hr2]; simp [hw]
                subst hr2'
                simp only [if_true, bind_ok, Except.ok.injEq, Prod.mk.injEq] at hr
                obtain ⟨y, hy, hyt, _⟩ := hr
                subst hyt
                exact hy
              · rw [if_neg hw]
                have hr2' : r2 = false := by rw [hr2]; simp [hw]
                subst hr2'
                simp only [Bool.false_eq_true, if_false, bind_ok, Except.ok.injEq,
                  Prod.mk.injEq] at hr
                obtain ⟨y, hy, hyt, _⟩ := hr
                subst hy
                exact hyt.symm)
          have hh : h1 = ⟨Ptr.null, 0⟩ := by
            cases r2 <;>
              simp only [Bool.false_eq_true, if_false, if_true, bind_ok, Except.ok.injEq,
                Prod.mk.injEq] at hr <;>
              exact hr.choose_spec.2.2.symm
          refine ⟨hh, hbt.congr (fun x _ => ?_) (fun _ _ => rfl),
            haux.relOff ((hoffc 0).trans_off hofft) (fun b2 _ hb2 => (hbt3 b2 hb2).1),
            hK.relOff_bounded ((hoffc 0).trans_off hofft) (fun b2 hb2 => ?_)⟩
          · simp only [upd, hone]
            split_ifs <;> simp
          · obtain ⟨_, c, w⟩ := hbt3 b2 hb2
            omega
      · have hc0' : (blk.cnt - 1 == 0) = false := by simpa using hc0
        simp only [hc0', Bool.false_eq_true, if_false, bind_ok, Except.ok.injEq,
          Prod.mk.injEq] at hr
        obtain ⟨y, hy, hyt, hh⟩ := hr
        subst hy
        subst hyt
        refine ⟨hh.symm, (hbalc (blk.cnt - 1)).congr (fun x hx => (hm1 x hx).symm)
          (fun _ _ => rfl), haux.relOff (hoffc _) (fun b2 hb0 hb2 => ?_), hKc _ (by omega)⟩
        simp at hb2
        subst hb2
        obtain ⟨_, a2, _⟩ := haux _ blk hb0 hs
        exact ⟨fun hc => absurd hc hc0, fun he hd => a2 he hd, Or.inl (by simp only; omega)⟩

/-- The statement `ptr->weak_this = *this;`: the ledger is as before, the member now
counted at the block of the handle. -/
theorem setWeakThis_spec (d : Dtor) (s t : Heap) (ptr : Ptr) (this : SharedPtr)
    (nS nW : Nat → Int) (A : List Ptr) (K : Nat) (hbal : Bal s nS nW A) (hnn : ∀ x, 0 ≤ nW x)
    (haux : Aux s) (hK : Bounded K s) (hKlt : K + 1 < SIZE_MOD)
    (h : setWeakThis d s ptr this = Except.ok t) :
    Bal t nS nW A ∧ Rel 1 none s t := by
  simp only [setWeakThis, bind_ok, loadObj_ok] at h
  obtain ⟨o, ⟨hp, ho⟩, h⟩ := h
  cases hes : o.esft with
  | false => simp [hes, throw, throwThe, MonadExceptOf.throw, bind, Except.bind] at h
  | true =>
    cases hal : o.alive with
    | false => simp [hes, hal, throw, throwThe, MonadExceptOf.throw, bind, Except.bind] at h
    | true =>
      simp only [hes, hal, Bool.not_true, Bool.or_self, Bool.false_eq_true, if_false,
        WeakPtr.assignShared, bind_ok, loadObj_ok, pure, Except.pure, Except.ok.injEq,
        Prod.exists, Prod.mk.injEq] at h
      obtain ⟨_, _, s2, w, ⟨s1, w1, hreset, hinc⟩, o1, ⟨_, ho1⟩, ht⟩ := h
      subst ht
      have hpA : ptr ∈ A := hbal.cover ptr (by rw [ho]; simp)
      have hsb : s.selfBlock ptr = o.weak_this.block_ := selfBlock_of s ptr o ho
      obtain ⟨_, hrel, hshrink, _, _, hcase⟩ := WeakReset_spec d s s1 o.weak_this w1 nS nW A
        hbal
        (fun hb0 blk hs => by
          have h1 := (hbal.alloc _ blk hb0 hs).2
          have h2 := emb_pos s A ptr hpA
          rw [hsb] at h2
          have h3 := hnn o.weak_this.block_
          have h4 := (hK _ blk hs).2
          constructor <;> omega)
        (fun hb0 blk hs => (haux _ blk hb0 hs).1) hreset
      have hbal1 : Bal s1 nS (upd nW o.weak_this.block_ (-1)) A := by
        rcases hcase with ⟨blk, hb0, hs, hem, hdl, hself, _⟩ | hb1
        · exfalso
          have h1 := (haux _ blk hb0 hs).2.1 hem hdl
          have h2 := hbal.alive_of_selfBlock _ hself
          rw [h1] at h2
          cases h2
        · exact hb1
      have hK1 : Bounded (K + 0) s1 := hK.rel hrel
      have hfin : ∀ (s2 : Heap), s2.objs = s1.objs → Rel 1 none s s2 →
          Bal s2 nS (upd (upd nW o.weak_this.block_ (-1)) this.block_ 1) A →
          w = ⟨this.block_, this.ptr_⟩ → s2.objs ptr = some o1 →
          Bal (s2.setObj ptr (some { o1 with weak_this := w })) nS nW A ∧
            Rel 1 none s (s2.setObj ptr (some { o1 with weak_this := w })) := by
        intro s2 hobjs hrel2 hbal2 hw ho2
        have ho1s : s.objs ptr = some o1 := hshrink ptr o1 (by rw [← hobjs]; exact ho2)
        rw [ho] at ho1s
        cases ho1s
        subst hw
        have hs2 : s2.selfBlock ptr = o.weak_this.block_ := selfBlock_of s2 ptr o ho2
        have hb3 := hbal2.setObj ptr (some { o with weak_this := ⟨this.block_, this.ptr_⟩ }) hpA
          (fun o2 ho2 _ => by cases ho2; exact ⟨hes, hal⟩)
        refine ⟨hb3.congr (fun _ _ => rfl) (fun x hx => ?_), ⟨fun x blk1 hx => ?_,
          fun q o2 hq => ?_, hrel2.next⟩⟩
        · simp only [upd, selfBlock_setObj_self, hs2]
          split_ifs <;> omega
        · exact hrel2.blocks x blk1 hx
        · by_cases hqp : q = ptr
          · subst hqp
            simp [Heap.setObj] at hq
            subst hq
            exact ⟨o, ho, fun ha => ha⟩
          · exact hrel2.objs q o2 (by simpa [Heap.setObj, hqp] using hq)
      by_cases hb : this.block_ = 0
      · simp only [hb, ne_eq, not_true_eq_false, if_false, bind_ok, Except.ok.injEq,
          Prod.mk.injEq] at hinc
        obtain ⟨y, hy, hys, hw⟩ := hinc
        subst hy
        subst hys
        refine hfin _ rfl (hrel.weaken (by omega))
          (hbal1.congr (fun _ _ => rfl) (fun x hx => upd_ne _ _ _ _ (by rw [hb]; exact hx)))
          (by rw [← hw, hb]) ho1
      · simp only [hb, ne_eq, not_false_eq_true, if_true, bind_ok, incWeak_ok,
          Except.ok.injEq, Prod.mk.injEq] at hinc
        obtain ⟨y, ⟨blk1, _, hsb1, hy⟩, hys, hw⟩ := hinc
        subst hy
        subst hys
        have hlt := (hK1 _ blk1 hsb1).2
        have hinc1 : sizeInc blk1.cnt_weak = blk1.cnt_weak + 1 := sizeInc_of_lt _ (by omega)
        refine hfin _ rfl ?_ ?_ hw.symm ho1
        · refine ⟨fun x blk2 hx => ?_, fun q o2 hq => hrel.objs q o2 hq, hrel.next⟩
          by_cases hxb : x = this.block_
          · subst hxb
            simp at hx
            subst hx
            obtain ⟨blk0, hs0, c, e, w0, r⟩ := hrel.blocks _ blk1 hsb1
            obtain ⟨r1, r2, _⟩ := r (by simp)
            exact ⟨blk0, hs0, c, e, by simp only [hinc1]; omega,
              fun _ => ⟨r1, r2, fun _ => Or.inr (by simp only [hinc1]; omega)⟩⟩
          · obtain ⟨blk0, hs0, c, e, w0, r⟩ := hrel.blocks x blk2 (by simpa [hxb] using hx)
            exact ⟨blk0, hs0, c, e, by omega, r⟩
        · exact hbal1.setBlock _ blk1 _ 0 1 hb hsb1 (by simp) (by simp only [hinc1]; omega)
            |>.congr (fun x _ => by unfold upd; split_ifs <;> simp) (fun _ _ => rfl)

theorem Aux.rel_aux {j : Nat} {s t : Heap} (haux : Aux s) (h : Rel j none s t) : Aux t := by
  refine haux.relOff (h.off 0 (Or.inl rfl)) (fun blk hb _ => absurd rfl hb)

theorem Good.congr_good {K : Nat} {s : Heap} {nS nW nS1 nW1 : Nat → Int} {A : List Ptr}
    (h : Good K s nS nW A) (hS : ∀ b, b ≠ 0 → nS1 b = nS b) (hW : ∀ b, b ≠ 0 → nW1 b = nW b)
    (hn : ∀ x, 0 ≤ nW1 x) : Good K s nS1 nW1 A :=
  ⟨h.bal.congr hS hW, h.aux, h.bounded, hn⟩

theorem Good.mono_good {K K1 : Nat} {s : Heap} {nS nW : Nat → Int} {A : List Ptr}
    (h : Good K s nS nW A) (hK : K ≤ K1) : Good K1 s nS nW A :=
  ⟨h.bal, h.aux, fun b blk hb => ⟨by have := (h.bounded b blk hb).1; omega,
    by have := (h.bounded b blk hb).2; omega⟩, h.nn⟩

theorem upd_nonneg (f : Nat → Int) (b : Nat) (k : Int) (hf : ∀ x, 0 ≤ f x) (hk : 0 ≤ k) :
    ∀ x, 0 ≤ upd f b k x := by
  intro x
  unfold upd
  split_ifs
  · have := hf x; omega
  · exact hf x

theorem Bounded.setBlock_le {K K1 : Nat} {s : Heap} (h : Bounded K s) (b : Nat)
    (blk1 : BlockBase) (hK : K ≤ K1) (h1 : blk1.cnt ≤ K1) (h2 : blk1.cnt_weak ≤ K1) :
    Bounded K1 (s.setBlock b (some blk1)) := by
  intro x blkx hx
  by_cases hxb : x = b
  · subst hxb
    simp at hx
    subst hx
    exact ⟨h1, h2⟩
  · obtain ⟨a1, a2⟩ := h x blkx (by simpa [hxb] using hx)
    exact ⟨by omega, by omega⟩

/-- A block rewritten with at least one strong handle. -/
theorem Aux.setBlock_pos {s : Heap} (haux : Aux s) (b : Nat) (blk blk1 : BlockBase)
    (hs : s.blocks b = some blk) (hc : 0 < blk1.cnt) (he : blk1.emplace = blk.emplace)
    (hd : blk1.deleted = true → blk.deleted = true) : Aux (s.setBlock b (some blk1)) := by
  refine haux.relOff (RelOff.setBlock_off b s _) (fun blk2 hb hb2 => ?_)
  simp at hb2
  subst hb2
  obtain ⟨_, a2, _⟩ := haux b blk hb hs
  exact ⟨fun hc0 => by omega, fun he1 hd1 => a2 (by rw [← he]; exact he1) (hd hd1),
    Or.inl hc⟩

/-- The statement `++block_->cnt` for a new strong handle. -/
theorem Good.incCnt {K : Nat} {s t : Heap} {nS nW : Nat → Int} {A : List Ptr}
    (h : Good K s nS nW A) (b : Nat) (hK : K + 1 < SIZE_MOD) (hi : incCnt s b = Except.ok t) :
    Good (K + 1) t (upd nS b 1) nW A := by
  obtain ⟨blk, hb, hs, ht⟩ := (incCnt_ok s t b).mp hi
  subst ht
  have hc := h.bounded b blk hs
  have hinc : sizeInc blk.cnt = blk.cnt + 1 := sizeInc_of_lt _ (by omega)
  exact ⟨h.bal.setBlock b blk _ 1 0 hb hs (by simp only [hinc]; omega) (by simp)
    |>.congr (fun _ _ => rfl) (fun x _ => by unfold upd; split_ifs <;> simp),
    h.aux.setBlock_pos b blk _ hs (by simp only [hinc]; omega) rfl (fun hd => hd),
    h.bounded.setBlock_le b _ (by omega) (by simp only [hinc]; omega) (by simp only; omega),
    h.nn⟩

/-- The statement `++block_->cnt_weak` for a new weak handle. -/
theorem Good.incWeak {K : Nat} {s t : Heap} {nS nW : Nat → Int} {A : List Ptr}
    (h : Good K s nS nW A) (b : Nat) (hK : K + 1 < SIZE_MOD) (hi : incWeak s b = Except.ok t) :
    Good (K + 1) t nS (upd nW b 1) A := by
  obtain ⟨blk, hb, hs, ht⟩ := (incWeak_ok s t b).mp hi
  subst ht
  have hc := h.bounded b blk hs
  have hinc : sizeInc blk.cnt_weak = blk.cnt_weak + 1 := sizeInc_of_lt _ (by omega)
  refine ⟨h.bal.setBlock b blk _ 0 1 hb hs (by simp) (by simp only [hinc]; omega)
    |>.congr (fun x _ => by unfold upd; split_ifs <;> simp) (fun _ _ => rfl),
    h.aux.relOff (RelOff.setBlock_off b s _) (fun blk2 _ hb2 => ?_),
    h.bounded.setBlock_le b _ (by omega) (by simp only; omega) (by simp only [hinc]; omega),
    upd_nonneg _ _ _ h.nn (by omega)⟩
  simp at hb2
  subst hb2
  obtain ⟨a1, a2, _⟩ := h.aux b blk hb hs
  exact ⟨fun hc0 => a1 hc0, fun he hd => a2 he hd, Or.inr (by simp only [hinc]; omega)⟩

/-- The statement `ptr->weak_this = *this;`. -/
theorem Good.setWeakThis {K : Nat} {s t : Heap} {nS nW : Nat → Int} {A : List Ptr}
    (h : Good K s nS nW A) (d : Dtor) (ptr : Ptr) (this : SharedPtr) (hK : K + 1 < SIZE_MOD)
    (hi : setWeakThis d s ptr this = Except.ok t) : Good (K + 1) t nS nW A := by
  obtain ⟨hb, hrel⟩ := setWeakThis_spec d s t ptr this nS nW A K h.bal h.nn h.aux h.bounded hK hi
  exact ⟨hb, h.aux.rel_aux hrel, h.bounded.rel hrel, h.nn⟩

/-- The method `SharedPtr::Reset()` of a counted handle. -/
theorem Good.reset {K : Nat} {s t : Heap} {nS nW : Nat → Int} {A : List Ptr}
    (h : Good K s nS nW A) (n : Nat) (f : Bool) (x x1 : SharedPtr) (hK : K + 1 < SIZE_MOD)
    (hown : 1 ≤ nS x.block_)
    (hr : SharedPtr.Reset (objDtor n) f s x = Except.ok (t, x1)) :
    x1 = ⟨Ptr.null, 0⟩ ∧ Good K t (upd nS x.block_ (-1)) nW A := by
  obtain ⟨h1, h2, h3, h4⟩ := Reset_spec n f s t x x1 nS nW A K h.bal h.nn h.aux h.bounded hK
    (fun _ => hown) hr
  exact ⟨h1, h2, h3, h4, h.nn⟩

/-- The method `WeakPtr::Reset()` of a counted handle held outside the heap. -/
theorem Good.weakReset {K : Nat} {s t : Heap} {nS nW : Nat → Int} {A : List Ptr}
    (h : Good K s nS nW A) (d : Dtor) (w w1 : WeakPtr) (hK : K < SIZE_MOD)
    (hown : 1 ≤ nW w.block_)
    (hr : WeakPtr.Reset d s w = Except.ok (t, w1)) :
    w1 = ⟨0, Ptr.null⟩ ∧ Good K t nS (upd nW w.block_ (-1)) A := by
  obtain ⟨h1, hrel, _, _, _, hcase⟩ := WeakReset_spec d s t w w1 nS nW A h.bal
    (fun hb0 blk hs => by
      have h1 := (h.bal.alloc _ blk hb0 hs).2
      have h4 := (h.bounded _ blk hs).2
      constructor <;> omega)
    (fun hb0 blk hs => (h.aux _ blk hb0 hs).1) hr
  refine ⟨h1, ?_, h.aux.rel_aux hrel, h.bounded.rel hrel, fun x => ?_⟩
  · rcases hcase with ⟨blk, hb0, hs, hem, hdl, hself, _⟩ | hb1
    · exfalso
      have h1 := (h.aux _ blk hb0 hs).2.1 hem hdl
      have h2 := h.bal.alive_of_selfBlock _ hself
      rw [h1] at h2
      cases h2
    · exact hb1
  · unfold upd
    split_ifs with hx
    · subst hx
      omega
    · exact h.nn x

theorem cnt_cons {α : Type} (f : α → Nat) (a : α) (l : List α) (b : Nat) :
    cnt f (a :: l) b = cnt f l b + (if f a = b then 1 else 0) := by
  unfold cnt
  simp only [List.map_cons, List.count_cons, beq_iff_eq]
  split_ifs <;> simp

theorem cnt_erase {α : Type} [DecidableEq α] (f : α → Nat) (a : α) (b : Nat) :
    ∀ l : List α, a ∈ l → cnt f (l.erase a) b = cnt f l b - (if f a = b then 1 else 0) := by
  intro l
  induction l with
  | nil => intro h; cases h
  | cons x l ih =>
    intro h
    by_cases hxa : x = a
    · subst hxa
      rw [List.erase_cons_head, cnt_cons]
      omega
    · have hmem : a ∈ l := by
        rcases List.mem_cons.mp h with h1 | h1
        · exact absurd h1.symm hxa
        · exact h1
      rw [List.erase_cons_tail (by simpa using hxa), cnt_cons, cnt_cons, ih hmem]
      omega

theorem cnt_nonneg {α : Type} (f : α → Nat) (l : List α) (b : Nat) : 0 ≤ cnt f l b := by
  unfold cnt; omega

theorem cnt_le_length {α : Type} (f : α → Nat) (l : List α) (b : Nat) :
    cnt f l b ≤ l.length := by
  unfold cnt
  have := List.count_le_length b (l.map f)
  simp only [List.length_map] at this
  omega

theorem cnt_pos_of_mem {α : Type} (f : α → Nat) (l : List α) (a : α) (h : a ∈ l) :
    1 ≤ cnt f l (f a) := by
  unfold cnt
  have : 0 < (l.map f).count (f a) := List.count_pos_iff.mpr (List.mem_map.mpr ⟨a, h, rfl⟩)
  omega

theorem emb_le_length (s : Heap) (A : List Ptr) (b : Nat) : emb s A b ≤ A.length := by
  unfold emb
  have := List.count_le_length b (A.map s.selfBlock)
  simpa using this

theorem Inv.good {K : Nat} {c : Config} (h : Inv K c) :
    Good K c.heap (cnt SharedPtr.block_ c.shared) (cnt WeakPtr.block_ c.weak) c.addrs := by
  refine ⟨h.bal, h.aux, fun b blk hb => ?_, fun x => cnt_nonneg _ _ x⟩
  by_cases hb0 : b = 0
  · subst hb0
    rw [h.bal.zero] at hb
    cases hb
  · obtain ⟨h1, h2⟩ := h.bal.alloc b blk hb0 hb
    have h3 := cnt_le_length SharedPtr.block_ c.shared b
    have h4 := cnt_le_length WeakPtr.block_ c.weak b
    have h5 := emb_le_length c.heap c.addrs b
    have h6 := h.szS
    have h7 := h.szW
    constructor <;> omega

/-- The expression `new Block<T>(ptr)` / `new BlockEmplace<T>(..)` for a new strong handle. -/
theorem Good.newBlock_good {K : Nat} {s : Heap} {nS nW : Nat → Int} {A : List Ptr}
    (h : Good K s nS nW A) (e : Bool) (ptr : Ptr) :
    Good (K + 1) (s.newBlock e ptr).1 (upd nS (s.next + 1) 1) nW A := by
  refine ⟨h.bal.newBlock e ptr, fun x blk hx hsx => ?_, fun x blk hsx => ?_, h.nn⟩
  · by_cases hxb : x = s.next + 1
    · subst hxb
      simp [Heap.newBlock] at hsx
      subst hsx
      exact ⟨fun hc => by simp at hc, fun _ hd => by simp at hd, Or.inl (by simp)⟩
    · have hsx' : s.blocks x = some blk := by simpa [Heap.newBlock, hxb] using hsx
      obtain ⟨a1, a2, a3⟩ := h.aux x blk hx hsx'
      exact ⟨a1, fun he hd => a2 he hd, a3⟩
  · by_cases hxb : x = s.next + 1
    · subst hxb
      simp [Heap.newBlock] at hsx
      subst hsx
      exact ⟨by simp, by simp⟩
    · have hsx' : s.blocks x = some blk := by simpa [Heap.newBlock, hxb] using hsx
      obtain ⟨a1, a2⟩ := h.bounded x blk hsx'
      exact ⟨by omega, by omega⟩

/-- Constructing an object, its `weak_this` empty, at a free address that is not the
storage of an allocated block. -/
theorem Good.insertObj_good {K : Nat} {s : Heap} {nS nW : Nat → Int} {A : List Ptr}
    (h : Good K s nS nW A) (p : Ptr) (o : Obj) (hs : s.objs p = none)
    (ho : o.weak_this.block_ = 0)
    (hp : ∀ k, s.next < k → p ≠ Ptr.storage k)
    (hd : ∀ b blk, s.blocks b = some blk → blk.deleted = true → p ≠ Ptr.storage b) :
    Good K (s.setObj p (some o)) nS nW (List.insert p A) := by
  refine ⟨h.bal.insertObj p o hs ho hp, fun x blk hx hsx => ?_, h.bounded, h.nn⟩
  obtain ⟨a1, a2, a3⟩ := h.aux x blk hx hsx
  refine ⟨a1, fun he hdl => ?_, a3⟩
  have hne : Ptr.storage x ≠ p := fun heq => hd x blk hsx hdl heq.symm
  have := a2 he hdl
  simpa [Heap.isAlive, Heap.setObj, hne] using this

/-- The constructors `SharedPtr(T* ptr)` and `SharedPtr(Y* ptr)`. -/
theorem Good.ofRaw {K : Nat} {s t : Heap} {nS nW : Nat → Int} {A : List Ptr}
    (h : Good K s nS nW A) (d : Dtor) (f : Bool) (p : Ptr) (x : SharedPtr)
    (hK : K + 2 < SIZE_MOD) (hr : SharedPtr.ofRaw d f s p = Except.ok (t, x)) :
    Good (K + 2) t (upd nS x.block_ 1) nW A := by
  simp only [SharedPtr.ofRaw] at hr
  cases f with
  | false =>
    simp only [Bool.false_eq_true, if_false, bind_ok, pure, Except.pure, Except.ok.injEq,
      Prod.mk.injEq] at hr
    obtain ⟨y, hy, hyt, hx⟩ := hr
    subst hy
    subst hyt
    subst hx
    exact (h.newBlock_good false p).mono_good (by omega)
  | true =>
    simp only [if_true, bind_ok, pure, Except.pure, Except.ok.injEq, Prod.mk.injEq] at hr
    obtain ⟨y, hy, hyt, hx⟩ := hr
    subst hyt
    subst hx
    exact (h.newBlock_good false p).setWeakThis d p _ (by omega) hy

/-- The body shared by the copy, aliasing and promoting constructors: the member
`weak_this` is set for a type with the self-reference capability, then the strong count
of the block at `b` is raised. -/
theorem Good.attach {K : Nat} {s s1 t : Heap} {nS nW : Nat → Int} {A : List Ptr}
    (h : Good K s nS nW A) (d : Dtor) (f : Bool) (p : Ptr) (b : Nat)
    (hK : K + 2 < SIZE_MOD)
    (hs1 : (if f then SmartPointers.setWeakThis d s p ⟨p, b⟩ else pure s) = Except.ok s1)
    (hs2 : (if b ≠ 0 then SmartPointers.incCnt s1 b else pure s1) = Except.ok t) :
    Good (K + 2) t (upd nS b 1) nW A := by
  have h1 : Good (K + 1) s1 nS nW A := by
    cases f with
    | false =>
      simp only [Bool.false_eq_true, if_false, pure, Except.pure, Except.ok.injEq] at hs1
      subst hs1
      exact h.mono_good (by omega)
    | true =>
      simp only [if_true] at hs1
      exact h.setWeakThis d p _ (by omega) hs1
  by_cases hb : b = 0
  · simp only [hb, ne_eq, not_true_eq_false, if_false, pure, Except.pure,
      Except.ok.injEq] at hs2
    subst hs2
    exact (h1.mono_good (by omega)).congr_good (fun x hx => upd_ne _ _ _ _ (by rw [hb]; exact hx))
      (fun _ _ => rfl) h1.nn
  · simp only [hb, ne_eq, not_false_eq_true, if_true] at hs2
    exact h1.incCnt b (by omega) hs2

theorem copy_ok (d : Dtor) (f : Bool) (s t : Heap) (o x : SharedPtr)
    (h : SharedPtr.copy d f s o = Except.ok (t, x)) :
    x = ⟨o.ptr_, o.block_⟩ ∧ ∃ s1,
      (if f then setWeakThis d s o.ptr_ ⟨o.ptr_, o.block_⟩ else pure s) = Except.ok s1 ∧
      (if o.block_ ≠ 0 then incCnt s1 o.block_ else pure s1) = Except.ok t := by
  cases f <;> by_cases hb : o.block_ = 0 <;>
    simp only [SharedPtr.copy, hb, bind_ok, pure, Except.pure, Except.ok.injEq, Prod.mk.injEq,
      if_true, if_false, ne_eq, not_true_eq_false, not_false_eq_true,
      Bool.false_eq_true] at h ⊢
  all_goals aesop

theorem alias_ok (d : Dtor) (f : Bool) (s t : Heap) (o x : SharedPtr) (p : Ptr)
    (h : SharedPtr.alias d f s o p = Except.ok (t, x)) :
    x = ⟨p, o.block_⟩ ∧ ∃ s1,
      (if f then setWeakThis d s p ⟨p, o.block_⟩ else pure s) = Except.ok s1 ∧
      (if o.block_ ≠ 0 then incCnt s1 o.block_ else pure s1) = Except.ok t := by
  cases f <;> by_cases hb : o.block_ = 0 <;>
    simp only [SharedPtr.alias, hb, bind_ok, pure, Except.pure, Except.ok.injEq, Prod.mk.injEq,
      if_true, if_false, ne_eq, not_true_eq_false, not_false_eq_true,
      Bool.false_eq_true] at h ⊢
  all_goals aesop

theorem ofWeak_ok (d : Dtor) (f : Bool) (s t : Heap) (w : WeakPtr) (x : SharedPtr)
    (h : SharedPtr.ofWeak d f s w = Except.ok (t, x)) :
    x = ⟨w.ptr_, w.block_⟩ ∧ ∃ s1,
      (if f then setWeakThis d s w.ptr_ ⟨w.ptr_, w.block_⟩ else pure s) = Except.ok s1 ∧
      (if w.block_ ≠ 0 then incCnt s1 w.block_ else pure s1) = Except.ok t := by
  simp only [SharedPtr.ofWeak, bind_ok, load_ok] at h
  obtain ⟨blk, ⟨hb, hs⟩, h⟩ := h
  cases hd : blk.deleted with
  | true => simp [hd, throw, throwThe, MonadExceptOf.throw, bind, Except.bind] at h
  | false =>
    cases f <;>
      simp only [hd, hb, bind_ok, pure, Except.pure, Except.ok.injEq, Prod.mk.injEq,
        if_true, if_false, ne_eq, not_true_eq_false, not_false_eq_true,
        Bool.false_eq_true] at h ⊢
    all_goals aesop

/-- The branch `new_one` of `SharedPtr(BlockBase*, T*, bool)`: the flag is cleared and the
strong count raised for the new handle. -/
theorem Good.lockBump {K : Nat} {s t : Heap} {nS nW : Nat → Int} {A : List Ptr}
    (h : Good K s nS nW A) (b : Nat) (blk : BlockBase) (hK : K + 1 < SIZE_MOD)
    (hs : s.blocks b = some blk)
    (hi : SmartPointers.incCnt (s.setBlock b (some { blk with deleted := false })) b =
      Except.ok t) :
    Good (K + 1) t (upd nS b 1) nW A := by
  obtain ⟨blk1, hb, hs1, ht⟩ := (incCnt_ok _ t b).mp hi
  simp only [setBlock_blocks, if_true, Option.some.injEq] at hs1
  subst hs1
  rw [setBlock_setBlock] at ht
  subst ht
  have hc := h.bounded b blk hs
  have hinc : sizeInc blk.cnt = blk.cnt + 1 := sizeInc_of_lt _ (by omega)
  exact ⟨h.bal.setBlock b blk _ 1 0 hb hs (by simp only [hinc]; omega) (by simp)
    |>.congr (fun _ _ => rfl) (fun x _ => by unfold upd; split_ifs <;> simp),
    h.aux.setBlock_pos b blk _ hs (by simp only [hinc]; omega) rfl (fun hd => by simp at hd),
    h.bounded.setBlock_le b _ (by omega) (by simp only [hinc]; omega) (by simp only; omega),
    h.nn⟩

theorem ofBlock_ok (d : Dtor) (f : Bool) (s t : Heap) (bb : Nat) (ptr : Ptr) (new_one : Bool)
    (x : SharedPtr) (h : SharedPtr.ofBlock d f s bb ptr new_one = Except.ok (t, x)) :
    ∃ s1, (if f then (if ptr ≠ Ptr.null then setWeakThis d s ptr ⟨ptr, bb⟩ else pure s)
        else pure s) = Except.ok s1 ∧
      (if new_one then
        (if bb ≠ 0 then do
          let blk ← s1.load bb
          let s3 ← incCnt (s1.setBlock bb (some { blk with deleted := false })) bb
          pure (s3, if blk.deleted then (⟨Ptr.null, bb⟩ : SharedPtr) else ⟨ptr, bb⟩)
        else pure (s1, ⟨ptr, bb⟩))
      else pure (s1, ⟨ptr, bb⟩)) = Except.ok (t, x) := by
  cases f with
  | false =>
    refine ⟨s, by simp [pure, Except.pure], ?_⟩
    simpa [SharedPtr.ofBlock, bind, Except.bind, pure, Except.pure] using h
  | true =>
    by_cases hp : ptr = Ptr.null
    · refine ⟨s, by simp [hp, pure, Except.pure], ?_⟩
      simpa [SharedPtr.ofBlock, hp, bind, Except.bind, pure, Except.pure] using h
    · simp only [SharedPtr.ofBlock, if_true, ne_eq, hp, not_false_eq_true, bind_ok] at h
      obtain ⟨s1, h1, h2⟩ := h
      exact ⟨s1, by simpa [hp] using h1, h2⟩

/-- The constructor `SharedPtr(BlockBase* bb, T* ptr, bool new_one)`: a strong handle is
added to the block `bb` exactly when `new_one` is set (and `bb` is not null). -/
theorem Good.ofBlock {K : Nat} {s t : Heap} {nS nW : Nat → Int} {A : List Ptr}
    (h : Good K s nS nW A) (d : Dtor) (f : Bool) (bb : Nat) (ptr : Ptr) (new_one : Bool)
    (x : SharedPtr) (hK : K + 2 < SIZE_MOD)
    (hr : SharedPtr.ofBlock d f s bb ptr new_one = Except.ok (t, x)) :
    x.block_ = bb ∧ Good (K + 2) t (upd nS bb (if new_one then 1 else 0)) nW A := by
  obtain ⟨s1, hs1, hr⟩ := ofBlock_ok d f s t bb ptr new_one x hr
  have h1 : Good (K + 1) s1 nS nW A := by
    cases f with
    | false =>
      simp only [Bool.false_eq_true, if_false, pure, Except.pure, Except.ok.injEq] at hs1
      subst hs1
      exact h.mono_good (by omega)
    | true =>
      by_cases hp : ptr = Ptr.null
      · simp only [hp, if_true, ne_eq, not_true_eq_false, if_false, pure, Except.pure,
          Except.ok.injEq] at hs1
        subst hs1
        exact h.mono_good (by omega)
      · simp only [if_true, ne_eq, hp, not_false_eq_true] at hs1
        exact h.setWeakThis d ptr _ (by omega) hs1
  have hz : ∀ y, y ≠ 0 → upd nS bb 0 y = nS y := by
    intro y _
    unfold upd
    split_ifs <;> simp
  cases new_one with
  | false =>
    simp only [Bool.false_eq_true, if_false, pure, Except.pure, Except.ok.injEq,
      Prod.mk.injEq] at hr
    obtain ⟨hst, hx⟩ := hr
    subst hst
    subst hx
    exact ⟨rfl, (h1.mono_good (by omega)).congr_good hz (fun _ _ => rfl) h1.nn⟩
  | true =>
    by_cases hb : bb = 0
    · simp only [hb, if_true, ne_eq, not_true_eq_false, if_false, pure, Except.pure,
        Except.ok.injEq, Prod.mk.injEq] at hr
      obtain ⟨hst, hx⟩ := hr
      subst hst
      subst hx
      exact ⟨hb.symm, (h1.mono_good (by omega)).congr_good
        (fun y hy => upd_ne _ _ _ _ (by rw [hb]; exact hy)) (fun _ _ => rfl) h1.nn⟩
    · simp only [if_true, ne_eq, hb, not_false_eq_true, bind_ok, load_ok, pure, Except.pure,
        Except.ok.injEq, Prod.mk.injEq] at hr
      obtain ⟨blk, ⟨_, hs⟩, s3, hi, hst, hx⟩ := hr
      subst hst
      refine ⟨?_, h1.lockBump bb blk (by omega) hs hi⟩
      subst hx
      split_ifs <;> rfl

theorem Good.makeShared {K : Nat} {s t : Heap} {nS nW : Nat → Int} {A : List Ptr}
    (h : Good K s nS nW A) (d : Dtor) (f : Bool) (v : Int) (x : SharedPtr)
    (hK : K + 3 < SIZE_MOD) (hr : MakeShared d f s v = Except.ok (t, x)) :
    x.block_ = s.next + 1 ∧
      Good (K + 3) t (upd nS (s.next + 1) 1) nW (List.insert (Ptr.storage (s.next + 1)) A) := by
  simp only [MakeShared] at hr
  have hf := h.bal.fresh (s.next + 1) (by omega)
  have hnone : s.objs (Ptr.storage (s.next + 1)) = none := by
    by_contra hne
    exact hf.2 (h.bal.cover _ hne)
  have h1 := h.newBlock_good true Ptr.null
  have h2 := h1.insertObj_good (Ptr.storage (s.next + 1))
    { val := v, alive := true, esft := f, weak_this := {} } hnone rfl
    (fun k hk heq => by
      have : s.next + 1 < k := hk
      cases heq
      omega)
    (fun b blk hb hd heq => by
      cases heq
      simp [Heap.newBlock] at hb
      subst hb
      simp at hd)
  obtain ⟨hx, h3⟩ := h2.ofBlock d f _ _ false x (by omega) hr
  refine ⟨hx, h3.congr_good (fun y _ => ?_) (fun _ _ => rfl) h3.nn⟩
  change _ = upd (upd nS (s.next + 1) 1) (s.next + 1) 0 y
  simp only [upd]
  split_ifs <;> omega

theorem Inv.of_good {K J : Nat} {c : Config} {nS nW : Nat → Int}
    (hg : Good J c.heap nS nW c.addrs)
    (hS : ∀ b, b ≠ 0 → cnt SharedPtr.block_ c.shared b = nS b)
    (hW : ∀ b, b ≠ 0 → cnt WeakPtr.block_ c.weak b = nW b)
    (szS : c.shared.length ≤ K) (szW : c.weak.length + c.addrs.length ≤ K) : Inv K c :=
  ⟨hg.bal.congr hS hW, hg.aux, szS, szW⟩

theorem length_insert_le {α : Type} [DecidableEq α] (a : α) (l : List α) :
    (List.insert a l).length ≤ l.length + 1 := by
  by_cases h : a ∈ l
  · rw [List.insert_of_mem h]; omega
  · rw [List.insert_of_not_mem h]; simp

theorem Inv.mono_inv {K K1 : Nat} {c : Config} (h : Inv K c) (hK : K ≤ K1) : Inv K1 c :=
  ⟨h.bal, h.aux, by have := h.szS; omega, by have := h.szW; omega⟩

/-- The operations that construct a strong handle keep the invariant. -/
theorem Inv.step_construct {K n : Nat} {c c1 : Config} (h : Inv K c) (hK : K + 4 < SIZE_MOD) :
    (∀ esft a v, c.step n (Op.newObj esft a v) = Except.ok c1 → Inv (K + 1) c1) ∧
    (c.step n Op.sharedNull = Except.ok c1 → Inv (K + 1) c1) ∧
    (∀ esft p, c.step n (Op.ofRaw esft p) = Except.ok c1 → Inv (K + 1) c1) ∧
    (∀ esft v, c.step n (Op.makeShared esft v) = Except.ok c1 → Inv (K + 1) c1) := by
  have hg := h.good
  refine ⟨fun esft a v hs => ?_, fun hs => ?_, fun esft p hs => ?_, fun esft v hs => ?_⟩
  · simp only [Config.step] at hs
    split_ifs at hs with hsome
    simp only [pure, Except.pure, Except.ok.injEq] at hs
    subst hs
    have hnone : c.heap.objs (Ptr.raw a) = none := by
      cases ho : c.heap.objs (Ptr.raw a) with
      | none => rfl
      | some o => simp [ho] at hsome
    have h2 := hg.insertObj_good (Ptr.raw a) { val := v, alive := true, esft := esft, weak_this := {} }
      hnone rfl (fun k _ heq => by cases heq) (fun b blk _ _ heq => by cases heq)
    refine Inv.of_good (J := K) h2 (fun _ _ => rfl) (fun _ _ => rfl) ?_ ?_
    · have := h.szS; simp only; omega
    · have := h.szW
      have := length_insert_le (Ptr.raw a) c.addrs
      simp only; omega
  · simp only [Config.step, pure, Except.pure, Except.ok.injEq] at hs
    subst hs
    refine Inv.of_good (J := K) hg (fun b hb => ?_) (fun _ _ => rfl) ?_ ?_
    · simp only [cnt_cons, SharedPtr.null]
      rw [if_neg (Ne.symm hb)]
      omega
    · have := h.szS; simp only [List.length_cons]; omega
    · have := h.szW; simp only; omega
  · simp only [Config.step, bind_ok, pure, Except.pure, Except.ok.injEq, Prod.exists] at hs
    obtain ⟨t, x, hr, hc⟩ := hs
    subst hc
    have h2 := hg.ofRaw (objDtor n) esft p x (by omega) hr
    refine Inv.of_good h2 (fun b hb => ?_) (fun _ _ => rfl) ?_ ?_
    · simp only [cnt_cons, upd]
      split_ifs <;> omega
    · have := h.szS; simp only [List.length_cons]; omega
    · have := h.szW; simp only; omega
  · simp only [Config.step, bind_ok, pure, Except.pure, Except.ok.injEq, Prod.exists] at hs
    obtain ⟨t, x, hr, hc⟩ := hs
    subst hc
    obtain ⟨hx, h2⟩ := hg.makeShared (objDtor n) esft v x (by omega) hr
    refine Inv.of_good h2 (fun b hb => ?_) (fun _ _ => rfl) ?_ ?_
    · simp only [cnt_cons, upd, hx]
      split_ifs <;> omega
    · have := h.szS; simp only [List.length_cons]; omega
    · have := h.szW
      have := length_insert_le (Ptr.storage (c.heap.next + 1)) c.addrs
      simp only; omega

/-- The copy assignment `this = other` of `SharedPtr`, for two variables. -/
theorem Good.assign {K : Nat} {s t : Heap} {nS nW : Nat → Int} {A : List Ptr}
    (h : Good K s nS nW A) (n : Nat) (f : Bool) (this other x : SharedPtr)
    (hK : K + 2 < SIZE_MOD) (hown : 1 ≤ nS this.block_)
    (hr : SharedPtr.assign (objDtor n) f s this other = Except.ok (t, x)) :
    x = ⟨other.ptr_, other.block_⟩ ∧
      Good (K + 1) t (upd (upd nS this.block_ (-1)) other.block_ 1) nW A := by
  by_cases hb : other.block_ = 0
  · simp only [SharedPtr.assign, hb, ne_eq, not_true_eq_false, if_false, bind_ok, pure,
      Except.pure, Except.ok.injEq, Prod.mk.injEq, Prod.exists] at hr
    obtain ⟨s1, x1, hres, y, hy, hyt, hx⟩ := hr
    subst hy
    subst hyt
    obtain ⟨_, h1⟩ := h.reset n f this x1 (by omega) hown hres
    refine ⟨by rw [← hx, hb], (h1.mono_good (by omega)).congr_good (fun y hy => ?_) (fun _ _ => rfl) h1.nn⟩
    rw [hb, upd_ne _ _ _ _ hy]
  · simp only [SharedPtr.assign, hb, ne_eq, not_false_eq_true, if_true, bind_ok, pure,
      Except.pure, Except.ok.injEq, Prod.mk.injEq, Prod.exists] at hr
    obtain ⟨s1, x1, hres, y, hy, hyt, hx⟩ := hr
    subst hyt
    obtain ⟨_, h1⟩ := h.reset n f this x1 (by omega) hown hres
    exact ⟨hx.symm, h1.incCnt _ (by omega) hy⟩

/-- The move assignment `this = std::move(other)` of `SharedPtr`, for two variables. -/
theorem Good.moveAssign {K : Nat} {s t : Heap} {nS nW : Nat → Int} {A : List Ptr}
    (h : Good K s nS nW A) (n : Nat) (f : Bool) (this other x o : SharedPtr)
    (hK : K + 1 < SIZE_MOD) (hown : 1 ≤ nS this.block_)
    (hr : SharedPtr.moveAssign (objDtor n) f s this other = Except.ok (t, x, o)) :
    x = ⟨other.ptr_, other.block_⟩ ∧ o = ⟨Ptr.null, 0⟩ ∧
      Good K t (upd nS this.block_ (-1)) nW A := by
  simp only [SharedPtr.moveAssign, bind_ok, pure, Except.pure, Except.ok.injEq, Prod.mk.injEq,
    Prod.exists] at hr
  obtain ⟨s1, x1, hres, hst, hx, ho⟩ := hr
  subst hst
  obtain ⟨_, h1⟩ := h.reset n f this x1 hK hown hres
  exact ⟨hx.symm, ho.symm, h1⟩

/-- The method `SharedPtr::Reset(T* ptr)`. -/
theorem Good.resetPtr {K : Nat} {s t : Heap} {nS nW : Nat → Int} {A : List Ptr}
    (h : Good K s nS nW A) (n : Nat) (f : Bool) (this x : SharedPtr) (p : Ptr)
    (hK : K + 1 < SIZE_MOD) (hown : 1 ≤ nS this.block_)
    (hr : SharedPtr.ResetPtr (objDtor n) f s this p = Except.ok (t, x)) :
    Good (K + 1) t (upd (upd nS this.block_ (-1)) x.block_ 1) nW A := by
  simp only [SharedPtr.ResetPtr, bind_ok, pure, Except.pure, Except.ok.injEq, Prod.mk.injEq,
    Prod.exists] at hr
  obtain ⟨s1, x1, hres, hst, hx⟩ := hr
  subst hst
  subst hx
  obtain ⟨_, h1⟩ := h.reset n f this x1 hK hown hres
  exact h1.newBlock_good false p

/-- The destructor `~SharedPtr()`. -/
theorem Good.destroy {K : Nat} {s t : Heap} {nS nW : Nat → Int} {A : List Ptr}
    (h : Good K s nS nW A) (n : Nat) (f : Bool) (this : SharedPtr)
    (hK : K + 1 < SIZE_MOD) (hown : 1 ≤ nS this.block_)
    (hr : SharedPtr.destroy (objDtor n) f s this = Except.ok t) :
    Good K t (upd nS this.block_ (-1)) nW A := by
  simp only [SharedPtr.destroy, bind_ok, pure, Except.pure, Except.ok.injEq,
    Prod.exists] at hr
  obtain ⟨s1, x1, hres, hst⟩ := hr
  subst hst
  exact (h.reset n f this x1 hK hown hres).2

/-- The method `WeakPtr::Lock()`. -/
theorem Good.lock {K : Nat} {s t : Heap} {nS nW : Nat → Int} {A : List Ptr}
    (h : Good K s nS nW A) (d : Dtor) (f : Bool) (w : WeakPtr) (x : SharedPtr)
    (hK : K + 2 < SIZE_MOD) (hr : WeakPtr.Lock d f s w = Except.ok (t, x)) :
    Good (K + 2) t (upd nS x.block_ 1) nW A := by
  unfold WeakPtr.Lock at hr
  by_cases hb : w.block_ = 0
  · simp only [hb, ne_eq, not_true_eq_false, if_false, pure, Except.pure, Except.ok.injEq,
      Prod.mk.injEq] at hr
    obtain ⟨hst, hx⟩ := hr
    subst hst
    subst hx
    exact (h.mono_good (by omega)).congr_good (fun y hy => upd_ne _ _ _ _ hy) (fun _ _ => rfl) h.nn
  · simp only [hb, ne_eq, not_false_eq_true, if_true] at hr
    obtain ⟨hx, h1⟩ := h.ofBlock d f _ _ true x hK hr
    rw [hx]
    exact h1

/-- The operations that attach a new strong handle to an existing block keep the
invariant. -/
theorem Inv.step_attach {K n : Nat} {c c1 : Config} (h : Inv K c) (hK : K + 4 < SIZE_MOD) :
    (∀ esft o, c.step n (Op.copy esft o) = Except.ok c1 → Inv (K + 1) c1) ∧
    (∀ esft o p, c.step n (Op.alias esft o p) = Except.ok c1 → Inv (K + 1) c1) ∧
    (∀ esft w, c.step n (Op.promote esft w) = Except.ok c1 → Inv (K + 1) c1) ∧
    (∀ esft w, c.step n (Op.lock esft w) = Except.ok c1 → Inv (K + 1) c1) := by
  have hg := h.good
  refine ⟨fun esft o hs => ?_, fun esft o p hs => ?_, fun esft w hs => ?_,
    fun esft w hs => ?_⟩
  · simp only [Config.step] at hs
    split_ifs at hs with hmem
    simp only [bind_ok, pure, Except.pure, Except.ok.injEq, Prod.exists] at hs
    obtain ⟨t, x, hr, hc⟩ := hs
    subst hc
    obtain ⟨hx, s1, hs1, hs2⟩ := copy_ok _ _ _ _ _ _ hr
    have h2 := hg.attach (objDtor n) esft _ _ (by omega) hs1 hs2
    refine Inv.of_good h2 (fun b hb => ?_) (fun _ _ => rfl) ?_ ?_
    · simp only [cnt_cons, upd, hx]
      split_ifs <;> omega
    · have := h.szS; simp only [List.length_cons]; omega
    · have := h.szW; simp only; omega
  · simp only [Config.step] at hs
    split_ifs at hs with hmem
    simp only [bind_ok, pure, Except.pure, Except.ok.injEq, Prod.exists] at hs
    obtain ⟨t, x, hr, hc⟩ := hs
    subst hc
    obtain ⟨hx, s1, hs1, hs2⟩ := alias_ok _ _ _ _ _ _ _ hr
    have h2 := hg.attach (objDtor n) esft _ _ (by omega) hs1 hs2
    refine Inv.of_good h2 (fun b hb => ?_) (fun _ _ => rfl) ?_ ?_
    · simp only [cnt_cons, upd, hx]
      split_ifs <;> omega
    · have := h.szS; simp only [List.length_cons]; omega
    · have := h.szW; simp only; omega
  · simp only [Config.step] at hs
    split_ifs at hs with hmem
    cases hr : SharedPtr.ofWeak (objDtor n) esft c.heap w with
    | error e =>
      rw [hr] at hs
      cases e with
      | BadWeakPtr =>
        simp only [pure, Except.pure, Except.ok.injEq] at hs
        subst hs
        exact h.mono_inv (by omega)
      | UB => cases hs
      | outOfFuel => cases hs
    | ok r =>
      obtain ⟨t, x⟩ := r
      rw [hr] at hs
      simp only [pure, Except.pure, Except.ok.injEq] at hs
      subst hs
      obtain ⟨hx, s1, hs1, hs2⟩ := ofWeak_ok _ _ _ _ _ _ hr
      have h2 := hg.attach (objDtor n) esft _ _ (by omega) hs1 hs2
      refine Inv.of_good h2 (fun b hb => ?_) (fun _ _ => rfl) ?_ ?_
      · simp only [cnt_cons, upd, hx]
        split_ifs <;> omega
      · have := h.szS; simp only [List.length_cons]; omega
      · have := h.szW; simp only; omega
  · simp only [Config.step] at hs
    split_ifs at hs with hmem
    simp only [bind_ok, pure, Except.pure, Except.ok.injEq, Prod.exists] at hs
    obtain ⟨t, x, hr, hc⟩ := hs
    subst hc
    have h2 := hg.lock (objDtor n) esft w x (by omega) hr
    refine Inv.of_good h2 (fun b hb => ?_) (fun _ _ => rfl) ?_ ?_
    · simp only [cnt_cons, upd]
      split_ifs <;> omega
    · have := h.szS; simp only [List.length_cons]; omega
    · have := h.szW; simp only; omega

theorem length_erase_succ {α : Type} [DecidableEq α] (a : α) (l : List α) (h : a ∈ l) :
    (l.erase a).length + 1 = l.length := by
  have h1 := List.length_erase_of_mem h
  have h2 : 0 < l.length := List.length_pos_of_mem h
  omega

/-- The operations on strong handles that touch no block keep the invariant. -/
theorem Inv.step_strong_pure {K n : Nat} {c c1 : Config} (h : Inv K c) :
    (∀ o, c.step n (Op.move o) = Except.ok c1 → Inv (K + 1) c1) ∧
    (∀ x o, c.step n (Op.swap x o) = Except.ok c1 → Inv (K + 1) c1) := by
  have hg := h.good
  refine ⟨fun o hs => ?_, fun x o hs => ?_⟩
  · simp only [Config.step] at hs
    split_ifs at hs with hmem
    simp only [pure, Except.pure, Except.ok.injEq] at hs
    subst hs
    refine Inv.of_good hg (fun b hb => ?_) (fun _ _ => rfl) ?_ ?_
    · simp only [cnt_cons, cnt_erase _ _ _ _ hmem, SharedPtr.move]
      split_ifs <;> omega
    · have := h.szS
      have := length_erase_succ o c.shared hmem
      simp only [List.length_cons]; omega
    · have := h.szW; simp only; omega
  · simp only [Config.step] at hs
    split_ifs at hs with hmem
    simp only [pure, Except.pure, Except.ok.injEq] at hs
    subst hs
    refine Inv.of_good hg (fun b hb => ?_) (fun _ _ => rfl) ?_ ?_
    · simp only [cnt_cons, cnt_erase _ _ _ _ hmem.1, cnt_erase _ _ _ _ hmem.2, SharedPtr.Swap]
      split_ifs <;> omega
    · have := h.szS
      have := length_erase_succ x c.shared hmem.1
      have := length_erase_succ o _ hmem.2
      simp only [List.length_cons]; omega
    · have := h.szW; simp only; omega

/-- The operations that detach a strong handle keep the invariant. -/
theorem Inv.step_release {K n : Nat} {c c1 : Config} (h : Inv K c) (hK : K + 4 < SIZE_MOD) :
    (∀ esft x o, c.step n (Op.assign esft x o) = Except.ok c1 → Inv (K + 1) c1) ∧
    (∀ esft x o, c.step n (Op.moveAssign esft x o) = Except.ok c1 → Inv (K + 1) c1) ∧
    (∀ esft x, c.step n (Op.reset esft x) = Except.ok c1 → Inv (K + 1) c1) ∧
    (∀ esft x p, c.step n (Op.resetPtr esft x p) = Except.ok c1 → Inv (K + 1) c1) ∧
    (∀ esft x, c.step n (Op.destroy esft x) = Except.ok c1 → Inv (K + 1) c1) := by
  have hg := h.good
  refine ⟨fun esft x o hs => ?_, fun esft x o hs => ?_, fun esft x hs => ?_,
    fun esft x p hs => ?_, fun esft x hs => ?_⟩
  · simp only [Config.step] at hs
    split_ifs at hs with hmem
    simp only [bind_ok, pure, Except.pure, Except.ok.injEq, Prod.exists] at hs
    obtain ⟨t, y, hr, hc⟩ := hs
    subst hc
    obtain ⟨hy, h2⟩ := hg.assign n esft x o y (by omega)
      (cnt_pos_of_mem SharedPtr.block_ _ x hmem.1) hr
    refine Inv.of_good h2 (fun b hb => ?_) (fun _ _ => rfl) ?_ ?_
    · simp only [cnt_cons, cnt_erase _ _ _ _ hmem.1, upd, hy]
      split_ifs <;> omega
    · have := h.szS
      have := length_erase_succ x c.shared hmem.1
      simp only [List.length_cons]; omega
    · have := h.szW; simp only; omega
  · simp only [Config.step] at hs
    split_ifs at hs with hmem
    simp only [bind_ok, pure, Except.pure, Except.ok.injEq, Prod.exists] at hs
    obtain ⟨t, y, z, hr, hc⟩ := hs
    subst hc
    obtain ⟨hy, hz, h2⟩ := hg.moveAssign n esft x o y z (by omega)
      (cnt_pos_of_mem SharedPtr.block_ _ x hmem.1) hr
    refine Inv.of_good h2 (fun b hb => ?_) (fun _ _ => rfl) ?_ ?_
    · simp only [cnt_cons, cnt_erase _ _ _ _ hmem.1, cnt_erase _ _ _ _ hmem.2, upd, hy, hz]
      split_ifs <;> omega
    · have := h.szS
      have := length_erase_succ x c.shared hmem.1
      have := length_erase_succ o _ hmem.2
      simp only [List.length_cons]; omega
    · have := h.szW; simp only; omega
  · simp only [Config.step] at hs
    split_ifs at hs with hmem
    simp only [bind_ok, pure, Except.pure, Except.ok.injEq, Prod.exists] at hs
    obtain ⟨t, y, hr, hc⟩ := hs
    subst hc
    obtain ⟨hy, h2⟩ := hg.reset n esft x y (by omega)
      (cnt_pos_of_mem SharedPtr.block_ _ x hmem) hr
    refine Inv.of_good h2 (fun b hb => ?_) (fun _ _ => rfl) ?_ ?_
    · simp only [cnt_cons, cnt_erase _ _ _ _ hmem, upd, hy]
      split_ifs <;> omega
    · have := h.szS
      have := length_erase_succ x c.shared hmem
      simp only [List.length_cons]; omega
    · have := h.szW; simp only; omega
  · simp only [Config.step] at hs
    split_ifs at hs with hmem
    simp only [bind_ok, pure, Except.pure, Except.ok.injEq, Prod.exists] at hs
    obtain ⟨t, y, hr, hc⟩ := hs
    subst hc
    have h2 := hg.resetPtr n esft x y p (by omega)
      (cnt_pos_of_mem SharedPtr.block_ _ x hmem) hr
    refine Inv.of_good h2 (fun b hb => ?_) (fun _ _ => rfl) ?_ ?_
    · simp only [cnt_cons, cnt_erase _ _ _ _ hmem, upd]
      split_ifs <;> omega
    · have := h.szS
      have := length_erase_succ x c.shared hmem
      simp only [List.length_cons]; omega
    · have := h.szW; simp only; omega
  · simp only [Config.step] at hs
    split_ifs at hs with hmem
    simp only [bind_ok, pure, Except.pure, Except.ok.injEq] at hs
    obtain ⟨t, hr, hc⟩ := hs
    subst hc
    have h2 := hg.destroy n esft x (by omega)
      (cnt_pos_of_mem SharedPtr.block_ _ x hmem) hr
    refine Inv.of_good h2 (fun b hb => ?_) (fun _ _ => rfl) ?_ ?_
    · simp only [cnt_erase _ _ _ _ hmem, upd]
      split_ifs <;> omega
    · have := h.szS
      have := length_erase_succ x c.shared hmem
      simp only; omega
    · have := h.szW; simp only; omega

/-- The tail `if (block_) ++block_->cnt_weak;` of the constructors and assignments that
attach a weak handle to the block at `b`. -/
theorem Good.attachWeak {K : Nat} {s t : Heap} {nS nW : Nat → Int} {A : List Ptr}
    (h : Good K s nS nW A) (b : Nat) (hK : K + 1 < SIZE_MOD)
    (hs : (if b ≠ 0 then SmartPointers.incWeak s b else pure s) = Except.ok t) :
    Good (K + 1) t nS (upd nW b 1) A := by
  by_cases hb : b = 0
  · simp only [hb, ne_eq, not_true_eq_false, if_false, pure, Except.pure,
      Except.ok.injEq] at hs
    subst hs
    exact (h.mono_good (Nat.le_succ K)).congr_good (fun _ _ => rfl)
      (fun x hx => upd_ne _ _ _ _ (by rw [hb]; exact hx)) (upd_nonneg _ _ _ h.nn (by omega))
  · simp only [hb, ne_eq, not_false_eq_true, if_true] at hs
    exact h.incWeak b hK hs

theorem weakCopy_ok (s t : Heap) (o x : WeakPtr) (h : WeakPtr.copy s o = Except.ok (t, x)) :
    x = ⟨o.block_, o.ptr_⟩ ∧
      (if o.block_ ≠ 0 then incWeak s o.block_ else pure s) = Except.ok t := by
  by_cases hb : o.block_ = 0 <;>
    simp only [WeakPtr.copy, hb, bind_ok, pure, Except.pure, Except.ok.injEq, Prod.mk.injEq,
      if_true, if_false, ne_eq, not_true_eq_false, not_false_eq_true] at h ⊢
  all_goals aesop

theorem weakOfShared_ok (s t : Heap) (o : SharedPtr) (x : WeakPtr)
    (h : WeakPtr.ofShared s o = Except.ok (t, x)) :
    x = ⟨o.block_, o.ptr_⟩ ∧
      (if o.block_ ≠ 0 then incWeak s o.block_ else pure s) = Except.ok t := by
  by_cases hb : o.block_ = 0 <;>
    simp only [WeakPtr.ofShared, hb, bind_ok, pure, Except.pure, Except.ok.injEq, Prod.mk.injEq,
      if_true, if_false, ne_eq, not_true_eq_false, not_false_eq_true] at h ⊢
  all_goals aesop

theorem weakAssignShared_ok (d : Dtor) (s t : Heap) (w : WeakPtr) (o : SharedPtr) (x : WeakPtr)
    (h : WeakPtr.assignShared d s w o = Except.ok (t, x)) :
    x = ⟨o.block_, o.ptr_⟩ ∧ ∃ s1 w1, WeakPtr.Reset d s w = Except.ok (s1, w1) ∧
      (if o.block_ ≠ 0 then incWeak s1 o.block_ else pure s1) = Except.ok t := by
  by_cases hb : o.block_ = 0 <;>
    simp only [WeakPtr.assignShared, hb, bind_ok, pure, Except.pure, Except.ok.injEq,
      Prod.mk.injEq, Prod.exists, if_true, if_false, ne_eq, not_true_eq_false,
      not_false_eq_true] at h ⊢
  all_goals aesop

theorem weakAssign_ok (d : Dtor) (s t : Heap) (w o x : WeakPtr)
    (h : WeakPtr.assign d s w o false = Except.ok (t, x)) :
    x = ⟨o.block_, o.ptr_⟩ ∧ ∃ s1 w1, WeakPtr.Reset d s w = Except.ok (s1, w1) ∧
      (if o.block_ ≠ 0 then incWeak s1 o.block_ else pure s1) = Except.ok t := by
  by_cases hb : o.block_ = 0 <;>
    simp only [WeakPtr.assign, hb, bind_ok, pure, Except.pure, Except.ok.injEq,
      Prod.mk.injEq, Prod.exists, if_true, if_false, ne_eq, not_true_eq_false,
      not_false_eq_true, Bool.not_false] at h ⊢
  all_goals aesop

/-- A weak handle is detached from its block and attached to the block at `b`. -/
theorem Good.weakReattach {K : Nat} {s s1 t : Heap} {nS nW : Nat → Int} {A : List Ptr}
    (h : Good K s nS nW A) (d : Dtor) (w w1 : WeakPtr) (b : Nat) (hK : K + 1 < SIZE_MOD)
    (hown : 1 ≤ nW w.block_) (hr : WeakPtr.Reset d s w = Except.ok (s1, w1))
    (hs : (if b ≠ 0 then SmartPointers.incWeak s1 b else pure s1) = Except.ok t) :
    Good (K + 1) t nS (upd (upd nW w.block_ (-1)) b 1) A :=
  (h.weakReset d w w1 (by omega) hown hr).2.attachWeak b hK hs

/-- The operations on weak handles that touch no block keep the invariant. -/
theorem Inv.step_weak_pure {K n : Nat} {c c1 : Config} (h : Inv K c) :
    (c.step n Op.weakNull = Except.ok c1 → Inv (K + 1) c1) ∧
    (∀ w, c.step n (Op.weakMove w) = Except.ok c1 → Inv (K + 1) c1) ∧
    (∀ w o, c.step n (Op.weakSwap w o) = Except.ok c1 → Inv (K + 1) c1) := by
  have hg := h.good
  refine ⟨fun hs => ?_, fun w hs => ?_, fun w o hs => ?_⟩
  · simp only [Config.step, pure, Except.pure, Except.ok.injEq] at hs
    subst hs
    refine Inv.of_good hg (fun _ _ => rfl) (fun b hb => ?_) ?_ ?_
    · simp only [cnt_cons]
      rw [if_neg (Ne.symm hb)]
      omega
    · have := h.szS; simp only; omega
    · have := h.szW; simp only [List.length_cons]; omega
  · simp only [Config.step] at hs
    split_ifs at hs with hmem
    simp only [pure, Except.pure, Except.ok.injEq] at hs
    subst hs
    refine Inv.of_good hg (fun _ _ => rfl) (fun b hb => ?_) ?_ ?_
    · simp only [cnt_cons, cnt_erase _ _ _ _ hmem, WeakPtr.move]
      split_ifs <;> omega
    · have := h.szS; simp only; omega
    · have := h.szW
      have := length_erase_succ w c.weak hmem
      simp only [List.length_cons]; omega
  · simp only [Config.step] at hs
    split_ifs at hs with hmem
    simp only [pure, Except.pure, Except.ok.injEq] at hs
    subst hs
    refine Inv.of_good hg (fun _ _ => rfl) (fun b hb => ?_) ?_ ?_
    · simp only [cnt_cons, cnt_erase _ _ _ _ hmem.1, cnt_erase _ _ _ _ hmem.2, WeakPtr.Swap]
      split_ifs <;> omega
    · have := h.szS; simp only; omega
    · have := h.szW
      have := length_erase_succ w c.weak hmem.1
      have := length_erase_succ o _ hmem.2
      simp only [List.length_cons]; omega

/-- The operations that construct a weak handle on a block keep the invariant. -/
theorem Inv.step_weak_attach {K n : Nat} {c c1 : Config} (h : Inv K c)
    (hK : K + 4 < SIZE_MOD) :
    (∀ w, c.step n (Op.weakCopy w) = Except.ok c1 → Inv (K + 1) c1) ∧
    (∀ x, c.step n (Op.weakOfShared x) = Except.ok c1 → Inv (K + 1) c1) := by
  have hg := h.good
  refine ⟨fun w hs => ?_, fun x hs => ?_⟩
  · simp only [Config.step] at hs
    split_ifs at hs with hmem
    simp only [bind_ok, pure, Except.pure, Except.ok.injEq, Prod.exists] at hs
    obtain ⟨t, y, hr, hc⟩ := hs
    subst hc
    obtain ⟨hy, hs1⟩ := weakCopy_ok _ _ _ _ hr
    have h2 := hg.attachWeak _ (by omega) hs1
    refine Inv.of_good h2 (fun _ _ => rfl) (fun b hb => ?_) ?_ ?_
    · simp only [cnt_cons, upd, hy]
      split_ifs <;> omega
    · have := h.szS; simp only; omega
    · have := h.szW; simp only [List.length_cons]; omega
  · simp only [Config.step] at hs
    split_ifs at hs with hmem
    simp only [bind_ok, pure, Except.pure, Except.ok.injEq, Prod.exists] at hs
    obtain ⟨t, y, hr, hc⟩ := hs
    subst hc
    obtain ⟨hy, hs1⟩ := weakOfShared_ok _ _ _ _ hr
    have h2 := hg.attachWeak _ (by omega) hs1
    refine Inv.of_good h2 (fun _ _ => rfl) (fun b hb => ?_) ?_ ?_
    · simp only [cnt_cons, upd, hy]
      split_ifs <;> omega
    · have := h.szS; simp only; omega
    · have := h.szW; simp only [List.length_cons]; omega

/-- The operations that detach a weak handle keep the invariant. -/
theorem Inv.step_weak_release {K n : Nat} {c c1 : Config} (h : Inv K c)
    (hK : K + 4 < SIZE_MOD) :
    (∀ w x, c.step n (Op.weakAssignShared w x) = Except.ok c1 → Inv (K + 1) c1) ∧
    (∀ w o self, c.step n (Op.weakAssign w o self) = Except.ok c1 → Inv (K + 1) c1) ∧
    (∀ w o, c.step n (Op.weakMoveAssign w o) = Except.ok c1 → Inv (K + 1) c1) ∧
    (∀ w, c.step n (Op.weakReset w) = Except.ok c1 → Inv (K + 1) c1) ∧
    (∀ w, c.step n (Op.weakDestroy w) = Except.ok c1 → Inv (K + 1) c1) := by
  have hg := h.good
  refine ⟨fun w x hs => ?_, fun w o self hs => ?_, fun w o hs => ?_, fun w hs => ?_,
    fun w hs => ?_⟩
  · simp only [Config.step] at hs
    split_ifs at hs with hmem
    simp only [bind_ok, pure, Except.pure, Except.ok.injEq, Prod.exists] at hs
    obtain ⟨t, y, hr, hc⟩ := hs
    subst hc
    obtain ⟨hy, s1, w1, hres, hs1⟩ := weakAssignShared_ok _ _ _ _ _ _ hr
    have h2 := hg.weakReattach (objDtor n) w w1 _ (by omega)
      (cnt_pos_of_mem WeakPtr.block_ _ w hmem.1) hres hs1
    refine Inv.of_good h2 (fun _ _ => rfl) (fun b hb => ?_) ?_ ?_
    · simp only [cnt_cons, cnt_erase _ _ _ _ hmem.1, upd, hy]
      split_ifs <;> omega
    · have := h.szS; simp only; omega
    · have := h.szW
      have := length_erase_succ w c.weak hmem.1
      simp only [List.length_cons]; omega
  · cases self with
    | true =>
      simp only [Config.step, if_true] at hs
      split_ifs at hs with hmem
      simp only [bind_ok, pure, Except.pure, Except.ok.injEq, Prod.exists] at hs
      obtain ⟨t, y, hr, hc⟩ := hs
      subst hc
      simp only [WeakPtr.assign, Bool.not_true, Bool.false_eq_true, if_false, pure, Except.pure,
        Except.ok.injEq, Prod.mk.injEq] at hr
      obtain ⟨ht, hy⟩ := hr
      subst ht
      subst hy
      refine Inv.of_good hg (fun _ _ => rfl) (fun b hb => ?_) ?_ ?_
      · simp only [cnt_cons, cnt_erase _ _ _ _ hmem.1]
        split_ifs <;> omega
      · have := h.szS; simp only; omega
      · have := h.szW
        have := length_erase_succ w c.weak hmem.1
        simp only [List.length_cons]; omega
    | false =>
      simp only [Config.step, Bool.false_eq_true, if_false] at hs
      split_ifs at hs with hmem
      simp only [bind_ok, pure, Except.pure, Except.ok.injEq, Prod.exists] at hs
      obtain ⟨t, y, hr, hc⟩ := hs
      subst hc
      obtain ⟨hy, s1, w1, hres, hs1⟩ := weakAssign_ok _ _ _ _ _ _ hr
      have h2 := hg.weakReattach (objDtor n) w w1 _ (by omega)
        (cnt_pos_of_mem WeakPtr.block_ _ w hmem.1) hres hs1
      refine Inv.of_good h2 (fun _ _ => rfl) (fun b hb => ?_) ?_ ?_
      · simp only [cnt_cons, cnt_erase _ _ _ _ hmem.1, upd, hy]
        split_ifs <;> omega
      · have := h.szS; simp only; omega
      · have := h.szW
        have := length_erase_succ w c.weak hmem.1
        simp only [List.length_cons]; omega
  · simp only [Config.step] at hs
    split_ifs at hs with hmem
    simp only [WeakPtr.moveAssign, bind_ok, pure, Except.pure, Except.ok.injEq, Prod.exists,
      Prod.mk.injEq] at hs
    obtain ⟨t, y, z, ⟨s1, w1, hres, hst, hy, hz⟩, hc⟩ := hs
    subst hc
    subst hst
    obtain ⟨_, h2⟩ := hg.weakReset (objDtor n) w w1 (by omega)
      (cnt_pos_of_mem WeakPtr.block_ _ w hmem.1) hres
    refine Inv.of_good h2 (fun _ _ => rfl) (fun b hb => ?_) ?_ ?_
    · simp only [cnt_cons, cnt_erase _ _ _ _ hmem.1, cnt_erase _ _ _ _ hmem.2, upd, ← hy, ← hz]
      split_ifs <;> omega
    · have := h.szS; simp only; omega
    · have := h.szW
      have := length_erase_succ w c.weak hmem.1
      have := length_erase_succ o _ hmem.2
      simp only [List.length_cons]; omega
  · simp only [Config.step] at hs
    split_ifs at hs with hmem
    simp only [bind_ok, pure, Except.pure, Except.ok.injEq, Prod.exists] at hs
    obtain ⟨t, y, hr, hc⟩ := hs
    subst hc
    obtain ⟨hy, h2⟩ := hg.weakReset (objDtor n) w y (by omega)
      (cnt_pos_of_mem WeakPtr.block_ _ w hmem) hr
    refine Inv.of_good h2 (fun _ _ => rfl) (fun b hb => ?_) ?_ ?_
    · simp only [cnt_cons, cnt_erase _ _ _ _ hmem, upd, hy]
      split_ifs <;> omega
    · have := h.szS; simp only; omega
    · have := h.szW
      have := length_erase_succ w c.weak hmem
      simp only [List.length_cons]; omega
  · simp only [Config.step] at hs
    split_ifs at hs with hmem
    simp only [WeakPtr.destroy, bind_ok, pure, Except.pure, Except.ok.injEq, Prod.exists] at hs
    obtain ⟨t, ⟨s1, w1, hres, hst⟩, hc⟩ := hs
    subst hc
    subst hst
    obtain ⟨_, h2⟩ := hg.weakReset (objDtor n) w w1 (by omega)
      (cnt_pos_of_mem WeakPtr.block_ _ w hmem) hres
    refine Inv.of_good h2 (fun _ _ => rfl) (fun b hb => ?_) ?_ ?_
    · simp only [cnt_erase _ _ _ _ hmem, upd]
      split_ifs <;> omega
    · have := h.szS; simp only; omega
    · have := h.szW
      have := length_erase_succ w c.weak hmem
      simp only; omega

/-- The assignment of a `SharedPtr` to itself is `Reset()`. -/
theorem Good.selfAssign {K : Nat} {s t : Heap} {nS nW : Nat → Int} {A : List Ptr}
    (h : Good K s nS nW A) (n : Nat) (f : Bool) (this x : SharedPtr)
    (hK : K + 1 < SIZE_MOD) (hown : 1 ≤ nS this.block_)
    (hr : SharedPtr.selfAssign (objDtor n) f s this = Except.ok (t, x)) :
    x = ⟨Ptr.null, 0⟩ ∧ Good K t (upd nS this.block_ (-1)) nW A := by
  simp only [SharedPtr.selfAssign, bind_ok, Prod.exists] at hr
  obtain ⟨s1, x1, hres, hr⟩ := hr
  obtain ⟨hx1, h1⟩ := h.reset n f this x1 hK hown hres
  subst hx1
  simp only [ne_eq, not_true_eq_false, if_false, bind_ok, pure, Except.pure, Except.ok.injEq,
    Prod.mk.injEq, exists_eq_left] at hr
  obtain ⟨s2, hs2, hst, hx⟩ := hr
  subst hs2
  subst hst
  exact ⟨hx.symm, h1⟩

theorem Inv.step_selfAssign {K n : Nat} {c c1 : Config} (h : Inv K c) (hK : K + 4 < SIZE_MOD)
    (esft : Bool) (x : SharedPtr) (hs : c.step n (Op.selfAssign esft x) = Except.ok c1) :
    Inv (K + 1) c1 := by
  have hg := h.good
  simp only [Config.step] at hs
  split_ifs at hs with hmem
  simp only [bind_ok, pure, Except.pure, Except.ok.injEq, Prod.exists] at hs
  obtain ⟨t, y, hr, hc⟩ := hs
  subst hc
  obtain ⟨hy, h2⟩ := hg.selfAssign n esft x y (by omega)
    (cnt_pos_of_mem SharedPtr.block_ _ x hmem) hr
  refine Inv.of_good h2 (fun b hb => ?_) (fun _ _ => rfl) ?_ ?_
  · simp only [cnt_cons, cnt_erase _ _ _ _ hmem, upd, hy]
    split_ifs <;> omega
  · have := h.szS
    have := length_erase_succ x c.shared hmem
    simp only [List.length_cons]; omega
  · have := h.szW; simp only; omega

/-- Every operation of the client program keeps the invariant. -/
theorem Inv.step {K n : Nat} {c c1 : Config} (h : Inv K c) (hK : K + 4 < SIZE_MOD) (op : Op)
    (hs : c.step n op = Except.ok c1) : Inv (K + 1) c1 := by
  obtain ⟨a1, a2, a3, a4⟩ := @Inv.step_construct K n c c1 h hK
  obtain ⟨b1, b2, b3, b4⟩ := @Inv.step_attach K n c c1 h hK
  obtain ⟨c2, c3⟩ := @Inv.step_strong_pure K n c c1 h
  obtain ⟨d1, d2, d3, d4, d5⟩ := @Inv.step_release K n c c1 h hK
  obtain ⟨e1, e2, e3⟩ := @Inv.step_weak_pure K n c c1 h
  obtain ⟨f1, f2⟩ := @Inv.step_weak_attach K n c c1 h hK
  obtain ⟨g1, g2, g3, g4, g5⟩ := @Inv.step_weak_release K n c c1 h hK
  match op, hs with
  | Op.newObj esft a v, hs => exact a1 esft a v hs
  | Op.sharedNull, hs => exact a2 hs
  | Op.ofRaw esft p, hs => exact a3 esft p hs
  | Op.makeShared esft v, hs => exact a4 esft v hs
  | Op.copy esft o, hs => exact b1 esft o hs
  | Op.move o, hs => exact c2 o hs
  | Op.alias esft o p, hs => exact b2 esft o p hs
  | Op.promote esft w, hs => exact b3 esft w hs
  | Op.lock esft w, hs => exact b4 esft w hs
  | Op.assign esft x o, hs => exact d1 esft x o hs
  | Op.moveAssign esft x o, hs => exact d2 esft x o hs
  | Op.selfAssign esft x, hs => exact h.step_selfAssign hK esft x hs
  | Op.reset esft x, hs => exact d3 esft x hs
  | Op.resetPtr esft x p, hs => exact d4 esft x p hs
  | Op.swap x o, hs => exact c3 x o hs
  | Op.destroy esft x, hs => exact d5 esft x hs
  | Op.weakNull, hs => exact e1 hs
  | Op.weakCopy w, hs => exact f1 w hs
  | Op.weakMove w, hs => exact e2 w hs
  | Op.weakOfShared x, hs => exact f2 x hs
  | Op.weakAssignShared w x, hs => exact g1 w x hs
  | Op.weakAssign w o self, hs => exact g2 w o self hs
  | Op.weakMoveAssign w o, hs => exact g3 w o hs
  | Op.weakReset w, hs => exact g4 w hs
  | Op.weakSwap w o, hs => exact e3 w o hs
  | Op.weakDestroy w, hs => exact g5 w hs

theorem Inv.init : Inv 0 Config.init := by
  refine ⟨⟨fun b blk _ hs => ?_, fun b _ _ => ?_, List.nodup_nil, fun p hp => ?_,
    fun p o ho => ?_, fun k _ => ⟨rfl, ?_⟩, rfl⟩, fun b blk _ hs => ?_, Nat.le_refl _,
    Nat.le_refl _⟩
  · cases hs
  · exact ⟨rfl, rfl⟩
  · exact absurd rfl hp
  · cases ho
  · simp [Config.init]
  · cases hs

/-- The invariant holds after every run of the client program from a state where it
holds. -/
theorem Inv.run {n : Nat} : ∀ (ops : List Op) (K : Nat) (c c1 : Config), Inv K c →
    K + ops.length + 3 < SIZE_MOD → Config.run n ops c = Except.ok c1 →
    Inv (K + ops.length) c1 := by
  intro ops
  induction ops with
  | nil =>
    intro K c c1 h _ hr
    simp only [Config.run, pure, Except.pure, Except.ok.injEq] at hr
    subst hr
    exact h
  | cons op ops ih =>
    intro K c c1 h hK hr
    simp only [List.length_cons] at hK ⊢
    simp only [Config.run, bind_ok] at hr
    obtain ⟨c2, hs, hr⟩ := hr
    have h2 := h.step (by omega) op hs
    have h3 := ih (K + 1) c2 c1 h2 (by omega) hr
    have he : K + 1 + ops.length = K + (ops.length + 1) := by omega
    rw [he] at h3
    exact h3

theorem Inv.countedAt {K : Nat} {c : Config} (h : Inv K c) (b : Nat) (hb : b ≠ 0) :
    c.CountedAt b := by
  unfold Config.CountedAt
  cases hs : c.heap.blocks b with
  | none =>
    obtain ⟨h1, h2⟩ := h.bal.free b hb hs
    have h3 := cnt_nonneg WeakPtr.block_ c.weak b
    simp only [cnt, emb] at h1 h2 h3
    simp only [Config.nShared, Config.nWeak, Config.nEmbedded]
    omega
  | some blk =>
    obtain ⟨h1, h2⟩ := h.bal.alloc b blk hb hs
    obtain ⟨_, _, h3⟩ := h.aux b blk hb hs
    simp only [cnt, emb] at h1 h2
    simp only [Config.nShared, Config.nWeak, Config.nEmbedded]
    exact ⟨by omega, by omega, h3⟩

theorem Config.handlesCounted_of_countedAt (c : Config) (h : ∀ b, b ≠ 0 → c.CountedAt b) :
    c.HandlesCounted := by
  have key : ∀ b, b ≠ 0 → (0 < c.nShared b → ∃ blk, c.heap.blocks b = some blk ∧ 0 < blk.cnt) ∧
      (0 < c.nWeak b ∨ 0 < c.nEmbedded b →
        ∃ blk, c.heap.blocks b = some blk ∧ 0 < blk.cnt_weak) := by
    intro b hb
    have hc := h b hb
    unfold Config.CountedAt at hc
    cases hs : c.heap.blocks b with
    | none =>
      rw [hs] at hc
      exact ⟨fun h0 => by omega, fun h0 => by omega⟩
    | some blk =>
      rw [hs] at hc
      exact ⟨fun h0 => ⟨blk, rfl, by omega⟩, fun h0 => ⟨blk, rfl, by omega⟩⟩
  refine ⟨fun x hx hb => (key _ hb).1 ?_, fun w hw hb => (key _ hb).2 (Or.inl ?_),
    fun p hp hb => (key _ hb).2 (Or.inr ?_)⟩
  · exact List.count_pos_iff.mpr (List.mem_map.mpr ⟨x, hx, rfl⟩)
  · exact List.count_pos_iff.mpr (List.mem_map.mpr ⟨w, hw, rfl⟩)
  · exact List.count_pos_iff.mpr (List.mem_map.mpr ⟨p, hp, rfl⟩)

/-- Claim C13: in every state a client program reaches from the empty state by the public
operations (fewer than `2^64 - 3` of them, so that no `size_t` count can wrap upwards),
every allocated control block has the number of attached `SharedPtr` variables as strong
count and the number of attached `WeakPtr` handles, the members `weak_this` included, as
weak count, with one of the two positive; nothing is attached to an address without a
block; and every attached handle finds its own count positive, so that the decrement of
`Reset()` never meets a count of 0. -/
theorem C13_counting_invariant (n : Nat) (ops : List Op) (c : Config)
    (hlen : ops.length + 3 < SIZE_MOD)
    (hrun : Config.run n ops Config.init = Except.ok c) :
    (∀ b, b ≠ 0 → c.CountedAt b) ∧ c.HandlesCounted := by
  have hinv := Inv.run ops 0 Config.init c Inv.init (by omega) hrun
  have hc : ∀ b, b ≠ 0 → c.CountedAt b := fun b hb => hinv.countedAt b hb
  exact ⟨hc, c.handlesCounted_of_countedAt hc⟩

/-- Witness of C13 on the program `sampleOps`, which runs to a state with two blocks. -/
theorem C13_witness :
    sampleOps.length + 3 < SIZE_MOD ∧
    ∃ c, Config.run 2 sampleOps Config.init = Except.ok c ∧
      (c.heap.blocks 1).map BlockBase.cnt = some 1 ∧
      (c.heap.blocks 1).map BlockBase.cnt_weak = some 3 ∧
      (c.heap.blocks 2).map BlockBase.cnt = some 1 ∧
      (c.heap.blocks 2).map BlockBase.cnt_weak = some 2 ∧
      ((∀ b, b ≠ 0 → c.CountedAt b) ∧ c.HandlesCounted) :=
  ⟨by decide, _, rfl, rfl, rfl, rfl, rfl,
    C13_counting_invariant 2 sampleOps _ (by decide) rfl⟩

/-! ## C21: the last handle of a self-referencing object that nothing else observes -/

/-- The steps of `Reset()` on the last handle of a self-referencing object in a
`BlockEmplace` with weak count 1. -/
theorem Reset_selfRef_sole_emplace (n : Nat) (s : Heap) (h : SharedPtr) (blk : BlockBase)
    (o : Obj) (hb : h.block_ ≠ 0) (hs : s.blocks h.block_ = some blk) (hc : blk.cnt = 1)
    (hw : blk.cnt_weak = 1) (hd : blk.deleted = false) (hem : blk.emplace = true)
    (ho : s.objs (Ptr.storage h.block_) = some o) (hoe : o.esft = true)
    (hwt : o.weak_this.block_ = h.block_) :
    ∃ s1 s2 s3 s4 s5,
      decCnt s h.block_ = Except.ok s1 ∧ incCnt s1 h.block_ = Except.ok s2 ∧
      DeletePtr (objDtor (n + 1)) s2 h.block_ false = Except.ok s3 ∧
      decCnt s3 h.block_ = Except.ok s4 ∧
      deleteBlock (objDtor (n + 1)) s4 h.block_ = Except.ok s5 ∧
      SharedPtr.Reset (objDtor (n + 1)) true s h = Except.ok (s5, ⟨Ptr.null, 0⟩) ∧
      (∃ blk2, s2.blocks h.block_ = some blk2 ∧ blk2.cnt = 1 ∧ blk2.cnt_weak = 1 ∧
        blk2.deleted = false) ∧
      (∃ blk3, s3.blocks h.block_ = some blk3 ∧ blk3.cnt = 1 ∧ blk3.cnt_weak = 0 ∧
        blk3.deleted = true) ∧
      s3.isAlive (Ptr.storage h.block_) = false ∧
      s3.log = s.log ++ [Event.dtor (Ptr.storage h.block_)] ∧
      (∃ blk4, s4.blocks h.block_ = some blk4 ∧ blk4.cnt = 0 ∧ blk4.cnt_weak = 0) ∧
      s5.blocks h.block_ = none ∧ s5.objs (Ptr.storage h.block_) = none ∧
      s5.log = s.log ++ [Event.dtor (Ptr.storage h.block_), Event.dealloc h.block_] ∧
      ∀ x, x ≠ h.block_ → s5.blocks x = s.blocks x := by
  have hc0 : sizeDec blk.cnt = 0 := by rw [hc]; decide
  have hw0 : blk.cnt_weak ≠ 0 := by omega
  have h10 : sizeDec (sizeInc 0) = 0 := by decide
  have h1 : sizeInc 0 ≠ 0 := by decide
  have h11 : sizeInc 0 = 1 := by decide
  have hd1 : sizeDec 1 = 0 := by decide
  simp [SharedPtr.Reset, decCnt, incCnt, bothZero, DeletePtr, deleteBlock, callDtor,
    objDtor, WeakPtr.Reset, decWeak, Heap.load, Heap.loadObj, Heap.freeBlock, hb, hs, hc0,
    hw0, hd, hem, ho, hoe, hwt, h10, h1, h11, hw, hd1, bind, Except.bind, pure,
    Except.pure]
  exact ⟨by simp [Heap.isAlive], fun x hx => by simp [hx]⟩

set_option maxHeartbeats 1600000 in
/-- The steps of `Reset()` on the last handle of a self-referencing object in a `Block`
with weak count 1. -/
theorem Reset_selfRef_sole_raw (n : Nat) (s : Heap) (h : SharedPtr) (blk : BlockBase)
    (o : Obj) (hb : h.block_ ≠ 0) (hs : s.blocks h.block_ = some blk) (hc : blk.cnt = 1)
    (hw : blk.cnt_weak = 1) (hd : blk.deleted = false) (hem : blk.emplace = false)
    (hp : blk.ptr ≠ Ptr.null)
    (ho : s.objs blk.ptr = some o) (hoe : o.esft = true)
    (hwt : o.weak_this.block_ = h.block_) :
    ∃ s1 s2 s3 s4 s5,
      decCnt s h.block_ = Except.ok s1 ∧ incCnt s1 h.block_ = Except.ok s2 ∧
      DeletePtr (objDtor (n + 1)) s2 h.block_ false = Except.ok s3 ∧
      decCnt s3 h.block_ = Except.ok s4 ∧
      deleteBlock (objDtor (n + 1)) s4 h.block_ = Except.ok s5 ∧
      SharedPtr.Reset (objDtor (n + 1)) true s h = Except.ok (s5, ⟨Ptr.null, 0⟩) ∧
      (∃ blk2, s2.blocks h.block_ = some blk2 ∧ blk2.cnt = 1 ∧ blk2.cnt_weak = 1 ∧
        blk2.deleted = false) ∧
      (∃ blk3, s3.blocks h.block_ = some blk3 ∧ blk3.cnt = 1 ∧ blk3.cnt_weak = 0 ∧
        blk3.deleted = true) ∧
      s3.isAlive blk.ptr = false ∧
      s3.log = s.log ++ [Event.dtor blk.ptr] ∧
      (∃ blk4, s4.blocks h.block_ = some blk4 ∧ blk4.cnt = 0 ∧ blk4.cnt_weak = 0) ∧
      s5.blocks h.block_ = none ∧ s5.objs blk.ptr = none ∧
      s5.log = s.log ++ [Event.dtor blk.ptr, Event.dealloc h.block_] ∧
      ∀ x, x ≠ h.block_ → s5.blocks x = s.blocks x := by
  have hc0 : sizeDec blk.cnt = 0 := by rw [hc]; decide
  have hw0 : blk.cnt_weak ≠ 0 := by omega
  have h10 : sizeDec (sizeInc 0) = 0 := by decide
  have h1 : sizeInc 0 ≠ 0 := by decide
  have h11 : sizeInc 0 = 1 := by decide
  have hd1 : sizeDec 1 = 0 := by decide
  simp [SharedPtr.Reset, decCnt, incCnt, bothZero, DeletePtr, deleteBlock, deleteObj,
    callDtor, objDtor, WeakPtr.Reset, decWeak, Heap.load, Heap.loadObj, Heap.freeBlock, hb,
    hs, hc0, hw0, hd, hem, hp, ho, hoe, hwt, h10, h1, h11, hw, hd1, bind, Except.bind,
    pure, Except.pure]
  exact ⟨by simp [Heap.isAlive], fun x hx => by simp [hx]⟩

/-- The last `Reset()` through a handle whose type has the self-reference capability: a
self-referencing object held by one `SharedPtr` and by no weak handle but its own
`weak_this` (strong count 1, weak count 1), in a block of either kind. `Reset()` is
`--cnt`, `++cnt`, `DeletePtr()`, `--cnt`, `delete block_`: when `DeletePtr()` returns, the
destructor has run once and the block is still allocated, with strong count 1 and weak
count 0 (the embedded handle has let go of it); the second `--cnt` and `delete block_` then
take the block away. One destructor call and one deallocation are logged, in this order. -/
theorem selfRef_last_reset (n : Nat) (s : Heap) (h : SharedPtr) (blk : BlockBase)
    (hb : h.block_ ≠ 0) (hs : s.blocks h.block_ = some blk) (hc : blk.cnt = 1)
    (hw : blk.cnt_weak = 1) (hd : blk.deleted = false)
    (hself : SelfRefAt s (blk.Get h.block_) h.block_) :
    ∃ s1 s2 s3 s4 s5,
      decCnt s h.block_ = Except.ok s1 ∧ incCnt s1 h.block_ = Except.ok s2 ∧
      DeletePtr (objDtor (n + 1)) s2 h.block_ false = Except.ok s3 ∧
      decCnt s3 h.block_ = Except.ok s4 ∧
      deleteBlock (objDtor (n + 1)) s4 h.block_ = Except.ok s5 ∧
      SharedPtr.Reset (objDtor (n + 1)) true s h = Except.ok (s5, ⟨Ptr.null, 0⟩) ∧
      (∃ blk2, s2.blocks h.block_ = some blk2 ∧ blk2.cnt = 1 ∧ blk2.cnt_weak = 1 ∧
        blk2.deleted = false) ∧
      (∃ blk3, s3.blocks h.block_ = some blk3 ∧ blk3.cnt = 1 ∧ blk3.cnt_weak = 0 ∧
        blk3.deleted = true) ∧
      s3.isAlive (blk.Get h.block_) = false ∧
      s3.log = s.log ++ [Event.dtor (blk.Get h.block_)] ∧
      (∃ blk4, s4.blocks h.block_ = some blk4 ∧ blk4.cnt = 0 ∧ blk4.cnt_weak = 0) ∧
      s5.blocks h.block_ = none ∧ s5.objs (blk.Get h.block_) = none ∧
      s5.log = s.log ++ [Event.dtor (blk.Get h.block_), Event.dealloc h.block_] ∧
      ∀ x, x ≠ h.block_ → s5.blocks x = s.blocks x := by
  obtain ⟨hp, o, ho, hoe, _, hwt⟩ := hself
  by_cases hem : blk.emplace = true
  · have hg : blk.Get h.block_ = Ptr.storage h.block_ := by simp [BlockBase.Get, hem]
    rw [hg] at ho ⊢
    exact Reset_selfRef_sole_emplace n s h blk o hb hs hc hw hd hem ho hoe hwt
  · have hem0 : blk.emplace = false := by simpa using hem
    have hg : blk.Get h.block_ = blk.ptr := by simp [BlockBase.Get, hem0]
    rw [hg] at hp ho ⊢
    exact Reset_selfRef_sole_raw n s h blk o hb hs hc hw hd hem0 hp ho hoe hwt

/-- The last `Reset()` on the block `MakeShared` leaves for a self-referencing object; and
the two ways of creating the object, each followed by `Reset()`, run from the empty state.
-/
theorem selfRef_last_reset_example :
    (∃ s1 s2 s3 s4 s5,
      decCnt selfRefHeap 1 = Except.ok s1 ∧ incCnt s1 1 = Except.ok s2 ∧
      DeletePtr (objDtor 1) s2 1 false = Except.ok s3 ∧
      decCnt s3 1 = Except.ok s4 ∧
      deleteBlock (objDtor 1) s4 1 = Except.ok s5 ∧
      SharedPtr.Reset (objDtor 1) true selfRefHeap ⟨Ptr.storage 1, 1⟩ =
        Except.ok (s5, ⟨Ptr.null, 0⟩) ∧
      (∃ blk2, s2.blocks 1 = some blk2 ∧ blk2.cnt = 1 ∧ blk2.cnt_weak = 1 ∧
        blk2.deleted = false) ∧
      (∃ blk3, s3.blocks 1 = some blk3 ∧ blk3.cnt = 1 ∧ blk3.cnt_weak = 0 ∧
        blk3.deleted = true) ∧
      s3.isAlive (Ptr.storage 1) = false ∧
      s3.log = [Event.dtor (Ptr.storage 1)] ∧
      (∃ blk4, s4.blocks 1 = some blk4 ∧ blk4.cnt = 0 ∧ blk4.cnt_weak = 0) ∧
      s5.blocks 1 = none ∧ s5.objs (Ptr.storage 1) = none ∧
      s5.log = [Event.dtor (Ptr.storage 1), Event.dealloc 1] ∧
      ∀ x, x ≠ 1 → s5.blocks x = selfRefHeap.blocks x) ∧
    selfRefMakeReset = Except.ok ([Event.dtor (Ptr.storage 1), Event.dealloc 1], none, none) ∧
    selfRefRawReset = Except.ok ([Event.dtor (Ptr.raw 7), Event.dealloc 1], none, none) :=
  ⟨selfRef_last_reset 0 selfRefHeap ⟨Ptr.storage 1, 1⟩
    { cnt := 1, cnt_weak := 1, deleted := false, emplace := true, ptr := Ptr.null }
    (by decide) rfl rfl rfl rfl
    ⟨by decide, { val := 42, alive := true, esft := true, weak_this := ⟨1, Ptr.storage 1⟩ },
      rfl, rfl, rfl, rfl⟩, rfl, rfl⟩

/-- Claim C21 fails when the one handle left is a `SharedPtr<Base>` for a base type without
the self-reference capability (a converting copy of the `SharedPtr<Derived>` that created
the object): `Reset()` tests the type of the handle, so the strong count is not held at 1;
the destructor of the object releases `weak_this`, which finds both counts at 0 and
deallocates the block while the destructor is running, and `Reset()` then goes on using
the block (undefined behaviour), for an object made by `MakeShared` and for one handed over
as a raw pointer. For the latter, when `delete ptr` returns inside `DeletePtr()` the block
(counts 1/1 before `Reset()`) is gone already. Through a handle whose type has the
capability the same two objects are destroyed once and their blocks deallocated once. -/
theorem C21_converted_handle_reset :
    convertedResetEmplace = Except.error Err.UB ∧
    convertedResetRaw = Except.error Err.UB ∧
    convertedResetRawMid = Except.ok
      (some { cnt := 1, cnt_weak := 1, deleted := false, emplace := false, ptr := Ptr.raw 7 },
       [Event.dtor (Ptr.raw 7), Event.dealloc 1], none) ∧
    selfRefMakeReset = Except.ok ([Event.dtor (Ptr.storage 1), Event.dealloc 1], none, none) ∧
    selfRefRawReset = Except.ok ([Event.dtor (Ptr.raw 7), Event.dealloc 1], none, none) :=
  ⟨rfl, rfl, rfl, rfl, rfl⟩

/-! ## C22: a destructor that calls `SharedFromThis` -/

/-- Claim C22 holds for an object handed over as a raw pointer and fails for one made by
`MakeShared`: there, when `DeletePtr()` returns inside `Reset()`, the destructor has run
once, the object is dead and the flag of the block is clear again (`SharedFromThis()`
cleared it), so `delete block_` enters the destructor of the dead object a second time,
which is undefined behaviour. -/
theorem C22_reentrant_destructor :
    reentrantRaw = Except.ok ([Event.dtor (Ptr.raw 7), Event.dealloc 1], none, none) ∧
    reentrantEmplaceMid = Except.ok ([Event.dtor (Ptr.storage 1)],
      some { cnt := 1, cnt_weak := 0, deleted := false, emplace := true, ptr := Ptr.null },
      false) ∧
    reentrantEmplace = Except.error Err.UB :=
  ⟨rfl, rfl, rfl⟩

/-! ## C23: `Lock` while the object is alive -/

/-- The state `Lock()` leaves when the object is alive, for a handle type without the
self-reference capability or a weak handle whose stored pointer is null. -/
theorem Lock_alive_plain (d : Dtor) (esft : Bool) (s : Heap) (w : WeakPtr) (blk : BlockBase)
    (hb : w.block_ ≠ 0) (hs : s.blocks w.block_ = some blk)
    (hc2 : blk.cnt + 1 < SIZE_MOD) (hd : blk.deleted = false)
    (hplain : esft = false ∨ w.ptr_ = Ptr.null) :
    ∃ s1, WeakPtr.Lock d esft s w = Except.ok (s1, ⟨w.ptr_, w.block_⟩) ∧
      s1.blocks w.block_ = some { blk with cnt := blk.cnt + 1 } ∧
      (∀ x, x ≠ w.block_ → s1.blocks x = s.blocks x) ∧
      s1.objs = s.objs ∧ s1.log = s.log ∧ s1.next = s.next := by
  have hinc : sizeInc blk.cnt = blk.cnt + 1 := sizeInc_of_lt _ hc2
  rcases hplain with he | hp
  · subst he
    simp [WeakPtr.Lock, SharedPtr.ofBlock, incCnt, Heap.load, hb, hs, hd, hinc, bind,
      Except.bind, pure, Except.pure]
    intro x hx
    simp [hx]
  · cases esft <;>
      simp [WeakPtr.Lock, SharedPtr.ofBlock, incCnt, Heap.load, hb, hs, hd, hinc, hp, bind,
        Except.bind, pure, Except.pure] <;>
      (intro x hx; simp [hx])

/-- The state `Lock()` leaves when the object is alive, for a handle type with the
self-reference capability and a weak handle whose stored pointer addresses a living
object. -/
theorem Lock_alive_selfRef (d : Dtor) (s : Heap) (w : WeakPtr) (blk : BlockBase) (o : Obj)
    (hb : w.block_ ≠ 0) (hs : s.blocks w.block_ = some blk) (hc1 : 1 ≤ blk.cnt)
    (hc2 : blk.cnt + 1 < SIZE_MOD) (hd : blk.deleted = false)
    (hk : blk.cnt_weak + 1 < SIZE_MOD) (hp : w.ptr_ ≠ Ptr.null)
    (ho : s.objs w.ptr_ = some o) (hoe : o.esft = true) (hoa : o.alive = true)
    (hw : o.weak_this.block_ = w.block_ ∨ o.weak_this.block_ = 0 ∨
      ∃ kx, s.blocks o.weak_this.block_ = some kx ∧ (kx.cnt ≠ 0 ∨ sizeDec kx.cnt_weak ≠ 0)) :
    ∃ s1, WeakPtr.Lock d true s w = Except.ok (s1, ⟨w.ptr_, w.block_⟩) ∧
      s1.blocks w.block_ = some { blk with cnt := blk.cnt + 1, cnt_weak :=
        if o.weak_this.block_ = w.block_ then blk.cnt_weak else blk.cnt_weak + 1 } ∧
      s1.objs w.ptr_ = some { o with weak_this := ⟨w.block_, w.ptr_⟩ } ∧
      (∀ x, x ≠ w.block_ → x ≠ o.weak_this.block_ → s1.blocks x = s.blocks x) ∧
      s1.log = s.log ∧ s1.next = s.next := by
  have hinc : sizeInc blk.cnt = blk.cnt + 1 := sizeInc_of_lt _ hc2
  obtain ⟨t, hset, hb1, ho1, hfr, _, hlog, hnext⟩ :=
    setWeakThis_attach d s ⟨w.ptr_, w.block_⟩ blk o hb hs (by omega) hk hp ho hoe hoa hw
  have hb1x : t.blocks w.block_ = some { blk with cnt_weak :=
      if o.weak_this.block_ = w.block_ then blk.cnt_weak else blk.cnt_weak + 1 } := hb1
  have ho1x : t.objs w.ptr_ = some { o with weak_this := ⟨w.block_, w.ptr_⟩ } := ho1
  have hsetx : setWeakThis d s w.ptr_ ⟨w.ptr_, w.block_⟩ = Except.ok t := hset
  refine ⟨(t.setBlock w.block_ (some { blk with cnt := blk.cnt + 1, cnt_weak :=
      if o.weak_this.block_ = w.block_ then blk.cnt_weak else blk.cnt_weak + 1 })), ?_,
    by simp, by simpa using ho1x, fun x hx hx2 => by simpa [hx] using hfr x hx hx2,
    by simpa using hlog, by simpa using hnext⟩
  simp [WeakPtr.Lock, SharedPtr.ofBlock, hsetx, incCnt, Heap.load, hb, hb1x, hp, hd, hinc,
    bind, Except.bind, pure, Except.pure]

/-- Claim C23 fails as stated: after `a.Reset(new T(42))`, which leaves `weak_this` of the
new object empty, and `WeakPtr<T> w(a)`, the call `w.Lock()` takes the block of `w` from
counts 1/1 to 2/2: the weak count is not unchanged. -/
theorem C23_counterexample :
    lockAfterResetPtr = Except.ok
      (some { cnt := 1, cnt_weak := 1, deleted := false, emplace := false, ptr := Ptr.raw 7 },
       some { cnt := 2, cnt_weak := 2, deleted := false, emplace := false, ptr := Ptr.raw 7 }) :=
  rfl

/-- Claim C23, amended: `w` is a weak handle on an allocated block with strong count `c ≥ 1`
(`c + 1` still a `size_t`) and the flag clear. For a handle type without the self-reference
capability, or `w.ptr_` null, `w.Lock()` returns the handle `(w.ptr_, w.block_)`, whose
`Get()` is `w.ptr_`; the block has strong count `c + 1` and is otherwise as before (weak
count and flag included), no other block and no object changes and nothing is logged;
`Lock()` is a const method that gets `w` by value, and `w.UseCount()` afterwards is `c + 1`.
For a handle type with the capability and `w.ptr_` pointing to a living object (weak count
plus one still a `size_t`) the same holds except for the weak count and `weak_this`: the
call attaches `weak_this` of the object to the block of `w`, so the weak count is what it
was when `weak_this` was attached to that block already, and one higher when `weak_this`
was empty or attached to another block (one that keeps a strong share or another weak
handle); blocks other than these two do not change. -/
theorem C23_lock_alive (d : Dtor) (s : Heap) (w : WeakPtr) (blk : BlockBase)
    (hb : w.block_ ≠ 0) (hs : s.blocks w.block_ = some blk) (hc1 : 1 ≤ blk.cnt)
    (hc2 : blk.cnt + 1 < SIZE_MOD) (hd : blk.deleted = false) :
    (∀ esft : Bool, esft = false ∨ w.ptr_ = Ptr.null →
      ∃ s1 l, WeakPtr.Lock d esft s w = Except.ok (s1, l) ∧
        l.block_ = w.block_ ∧ l.ptr_ = w.ptr_ ∧
        SharedPtr.Get s1 l = Except.ok w.ptr_ ∧
        s1.blocks w.block_ = some { blk with cnt := blk.cnt + 1 } ∧
        SharedPtr.UseCount s1 l = Except.ok (blk.cnt + 1) ∧
        WeakPtr.UseCount s1 w = Except.ok (blk.cnt + 1) ∧
        WeakPtr.Expired s1 w = Except.ok (decide (w.ptr_ = Ptr.null)) ∧
        (∀ x, x ≠ w.block_ → s1.blocks x = s.blocks x) ∧
        s1.objs = s.objs ∧ s1.log = s.log ∧ s1.next = s.next) ∧
    (∀ o, w.ptr_ ≠ Ptr.null → s.objs w.ptr_ = some o → o.esft = true → o.alive = true →
      blk.cnt_weak + 1 < SIZE_MOD →
      (o.weak_this.block_ = w.block_ ∨ o.weak_this.block_ = 0 ∨
        ∃ kx, s.blocks o.weak_this.block_ = some kx ∧
          (kx.cnt ≠ 0 ∨ sizeDec kx.cnt_weak ≠ 0)) →
      ∃ s1 l, WeakPtr.Lock d true s w = Except.ok (s1, l) ∧
        l.block_ = w.block_ ∧ l.ptr_ = w.ptr_ ∧
        SharedPtr.Get s1 l = Except.ok w.ptr_ ∧
        s1.blocks w.block_ = some { blk with cnt := blk.cnt + 1, cnt_weak :=
          if o.weak_this.block_ = w.block_ then blk.cnt_weak else blk.cnt_weak + 1 } ∧
        SharedPtr.UseCount s1 l = Except.ok (blk.cnt + 1) ∧
        WeakPtr.UseCount s1 w = Except.ok (blk.cnt + 1) ∧
        WeakPtr.Expired s1 w = Except.ok false ∧
        s1.objs w.ptr_ = some { o with weak_this := ⟨w.block_, w.ptr_⟩ } ∧
        (∀ x, x ≠ w.block_ → x ≠ o.weak_this.block_ → s1.blocks x = s.blocks x) ∧
        s1.log = s.log ∧ s1.next = s.next) := by
  constructor
  · intro esft hplain
    obtain ⟨s1, h1, h2, h3, h4, h5, h6⟩ := Lock_alive_plain d esft s w blk hb hs hc2 hd hplain
    refine ⟨s1, ⟨w.ptr_, w.block_⟩, h1, rfl, rfl, ?_, h2, ?_, ?_, ?_, h3, h4, h5, h6⟩
    · rw [get_of s1 ⟨w.ptr_, w.block_⟩ _ hb h2]
      simp [hd]
    · exact useCount_of s1 ⟨w.ptr_, w.block_⟩ _ hb h2
    · exact weakUseCount_of s1 w _ hb h2
    · by_cases hp : w.ptr_ = Ptr.null
      · simp [WeakPtr.Expired, hp, pure, Except.pure]
      · simp [WeakPtr.Expired, hp, hb, Heap.load, h2, bind, Except.bind, pure, Except.pure]
  · intro o hp ho hoe hoa hk hw
    obtain ⟨s1, h1, h2, h3, h4, h5, h6⟩ :=
      Lock_alive_selfRef d s w blk o hb hs hc1 hc2 hd hk hp ho hoe hoa hw
    refine ⟨s1, ⟨w.ptr_, w.block_⟩, h1, rfl, rfl, ?_, h2, ?_, ?_, ?_, h3, h4, h5, h6⟩
    · rw [get_of s1 ⟨w.ptr_, w.block_⟩ _ hb h2]
      simp [hd]
    · exact useCount_of s1 ⟨w.ptr_, w.block_⟩ _ hb h2
    · exact weakUseCount_of s1 w _ hb h2
    · simp [WeakPtr.Expired, hp, hb, Heap.load, h2, bind, Except.bind, pure, Except.pure]

/-- Witness of C23: `Lock()` on a block with strong count 1 and one weak handle, for a plain
object (weak count 1 before and after) and for the object that `Reset(new T())` leaves with
`weak_this` empty (weak count 1 before, 2 after). -/
theorem C23_witness :
    (∃ s1 l, WeakPtr.Lock (objDtor 1) false (plainHeap 1 1) ⟨1, Ptr.storage 1⟩ =
        Except.ok (s1, l) ∧
      l.block_ = 1 ∧ l.ptr_ = Ptr.storage 1 ∧
      SharedPtr.Get s1 l = Except.ok (Ptr.storage 1) ∧
      s1.blocks 1 =
        some { cnt := 2, cnt_weak := 1, deleted := false, emplace := true, ptr := Ptr.null } ∧
      SharedPtr.UseCount s1 l = Except.ok 2 ∧ s1.log = []) ∧
    (∃ s1 l, WeakPtr.Lock (objDtor 1) true
        (((newObj true Heap.empty 7 42).1.newBlock false (Ptr.raw 7)).1.setBlock 1 (some
          { cnt := 1, cnt_weak := 1, deleted := false, emplace := false, ptr := Ptr.raw 7 }))
        ⟨1, Ptr.raw 7⟩ = Except.ok (s1, l) ∧
      l.block_ = 1 ∧ l.ptr_ = Ptr.raw 7 ∧
      SharedPtr.Get s1 l = Except.ok (Ptr.raw 7) ∧
      s1.blocks 1 =
        some { cnt := 2, cnt_weak := 2, deleted := false, emplace := false, ptr := Ptr.raw 7 } ∧
      SharedPtr.UseCount s1 l = Except.ok 2 ∧ s1.log = []) := by
  obtain ⟨s1, l, h1, h2, h3, h4, h5, h6, _, _, _, _, h11, _⟩ :=
    (C23_lock_alive (objDtor 1) (plainHeap 1 1) ⟨1, Ptr.storage 1⟩
      { cnt := 1, cnt_weak := 1, deleted := false, emplace := true, ptr := Ptr.null }
      (by decide) rfl (by decide) (by decide) rfl).1 false (Or.inl rfl)
  obtain ⟨t1, m, k1, k2, k3, k4, k5, k6, _, _, _, _, k11, _⟩ :=
    (C23_lock_alive (objDtor 1)
      (((newObj true Heap.empty 7 42).1.newBlock false (Ptr.raw 7)).1.setBlock 1 (some
        { cnt := 1, cnt_weak := 1, deleted := false, emplace := false, ptr := Ptr.raw 7 }))
      ⟨1, Ptr.raw 7⟩
      { cnt := 1, cnt_weak := 1, deleted := false, emplace := false, ptr := Ptr.raw 7 }
      (by decide) rfl (by decide) (by decide) rfl).2
      { val := 42, alive := true, esft := true, weak_this := {} }
      (by decide) rfl rfl rfl (by decide) (Or.inr (Or.inl rfl))
  exact ⟨⟨s1, l, h1, h2, h3, h4, h5, h6, h11⟩, ⟨t1, m, k1, k2, k3, k4, k5, k6, k11⟩⟩

/-! ## C24: self-assignment -/

/-- Claim C24 fails: `a = a` on the only handle of an object leaves `a` empty with
`UseCount() == 0`, the object destroyed and the block released; with a second handle `b`
on the block, `a` ends up empty too and `b.UseCount()` drops to 1. The guarded
`WeakPtr::operator=` changes nothing on self-assignment. -/
theorem C24_self_assignment_releases :
    selfAssignSole = Except.ok (⟨Ptr.null, 0⟩, 0, false,
      [Event.dtor (Ptr.storage 1), Event.dealloc 1]) ∧
    selfAssignShared = Except.ok (⟨Ptr.null, 0⟩, 0, 1) ∧
    ∀ (d : Dtor) (s : Heap) (w : WeakPtr), WeakPtr.assign d s w w true = Except.ok (s, w) :=
  ⟨rfl, rfl, fun _ _ _ => rfl⟩

/-! ## C25: expiry -/

/-- Claim C25 fails: a weak handle that reports `Expired()` reports `Expired()` false, with
`UseCount() == 1`, as soon as `Lock()` has been called on it or on another weak handle of
its block and the result is held; the object stays destroyed. -/
theorem C25_expiry_is_undone_by_lock :
    expiryUndone = Except.ok (true, false, 1, false) ∧
    expiryUndoneByOther = Except.ok (true, false) :=
  ⟨rfl, rfl⟩

/-! ## C26: promotion of a weak handle without a block -/

/-- Claim C26 fails: in both variants the promotion of a weak handle whose `block_` is null
evaluates `other.block_->deleted` through the null pointer, which is undefined behaviour,
whatever the state and the stored pointer; `BadWeakPtr` is not thrown. -/
theorem C26_promotion_reads_null_block (d : Dtor) (esft : Bool) (s : Heap) (p : Ptr) :
    SharedPtr.ofWeak d esft s ⟨0, p⟩ = Except.error Err.UB ∧
    WeakVariant.ofWeak s 0 p = Except.error Err.UB :=
  ⟨rfl, rfl⟩

/-! ## Destructors that do not touch control blocks -/

theorem setBlock_same (s : Heap) (b : Nat) : s.setBlock b (s.blocks b) = s := by
  apply Heap.ext_fields <;> intros <;> simp [Heap.setBlock]
  intro hx
  subst hx
  rfl

theorem trivialDtor_blockFree : BlockFree trivialDtor :=
  ⟨fun _ _ _ _ => rfl, fun _ _ _ h => by cases h; rfl⟩

/-- A destructor that does not touch control blocks leaves them as they are. -/
theorem BlockFree.blocks_eq {d : Dtor} (hd : BlockFree d) {p : Ptr} {s t : Heap}
    (h : d p s = Except.ok t) (b : Nat) : t.blocks b = s.blocks b := by
  have h1 := hd.comm p s b (s.blocks b)
  rw [setBlock_same, h] at h1
  simp only [Except.map, Except.ok.injEq] at h1
  have h2 := congrArg (fun u => u.blocks b) h1
  simpa [Heap.setBlock] using h2

theorem callDtor_setBlock {d : Dtor} (hd : BlockFree d) (p : Ptr) (s : Heap) (b : Nat)
    (v : Option BlockBase) :
    callDtor d p (s.setBlock b v) = (callDtor d p s).map (fun t => t.setBlock b v) := by
  have h1 : (s.setBlock b v).loadObj p = s.loadObj p := rfl
  have h2 : (s.setBlock b v).emit (Event.dtor p) = (s.emit (Event.dtor p)).setBlock b v := rfl
  unfold callDtor
  rw [h1, h2, hd.comm]
  cases s.loadObj p with
  | error e => rfl
  | ok o =>
    simp only [bind, Except.bind]
    cases d p (s.emit (Event.dtor p)) with
    | error e => rfl
    | ok t =>
      have h3 : (t.setBlock b v).loadObj p = t.loadObj p := rfl
      simp only [Except.map, h3]
      cases t.loadObj p with
      | error e => rfl
      | ok o1 => rfl

theorem callDtor_blocks {d : Dtor} (hd : BlockFree d) {p : Ptr} {s t : Heap}
    (h : callDtor d p s = Except.ok t) (b : Nat) : t.blocks b = s.blocks b := by
  simp only [callDtor, bind_ok, pure, Except.pure, Except.ok.injEq] at h
  obtain ⟨_, _, s1, h1, o, _, ht⟩ := h
  subst ht
  exact hd.blocks_eq h1 b

theorem deleteObj_setBlock {d : Dtor} (hd : BlockFree d) (p : Ptr) (s : Heap) (b : Nat)
    (v : Option BlockBase) :
    deleteObj d p (s.setBlock b v) = (deleteObj d p s).map (fun t => t.setBlock b v) := by
  unfold deleteObj
  by_cases hp : p = Ptr.null
  · simp [hp, pure, Except.pure, Except.map]
  · simp only [hp, if_false, callDtor_setBlock hd]
    cases callDtor d p s with
    | error e => rfl
    | ok t => rfl

theorem deleteObj_blocks {d : Dtor} (hd : BlockFree d) {p : Ptr} {s t : Heap}
    (h : deleteObj d p s = Except.ok t) (b : Nat) : t.blocks b = s.blocks b := by
  unfold deleteObj at h
  by_cases hp : p = Ptr.null
  · simp only [hp, if_true, pure, Except.pure, Except.ok.injEq] at h
    subst h
    rfl
  · simp only [hp, if_false, bind_ok, pure, Except.pure, Except.ok.injEq] at h
    obtain ⟨s1, h1, ht⟩ := h
    subst ht
    exact callDtor_blocks hd h1 b

theorem callDtor_next {d : Dtor} (hd : BlockFree d) {p : Ptr} {s t : Heap}
    (h : callDtor d p s = Except.ok t) : t.next = s.next := by
  simp only [callDtor, bind_ok, pure, Except.pure, Except.ok.injEq] at h
  obtain ⟨_, _, s1, h1, o, _, ht⟩ := h
  subst ht
  exact hd.next p (s.emit (Event.dtor p)) s1 h1

theorem deleteObj_next {d : Dtor} (hd : BlockFree d) {p : Ptr} {s t : Heap}
    (h : deleteObj d p s = Except.ok t) : t.next = s.next := by
  unfold deleteObj at h
  by_cases hp : p = Ptr.null
  · simp only [hp, if_true, pure, Except.pure, Except.ok.injEq] at h
    subst h
    rfl
  · simp only [hp, if_false, bind_ok, pure, Except.pure, Except.ok.injEq] at h
    obtain ⟨s1, h1, ht⟩ := h
    subst ht
    exact callDtor_next (t := s1) hd h1

/-! ## C27: the weak variant against the shared-from-this variant -/

/-- The two `DeletePtr` agree: the weak variant sets the flag after the object is
destroyed, the shared-from-this variant before. -/
theorem WeakVariant.DeletePtr_eq {d : Dtor} (hd : BlockFree d) (s : Heap) (b : Nat) :
    WeakVariant.DeletePtr d s b = SmartPointers.DeletePtr d s b false := by
  unfold WeakVariant.DeletePtr SmartPointers.DeletePtr
  cases hl : s.load b with
  | error e => rfl
  | ok blk =>
    obtain ⟨hb, hs⟩ := (load_ok s b blk).mp hl
    simp only [bind, Except.bind]
    cases hdel : blk.deleted with
    | true =>
      have hblk : ({ blk with deleted := true } : BlockBase) = blk := by
        cases blk; simp_all
      simp [hl, hblk, setBlock_self s b blk hs, pure, Except.pure]
    | false =>
      cases hem : blk.emplace with
      | true =>
        simp only [Bool.not_false, if_true, Bool.not_true, callDtor_setBlock hd]
        cases hc : callDtor d (Ptr.storage b) s with
        | error e => rfl
        | ok t =>
          have ht : t.load b = Except.ok blk :=
            (load_ok t b blk).mpr ⟨hb, by rw [callDtor_blocks hd hc b, hs]⟩
          simp [ht, Except.map, pure, Except.pure, hem]
      | false =>
        simp only [Bool.not_false, if_true, Bool.false_eq_true, if_false, Bool.not_true,
          deleteObj_setBlock hd, bind, Except.bind]
        cases hc : deleteObj d blk.ptr s with
        | error e => rfl
        | ok t =>
          have htb : t.blocks b = some blk := by rw [deleteObj_blocks hd hc b, hs]
          simp [Except.map, Heap.load, hb, htb, hem, pure, Except.pure]

theorem freeBlock_setBlock (s : Heap) (b : Nat) (v : Option BlockBase) (e : Bool) :
    (s.setBlock b v).freeBlock b e = s.freeBlock b e := by
  cases e <;> simp [Heap.freeBlock]

/-- The two `delete block_` agree. -/
theorem WeakVariant.deleteBlock_eq {d : Dtor} (hd : BlockFree d) (s : Heap) (b : Nat) :
    WeakVariant.deleteBlock d s b = SmartPointers.deleteBlock d s b := by
  unfold WeakVariant.deleteBlock SmartPointers.deleteBlock
  cases hl : s.load b with
  | error e => rfl
  | ok blk =>
    obtain ⟨hb, hs⟩ := (load_ok s b blk).mp hl
    simp only [bind, Except.bind]
    cases hdel : blk.deleted with
    | true =>
      simp [hl, freeBlock_setBlock, pure, Except.pure]
    | false =>
      cases hem : blk.emplace with
      | true =>
        simp only [Bool.not_false, if_true, callDtor_setBlock hd]
        cases hc : callDtor d (Ptr.storage b) s with
        | error e => rfl
        | ok t =>
          have htb : t.blocks b = some blk := by rw [callDtor_blocks hd hc b, hs]
          simp [Except.map, Heap.load, hb, htb, freeBlock_setBlock, pure, Except.pure]
      | false =>
        simp only [Bool.not_false, if_true, Bool.false_eq_true, if_false,
          deleteObj_setBlock hd, bind, Except.bind]
        cases hc : deleteObj d blk.ptr s with
        | error e => rfl
        | ok t =>
          have htb : t.blocks b = some blk := by rw [deleteObj_blocks hd hc b, hs]
          simp [Except.map, Heap.load, hb, htb, freeBlock_setBlock, pure, Except.pure]

/-- The shared-from-this `DeletePtr` keeps the counts of the block. -/
theorem DeletePtr_counts {d : Dtor} (hd : BlockFree d) {s t : Heap} {b : Nat} {fck : Bool}
    {blk : BlockBase} (hs : s.blocks b = some blk)
    (h : SmartPointers.DeletePtr d s b fck = Except.ok t) :
    ∃ blk1, t.blocks b = some blk1 ∧ blk1.cnt = blk.cnt ∧ blk1.cnt_weak = blk.cnt_weak := by
  unfold SmartPointers.DeletePtr at h
  simp only [bind_ok, load_ok] at h
  obtain ⟨blk0, ⟨hb, hs0⟩, h⟩ := h
  rw [hs] at hs0
  cases hs0
  cases hdel : blk.deleted with
  | true =>
    simp only [hdel, Bool.not_true, Bool.false_eq_true, if_false, pure, Except.pure,
      Except.ok.injEq] at h
    subst h
    exact ⟨blk, hs, rfl, rfl⟩
  | false =>
    simp only [hdel, Bool.not_false, if_true] at h
    cases hem : blk.emplace with
    | true =>
      simp only [hem, if_true] at h
      cases fck with
      | false =>
        simp only [Bool.not_false, if_true] at h
        refine ⟨{ blk with deleted := true }, ?_, rfl, rfl⟩
        rw [callDtor_blocks hd h b]
        simp [Heap.setBlock, hem]
      | true =>
        simp only [Bool.not_true, Bool.false_eq_true, if_false, pure, Except.pure,
          Except.ok.injEq] at h
        subst h
        exact ⟨{ blk with deleted := true }, by simp [Heap.setBlock, hem], rfl, rfl⟩
    | false =>
      simp only [hem, Bool.false_eq_true, if_false, bind_ok] at h
      obtain ⟨s2, h2, h⟩ := h
      have hs2 : s2.blocks b = some { blk with deleted := true } := by
        rw [deleteObj_blocks hd h2 b]
        simp [Heap.setBlock, hem]
      cases fck with
      | false =>
        simp only [Bool.not_false, if_true, bind_ok, load_ok, pure, Except.pure,
          Except.ok.injEq] at h
        obtain ⟨blk2, ⟨_, hb2⟩, ht⟩ := h
        rw [hs2] at hb2
        cases hb2
        subst ht
        exact ⟨{ blk with deleted := true, ptr := Ptr.null }, by simp [Heap.setBlock], rfl, rfl⟩
      | true =>
        simp only [Bool.not_true, Bool.false_eq_true, if_false, pure, Except.pure,
          Except.ok.injEq] at h
        subst h
        exact ⟨_, hs2, rfl, rfl⟩

/-- The release of a share in the weak variant is the body of `Reset()` of the
shared-from-this variant for a type without the self-reference capability: the second
test for the zero/zero case after `DeletePtr()` never fires there. -/
theorem WeakVariant.release_eq {d : Dtor} (hd : BlockFree d) (s : Heap) (h : SharedPtr) :
    (do let s1 ← WeakVariant.release d s h.block_
        pure (s1, ({ ptr_ := Ptr.null, block_ := 0 } : SharedPtr))) =
      SharedPtr.Reset d false s h := by
  unfold WeakVariant.release SharedPtr.Reset
  by_cases hb : h.block_ = 0
  · simp [hb]
  · simp only [ne_eq, hb, not_false_eq_true, if_true, Bool.false_eq_true, if_false]
    cases hdec : decCnt s h.block_ with
    | error e => rfl
    | ok s1 =>
      simp only [bind, Except.bind]
      cases hz : bothZero s1 h.block_ with
      | error e => rfl
      | ok z =>
        cases z with
        | true => simp [WeakVariant.deleteBlock_eq hd]
        | false =>
          simp only [Bool.false_eq_true, if_false]
          cases hl : s1.load h.block_ with
          | error e => rfl
          | ok blk =>
            obtain ⟨_, hs1⟩ := (load_ok _ _ _).mp hl
            by_cases hc : blk.cnt = 0
            · simp only [hc, beq_self_eq_true, if_true, WeakVariant.DeletePtr_eq hd, pure,
                Except.pure]
              cases hdp : SmartPointers.DeletePtr d s1 h.block_ false with
              | error e => rfl
              | ok s3 =>
                obtain ⟨blk1, hs3, hc1, hw1⟩ := DeletePtr_counts hd hs1 hdp
                have hw : blk.cnt_weak ≠ 0 := by
                  intro hw0
                  simp [bothZero, hl, hc, hw0, bind, Except.bind, pure, Except.pure] at hz
                have hz3 : bothZero s3 h.block_ = Except.ok false := by
                  simp [bothZero, Heap.load, hb, hs3, hw1, hw, bind, Except.bind, pure,
                    Except.pure]
                simp [hz3]
            · simp [hc]

theorem WeakVariant.Reset_eq {d : Dtor} (hd : BlockFree d) (s : Heap) (h : SharedPtr) :
    WeakVariant.Reset d s h = SharedPtr.Reset d false s h := by
  rw [← WeakVariant.release_eq hd]
  rfl

theorem WeakVariant.destroy_eq {d : Dtor} (hd : BlockFree d) (s : Heap) (h : SharedPtr) :
    WeakVariant.destroy d s h = SharedPtr.destroy d false s h := by
  unfold SharedPtr.destroy WeakVariant.destroy
  rw [← WeakVariant.release_eq hd]
  cases hr : WeakVariant.release d s h.block_ <;>
    simp [hr, bind, Except.bind, pure, Except.pure]

theorem WeakVariant.ResetPtr_eq {d : Dtor} (hd : BlockFree d) (s : Heap) (h : SharedPtr)
    (p : Ptr) : WeakVariant.ResetPtr d s h p = SharedPtr.ResetPtr d false s h p := by
  unfold SharedPtr.ResetPtr WeakVariant.ResetPtr
  rw [← WeakVariant.release_eq hd]
  cases hr : WeakVariant.release d s h.block_ <;>
    simp [hr, bind, Except.bind, pure, Except.pure]

theorem WeakVariant.assign_eq {d : Dtor} (hd : BlockFree d) (s : Heap) (x o : SharedPtr) :
    WeakVariant.assign d s x o = SharedPtr.assign d false s x o := by
  unfold SharedPtr.assign WeakVariant.assign
  rw [WeakVariant.Reset_eq hd]

theorem WeakVariant.moveAssign_eq {d : Dtor} (hd : BlockFree d) (s : Heap)
    (x o : SharedPtr) :
    WeakVariant.moveAssign d s x o = SharedPtr.moveAssign d false s x o := by
  unfold SharedPtr.moveAssign WeakVariant.moveAssign
  rw [WeakVariant.Reset_eq hd]

theorem WeakVariant.ofBlock_eq (d : Dtor) (s : Heap) (bb : Nat) (p : Ptr) (new_one : Bool) :
    WeakVariant.ofBlock s bb p new_one = SharedPtr.ofBlock d false s bb p new_one := by
  unfold SharedPtr.ofBlock WeakVariant.ofBlock
  simp [bind, Except.bind, pure, Except.pure]

/-- Claim C27 fails as stated: for the type of `observingDtor`, whose destructor asks the
handle that owns the object for `Get()`, the destruction of the only handle logs different
events in the two variants. `src/shared-from-this/shared.h` sets the flag of the block
before the destructor runs, so `Get()` returns null and the destructor does nothing more;
`src/weak/shared.h` sets it afterwards, so `Get()` returns the pointer and the destructor
deletes its second object. -/
theorem C27_counterexample :
    observedDestroy = Except.ok [Event.dtor (Ptr.storage 1), Event.dealloc 1] ∧
    WeakVariant.observedDestroy = Except.ok
      [Event.dtor (Ptr.storage 1), Event.dtor (Ptr.raw 9), Event.dealloc 1] :=
  ⟨rfl, rfl⟩

/-- Claim C27, amended: for a managed type without the self-reference capability whose
destructor neither reads nor writes a control block and allocates none (`BlockFree`),
every operation of the `SharedPtr` of `src/weak/shared.h` gives, from every state, the
result of the same operation of the `SharedPtr` of `src/shared-from-this/shared.h`
instantiated with `is_base_of_v<ESFTBase, T>` false: the same error, or the same handle and
the same state (blocks with their counts and flags, objects, and the log of destructor
calls and deallocations). -/
theorem C27_weak_variant_is_shared_from_this (d : Dtor) (hd : BlockFree d) (s : Heap) :
    (∀ p, WeakVariant.ofRaw s p = SharedPtr.ofRaw d false s p) ∧
    (∀ bb p new_one, WeakVariant.ofBlock s bb p new_one =
      SharedPtr.ofBlock d false s bb p new_one) ∧
    (∀ v, WeakVariant.MakeShared s v = MakeShared d false s v) ∧
    (∀ o, WeakVariant.copy s o = SharedPtr.copy d false s o) ∧
    (∀ o, WeakVariant.move o = SharedPtr.move o) ∧
    (∀ o p, WeakVariant.alias s o p = SharedPtr.alias d false s o p) ∧
    (∀ w : WeakPtr, WeakVariant.ofWeak s w.block_ w.ptr_ = SharedPtr.ofWeak d false s w) ∧
    (∀ x o, WeakVariant.assign d s x o = SharedPtr.assign d false s x o) ∧
    (∀ x o, WeakVariant.moveAssign d s x o = SharedPtr.moveAssign d false s x o) ∧
    (∀ h, WeakVariant.Reset d s h = SharedPtr.Reset d false s h) ∧
    (∀ h p, WeakVariant.ResetPtr d s h p = SharedPtr.ResetPtr d false s h p) ∧
    (∀ h, WeakVariant.destroy d s h = SharedPtr.destroy d false s h) ∧
    (∀ x o, WeakVariant.Swap x o = SharedPtr.Swap x o) ∧
    (∀ h, WeakVariant.Get s h = SharedPtr.Get s h) ∧
    (∀ h, WeakVariant.UseCount s h = SharedPtr.UseCount s h) ∧
    (∀ h, WeakVariant.toBool h = SharedPtr.toBool h) := by
  refine ⟨fun p => rfl, fun bb p n1 => WeakVariant.ofBlock_eq d s bb p n1, fun v => ?_,
    fun o => rfl, fun o => rfl, fun o p => rfl, fun w => ?_,
    fun x o => WeakVariant.assign_eq hd s x o, fun x o => WeakVariant.moveAssign_eq hd s x o,
    fun h => WeakVariant.Reset_eq hd s h, fun h p => WeakVariant.ResetPtr_eq hd s h p,
    fun h => WeakVariant.destroy_eq hd s h, fun x o => rfl, fun h => rfl, fun h => rfl,
    fun h => rfl⟩
  · unfold WeakVariant.MakeShared SmartPointers.MakeShared
    simp only [WeakVariant.ofBlock_eq d]
  · unfold WeakVariant.ofWeak SharedPtr.ofWeak
    simp [bind, Except.bind, pure, Except.pure]

/-- Witness of C27 with the destructor of `int` on a block with strong count 1 and one
weak handle: `Reset()` of the strong handle destroys the object and keeps the block in
both variants. -/
theorem C27_witness :
    BlockFree trivialDtor ∧
    (∃ s1, WeakVariant.Reset trivialDtor (plainHeap 1 1) ⟨Ptr.storage 1, 1⟩ =
        Except.ok (s1, ⟨Ptr.null, 0⟩) ∧
      s1.log = [Event.dtor (Ptr.storage 1)] ∧
      s1.blocks 1 = some { cnt := 0, cnt_weak := 1, deleted := true, emplace := true,
                           ptr := Ptr.null }) ∧
    WeakVariant.Reset trivialDtor (plainHeap 1 1) ⟨Ptr.storage 1, 1⟩ =
      SharedPtr.Reset trivialDtor false (plainHeap 1 1) ⟨Ptr.storage 1, 1⟩ ∧
    WeakVariant.destroy trivialDtor (plainHeap 1 1) ⟨Ptr.storage 1, 1⟩ =
      SharedPtr.destroy trivialDtor false (plainHeap 1 1) ⟨Ptr.storage 1, 1⟩ ∧
    WeakVariant.Get (plainHeap 1 1) ⟨Ptr.storage 1, 1⟩ =
      SharedPtr.Get (plainHeap 1 1) ⟨Ptr.storage 1, 1⟩ :=
  have h := C27_weak_variant_is_shared_from_this trivialDtor trivialDtor_blockFree
    (plainHeap 1 1)
  ⟨trivialDtor_blockFree, ⟨_, rfl, rfl, rfl⟩, h.2.2.2.2.2.2.2.2.2.1 _,
    h.2.2.2.2.2.2.2.2.2.2.2.1 _, h.2.2.2.2.2.2.2.2.2.2.2.2.2.1 _⟩

/-! ## C28: the weak variant without weak handles against the plain shared variant -/

theorem WeakVariant.deleteBlock_plain {d : Dtor} (hd : BlockFree d) (s : Heap) (b : Nat)
    (hs : ∀ blk, s.blocks b = some blk → blk.deleted = false) :
    WeakVariant.deleteBlock d s b = SharedVariant.deleteBlock d s b := by
  unfold WeakVariant.deleteBlock SharedVariant.deleteBlock
  cases hl : s.load b with
  | error e => rfl
  | ok blk =>
    obtain ⟨hb, hsb⟩ := (load_ok s b blk).mp hl
    have hdel := hs blk hsb
    simp only [bind, Except.bind, hdel, Bool.not_false, if_true]
    cases hem : blk.emplace with
    | true =>
      simp only [if_true]
      cases hc : callDtor d (Ptr.storage b) s with
      | error e => rfl
      | ok t =>
        have htb : t.blocks b = some blk := by rw [callDtor_blocks hd hc b, hsb]
        simp [Heap.load, hb, htb, freeBlock_setBlock, pure, Except.pure]
    | false =>
      simp only [Bool.false_eq_true, if_false]
      cases hc : deleteObj d blk.ptr s with
      | error e => rfl
      | ok t =>
        have htb : t.blocks b = some blk := by rw [deleteObj_blocks hd hc b, hsb]
        simp [Heap.load, hb, htb, freeBlock_setBlock, pure, Except.pure]

theorem NoWeak.of_decCnt {s t : Heap} {b : Nat} (h : NoWeak s) (hd : decCnt s b = Except.ok t) :
    NoWeak t := by
  obtain ⟨blk, _, hs, ht⟩ := (decCnt_ok s t b).mp hd
  subst ht
  intro x blk1 hx
  by_cases hxb : x = b
  · subst hxb
    simp [Heap.setBlock] at hx
    subst hx
    exact h x blk hs
  · simp [Heap.setBlock, hxb] at hx
    exact h x blk1 hx

theorem NoWeak.of_incCnt {s t : Heap} {b : Nat} (h : NoWeak s) (hd : incCnt s b = Except.ok t) :
    NoWeak t := by
  obtain ⟨blk, _, hs, ht⟩ := (incCnt_ok s t b).mp hd
  subst ht
  intro x blk1 hx
  by_cases hxb : x = b
  · subst hxb
    simp [Heap.setBlock] at hx
    subst hx
    exact h x blk hs
  · simp [Heap.setBlock, hxb] at hx
    exact h x blk1 hx

theorem NoWeak.of_blocks {s t : Heap} (h : NoWeak s)
    (ht : ∀ x, t.blocks x = s.blocks x ∨ t.blocks x = none) : NoWeak t := by
  intro x blk hx
  rcases ht x with h1 | h1
  · rw [h1] at hx
    exact h x blk hx
  · rw [h1] at hx
    cases hx

theorem NoWeak.of_newBlock {s : Heap} (h : NoWeak s) (e : Bool) (p : Ptr) :
    NoWeak (s.newBlock e p).1 := by
  intro x blk hx
  by_cases hxb : x = s.next + 1
  · simp [Heap.newBlock, hxb] at hx
    subst hx
    exact ⟨rfl, rfl⟩
  · simp [Heap.newBlock, hxb] at hx
    exact h x blk hx

theorem SharedVariant.deleteBlock_noWeak {d : Dtor} (hd : BlockFree d) {s t : Heap} {b : Nat}
    (h : NoWeak s) (hr : SharedVariant.deleteBlock d s b = Except.ok t) : NoWeak t := by
  unfold SharedVariant.deleteBlock at hr
  cases hl : s.load b with
  | error e =>
    rw [hl] at hr
    cases hr
  | ok blk =>
    have hkey : ∃ s1 : Heap, (∀ x, s1.blocks x = s.blocks x) ∧
        t = (s1.freeBlock b blk.emplace).emit (Event.dealloc b) := by
      rw [hl] at hr
      simp only [bind, Except.bind] at hr
      by_cases hem : blk.emplace = true
      · rw [if_pos hem] at hr
        cases hc : callDtor d (Ptr.storage b) s with
        | error e => simp [hc] at hr
        | ok s1 =>
          simp only [hc, pure, Except.pure, Except.ok.injEq] at hr
          exact ⟨s1, fun x => callDtor_blocks hd hc x, hr.symm⟩
      · rw [if_neg hem] at hr
        cases hc : deleteObj d blk.ptr s with
        | error e => simp [hc] at hr
        | ok s1 =>
          simp only [hc, pure, Except.pure, Except.ok.injEq] at hr
          exact ⟨s1, fun x => deleteObj_blocks hd hc x, hr.symm⟩
    obtain ⟨s1, hb1, ht⟩ := hkey
    subst ht
    refine h.of_blocks (fun x => ?_)
    by_cases hxb : x = b
    · right
      cases blk.emplace <;> simp [Heap.freeBlock, Heap.setBlock, Heap.setObj, Heap.emit, hxb]
    · left
      rw [← hb1 x]
      cases blk.emplace <;> simp [Heap.freeBlock, Heap.setBlock, Heap.setObj, Heap.emit, hxb]

theorem SharedVariant.release_noWeak {d : Dtor} (hd : BlockFree d) {s t : Heap} {b : Nat}
    (h : NoWeak s) (hr : SharedVariant.release d s b = Except.ok t) : NoWeak t := by
  unfold SharedVariant.release at hr
  by_cases hb : b = 0
  · simp only [hb, ne_eq, not_true_eq_false, if_false, pure, Except.pure,
      Except.ok.injEq] at hr
    subst hr
    exact h
  · simp only [ne_eq, hb, not_false_eq_true, if_true, bind_ok] at hr
    obtain ⟨s1, h1, blk, _, hr⟩ := hr
    have hn1 := h.of_decCnt h1
    by_cases hc : blk.cnt = 0
    · simp only [hc, beq_self_eq_true, if_true] at hr
      exact SharedVariant.deleteBlock_noWeak hd hn1 hr
    · have hc1 : (blk.cnt == 0) = false := by simpa using hc
      simp only [hc1, Bool.false_eq_true, if_false, pure, Except.pure, Except.ok.injEq] at hr
      subst hr
      exact hn1

/-- Without weak handles the release of a share is the same in the two variants: the test
`cnt == 0 && cnt_weak == 0` is the test `cnt == 0`. -/
theorem WeakVariant.release_plain {d : Dtor} (hd : BlockFree d) (s : Heap) (b : Nat)
    (h : NoWeak s) : WeakVariant.release d s b = SharedVariant.release d s b := by
  unfold WeakVariant.release SharedVariant.release
  by_cases hb : b = 0
  · simp [hb]
  · simp only [ne_eq, hb, not_false_eq_true, if_true]
    cases hdec : decCnt s b with
    | error e => rfl
    | ok s1 =>
      have hn1 := h.of_decCnt hdec
      simp only [bind, Except.bind, bothZero]
      cases hl : s1.load b with
      | error e => rfl
      | ok blk =>
        obtain ⟨_, hs1⟩ := (load_ok _ _ _).mp hl
        obtain ⟨hw, _⟩ := hn1 b blk hs1
        by_cases hc : blk.cnt = 0
        · simp [hc, hw, hl, pure, Except.pure,
            WeakVariant.deleteBlock_plain hd s1 b (fun blk1 hb1 => (hn1 b blk1 hb1).2)]
        · simp [hc, hw, hl, pure, Except.pure]

theorem StrongBal.congr_strong {s : Heap} {nS nS1 : Nat → Int} (h : StrongBal s nS)
    (hS : ∀ b, b ≠ 0 → nS1 b = nS b) : StrongBal s nS1 := by
  refine ⟨h.noWeak, h.zero, fun b blk hb => ?_, fun b hb hs => ?_, h.fresh⟩
  · have hb0 : b ≠ 0 := by
      intro h0
      rw [h0, h.zero] at hb
      cases hb
    rw [hS b hb0]
    exact h.alloc b blk hb
  · rw [hS b hb]
    exact h.free b hb hs

theorem StrongBal.incStrong {s t : Heap} {nS : Nat → Int} {b : Nat} (h : StrongBal s nS)
    (hlt : nS b + 1 < SIZE_MOD) (hi : incCnt s b = Except.ok t) :
    StrongBal t (upd nS b 1) := by
  obtain ⟨blk, hb, hs, ht⟩ := (incCnt_ok s t b).mp hi
  subst ht
  obtain ⟨hc, hc1⟩ := h.alloc b blk hs
  have hinc : sizeInc blk.cnt = blk.cnt + 1 := sizeInc_of_lt _ (by omega)
  refine ⟨h.noWeak.of_incCnt hi, ?_, fun x blk1 hx => ?_, fun x hx0 hx => ?_, fun k hk => ?_⟩
  · simp [Heap.setBlock, Ne.symm hb, h.zero]
  · by_cases hxb : x = b
    · subst hxb
      simp [Heap.setBlock] at hx
      subst hx
      simp only [upd, if_true, hinc]
      constructor <;> omega
    · simp [Heap.setBlock, hxb] at hx
      simp only [upd, hxb, if_false]
      exact h.alloc x blk1 hx
  · by_cases hxb : x = b
    · subst hxb
      simp [Heap.setBlock] at hx
    · simp [Heap.setBlock, hxb] at hx
      simp only [upd, hxb, if_false]
      exact h.free x hx0 hx
  · have hkb : k ≠ b := by
      intro hkb
      subst hkb
      rw [h.fresh k hk] at hs
      cases hs
    simp [Heap.setBlock, hkb]
    exact h.fresh k hk

/-- The tail `if (block_) ++block_->cnt;` of the constructors and assignments. -/
theorem StrongBal.attachStrong {s t : Heap} {nS : Nat → Int} {b : Nat} (h : StrongBal s nS)
    (hlt : nS b + 1 < SIZE_MOD)
    (hi : (if b ≠ 0 then incCnt s b else pure s) = Except.ok t) :
    StrongBal t (upd nS b 1) := by
  by_cases hb : b = 0
  · simp only [hb, ne_eq, not_true_eq_false, if_false, pure, Except.pure,
      Except.ok.injEq] at hi
    subst hi
    exact h.congr_strong (fun x hx => upd_ne _ _ _ _ (by rw [hb]; exact hx))
  · simp only [ne_eq, hb, not_false_eq_true, if_true] at hi
    exact h.incStrong hlt hi

theorem StrongBal.newBlock_strong {s : Heap} {nS : Nat → Int} (h : StrongBal s nS) (e : Bool)
    (p : Ptr) : StrongBal (s.newBlock e p).1 (upd nS (s.next + 1) 1) := by
  have hfree := h.free (s.next + 1) (by omega) (h.fresh _ (by omega))
  refine ⟨h.noWeak.of_newBlock e p, ?_, fun x blk hx => ?_, fun x hx0 hx => ?_, fun k hk => ?_⟩
  · simp [Heap.newBlock, h.zero]
  · by_cases hxb : x = s.next + 1
    · simp [Heap.newBlock, hxb] at hx
      subst hx
      simp only [upd, hxb, if_true, hfree]
      constructor <;> simp
    · simp [Heap.newBlock, hxb] at hx
      simp only [upd, hxb, if_false]
      exact h.alloc x blk hx
  · by_cases hxb : x = s.next + 1
    · simp [Heap.newBlock, hxb] at hx
    · simp [Heap.newBlock, hxb] at hx
      simp only [upd, hxb, if_false]
      exact h.free x hx0 hx
  · have hk1 : s.next + 1 < k := hk
    have hkb : k ≠ s.next + 1 := by omega
    simp [Heap.newBlock, hkb]
    exact h.fresh k (by omega)

theorem StrongBal.of_blocks_eq {s t : Heap} {nS : Nat → Int} (h : StrongBal s nS)
    (hb : ∀ x, t.blocks x = s.blocks x) (hn : t.next = s.next) : StrongBal t nS := by
  refine ⟨fun b blk hx => h.noWeak b blk (by rw [← hb b]; exact hx), by rw [hb, h.zero],
    fun b blk hx => h.alloc b blk (by rw [← hb b]; exact hx),
    fun b hb0 hx => h.free b hb0 (by rw [← hb b]; exact hx),
    fun k hk => by rw [hb]; exact h.fresh k (by rw [← hn]; exact hk)⟩

theorem SharedVariant.deleteBlock_frees {d : Dtor} (hd : BlockFree d) {s t : Heap} {b : Nat}
    (hr : SharedVariant.deleteBlock d s b = Except.ok t) :
    t.blocks b = none ∧ (∀ x, x ≠ b → t.blocks x = s.blocks x) ∧ t.next = s.next := by
  unfold SharedVariant.deleteBlock at hr
  cases hl : s.load b with
  | error e =>
    rw [hl] at hr
    cases hr
  | ok blk =>
    have hkey : ∃ s1 : Heap, (∀ x, s1.blocks x = s.blocks x) ∧ s1.next = s.next ∧
        t = (s1.freeBlock b blk.emplace).emit (Event.dealloc b) := by
      rw [hl] at hr
      simp only [bind, Except.bind] at hr
      by_cases hem : blk.emplace = true
      · rw [if_pos hem] at hr
        cases hc : callDtor d (Ptr.storage b) s with
        | error e => simp [hc] at hr
        | ok s1 =>
          simp only [hc, pure, Except.pure, Except.ok.injEq] at hr
          exact ⟨s1, fun x => callDtor_blocks hd hc x, callDtor_next hd hc, hr.symm⟩
      · rw [if_neg hem] at hr
        cases hc : deleteObj d blk.ptr s with
        | error e => simp [hc] at hr
        | ok s1 =>
          simp only [hc, pure, Except.pure, Except.ok.injEq] at hr
          exact ⟨s1, fun x => deleteObj_blocks hd hc x, deleteObj_next hd hc, hr.symm⟩
    obtain ⟨s1, hb1, hn1, ht⟩ := hkey
    subst ht
    refine ⟨?_, fun x hx => ?_, ?_⟩
    · cases blk.emplace <;> simp [Heap.freeBlock, Heap.setBlock, Heap.setObj, Heap.emit]
    · rw [← hb1 x]
      cases blk.emplace <;> simp [Heap.freeBlock, Heap.setBlock, Heap.setObj, Heap.emit, hx]
    · rw [← hn1]
      cases blk.emplace <;> simp [Heap.freeBlock, Heap.setBlock, Heap.setObj, Heap.emit]

/-- The release of a counted share in the plain shared variant. -/
theorem StrongBal.release_strong {d : Dtor} (hd : BlockFree d) {s t : Heap} {nS : Nat → Int}
    {b : Nat} (h : StrongBal s nS) (hown : b ≠ 0 → 1 ≤ nS b) (hlt : nS b < SIZE_MOD)
    (hr : SharedVariant.release d s b = Except.ok t) : StrongBal t (upd nS b (-1)) := by
  unfold SharedVariant.release at hr
  by_cases hb : b = 0
  · simp only [hb, ne_eq, not_true_eq_false, if_false, pure, Except.pure,
      Except.ok.injEq] at hr
    subst hr
    exact h.congr_strong (fun x hx => upd_ne _ _ _ _ (by rw [hb]; exact hx))
  · simp only [ne_eq, hb, not_false_eq_true, if_true, bind_ok] at hr
    obtain ⟨s1, h1, blk1, hl1, hr⟩ := hr
    have hn1 : NoWeak s1 := h.noWeak.of_decCnt h1
    obtain ⟨blk, _, hs, hs1⟩ := (decCnt_ok s s1 b).mp h1
    obtain ⟨hc, hc1⟩ := h.alloc b blk hs
    have hdec : sizeDec blk.cnt = blk.cnt - 1 := sizeDec_of_pos _ hc1 (by omega)
    have hs1b : s1.blocks b = some { blk with cnt := sizeDec blk.cnt } := by
      rw [hs1]
      simp [Heap.setBlock]
    have hs1x : ∀ x, x ≠ b → s1.blocks x = s.blocks x := by
      intro x hx
      rw [hs1]
      simp [Heap.setBlock, hx]
    have hs1n : s1.next = s.next := by rw [hs1]; rfl
    obtain ⟨_, hblk1⟩ := (load_ok _ _ _).mp hl1
    have hblk1v : blk1 = { blk with cnt := sizeDec blk.cnt } :=
      Option.some.inj (hblk1.symm.trans hs1b)
    have hcnt1 : blk1.cnt = blk.cnt - 1 := by
      rw [hblk1v]
      exact hdec
    by_cases hz : blk1.cnt = 0
    · simp only [hz, beq_self_eq_true, if_true] at hr
      obtain ⟨hbn, hfr, hnx⟩ := SharedVariant.deleteBlock_frees hd hr
      refine ⟨SharedVariant.deleteBlock_noWeak hd hn1 hr, ?_,
        fun x blkx hx => ?_, fun x hx0 hx => ?_, fun k hk => ?_⟩
      · rw [hfr 0 (Ne.symm hb), hs1x 0 (Ne.symm hb)]
        exact h.zero
      · have hxb : x ≠ b := by
          intro hxb
          rw [hxb, hbn] at hx
          cases hx
        rw [hfr x hxb, hs1x x hxb] at hx
        simp only [upd, hxb, if_false]
        exact h.alloc x blkx hx
      · by_cases hxb : x = b
        · subst hxb
          simp only [upd, if_true]
          omega
        · rw [hfr x hxb, hs1x x hxb] at hx
          simp only [upd, hxb, if_false]
          exact h.free x hx0 hx
      · by_cases hkb : k = b
        · rw [hkb]
          exact hbn
        · rw [hfr k hkb, hs1x k hkb]
          exact h.fresh k (by rw [hnx, hs1n] at hk; exact hk)
    · have hz1 : (blk1.cnt == 0) = false := by simpa using hz
      simp only [hz1, Bool.false_eq_true, if_false, pure, Except.pure,
        Except.ok.injEq] at hr
      subst hr
      refine ⟨hn1, ?_, fun x blkx hx => ?_, fun x hx0 hx => ?_, fun k hk => ?_⟩
      · rw [hs1x 0 (Ne.symm hb)]
        exact h.zero
      · by_cases hxb : x = b
        · subst hxb
          rw [hblk1] at hx
          cases hx
          simp only [upd, if_true]
          constructor <;> omega
        · rw [hs1x x hxb] at hx
          simp only [upd, hxb, if_false]
          exact h.alloc x blkx hx
      · by_cases hxb : x = b
        · subst hxb
          rw [hblk1] at hx
          cases hx
        · rw [hs1x x hxb] at hx
          simp only [upd, hxb, if_false]
          exact h.free x hx0 hx
      · have hkb : k ≠ b := by
          intro hkb
          subst hkb
          rw [h.fresh k (by rw [← hs1n]; exact hk)] at hs
          cases hs
        rw [hs1x k hkb]
        exact h.fresh k (by rw [← hs1n]; exact hk)

theorem WeakVariant.Reset_plain {d : Dtor} (hd : BlockFree d) (s : Heap) (h : SharedPtr)
    (hn : NoWeak s) : WeakVariant.Reset d s h = SharedVariant.Reset d s h := by
  unfold WeakVariant.Reset SharedVariant.Reset
  simp only [WeakVariant.release_plain hd s h.block_ hn]

theorem WeakVariant.ResetPtr_plain {d : Dtor} (hd : BlockFree d) (s : Heap) (h : SharedPtr)
    (p : Ptr) (hn : NoWeak s) :
    WeakVariant.ResetPtr d s h p = SharedVariant.ResetPtr d s h p := by
  unfold WeakVariant.ResetPtr SharedVariant.ResetPtr
  simp only [WeakVariant.release_plain hd s h.block_ hn]

theorem WeakVariant.destroy_plain {d : Dtor} (hd : BlockFree d) (s : Heap) (h : SharedPtr)
    (hn : NoWeak s) : WeakVariant.destroy d s h = SharedVariant.destroy d s h :=
  WeakVariant.release_plain hd s h.block_ hn

theorem WeakVariant.assign_plain {d : Dtor} (hd : BlockFree d) (s : Heap) (x o : SharedPtr)
    (hn : NoWeak s) : WeakVariant.assign d s x o = SharedVariant.assign d s x o := by
  unfold WeakVariant.assign SharedVariant.assign
  rw [WeakVariant.Reset_plain hd s x hn]

theorem WeakVariant.moveAssign_plain {d : Dtor} (hd : BlockFree d) (s : Heap)
    (x o : SharedPtr) (hn : NoWeak s) :
    WeakVariant.moveAssign d s x o = SharedVariant.moveAssign d s x o := by
  unfold WeakVariant.moveAssign SharedVariant.moveAssign
  rw [WeakVariant.Reset_plain hd s x hn]

theorem WeakVariant.MakeShared_same (s : Heap) (v : Int) :
    WeakVariant.MakeShared s v = SharedVariant.MakeShared s v := rfl

/-- Without weak handles every operation of the client program is the same in the two
variants. -/
theorem WeakVariant.step_plain {d : Dtor} (hd : BlockFree d) (c : StrongConfig)
    (hn : NoWeak c.heap) (op : StrongOp) :
    (WeakVariant.ops d).step c op = (SharedVariant.ops d).step c op := by
  cases op with
  | newObj a v => rfl
  | sharedNull => rfl
  | ofRaw p => rfl
  | makeShared v => rfl
  | copy o => rfl
  | move o => rfl
  | aliasing o p => rfl
  | assign x o =>
    simp only [SharedOps.step, WeakVariant.ops, SharedVariant.ops,
      WeakVariant.assign_plain hd c.heap x o hn]
  | moveAssign x o =>
    simp only [SharedOps.step, WeakVariant.ops, SharedVariant.ops,
      WeakVariant.moveAssign_plain hd c.heap x o hn]
  | reset x =>
    simp only [SharedOps.step, WeakVariant.ops, SharedVariant.ops,
      WeakVariant.Reset_plain hd c.heap x hn]
  | resetPtr x p =>
    simp only [SharedOps.step, WeakVariant.ops, SharedVariant.ops,
      WeakVariant.ResetPtr_plain hd c.heap x p hn]
  | swap x o => rfl
  | destroy x =>
    simp only [SharedOps.step, WeakVariant.ops, SharedVariant.ops,
      WeakVariant.destroy_plain hd c.heap x hn]

theorem SharedVariant.copy_result (s t : Heap) (o x : SharedPtr)
    (h : SharedVariant.copy s o = Except.ok (t, x)) :
    x = ⟨o.ptr_, o.block_⟩ ∧
      (if o.block_ ≠ 0 then incCnt s o.block_ else pure s) = Except.ok t := by
  by_cases hb : o.block_ = 0 <;>
    simp only [SharedVariant.copy, hb, bind_ok, pure, Except.pure, Except.ok.injEq,
      Prod.mk.injEq, if_true, if_false, ne_eq, not_true_eq_false, not_false_eq_true] at h ⊢
  all_goals aesop

theorem SharedVariant.alias_result (s t : Heap) (o x : SharedPtr) (p : Ptr)
    (h : SharedVariant.alias s o p = Except.ok (t, x)) :
    x = ⟨p, o.block_⟩ ∧
      (if o.block_ ≠ 0 then incCnt s o.block_ else pure s) = Except.ok t := by
  by_cases hb : o.block_ = 0 <;>
    simp only [SharedVariant.alias, hb, bind_ok, pure, Except.pure, Except.ok.injEq,
      Prod.mk.injEq, if_true, if_false, ne_eq, not_true_eq_false, not_false_eq_true] at h ⊢
  all_goals aesop

theorem SharedVariant.Reset_result {d : Dtor} (s t : Heap) (h x : SharedPtr)
    (hr : SharedVariant.Reset d s h = Except.ok (t, x)) :
    x = ⟨Ptr.null, 0⟩ ∧ SharedVariant.release d s h.block_ = Except.ok t := by
  simp only [SharedVariant.Reset, bind_ok, pure, Except.pure, Except.ok.injEq,
    Prod.mk.injEq] at hr
  obtain ⟨s1, h1, hst, hx⟩ := hr
  subst hst
  exact ⟨hx.symm, h1⟩

theorem SharedVariant.assign_result {d : Dtor} (s t : Heap) (h o x : SharedPtr)
    (hr : SharedVariant.assign d s h o = Except.ok (t, x)) :
    x = ⟨o.ptr_, o.block_⟩ ∧ ∃ s1, SharedVariant.release d s h.block_ = Except.ok s1 ∧
      (if o.block_ ≠ 0 then incCnt s1 o.block_ else pure s1) = Except.ok t := by
  by_cases hb : o.block_ = 0 <;>
    simp only [SharedVariant.assign, SharedVariant.Reset, hb, bind_ok, pure, Except.pure,
      Except.ok.injEq, Prod.mk.injEq, Prod.exists, if_true, if_false, ne_eq,
      not_true_eq_false, not_false_eq_true] at hr ⊢
  all_goals aesop

theorem StrongInv.of_bal {K : Nat} {c : StrongConfig} {nS : Nat → Int}
    (hb : StrongBal c.heap nS)
    (hS : ∀ b, b ≠ 0 → cnt SharedPtr.block_ c.shared b = nS b)
    (sz : c.shared.length ≤ K) : StrongInv K c :=
  ⟨hb.congr_strong hS, sz⟩

theorem StrongInv.init_strong : StrongInv 0 StrongConfig.init :=
  ⟨⟨fun _ _ h => (by cases h), rfl, fun _ _ h => (by cases h), fun _ _ _ => rfl,
    fun _ _ => rfl⟩, Nat.le_refl _⟩

/-- Every operation of a client program without weak handles keeps the invariant. -/
theorem StrongInv.step_strong {d : Dtor} (hd : BlockFree d) {K : Nat} {c c1 : StrongConfig}
    (h : StrongInv K c) (hK : K + 1 < SIZE_MOD) (op : StrongOp)
    (hs : (SharedVariant.ops d).step c op = Except.ok c1) : StrongInv (K + 1) c1 := by
  have hbal := h.bal
  have hsz := h.size
  have hle : ∀ b, cnt SharedPtr.block_ c.shared b ≤ K := fun b => by
    have := cnt_le_length SharedPtr.block_ c.shared b
    omega
  have hnn : ∀ b, 0 ≤ cnt SharedPtr.block_ c.shared b := fun b => cnt_nonneg _ _ b
  match op, hs with
  | StrongOp.newObj a v, hs =>
    simp only [SharedOps.step] at hs
    split_ifs at hs with hsome
    simp only [pure, Except.pure, Except.ok.injEq] at hs
    subst hs
    exact ⟨hbal.of_blocks_eq (fun _ => rfl) rfl, by simp only; omega⟩
  | StrongOp.sharedNull, hs =>
    simp only [SharedOps.step, pure, Except.pure, Except.ok.injEq] at hs
    subst hs
    refine StrongInv.of_bal hbal (fun b hb => ?_) (by simp only [List.length_cons]; omega)
    simp only [cnt_cons, SharedPtr.null]
    rw [if_neg (Ne.symm hb)]
    omega
  | StrongOp.ofRaw p, hs =>
    simp only [SharedOps.step, SharedVariant.ops, SharedVariant.ofRaw, bind_ok, pure,
      Except.pure, Except.ok.injEq, Prod.exists, Prod.mk.injEq] at hs
    obtain ⟨t, x, ⟨ht, hx⟩, hc⟩ := hs
    subst hc
    subst ht
    subst hx
    refine StrongInv.of_bal (hbal.newBlock_strong false p) (fun b hb => ?_)
      (by simp only [List.length_cons]; omega)
    simp only [cnt_cons, upd, Heap.newBlock]
    split_ifs <;> omega
  | StrongOp.makeShared v, hs =>
    simp only [SharedOps.step, SharedVariant.ops, SharedVariant.MakeShared,
      SharedVariant.ofBlock, bind_ok, pure, Except.pure, Except.ok.injEq, Prod.exists,
      Prod.mk.injEq] at hs
    obtain ⟨t, x, ⟨ht, hx⟩, hc⟩ := hs
    subst hc
    subst ht
    subst hx
    refine StrongInv.of_bal ((hbal.newBlock_strong true Ptr.null).of_blocks_eq
      (fun _ => rfl) rfl) (fun b hb => ?_) (by simp only [List.length_cons]; omega)
    simp only [cnt_cons, upd, Heap.newBlock]
    split_ifs <;> omega
  | StrongOp.copy o, hs =>
    simp only [SharedOps.step, SharedVariant.ops] at hs
    split_ifs at hs with hmem
    simp only [bind_ok, pure, Except.pure, Except.ok.injEq, Prod.exists] at hs
    obtain ⟨t, x, hr, hc⟩ := hs
    subst hc
    obtain ⟨hx, hi⟩ := SharedVariant.copy_result _ _ _ _ hr
    refine StrongInv.of_bal (hbal.attachStrong (by have := hle o.block_; omega) hi)
      (fun b hb => ?_) (by simp only [List.length_cons]; omega)
    simp only [cnt_cons, upd, hx]
    split_ifs <;> omega
  | StrongOp.move o, hs =>
    simp only [SharedOps.step, SharedVariant.ops] at hs
    split_ifs at hs with hmem
    simp only [pure, Except.pure, Except.ok.injEq] at hs
    subst hs
    refine StrongInv.of_bal hbal (fun b hb => ?_) ?_
    · simp only [cnt_cons, cnt_erase _ _ _ _ hmem, SharedVariant.move]
      split_ifs <;> omega
    · have := length_erase_succ o c.shared hmem
      simp only [List.length_cons]; omega
  | StrongOp.aliasing o p, hs =>
    simp only [SharedOps.step, SharedVariant.ops] at hs
    split_ifs at hs with hmem
    simp only [bind_ok, pure, Except.pure, Except.ok.injEq, Prod.exists] at hs
    obtain ⟨t, x, hr, hc⟩ := hs
    subst hc
    obtain ⟨hx, hi⟩ := SharedVariant.alias_result _ _ _ _ _ hr
    refine StrongInv.of_bal (hbal.attachStrong (by have := hle o.block_; omega) hi)
      (fun b hb => ?_) (by simp only [List.length_cons]; omega)
    simp only [cnt_cons, upd, hx]
    split_ifs <;> omega
  | StrongOp.assign x o, hs =>
    simp only [SharedOps.step, SharedVariant.ops] at hs
    split_ifs at hs with hmem
    simp only [bind_ok, pure, Except.pure, Except.ok.injEq, Prod.exists] at hs
    obtain ⟨t, y, hr, hc⟩ := hs
    subst hc
    obtain ⟨hy, s1, hrel, hi⟩ := SharedVariant.assign_result _ _ _ _ _ hr
    have h1 := hbal.release_strong hd (fun _ => cnt_pos_of_mem SharedPtr.block_ _ x hmem.1)
      (by have := hle x.block_; omega) hrel
    have h2 := h1.attachStrong (by
      have := hle o.block_
      simp only [upd]
      split_ifs <;> omega) hi
    refine StrongInv.of_bal h2 (fun b hb => ?_) ?_
    · simp only [cnt_cons, cnt_erase _ _ _ _ hmem.1, upd, hy]
      split_ifs <;> omega
    · have := length_erase_succ x c.shared hmem.1
      simp only [List.length_cons]; omega
  | StrongOp.moveAssign x o, hs =>
    simp only [SharedOps.step, SharedVariant.ops] at hs
    split_ifs at hs with hmem
    simp only [SharedVariant.moveAssign, SharedVariant.Reset, bind_ok, pure, Except.pure,
      Except.ok.injEq, Prod.exists, Prod.mk.injEq] at hs
    obtain ⟨t, y, z, ⟨s1, w1, ⟨s2, hrel, hs2, _⟩, hst, hy, hz⟩, hc⟩ := hs
    subst hc
    subst hs2
    subst hst
    have h1 := hbal.release_strong hd (fun _ => cnt_pos_of_mem SharedPtr.block_ _ x hmem.1)
      (by have := hle x.block_; omega) hrel
    refine StrongInv.of_bal h1 (fun b hb => ?_) ?_
    · simp only [cnt_cons, cnt_erase _ _ _ _ hmem.1, cnt_erase _ _ _ _ hmem.2, upd, ← hy, ← hz]
      split_ifs <;> omega
    · have := length_erase_succ x c.shared hmem.1
      have := length_erase_succ o _ hmem.2
      simp only [List.length_cons]; omega
  | StrongOp.reset x, hs =>
    simp only [SharedOps.step, SharedVariant.ops] at hs
    split_ifs at hs with hmem
    simp only [bind_ok, pure, Except.pure, Except.ok.injEq, Prod.exists] at hs
    obtain ⟨t, y, hr, hc⟩ := hs
    subst hc
    obtain ⟨hy, hrel⟩ := SharedVariant.Reset_result _ _ _ _ hr
    have h1 := hbal.release_strong hd (fun _ => cnt_pos_of_mem SharedPtr.block_ _ x hmem)
      (by have := hle x.block_; omega) hrel
    refine StrongInv.of_bal h1 (fun b hb => ?_) ?_
    · simp only [cnt_cons, cnt_erase _ _ _ _ hmem, upd, hy]
      split_ifs <;> omega
    · have := length_erase_succ x c.shared hmem
      simp only [List.length_cons]; omega
  | StrongOp.resetPtr x p, hs =>
    simp only [SharedOps.step, SharedVariant.ops] at hs
    split_ifs at hs with hmem
    simp only [SharedVariant.ResetPtr, bind_ok, pure, Except.pure, Except.ok.injEq,
      Prod.exists, Prod.mk.injEq] at hs
    obtain ⟨t, y, ⟨s1, hrel, ht, hy⟩, hc⟩ := hs
    subst hc
    subst ht
    subst hy
    have h1 := hbal.release_strong hd (fun _ => cnt_pos_of_mem SharedPtr.block_ _ x hmem)
      (by have := hle x.block_; omega) hrel
    refine StrongInv.of_bal (h1.newBlock_strong false p) (fun b hb => ?_) ?_
    · simp only [cnt_cons, cnt_erase _ _ _ _ hmem, upd, Heap.newBlock]
      split_ifs <;> omega
    · have := length_erase_succ x c.shared hmem
      simp only [List.length_cons]; omega
  | StrongOp.swap x o, hs =>
    simp only [SharedOps.step, SharedVariant.ops] at hs
    split_ifs at hs with hmem
    simp only [pure, Except.pure, Except.ok.injEq] at hs
    subst hs
    refine StrongInv.of_bal hbal (fun b hb => ?_) ?_
    · simp only [cnt_cons, cnt_erase _ _ _ _ hmem.1, cnt_erase _ _ _ _ hmem.2,
        SharedVariant.Swap]
      split_ifs <;> omega
    · have := length_erase_succ x c.shared hmem.1
      have := length_erase_succ o _ hmem.2
      simp only [List.length_cons]; omega
  | StrongOp.destroy x, hs =>
    simp only [SharedOps.step, SharedVariant.ops] at hs
    split_ifs at hs with hmem
    simp only [SharedVariant.destroy, bind_ok, pure, Except.pure, Except.ok.injEq] at hs
    obtain ⟨t, hrel, hc⟩ := hs
    subst hc
    have h1 := hbal.release_strong hd (fun _ => cnt_pos_of_mem SharedPtr.block_ _ x hmem)
      (by have := hle x.block_; omega) hrel
    refine StrongInv.of_bal h1 (fun b hb => ?_) ?_
    · simp only [cnt_erase _ _ _ _ hmem, upd]
      split_ifs <;> omega
    · have := length_erase_succ x c.shared hmem
      simp only; omega

/-- Runs of a client program without weak handles are the same in the two variants, and
keep the invariant. -/
theorem WeakVariant.run_plain {d : Dtor} (hd : BlockFree d) :
    ∀ (ops : List StrongOp) (K : Nat) (c : StrongConfig), StrongInv K c →
      K + ops.length < SIZE_MOD →
      (WeakVariant.ops d).run ops c = (SharedVariant.ops d).run ops c ∧
      ∀ c1, (SharedVariant.ops d).run ops c = Except.ok c1 → StrongInv (K + ops.length) c1 := by
  intro ops
  induction ops with
  | nil =>
    intro K c h _
    refine ⟨rfl, fun c1 hr => ?_⟩
    simp only [SharedOps.run, pure, Except.pure, Except.ok.injEq] at hr
    subst hr
    exact h
  | cons op ops ih =>
    intro K c h hK
    simp only [List.length_cons] at hK ⊢
    have hstep := WeakVariant.step_plain hd c h.bal.noWeak op
    simp only [SharedOps.run, hstep]
    cases hs : (SharedVariant.ops d).step c op with
    | error e => exact ⟨rfl, fun c1 hr => by simp [bind, Except.bind] at hr⟩
    | ok c2 =>
      have h2 := h.step_strong hd (by omega) op hs
      obtain ⟨i1, i2⟩ := ih (K + 1) c2 h2 (by omega)
      refine ⟨i1, fun c1 hr => ?_⟩
      have h3 := i2 c1 hr
      have he : K + 1 + ops.length = K + (ops.length + 1) := by omega
      rw [he] at h3
      exact h3

/-- A variable of a program without weak handles is empty or attached to an allocated
block whose flag is clear. -/
theorem StrongInv.handle_ok {K : Nat} {c : StrongConfig} (h : StrongInv K c) (x : SharedPtr)
    (hx : x ∈ c.shared) (hb : x.block_ ≠ 0) :
    ∃ blk, c.heap.blocks x.block_ = some blk ∧ blk.deleted = false := by
  cases hs : c.heap.blocks x.block_ with
  | none =>
    have h0 := h.bal.free x.block_ hb hs
    have h1 := cnt_pos_of_mem SharedPtr.block_ c.shared x hx
    omega
  | some blk => exact ⟨blk, rfl, (h.bal.noWeak _ blk hs).2⟩

/-- Claim C28: for every client program that creates no weak handle, run from the empty
state with a destructor that does not touch control blocks, the `SharedPtr` of
`src/weak/shared.h` and the `SharedPtr` of `src/shared/shared.h` reach the same state
(heap, handles and the log of destructor calls and deallocations, so the object and the
block go at the same operation) or fail alike; in the state reached every block has weak
count 0 and its flag clear, and for every variable `UseCount()`, `operator bool` and
`Get()` agree. -/
theorem C28_weak_variant_without_weak_handles (d : Dtor) (hd : BlockFree d)
    (ops : List StrongOp) (hlen : ops.length < SIZE_MOD) :
    (WeakVariant.ops d).run ops StrongConfig.init =
      (SharedVariant.ops d).run ops StrongConfig.init ∧
    ∀ c, (WeakVariant.ops d).run ops StrongConfig.init = Except.ok c →
      NoWeak c.heap ∧ ∀ h ∈ c.shared,
        WeakVariant.UseCount c.heap h = SharedVariant.UseCount c.heap h ∧
        WeakVariant.toBool h = SharedVariant.toBool h ∧
        WeakVariant.Get c.heap h = Except.ok (SharedVariant.Get h) := by
  obtain ⟨h1, h2⟩ := WeakVariant.run_plain hd ops 0 StrongConfig.init StrongInv.init_strong
    (by omega)
  refine ⟨h1, fun c hc => ?_⟩
  rw [h1] at hc
  have hinv := h2 c hc
  refine ⟨hinv.bal.noWeak, fun x hx => ⟨rfl, rfl, ?_⟩⟩
  by_cases hb : x.block_ = 0
  · simp [WeakVariant.Get, SharedVariant.Get, hb, pure, Except.pure]
  · obtain ⟨blk, hs, hdel⟩ := hinv.handle_ok x hx hb
    simp [WeakVariant.Get, SharedVariant.Get, Heap.load, hb, hs, hdel, bind, Except.bind,
      pure, Except.pure]

/-- Witness of C28 on the program `sampleStrongOps` with the destructor of `int`: both
variants end with one empty handle, both objects destroyed and both blocks released. -/
theorem C28_witness :
    (BlockFree trivialDtor ∧ sampleStrongOps.length < SIZE_MOD) ∧
    (∃ c, (WeakVariant.ops trivialDtor).run sampleStrongOps StrongConfig.init = Except.ok c ∧
      c.shared = [⟨Ptr.null, 0⟩] ∧
      c.heap.log = [Event.dtor (Ptr.storage 1), Event.dealloc 1, Event.dtor (Ptr.raw 7),
        Event.dealloc 2]) ∧
    ((WeakVariant.ops trivialDtor).run sampleStrongOps StrongConfig.init =
      (SharedVariant.ops trivialDtor).run sampleStrongOps StrongConfig.init ∧
    ∀ c, (WeakVariant.ops trivialDtor).run sampleStrongOps StrongConfig.init = Except.ok c →
      NoWeak c.heap ∧ ∀ h ∈ c.shared,
        WeakVariant.UseCount c.heap h = SharedVariant.UseCount c.heap h ∧
        WeakVariant.toBool h = SharedVariant.toBool h ∧
        WeakVariant.Get c.heap h = Except.ok (SharedVariant.Get h)) :=
  ⟨⟨trivialDtor_blockFree, by decide⟩, ⟨_, rfl, rfl, rfl⟩,
    C28_weak_variant_without_weak_handles trivialDtor trivialDtor_blockFree sampleStrongOps
      (by decide)⟩

end SmartPointers
